import Mathlib

/-!
A verification development for the accumulator-VM compiler back end.

Shallow embedding of `CodeGenerator.hpp`, `SymbolTable.{hpp,cpp}` and the
code-emitting / analysing methods of `AST.hpp`.

Conventions of the embedding:
* `int64_t` values are modelled by `Int`; where the compiler itself computes
  with literals (the negation of a literal and the constant folding of two
  literals in `ExpressionNode::generateCode`) the result is reduced to the
  64-bit range, and the one quotient that does not fit is a trap;
* `std::unordered_map` is modelled by an association list with unique keys,
  looked up by key (iteration order is never observed by the embedded code);
* a C++ `throw` is modelled by an `Except`-style result paired with the symbol
  table as it is at the moment of the throw;
* dereferencing the null pointer returned by a failed `getVariable` /
  `getArray` / `getProcedure` is modelled by `none`.
-/

namespace Compiler

/-! ## CodeGenerator.hpp -/

/-- The `struct command` of `CodeGenerator.hpp`: an opcode and its argument. -/
structure command where
  code : String
  arg : Int
deriving DecidableEq, Repr

/-- The `class CodeGenerator`: the emitted instructions, the line counter
(`u_int64_t currentLine`) and the label counter. -/
structure CodeGenerator where
  generatedCode : List command
  currentLine : Nat
  labelCounter : Int
deriving DecidableEq, Repr

/-- The constructor `CodeGenerator() : currentLine(0), labelCounter(0)`. -/
def CodeGenerator.new : CodeGenerator :=
  { generatedCode := [], currentLine := 0, labelCounter := 0 }

/-- The method `emit`: `push_back` and `currentLine++`. -/
def CodeGenerator.emit (cg : CodeGenerator) (code : String) (arg : Int) : CodeGenerator :=
  { cg with generatedCode := cg.generatedCode ++ [⟨code, arg⟩],
            currentLine := cg.currentLine + 1 }

/-- A run of consecutive `emit` calls, in order. -/
def CodeGenerator.emitAll (cg : CodeGenerator) : List command → CodeGenerator
  | [] => cg
  | c :: cs => (cg.emit c.code c.arg).emitAll cs

/-- The method `getCommand`; the `u_int64_t line` parameter receives an `int64_t`,
so a negative line wraps to a huge value and is out of range. -/
def CodeGenerator.getCommand (cg : CodeGenerator) (line : Int) : command :=
  if line < 0 ∨ line ≥ cg.generatedCode.length then ⟨"", 0⟩
  else cg.generatedCode.getD line.toNat ⟨"", 0⟩

/-- The method `updateCommand`: overwrite in range, do nothing out of range. -/
def CodeGenerator.updateCommand (cg : CodeGenerator) (line : Int) (code : String) (arg : Int) :
    CodeGenerator :=
  if line < 0 ∨ line ≥ cg.generatedCode.length then cg
  else { cg with generatedCode := cg.generatedCode.set line.toNat ⟨code, arg⟩ }

/-- The method `getCurrentLine`. -/
def CodeGenerator.getCurrentLine (cg : CodeGenerator) : Int := cg.currentLine

/-! ## The target machine -/

/-- A state of the target VM: program counter, memory (cell 0 is the
accumulator), pending input, produced output, and whether `HALT` was executed. -/
structure VM where
  pc : Int
  mem : Int → Int
  input : List Int
  output : List Int
  halted : Bool

/-- Memory update `mem[k] ← v`. -/
def setCell (m : Int → Int) (k v : Int) : Int → Int := fun x => if x = k then v else m x

/-- Modelled from the spec: the instruction semantics of the VM (section 6, the
instruction table), which is not part of the repository; the accumulator is
memory cell 0, so `ADD 0` doubles it and `SUB 0` clears it. `HALF` is the floor
of the half. `GET` with no input left leaves the machine where it is. -/
def VM.execute (c : command) (s : VM) : VM :=
  if c.code = "GET" then
    match s.input with
    | [] => s
    | v :: rest => { s with pc := s.pc + 1, mem := setCell s.mem c.arg v, input := rest }
  else if c.code = "PUT" then
    { s with pc := s.pc + 1, output := s.output ++ [s.mem c.arg] }
  else if c.code = "LOAD" then
    { s with pc := s.pc + 1, mem := setCell s.mem 0 (s.mem c.arg) }
  else if c.code = "STORE" then
    { s with pc := s.pc + 1, mem := setCell s.mem c.arg (s.mem 0) }
  else if c.code = "LOADI" then
    { s with pc := s.pc + 1, mem := setCell s.mem 0 (s.mem (s.mem c.arg)) }
  else if c.code = "STOREI" then
    { s with pc := s.pc + 1, mem := setCell s.mem (s.mem c.arg) (s.mem 0) }
  else if c.code = "ADD" then
    { s with pc := s.pc + 1, mem := setCell s.mem 0 (s.mem 0 + s.mem c.arg) }
  else if c.code = "SUB" then
    { s with pc := s.pc + 1, mem := setCell s.mem 0 (s.mem 0 - s.mem c.arg) }
  else if c.code = "SUBI" then
    { s with pc := s.pc + 1, mem := setCell s.mem 0 (s.mem 0 - s.mem (s.mem c.arg)) }
  else if c.code = "SET" then
    { s with pc := s.pc + 1, mem := setCell s.mem 0 c.arg }
  else if c.code = "HALF" then
    { s with pc := s.pc + 1, mem := setCell s.mem 0 (s.mem 0 / 2) }
  else if c.code = "JUMP" then
    { s with pc := s.pc + c.arg }
  else if c.code = "JPOS" then
    { s with pc := if 0 < s.mem 0 then s.pc + c.arg else s.pc + 1 }
  else if c.code = "JNEG" then
    { s with pc := if s.mem 0 < 0 then s.pc + c.arg else s.pc + 1 }
  else if c.code = "JZERO" then
    { s with pc := if s.mem 0 = 0 then s.pc + c.arg else s.pc + 1 }
  else if c.code = "RTRN" then
    { s with pc := s.mem c.arg }
  else if c.code = "HALT" then
    { s with halted := true }
  else s

/-- One machine step on a program: fetch at `pc` and execute; a halted machine,
or one whose `pc` is outside the program, stays where it is. -/
def VM.step (prog : List command) (s : VM) : VM :=
  if s.halted then s
  else if s.pc < 0 then s
  else
    match prog[s.pc.toNat]? with
    | none => s
    | some c => VM.execute c s

/-- The machine after `n` steps. -/
def VM.steps (prog : List command) : Nat → VM → VM
  | 0, s => s
  | n + 1, s => VM.steps prog n (VM.step prog s)

/-! ## SymbolTable.hpp / SymbolTable.cpp -/

/-- The `struct Variable`. -/
structure Variable where
  name : String
  scope : String
  isInitialized : Bool
  memoryPosition : Int
  isArgument : Bool
deriving DecidableEq, Repr

/-- The `struct Array`; the two `unordered_map`s are association lists. -/
structure Array where
  name : String
  scope : String
  memoryPositions : List (Int × Int)
  isInitialized : List (Int × Bool)
  startIndex : Int
  endIndex : Int
  memoryPosition : Int
  isArgument : Bool
deriving DecidableEq, Repr

/-- The `struct Param` with its two subclasses `VariableParam` and `ArrayParam`. -/
inductive Param where
  | variableParam (v : Variable)
  | arrayParam (a : Array)
deriving DecidableEq, Repr

/-- The `struct Procedure`. `jumpLabel` and `returnLabel` are left indeterminate
by `addProcedure` (`Procedure procedure;`), which is `none` here. -/
structure Procedure where
  name : String
  params : List Param
  scope : String
  jumpLabel : Option Int
  returnLabel : Option Int
  returnVariable : Variable
deriving DecidableEq, Repr

/-- The lookup `map.find(key)` of an `unordered_map`. -/
def mapFind {κ α : Type} [DecidableEq κ] (key : κ) : List (κ × α) → Option α
  | [] => none
  | (k, v) :: rest => if k = key then some v else mapFind key rest

/-- The assignment `map[key] = v` of an `unordered_map`: overwrite or insert. -/
def mapSet {κ α : Type} [DecidableEq κ] (key : κ) (v : α) : List (κ × α) → List (κ × α)
  | [] => [(key, v)]
  | (k, w) :: rest => if k = key then (key, v) :: rest else (k, w) :: mapSet key v rest

/-- The removal `map.erase(it)` of an `unordered_map`. -/
def mapErase {κ α : Type} [DecidableEq κ] (key : κ) : List (κ × α) → List (κ × α)
  | [] => []
  | (k, w) :: rest => if k = key then rest else (k, w) :: mapErase key rest

/-- The `class SymbolTable`; the member `variables` is the field `vars` here
(`variables` is reserved). -/
structure SymbolTable where
  iterator : String
  one : Bool
  vars : List (String × Variable)
  arrays : List (String × Array)
  procedures : List (String × Procedure)
  currentMemoryPosition : Int
deriving DecidableEq, Repr

/-- The constructor `SymbolTable() : currentMemoryPosition (11)`. -/
def SymbolTable.new : SymbolTable :=
  { iterator := "", one := false, vars := [], arrays := [], procedures := [],
    currentMemoryPosition := 11 }

/-- The map key `name + ":" + scope`. -/
def mkKey (name scope : String) : String := name ++ ":" ++ scope

/-- The method `variableExists`. -/
def SymbolTable.variableExists (st : SymbolTable) (name scope : String) : Bool :=
  (mapFind (mkKey name scope) st.vars).isSome

/-- The method `arrayExists`. -/
def SymbolTable.arrayExists (st : SymbolTable) (name scope : String) : Bool :=
  (mapFind (mkKey name scope) st.arrays).isSome

/-- The method `procedureExists`. -/
def SymbolTable.procedureExists (st : SymbolTable) (name scope : String) : Bool :=
  (mapFind (mkKey name scope) st.procedures).isSome

/-- The method `getVariable`; `none` is the null pointer. -/
def SymbolTable.getVariable (st : SymbolTable) (name scope : String) : Option Variable :=
  mapFind (mkKey name scope) st.vars

/-- The method `getArray`; `none` is the null pointer. -/
def SymbolTable.getArray (st : SymbolTable) (name scope : String) : Option Array :=
  mapFind (mkKey name scope) st.arrays

/-- The method `getProcedure`; `none` is the null pointer. -/
def SymbolTable.getProcedure (st : SymbolTable) (name scope : String) : Option Procedure :=
  mapFind (mkKey name scope) st.procedures

/-- A write through the pointer returned by `getVariable`. -/
def SymbolTable.putVariable (st : SymbolTable) (name scope : String) (v : Variable) :
    SymbolTable :=
  { st with vars := mapSet (mkKey name scope) v st.vars }

/-- A write through the pointer returned by `getArray`. -/
def SymbolTable.putArray (st : SymbolTable) (name scope : String) (a : Array) : SymbolTable :=
  { st with arrays := mapSet (mkKey name scope) a st.arrays }

/-- A write through the pointer returned by `getProcedure`. -/
def SymbolTable.putProcedure (st : SymbolTable) (name scope : String) (p : Procedure) :
    SymbolTable :=
  { st with procedures := mapSet (mkKey name scope) p st.procedures }

/-- The outcome of a method that may throw `std::runtime_error`: a normal
return with a value and the table, a throw with its message and the table as it
is at that moment, or undefined behaviour (a null pointer was dereferenced). -/
inductive Sem (α : Type) where
  | ok (a : α) (st : SymbolTable)
  | thrown (msg : String) (st : SymbolTable)
  | undefined
deriving Repr

/-- Whether the outcome is a throw. -/
def Sem.throws {α : Type} : Sem α → Bool
  | .thrown _ _ => true
  | _ => false

/-- Whether the outcome is a normal return. -/
def Sem.returns {α : Type} : Sem α → Bool
  | .ok _ _ => true
  | _ => false

/-- The symbol table an outcome leaves behind, when there is one. -/
def Sem.table {α : Type} : Sem α → Option SymbolTable
  | .ok _ st => some st
  | .thrown _ st => some st
  | .undefined => none

/-- Sequencing: continue after a normal return, propagate a throw. -/
def Sem.andThen {α β : Type} (r : Sem α) (k : α → SymbolTable → Sem β) : Sem β :=
  match r with
  | .ok a st => k a st
  | .thrown msg st => .thrown msg st
  | .undefined => .undefined

/-- The method `addVariable(name, scope)`. -/
def SymbolTable.addVariable (st : SymbolTable) (name scope : String) : Sem Unit :=
  let key := mkKey name scope
  if st.variableExists name scope then
    .thrown "Zmienna o tej nazwie już istnieje w tym zakresie!" st
  else
    .ok () { st with
      vars := mapSet key ⟨name, scope, false, st.currentMemoryPosition, false⟩ st.vars,
      currentMemoryPosition := st.currentMemoryPosition + 1 }

/-- The overload `addVariable(Variable variable)`: the new entry is initialised. -/
def SymbolTable.addVariableV (st : SymbolTable) (v : Variable) : Sem Unit :=
  let key := mkKey v.name v.scope
  if st.variableExists v.name v.scope then
    .thrown "Zmienna o tej nazwie już istnieje w tym zakresie!" st
  else
    .ok () { st with
      vars := mapSet key ⟨v.name, v.scope, true, st.currentMemoryPosition, false⟩
        st.vars,
      currentMemoryPosition := st.currentMemoryPosition + 1 }

/-- The body of the `for (i = startIndex; i <= endIndex; ++i)` loop of `addArray`,
run for the `n` remaining indices from `i` on; the pair is the array under
construction and `currentMemoryPosition`. -/
def addArrayLoop (init : Bool) : Nat → Int → Array × Int → Array × Int
  | 0, _, acc => acc
  | n + 1, i, (a, pos) =>
    let a1 : Array := { a with memoryPositions := mapSet i pos a.memoryPositions,
                               isInitialized := mapSet i init a.isInitialized }
    let a2 : Array := if i = a1.startIndex then { a1 with memoryPosition := pos } else a1
    addArrayLoop init n (i + 1) (a2, pos + 1)

/-- The number of iterations of `for (i = startIndex; i <= endIndex; ++i)`. -/
def loopCount (startIndex endIndex : Int) : Nat := (endIndex - startIndex + 1).toNat

/-- The method `addArray(name, scope, startIndex, endIndex)`. The aggregate
`{name, scope, {}, {}, startIndex, endIndex}` value-initialises `memoryPosition`
to 0 and `isArgument` to false. -/
def SymbolTable.addArray (st : SymbolTable) (name scope : String) (startIndex endIndex : Int) :
    Sem Unit :=
  let key := mkKey name scope
  if st.arrayExists name scope then
    .thrown "Tablica o tej nazwie już istnieje w tym zakresie!" st
  else
    let newArray : Array := ⟨name, scope, [], [], startIndex, endIndex, 0, false⟩
    let r := addArrayLoop false (loopCount startIndex endIndex) startIndex
      (newArray, st.currentMemoryPosition)
    .ok () { st with arrays := mapSet key r.1 st.arrays, currentMemoryPosition := r.2 }

/-- The overload `addArray(Array array)`: every cell is marked initialised. -/
def SymbolTable.addArrayA (st : SymbolTable) (a : Array) : Sem Unit :=
  let key := mkKey a.name a.scope
  if st.arrayExists a.name a.scope then
    .thrown "Tablica o tej nazwie już istnieje w tym zakresie!" st
  else
    let newArray : Array :=
      ⟨a.name, a.scope, [], [], a.startIndex, a.endIndex, 0, false⟩
    let r := addArrayLoop true (loopCount a.startIndex a.endIndex) a.startIndex
      (newArray, st.currentMemoryPosition)
    .ok () { st with arrays := mapSet key r.1 st.arrays, currentMemoryPosition := r.2 }

/-- The method `addProcedure`. -/
def SymbolTable.addProcedure (st : SymbolTable) (name scope : String) (params : List Param) :
    Sem Unit :=
  let key := mkKey name scope
  if st.procedureExists name scope then
    .thrown "Procedura o tej nazwie już istnieje w tym zakresie!" st
  else
    let returnVariable : Variable := ⟨"return", scope, true, st.currentMemoryPosition, false⟩
    let procedure : Procedure := ⟨name, params, scope, none, none, returnVariable⟩
    .ok () { st with procedures := mapSet key procedure st.procedures,
                     currentMemoryPosition := st.currentMemoryPosition + 1 }

/-- The method `addProcedureParam`. -/
def SymbolTable.addProcedureParam (st : SymbolTable) (procedureName scope : String)
    (param : Param) : Sem Unit :=
  let key := mkKey procedureName scope
  match mapFind key st.procedures with
  | none => .thrown "Procedura o tej nazwie nie istnieje w tym zakresie!" st
  | some p =>
    .ok () { st with procedures := mapSet key { p with params := p.params ++ [param] } st.procedures }

/-- The method `removeVariable`. -/
def SymbolTable.removeVariable (st : SymbolTable) (name scope : String) : Sem Unit :=
  let key := mkKey name scope
  match mapFind key st.vars with
  | some _ => .ok () { st with vars := mapErase key st.vars }
  | none => .thrown "Variable not found in the specified scope." st

/-- The method `removeArray`. -/
def SymbolTable.removeArray (st : SymbolTable) (name scope : String) : Sem Unit :=
  let key := mkKey name scope
  match mapFind key st.arrays with
  | some _ => .ok () { st with arrays := mapErase key st.arrays }
  | none => .thrown "Array not found in the specified scope." st

/-- The method `removeProcedure`. -/
def SymbolTable.removeProcedure (st : SymbolTable) (name scope : String) : Sem Unit :=
  let key := mkKey name scope
  match mapFind key st.procedures with
  | some _ => .ok () { st with procedures := mapErase key st.procedures }
  | none => .thrown "Procedure not found in the specified scope." st

/-- The name a parameter carries (`v.name` or `a.name`). -/
def Param.name : Param → String
  | .variableParam v => v.name
  | .arrayParam a => a.name

/-- The method `isVariableInProcedureParams`. -/
def SymbolTable.isVariableInProcedureParams (st : SymbolTable)
    (procedureName scope variableName : String) : Bool :=
  match st.getProcedure procedureName scope with
  | none => false
  | some procedure => procedure.params.any (fun p => p.name == variableName)

/-- The `for` loop of `isParamsTypeCorrect` over the positions, formals and
actuals side by side (they have equal length when it runs). -/
def paramsLoop (st : SymbolTable) (scope : String) : List Param → List String → Bool
  | p :: ps, paramName :: rest =>
    if st.variableExists paramName scope then
      match p with
      | .variableParam _ => paramsLoop st scope ps rest
      | .arrayParam _ => false
    else if st.arrayExists paramName scope then
      match p with
      | .arrayParam _ => paramsLoop st scope ps rest
      | .variableParam _ => false
    else false
  | _, _ => true

/-- The method `isParamsTypeCorrect`; the procedure is looked up in `"GLOBAL"`. -/
def SymbolTable.isParamsTypeCorrect (st : SymbolTable) (procedureName scope : String)
    (params : List String) : Bool :=
  match st.getProcedure procedureName "GLOBAL" with
  | none => false
  | some procedure =>
    if procedure.params.length ≠ params.length then false
    else paramsLoop st scope procedure.params params

/-! ## AST.hpp: identifiers and values -/

/-- What goes wrong when emission leaves defined behaviour: a null pointer from a
failed lookup is dereferenced, a vector is indexed past its end, an
indeterminate value is read, or the least `int64_t` is divided by `-1`, which
the division instruction answers with a trap that kills the compiler. -/
inductive GenError where
  | nullDereference
  | outOfRange
  | indeterminate
  | arithmeticTrap
deriving DecidableEq, Repr

/-- The `enum IdentifierType`. -/
inductive IdentifierType where
  | SIMPLE
  | INDEXED_ID
  | INDEXED_NUM
deriving DecidableEq, Repr

/-- The integer value of an enumerator. -/
def IdentifierType.toInt : IdentifierType → Int
  | .SIMPLE => 0
  | .INDEXED_ID => 1
  | .INDEXED_NUM => 2

/-- The C++ condition `!id->identifierType == IdentifierNode::IdentifierType::SIMPLE`,
which parses as `(!identifierType) == SIMPLE`. -/
def notTypeIsSimple (t : IdentifierType) : Bool :=
  decide ((if t.toInt = 0 then (1 : Int) else 0) = IdentifierType.SIMPLE.toInt)

/-- The `class IdentifierNode`: `name`, `name[index]` or `name[indexIdentifier]`. -/
structure IdentifierNode where
  identifierType : IdentifierType
  pidentifier : String
  index : Int
  indexIdentifier : String
deriving DecidableEq, Repr

/-- The read `map[key]` of an `unordered_map<int64_t, bool>`: a missing key is
inserted with `false`. -/
def mapReadBool (key : Int) (m : List (Int × Bool)) : Bool × List (Int × Bool) :=
  match mapFind key m with
  | some b => (b, m)
  | none => (false, mapSet key false m)

/-- The method `IdentifierNode::isInitialized`. In the `switch`, a `SIMPLE` name
that is not a variable falls through to `case INDEXED_ID`, and an `INDEXED_NUM`
name that is not an array falls through to `default`. -/
def IdentifierNode.isInitialized (n : IdentifierNode) (st : SymbolTable) (scope : String) :
    Bool × SymbolTable :=
  match n.identifierType with
  | .SIMPLE =>
    match st.getVariable n.pidentifier scope with
    | some v => if v.isArgument then (true, st) else (v.isInitialized, st)
    | none => (true, st)
  | .INDEXED_ID => (true, st)
  | .INDEXED_NUM =>
    match st.getArray n.pidentifier scope with
    | some a =>
      if a.isArgument then (true, st)
      else if n.index < a.startIndex ∨ n.index > a.endIndex then (false, st)
      else
        let r := mapReadBool n.index a.isInitialized
        (r.1, st.putArray n.pidentifier scope { a with isInitialized := r.2 })
    | none => (false, st)

/-- The method `IdentifierNode::setInitialized` (messages to `cerr` are not
modelled); `none` is a dereferenced null pointer. -/
def IdentifierNode.setInitialized (n : IdentifierNode) (st : SymbolTable) (scope : String) :
    Option SymbolTable :=
  match n.identifierType with
  | .SIMPLE =>
    match st.getVariable n.pidentifier scope with
    | some v => some (st.putVariable n.pidentifier scope { v with isInitialized := true })
    | none => none
  | .INDEXED_ID =>
    match st.getVariable n.indexIdentifier scope with
    | some _ => some st
    | none => none
  | .INDEXED_NUM =>
    match st.getArray n.pidentifier scope with
    | some a =>
      if a.isArgument then some st
      else some (st.putArray n.pidentifier scope
        { a with isInitialized := mapSet n.index true a.isInitialized })
    | none => some st

/-- The method `IdentifierNode::traverseAndAnalyze`. -/
def IdentifierNode.traverseAndAnalyze (n : IdentifierNode) (st : SymbolTable) (scope : String) :
    Sem Unit :=
  match n.identifierType with
  | .SIMPLE =>
    if !st.variableExists n.pidentifier scope then
      .thrown ("Variable " ++ n.pidentifier ++ " not declared in scope " ++ scope) st
    else .ok () st
  | .INDEXED_ID =>
    if !st.arrayExists n.pidentifier scope then
      .thrown ("Array " ++ n.pidentifier ++ " not declared in scope " ++ scope) st
    else if !st.variableExists n.indexIdentifier scope then
      .thrown ("Variable " ++ n.indexIdentifier ++ " not declared in scope " ++ scope) st
    else .ok () st
  | .INDEXED_NUM =>
    match st.getArray n.pidentifier scope with
    | none => .thrown ("Array " ++ n.pidentifier ++ " not declared in scope " ++ scope) st
    | some a =>
      if !a.isArgument then
        if n.index < a.startIndex ∨ n.index > a.endIndex then
          .thrown ("Error: Index out of bounds for array " ++ n.pidentifier ++ " in scope " ++ scope)
            st
        else .ok () st
      else .ok () st

/-- The method `IdentifierNode::getMemoryPosition`. -/
def IdentifierNode.getMemoryPosition (n : IdentifierNode) (st : SymbolTable) (scope : String) :
    Except GenError Int :=
  match n.identifierType with
  | .SIMPLE =>
    match st.getVariable n.pidentifier scope with
    | some v => .ok v.memoryPosition
    | none => .error .nullDereference
  | .INDEXED_ID => .ok (-1)
  | .INDEXED_NUM =>
    match st.getArray n.pidentifier scope with
    | some a => .ok (a.memoryPosition + (n.index - a.startIndex))
    | none => .error .nullDereference

/-- The method `IdentifierNode::getStartMemoryPosition`. -/
def IdentifierNode.getStartMemoryPosition (n : IdentifierNode) (st : SymbolTable)
    (scope : String) : Except GenError Int :=
  match n.identifierType with
  | .SIMPLE =>
    match st.getVariable n.pidentifier scope with
    | some v => .ok v.memoryPosition
    | none => .error .nullDereference
  | _ =>
    match st.getArray n.pidentifier scope with
    | some a => .ok a.memoryPosition
    | none => .error .nullDereference

/-- The instructions `IdentifierNode::generateCode` emits: the load of the
identifier's value into the accumulator. -/
def IdentifierNode.loadCode (n : IdentifierNode) (st : SymbolTable) (scope : String) :
    Except GenError (List command) :=
  match n.identifierType with
  | .SIMPLE =>
    match st.getVariable n.pidentifier scope with
    | some v => .ok [⟨"LOAD", v.memoryPosition⟩]
    | none => .error .nullDereference
  | .INDEXED_ID =>
    match st.getArray n.pidentifier scope, st.getVariable n.indexIdentifier scope with
    | some a, some iv =>
      if !a.isArgument then
        .ok [⟨"SET", a.memoryPosition - a.startIndex⟩, ⟨"ADD", iv.memoryPosition⟩, ⟨"LOADI", 0⟩]
      else
        .ok [⟨"LOAD", iv.memoryPosition⟩, ⟨"ADD", a.memoryPosition⟩, ⟨"LOADI", 0⟩]
    | _, _ => .error .nullDereference
  | .INDEXED_NUM =>
    match st.getArray n.pidentifier scope with
    | some a =>
      if !a.isArgument then
        .ok [⟨"LOAD", a.memoryPosition + (n.index - a.startIndex)⟩]
      else
        .ok [⟨"SET", n.index⟩, ⟨"ADD", a.memoryPosition⟩, ⟨"LOADI", 0⟩]
    | none => .error .nullDereference

/-- The method `IdentifierNode::generateCode`. -/
def IdentifierNode.generateCode (n : IdentifierNode) (cg : CodeGenerator) (st : SymbolTable)
    (scope : String) : Except GenError CodeGenerator :=
  match n.loadCode st scope with
  | .ok code => .ok (cg.emitAll code)
  | .error e => .error e

/-- The `class ValueNode`: a literal (`isIdentifier = false`) or an identifier. -/
inductive ValueNode where
  | number (value : Int)
  | identifier (identifierNode : IdentifierNode)
deriving DecidableEq, Repr

/-- The member `isIdentifier`. -/
def ValueNode.isIdentifier : ValueNode → Bool
  | .number _ => false
  | .identifier _ => true

/-- The method `ValueNode::traverseAndAnalyze`. -/
def ValueNode.traverseAndAnalyze (v : ValueNode) (st : SymbolTable) (scope : String) : Sem Unit :=
  match v with
  | .identifier n => n.traverseAndAnalyze st scope
  | .number _ => .ok () st

/-- The method `ValueNode::isVariableInitialized`. -/
def ValueNode.isVariableInitialized (v : ValueNode) (st : SymbolTable) (scope : String) :
    Bool × SymbolTable :=
  match v with
  | .identifier n => n.isInitialized st scope
  | .number _ => (true, st)

/-- The method `ValueNode::getPidentifier`. -/
def ValueNode.getPidentifier : ValueNode → String
  | .identifier n => n.pidentifier
  | .number _ => ""

/-- The method `ValueNode::getValue`. -/
def ValueNode.getValue : ValueNode → Int
  | .identifier _ => 0
  | .number value => value

/-- The method `ValueNode::getMemoryPosition`. -/
def ValueNode.getMemoryPosition (v : ValueNode) (st : SymbolTable) (scope : String) :
    Except GenError Int :=
  match v with
  | .identifier n => n.getMemoryPosition st scope
  | .number _ => .ok (-1)

/-- The method `ValueNode::generateCode`. -/
def ValueNode.generateCode (v : ValueNode) (cg : CodeGenerator) (st : SymbolTable)
    (scope : String) : Except GenError CodeGenerator :=
  match v with
  | .identifier n => n.generateCode cg st scope
  | .number value => .ok (cg.emit "SET" value)

/-! ## AST.hpp: `ExpressionNode::generateCode`

Each template below is the run of `codeGenerator.emit` calls of one branch of
`ExpressionNode::generateCode`, in order; `l` and `r` are `leftMemoryPosition`
and `rightMemoryPosition`, `flag` is `symbolTable.one` on entry, and `one` is the
local `int64_t one` (0 when the flag is set, 1 otherwise). -/

/-- The local `one` of the templates: `if (symbolTable.one) one = 0; else one = 1;`. -/
def oneOf (flag : Bool) : Int := if flag then 0 else 1

/-- The materialisation of the constant 1: `LOAD 10` when the flag is set,
`SET 1; STORE 10` otherwise. -/
def loadOne (flag : Bool) : List command :=
  if flag then [⟨"LOAD", 10⟩] else [⟨"SET", 1⟩, ⟨"STORE", 10⟩]

/-- The shared middle of the multiplication templates, from `SUB 0; STORE 3` to
the backward jump of the loop. -/
def mulLoop (flag : Bool) : List command :=
  [⟨"SUB", 0⟩, ⟨"STORE", 3⟩, ⟨"LOAD", 2⟩, ⟨"JPOS", 2⟩] ++
  (if oneOf flag = 1 then [⟨"JUMP", 20⟩] else [⟨"JUMP", 19⟩]) ++
  [⟨"HALF", 0⟩, ⟨"ADD", 0⟩, ⟨"SUB", 2⟩, ⟨"STORE", 5⟩] ++
  loadOne flag ++
  [⟨"ADD", 5⟩, ⟨"JZERO", 2⟩, ⟨"JUMP", 4⟩, ⟨"LOAD", 3⟩, ⟨"ADD", 1⟩,
   ⟨"STORE", 3⟩, ⟨"LOAD", 1⟩, ⟨"ADD", 1⟩, ⟨"STORE", 1⟩, ⟨"LOAD", 2⟩,
   ⟨"HALF", 0⟩, ⟨"STORE", 2⟩] ++
  (if oneOf flag = 1 then [⟨"JUMP", -21⟩] else [⟨"JUMP", -20⟩])

/-- Identifier `*` identifier (AST.hpp lines 594-662). -/
def mulIdId (l r : Int) (flag : Bool) : List command :=
  [⟨"LOAD", l⟩, ⟨"JZERO", 46 + oneOf flag⟩, ⟨"JPOS", 3⟩, ⟨"SUB", l⟩, ⟨"SUB", l⟩,
   ⟨"STORE", 1⟩, ⟨"LOAD", r⟩, ⟨"JZERO", 40 + oneOf flag⟩, ⟨"JPOS", 3⟩, ⟨"SUB", r⟩,
   ⟨"SUB", r⟩, ⟨"STORE", 2⟩] ++
  mulLoop flag ++
  [⟨"LOAD", l⟩, ⟨"JPOS", 4⟩, ⟨"LOAD", r⟩, ⟨"JNEG", 8⟩, ⟨"JUMP", 3⟩,
   ⟨"LOAD", r⟩, ⟨"JPOS", 5⟩, ⟨"LOAD", 3⟩, ⟨"SUB", 3⟩, ⟨"SUB", 3⟩,
   ⟨"JUMP", 2⟩, ⟨"LOAD", 3⟩]

/-- The shared shift-and-subtract middle of the division templates, from
`STORE 2` (after the constant 1 is loaded) to the backward `JUMP -18`. -/
def divLoop : List command :=
  [⟨"STORE", 2⟩, ⟨"SUB", 0⟩, ⟨"STORE", 3⟩, ⟨"LOAD", 4⟩, ⟨"SUB", 1⟩,
   ⟨"JNEG", 8⟩, ⟨"LOAD", 1⟩, ⟨"ADD", 0⟩, ⟨"STORE", 1⟩, ⟨"LOAD", 2⟩,
   ⟨"ADD", 0⟩, ⟨"STORE", 2⟩, ⟨"JUMP", -9⟩, ⟨"LOAD", 2⟩, ⟨"HALF", 0⟩,
   ⟨"STORE", 2⟩, ⟨"LOAD", 1⟩, ⟨"HALF", 0⟩, ⟨"STORE", 1⟩, ⟨"LOAD", 4⟩,
   ⟨"SUB", 5⟩, ⟨"JNEG", 17⟩, ⟨"LOAD", 4⟩, ⟨"SUB", 1⟩, ⟨"JNEG", 7⟩,
   ⟨"LOAD", 4⟩, ⟨"SUB", 1⟩, ⟨"STORE", 4⟩, ⟨"LOAD", 3⟩, ⟨"ADD", 2⟩,
   ⟨"STORE", 3⟩, ⟨"LOAD", 2⟩, ⟨"HALF", 0⟩, ⟨"STORE", 2⟩, ⟨"LOAD", 1⟩,
   ⟨"HALF", 0⟩, ⟨"STORE", 1⟩, ⟨"JUMP", -18⟩]

/-- Identifier `/` identifier (AST.hpp lines 663-746). -/
def divIdId (l r : Int) (flag : Bool) : List command :=
  [⟨"LOAD", r⟩, ⟨"JZERO", 51 + oneOf flag⟩, ⟨"JPOS", 3⟩, ⟨"SUB", r⟩, ⟨"SUB", r⟩,
   ⟨"STORE", 5⟩, ⟨"STORE", 1⟩, ⟨"LOAD", l⟩, ⟨"JZERO", 45 + oneOf flag⟩, ⟨"JPOS", 3⟩,
   ⟨"SUB", l⟩, ⟨"SUB", l⟩, ⟨"STORE", 4⟩] ++
  (if !flag then [⟨"SET", 1⟩, ⟨"STORE", 10⟩] else [⟨"LOAD", 10⟩]) ++
  divLoop ++
  [⟨"LOAD", l⟩, ⟨"JPOS", 4⟩, ⟨"LOAD", r⟩, ⟨"JPOS", 4⟩, ⟨"JUMP", 7⟩,
   ⟨"LOAD", r⟩, ⟨"JPOS", 5⟩, ⟨"LOAD", 3⟩, ⟨"SUB", 3⟩, ⟨"SUB", 3⟩,
   ⟨"JUMP", 2⟩, ⟨"LOAD", 3⟩]

/-- The shared shift-and-subtract middle of the modulus templates, from
`LOAD 2` (after `|a|` is stored) to the backward `JUMP -12`. -/
def modLoop : List command :=
  [⟨"LOAD", 2⟩, ⟨"SUB", 1⟩, ⟨"JNEG", 5⟩, ⟨"LOAD", 1⟩, ⟨"ADD", 0⟩,
   ⟨"STORE", 1⟩, ⟨"JUMP", -6⟩, ⟨"LOAD", 1⟩, ⟨"HALF", 0⟩, ⟨"STORE", 1⟩,
   ⟨"LOAD", 2⟩, ⟨"SUB", 3⟩, ⟨"JNEG", 11⟩, ⟨"LOAD", 2⟩, ⟨"SUB", 1⟩,
   ⟨"JNEG", 4⟩, ⟨"LOAD", 2⟩, ⟨"SUB", 1⟩, ⟨"STORE", 2⟩, ⟨"LOAD", 1⟩,
   ⟨"HALF", 0⟩, ⟨"STORE", 1⟩, ⟨"JUMP", -12⟩]

/-- Identifier `%` identifier (AST.hpp lines 747-796). -/
def modIdId (l r : Int) : List command :=
  [⟨"LOAD", r⟩, ⟨"JZERO", 43⟩, ⟨"JPOS", 3⟩, ⟨"SUB", r⟩, ⟨"SUB", r⟩,
   ⟨"STORE", 3⟩, ⟨"STORE", 1⟩, ⟨"LOAD", l⟩, ⟨"JZERO", 30⟩, ⟨"JPOS", 3⟩,
   ⟨"SUB", l⟩, ⟨"SUB", l⟩, ⟨"STORE", 2⟩] ++
  modLoop ++
  [⟨"LOAD", r⟩, ⟨"JPOS", 5⟩, ⟨"LOAD", 2⟩, ⟨"SUB", 2⟩,
   ⟨"SUB", 2⟩, ⟨"JUMP", 2⟩, ⟨"LOAD", 2⟩]

/-- The least `int64_t`, `-2^63`. -/
def minInt64 : Int := -9223372036854775808

/-- The value an `int64_t` holds after a negation, an addition, a subtraction
or a multiplication whose exact result is `x`: `x` reduced modulo `2^64` into
`[-2^63, 2^63)`, the signed overflow wrapping around. -/
def wrap64 (x : Int) : Int :=
  (x + 9223372036854775808) % 18446744073709551616 - 9223372036854775808

/-- The compile-time loop `while (v != -1 && v != 1) { emit("ADD", 0); v = v / 2; }`
of the even-literal multiplication, with `fuel` bounding the iterations; `none`
when the fuel runs out before the loop exits. C++ `/` truncates. -/
def doublings : Nat → Int → Option (List command)
  | 0, v => if v ≠ -1 ∧ v ≠ 1 then none else some []
  | fuel + 1, v =>
    if v ≠ -1 ∧ v ≠ 1 then
      match doublings fuel (Int.tdiv v 2) with
      | some rest => some (⟨"ADD", 0⟩ :: rest)
      | none => none
    else some []

/-- Identifier `*` odd literal (AST.hpp lines 826-900). -/
def mulIdOdd (l rightValue : Int) (flag : Bool) : List command :=
  [⟨"LOAD", l⟩, ⟨"JZERO", 37 + oneOf flag⟩, ⟨"JPOS", 3⟩, ⟨"SUB", l⟩, ⟨"SUB", l⟩,
   ⟨"STORE", 1⟩] ++
  (if rightValue < 0 then [⟨"SET", wrap64 (-rightValue)⟩, ⟨"STORE", 2⟩]
   else [⟨"SET", rightValue⟩, ⟨"STORE", 2⟩]) ++
  mulLoop flag ++
  (if rightValue > 0 then
    [⟨"LOAD", l⟩, ⟨"JPOS", 5⟩, ⟨"LOAD", 3⟩, ⟨"SUB", 3⟩, ⟨"SUB", 3⟩,
     ⟨"JUMP", 2⟩, ⟨"LOAD", 3⟩]
   else
    [⟨"LOAD", l⟩, ⟨"JPOS", 3⟩, ⟨"LOAD", 3⟩, ⟨"JUMP", 2⟩, ⟨"LOAD", 3⟩,
     ⟨"SUB", 3⟩, ⟨"SUB", 3⟩])

/-- Identifier `/` literal, general divisor (AST.hpp lines 925-1009). -/
def divIdLit (l rightValue : Int) (flag : Bool) : List command :=
  (if rightValue < 0 then [⟨"SET", wrap64 (-rightValue)⟩, ⟨"STORE", 1⟩, ⟨"STORE", 5⟩]
   else [⟨"SET", rightValue⟩, ⟨"STORE", 1⟩, ⟨"STORE", 5⟩]) ++
  [⟨"LOAD", l⟩, ⟨"JZERO", 41 + oneOf flag⟩, ⟨"JPOS", 3⟩, ⟨"SUB", l⟩, ⟨"SUB", l⟩,
   ⟨"STORE", 4⟩] ++
  (if !flag then [⟨"SET", 1⟩, ⟨"STORE", 10⟩] else [⟨"LOAD", 10⟩]) ++
  divLoop ++
  (if rightValue > 0 then
    [⟨"LOAD", l⟩, ⟨"JPOS", 5⟩, ⟨"LOAD", 3⟩, ⟨"SUB", 3⟩, ⟨"SUB", 3⟩,
     ⟨"JUMP", 2⟩, ⟨"LOAD", 3⟩]
   else
    [⟨"LOAD", l⟩, ⟨"JNEG", 5⟩, ⟨"LOAD", 3⟩, ⟨"SUB", 3⟩, ⟨"SUB", 3⟩,
     ⟨"JUMP", 2⟩, ⟨"LOAD", 3⟩])

/-- Identifier `%` literal, general divisor (AST.hpp lines 1014-1065). -/
def modIdLit (l rightValue : Int) : List command :=
  (if rightValue < 0 then [⟨"SET", wrap64 (-rightValue)⟩, ⟨"STORE", 1⟩, ⟨"STORE", 3⟩]
   else [⟨"SET", rightValue⟩, ⟨"STORE", 1⟩, ⟨"STORE", 3⟩]) ++
  [⟨"LOAD", l⟩, ⟨"JZERO", 30⟩, ⟨"JPOS", 3⟩, ⟨"SUB", l⟩, ⟨"SUB", l⟩,
   ⟨"STORE", 2⟩] ++
  modLoop ++
  (if rightValue > 0 then [⟨"LOAD", 2⟩]
   else [⟨"LOAD", 2⟩, ⟨"SUB", 2⟩, ⟨"SUB", 2⟩])

/-- Odd literal `*` identifier (AST.hpp lines 1094-1163). -/
def mulOddId (leftValue r : Int) (flag : Bool) : List command :=
  [⟨"SET", leftValue⟩, ⟨"STORE", 1⟩, ⟨"LOAD", r⟩, ⟨"JZERO", 35 + oneOf flag⟩, ⟨"JPOS", 3⟩,
   ⟨"SUB", r⟩, ⟨"SUB", r⟩, ⟨"STORE", 2⟩] ++
  mulLoop flag ++
  (if leftValue > 0 then
    [⟨"LOAD", r⟩, ⟨"JPOS", 5⟩, ⟨"LOAD", 3⟩, ⟨"SUB", 3⟩, ⟨"SUB", 3⟩,
     ⟨"JUMP", 2⟩, ⟨"LOAD", 3⟩]
   else
    [⟨"LOAD", r⟩, ⟨"JPOS", 3⟩, ⟨"LOAD", 3⟩, ⟨"JUMP", 4⟩, ⟨"LOAD", 3⟩,
     ⟨"SUB", 3⟩, ⟨"SUB", 3⟩])

/-- Literal `/` identifier, general dividend (AST.hpp lines 1188-1273). -/
def divLitId (leftValue r : Int) (flag : Bool) : List command :=
  [⟨"LOAD", r⟩, ⟨"JZERO", 54 + oneOf flag⟩, ⟨"JPOS", 3⟩, ⟨"SUB", r⟩, ⟨"SUB", r⟩,
   ⟨"STORE", 1⟩, ⟨"STORE", 5⟩] ++
  (if leftValue < 0 then [⟨"SET", wrap64 (-leftValue)⟩, ⟨"STORE", 4⟩]
   else [⟨"SET", leftValue⟩, ⟨"STORE", 4⟩]) ++
  (if !flag then [⟨"SET", 1⟩, ⟨"STORE", 10⟩] else [⟨"LOAD", 10⟩]) ++
  divLoop ++
  (if leftValue > 0 then
    [⟨"LOAD", r⟩, ⟨"JPOS", 5⟩, ⟨"LOAD", 3⟩, ⟨"SUB", 3⟩, ⟨"SUB", 3⟩,
     ⟨"JUMP", 2⟩, ⟨"LOAD", 3⟩]
   else
    [⟨"LOAD", r⟩, ⟨"JNEG", 5⟩, ⟨"LOAD", 3⟩, ⟨"SUB", 3⟩, ⟨"SUB", 3⟩,
     ⟨"JUMP", 2⟩, ⟨"LOAD", 3⟩])

/-- Literal `%` identifier, non-zero dividend (AST.hpp lines 1278-1327). -/
def modLitId (leftValue r : Int) : List command :=
  [⟨"LOAD", r⟩, ⟨"JZERO", 39⟩, ⟨"JPOS", 3⟩, ⟨"SUB", r⟩, ⟨"SUB", r⟩,
   ⟨"STORE", 3⟩, ⟨"STORE", 1⟩] ++
  (if leftValue < 0 then [⟨"SET", wrap64 (-leftValue)⟩, ⟨"STORE", 2⟩]
   else [⟨"SET", leftValue⟩, ⟨"STORE", 2⟩]) ++
  modLoop ++
  [⟨"LOAD", r⟩, ⟨"JPOS", 5⟩, ⟨"LOAD", 2⟩, ⟨"SUB", 2⟩, ⟨"SUB", 2⟩,
   ⟨"JUMP", 2⟩, ⟨"LOAD", 2⟩]

/-- The identifier-identifier branch of `ExpressionNode::generateCode` after the
staging of non-simple operands: the emitted instructions and the new value of
`symbolTable.one`. The source's consecutive `if (op == ...)` tests are mutually
exclusive. -/
def arithIdId (op : String) (l r : Int) (flag : Bool) : List command × Bool :=
  if op = "+" then ([⟨"LOAD", l⟩, ⟨"ADD", r⟩], flag)
  else if op = "-" then ([⟨"LOAD", l⟩, ⟨"SUB", r⟩], flag)
  else if op = "*" then (mulIdId l r flag, true)
  else if op = "/" then (divIdId l r flag, true)
  else if op = "%" then (modIdId l r, flag)
  else ([], flag)

/-- The identifier-literal branch (AST.hpp lines 807-1066). -/
def arithIdLit (op : String) (l rightValue : Int) (flag : Bool) :
    Except GenError (List command × Bool) :=
  if op = "+" then .ok ([⟨"SET", rightValue⟩, ⟨"ADD", l⟩], flag)
  else if op = "-" then
    .ok ([⟨"SET", rightValue⟩, ⟨"STORE", 1⟩, ⟨"LOAD", l⟩, ⟨"SUB", 1⟩], flag)
  else if op = "*" then
    if rightValue = 0 then .ok ([⟨"SUB", 0⟩], flag)
    else if Int.tmod rightValue 2 = 0 then
      match doublings rightValue.natAbs rightValue with
      | some ds => .ok (⟨"LOAD", l⟩ :: ds, flag)
      | none => .error .outOfRange
    else .ok (mulIdOdd l rightValue flag, true)
  else if op = "/" then
    if rightValue = 0 then .ok ([⟨"SUB", 0⟩], flag)
    else if rightValue = 1 then .ok ([⟨"LOAD", l⟩], flag)
    else if rightValue = -1 then .ok ([⟨"LOAD", l⟩, ⟨"SUB", 0⟩, ⟨"SUB", l⟩], flag)
    else if rightValue = 2 then .ok ([⟨"LOAD", l⟩, ⟨"HALF", 0⟩], flag)
    else if rightValue = -2 then
      .ok ([⟨"LOAD", l⟩, ⟨"SUB", 0⟩, ⟨"SUB", l⟩, ⟨"HALF", 0⟩], flag)
    else .ok (divIdLit l rightValue flag, true)
  else if op = "%" then
    if rightValue = 0 ∨ rightValue = 1 ∨ rightValue = -1 then .ok ([⟨"SUB", 0⟩], flag)
    else .ok (modIdLit l rightValue, flag)
  else .ok ([], flag)

/-- The literal-identifier branch (AST.hpp lines 1077-1329). -/
def arithLitId (op : String) (leftValue r : Int) (flag : Bool) :
    Except GenError (List command × Bool) :=
  if op = "+" then .ok ([⟨"SET", leftValue⟩, ⟨"ADD", r⟩], flag)
  else if op = "-" then .ok ([⟨"SET", leftValue⟩, ⟨"SUB", r⟩], flag)
  else if op = "*" then
    if leftValue = 0 then .ok ([⟨"SET", 0⟩], flag)
    else if Int.tmod leftValue 2 = 0 then
      match doublings leftValue.natAbs leftValue with
      | some ds => .ok (⟨"LOAD", r⟩ :: ds, flag)
      | none => .error .outOfRange
    else .ok (mulOddId leftValue r flag, true)
  else if op = "/" then
    if leftValue = 0 then .ok ([⟨"SUB", 0⟩], flag)
    else if leftValue = 1 then .ok ([⟨"LOAD", r⟩], flag)
    else if leftValue = -1 then .ok ([⟨"LOAD", r⟩, ⟨"SUB", 0⟩, ⟨"SUB", r⟩], flag)
    else if leftValue = 2 then .ok ([⟨"LOAD", r⟩, ⟨"HALF", 0⟩], flag)
    else if leftValue = -2 then
      .ok ([⟨"LOAD", r⟩, ⟨"SUB", 0⟩, ⟨"SUB", r⟩, ⟨"HALF", 0⟩], flag)
    else .ok (divLitId leftValue r flag, true)
  else if op = "%" then
    if leftValue = 0 then .ok ([⟨"SET", 0⟩], flag)
    else .ok (modLitId leftValue r, flag)
  else .ok ([], flag)

/-- The literal-literal branch (AST.hpp lines 1331-1375), computed in
`int64_t`: sums, differences and products wrap around; `/` and `%` truncate
toward zero, and with the least `int64_t` as dividend and `-1` as divisor,
where the quotient does not fit, the division traps and nothing is emitted. In
the `/` case the `&&` reaches the quotient only for a positive dividend. -/
def arithLitLit (op : String) (leftValue rightValue : Int) : Except GenError (List command) :=
  if op = "+" then
    if wrap64 (leftValue - rightValue) = 0 then .ok [⟨"SUB", 0⟩]
    else .ok [⟨"SET", wrap64 (leftValue + rightValue)⟩]
  else if op = "-" then
    if wrap64 (leftValue - rightValue) = 0 then .ok [⟨"SUB", 0⟩]
    else .ok [⟨"SET", wrap64 (leftValue - rightValue)⟩]
  else if op = "*" then
    if wrap64 (leftValue * rightValue) = 0 then .ok [⟨"SUB", 0⟩]
    else .ok [⟨"SET", wrap64 (leftValue * rightValue)⟩]
  else if op = "/" then
    if rightValue = 0 then .ok [⟨"SUB", 0⟩]
    else if rightValue < 0 ∧ leftValue > 0 ∧ Int.tdiv leftValue rightValue > 0 then
      .ok [⟨"SET", -(Int.tdiv leftValue rightValue)⟩]
    else if leftValue = minInt64 ∧ rightValue = -1 then .error .arithmeticTrap
    else .ok [⟨"SET", Int.tdiv leftValue rightValue⟩]
  else if op = "%" then
    if rightValue = 0 then .ok [⟨"SUB", 0⟩]
    else if leftValue = minInt64 ∧ rightValue = -1 then .error .arithmeticTrap
    else if Int.tmod leftValue rightValue ≠ 0 ∧
        (decide (rightValue < 0) ≠ decide (Int.tmod leftValue rightValue < 0)) then
      .ok [⟨"SET", Int.tmod leftValue rightValue + rightValue⟩]
    else .ok [⟨"SET", Int.tmod leftValue rightValue⟩]
  else .ok []

/-- The `class ExpressionNode`: `leftValue op rightValue`. -/
structure ExpressionNode where
  leftValue : ValueNode
  op : String
  rightValue : ValueNode
deriving DecidableEq, Repr

/-- The staging of an operand of `ExpressionNode::generateCode`: when the
operand is not a simple variable its value is computed and stored in the scratch
cell, which becomes its memory position. -/
def stageOperand (n : IdentifierNode) (pos cell : Int) (cg : CodeGenerator) (st : SymbolTable)
    (scope : String) : Except GenError (CodeGenerator × Int) :=
  if notTypeIsSimple n.identifierType then
    match n.generateCode cg st scope with
    | .ok cg1 => .ok (cg1.emit "STORE" cell, cell)
    | .error e => .error e
  else .ok (cg, pos)

/-- The method `ExpressionNode::generateCode`. -/
def ExpressionNode.generateCode (e : ExpressionNode) (cg : CodeGenerator) (st : SymbolTable)
    (scope : String) : Except GenError (CodeGenerator × SymbolTable) :=
  match e.leftValue, e.rightValue with
  | .identifier leftId, .identifier rightId =>
    match leftId.getMemoryPosition st scope, rightId.getMemoryPosition st scope with
    | .ok l0, .ok r0 =>
      match stageOperand leftId l0 6 cg st scope with
      | .error err => .error err
      | .ok (cg1, l) =>
        match stageOperand rightId r0 7 cg1 st scope with
        | .error err => .error err
        | .ok (cg2, r) =>
          let t := arithIdId e.op l r st.one
          .ok (cg2.emitAll t.1, { st with one := t.2 })
    | .error err, _ => .error err
    | _, .error err => .error err
  | .identifier leftId, .number rightValue =>
    match leftId.getMemoryPosition st scope with
    | .error err => .error err
    | .ok l0 =>
      match stageOperand leftId l0 6 cg st scope with
      | .error err => .error err
      | .ok (cg1, l) =>
        match arithIdLit e.op l rightValue st.one with
        | .error err => .error err
        | .ok t => .ok (cg1.emitAll t.1, { st with one := t.2 })
  | .number leftValue, .identifier rightId =>
    match rightId.getMemoryPosition st scope with
    | .error err => .error err
    | .ok r0 =>
      match stageOperand rightId r0 7 cg st scope with
      | .error err => .error err
      | .ok (cg1, r) =>
        match arithLitId e.op leftValue r st.one with
        | .error err => .error err
        | .ok t => .ok (cg1.emitAll t.1, { st with one := t.2 })
  | .number leftValue, .number rightValue =>
    match arithLitLit e.op leftValue rightValue with
    | .error err => .error err
    | .ok code => .ok (cg.emitAll code, st)

/-- The method `ExpressionNode::traverseAndAnalyze`. -/
def ExpressionNode.traverseAndAnalyze (e : ExpressionNode) (st : SymbolTable) (scope : String) :
    Sem Unit :=
  (e.leftValue.traverseAndAnalyze st scope).andThen fun _ st1 =>
    e.rightValue.traverseAndAnalyze st1 scope

/-- The method `ExpressionNode::isVariablesInitialized`: `true`, or a throw. -/
def ExpressionNode.isVariablesInitialized (e : ExpressionNode) (st : SymbolTable)
    (scope : String) : Sem Bool :=
  let rl := e.leftValue.isVariableInitialized st scope
  if !rl.1 then .thrown ("Error: Variable is not initialized in scope " ++ scope) rl.2
  else
    let rr := e.rightValue.isVariableInitialized rl.2 scope
    if !rr.1 then .thrown ("Error: Variable is not initialized in scope " ++ scope) rr.2
    else .ok true rr.2

/-! ## AST.hpp: conditions and commands -/

/-- The `class ConditionNode`: `leftValue op rightValue`. -/
structure ConditionNode where
  leftValue : ValueNode
  op : String
  rightValue : ValueNode
deriving DecidableEq, Repr

/-- The method `ConditionNode::traverseAndAnalyze`. -/
def ConditionNode.traverseAndAnalyze (c : ConditionNode) (st : SymbolTable) (scope : String) :
    Sem Unit :=
  (c.leftValue.traverseAndAnalyze st scope).andThen fun _ st1 =>
    c.rightValue.traverseAndAnalyze st1 scope

/-- The subtraction of an identifier right operand in `ConditionNode::generateCode`
(the `switch` on the right identifier's type). -/
def subRight (rightId : IdentifierNode) (cg : CodeGenerator) (st : SymbolTable) (scope : String) :
    Except GenError CodeGenerator :=
  match rightId.identifierType with
  | .INDEXED_ID =>
    rightId.generateCode (cg.emit "STORE" 6) st scope |>.map fun cg1 => cg1.emit "SUBI" 6
  | _ =>
    rightId.getMemoryPosition st scope |>.map fun pos => cg.emit "SUB" pos

/-- The final conditional branch of `ConditionNode::generateCode`. -/
def conditionBranch (op : String) (cg : CodeGenerator) : CodeGenerator :=
  if op = "=" then cg.emit "JZERO" 1
  else if op = "!=" then cg.emit "JZERO" 2
  else if op = "<" then cg.emit "JNEG" 1
  else if op = ">" then cg.emit "JPOS" 1
  else if op = "<=" then cg.emit "JPOS" 2
  else if op = ">=" then cg.emit "JNEG" 2
  else cg

/-- The method `ConditionNode::generateCode`. -/
def ConditionNode.generateCode (c : ConditionNode) (cg : CodeGenerator) (st : SymbolTable)
    (scope : String) : Except GenError CodeGenerator :=
  match c.leftValue, c.rightValue with
  | .identifier leftId, .identifier rightId =>
    match leftId.generateCode cg st scope with
    | .error err => .error err
    | .ok cg1 => (subRight rightId cg1 st scope).map (conditionBranch c.op)
  | .identifier leftId, .number rightValue =>
    if rightValue = 0 then
      (leftId.generateCode cg st scope).map (conditionBranch c.op)
    else
      (leftId.generateCode ((cg.emit "SET" rightValue).emit "STORE" 1) st scope).map
        fun cg1 => conditionBranch c.op (cg1.emit "SUB" 1)
  | .number leftValue, .identifier rightId =>
    (subRight rightId (cg.emit "SET" leftValue) st scope).map (conditionBranch c.op)
  | .number leftValue, .number rightValue =>
    .ok (conditionBranch c.op (cg.emit "SET" (leftValue - rightValue)))

/-- The right-hand side of an assignment: the `expression` child of
`AssignmentNode` is an `ExpressionNode` or a `ValueNode`. -/
inductive Expression where
  | value (v : ValueNode)
  | binary (e : ExpressionNode)
deriving DecidableEq, Repr

/-- The virtual `traverseAndAnalyze` of the `expression` child. -/
def Expression.traverseAndAnalyze (x : Expression) (st : SymbolTable) (scope : String) :
    Sem Unit :=
  match x with
  | .value v => v.traverseAndAnalyze st scope
  | .binary e => e.traverseAndAnalyze st scope

/-- The virtual `generateCode` of the `expression` child. -/
def Expression.generateCode (x : Expression) (cg : CodeGenerator) (st : SymbolTable)
    (scope : String) : Except GenError (CodeGenerator × SymbolTable) :=
  match x with
  | .value v => (v.generateCode cg st scope).map fun cg1 => (cg1, st)
  | .binary e => e.generateCode cg st scope

mutual
/-- The command nodes: `AssignmentNode`, `IfNode` (with and without
`falsecommands`), `WhileNode`, `RepeatNode`, `ForToNode`, `ForDownToNode`,
`ProcallCommandNode` holding a `ProcCallNode` (its `ArgsNode` flattened to the
argument names, as `getArgsPidentifiers` does), `ReadNode`, `WriteNode`. -/
inductive Command where
  | assignment (identifier : IdentifierNode) (expression : Expression)
  | ifElse (condition : ConditionNode) (truecommands falsecommands : Commands)
  | ifThen (condition : ConditionNode) (truecommands : Commands)
  | whileDo (condition : ConditionNode) (commands : Commands)
  | repeatUntil (commands : Commands) (condition : ConditionNode)
  | forTo (pidentifier : String) (fromvalue tovalue : ValueNode) (commands : Commands)
  | forDownTo (pidentifier : String) (fromvalue downtovalue : ValueNode) (commands : Commands)
  | procCall (pidentifier : String) (args : List String)
  | read (identifier : IdentifierNode)
  | write (value : ValueNode)
/-- The `class CommandsNode`: the vector of commands. -/
inductive Commands where
  | nil
  | cons (command : Command) (rest : Commands)
end

/-- The method `AssignmentNode::traverseAndAnalyze`. -/
def assignmentAnalyze (identifier : IdentifierNode) (expression : Expression)
    (st : SymbolTable) (scope : String) : Sem Unit :=
  if identifier.pidentifier = st.iterator ∧ identifier.pidentifier ≠ "" then
    .thrown ("Error: Cannot assign value to iterator " ++ identifier.pidentifier ++
      " in scope " ++ scope) st
  else
    (identifier.traverseAndAnalyze st scope).andThen fun _ st1 =>
    (expression.traverseAndAnalyze st1 scope).andThen fun _ st2 =>
      match expression with
      | .binary exprNode =>
        (exprNode.isVariablesInitialized st2 scope).andThen fun ok st3 =>
          if ok then
            match identifier.setInitialized st3 scope with
            | some st4 => .ok () st4
            | none => .undefined
          else .ok () st3
      | .value exprNode2 =>
        let r := exprNode2.isVariableInitialized st2 scope
        if r.1 then
          match identifier.setInitialized r.2 scope with
          | some st4 => .ok () st4
          | none => .undefined
        else .ok () r.2

/-- The method `ReadNode::traverseAndAnalyze`. For `INDEXED_NUM` the source
assigns `true` to `memoryPositions[index]`. -/
def readAnalyze (identifier : IdentifierNode) (st : SymbolTable) (scope : String) : Sem Unit :=
  let first : Sem Unit :=
    match identifier.identifierType with
    | .SIMPLE =>
      if identifier.pidentifier = st.iterator ∧ identifier.pidentifier ≠ "" then
        .thrown ("Error: Cannot read value to iterator " ++ identifier.pidentifier ++
          " in scope " ++ scope) st
      else
        match st.getVariable identifier.pidentifier scope with
        | none =>
          .thrown ("Error: Variable " ++ identifier.pidentifier ++ " not declared in scope " ++
            scope) st
        | some v =>
          .ok () (st.putVariable identifier.pidentifier scope { v with isInitialized := true })
    | .INDEXED_NUM =>
      if identifier.pidentifier = "" then
        .thrown ("Error: Cannot read value to iterator " ++ identifier.pidentifier ++
          " in scope " ++ scope) st
      else
        match st.getArray identifier.pidentifier scope with
        | none =>
          .thrown ("Error: Variable " ++ identifier.pidentifier ++ " not declared in scope " ++
            scope) st
        | some a =>
          .ok () (st.putArray identifier.pidentifier scope
            { a with memoryPositions := mapSet identifier.index 1 a.memoryPositions })
    | .INDEXED_ID => .ok () st
  first.andThen fun _ st1 => identifier.traverseAndAnalyze st1 scope

/-- The method `WriteNode::traverseAndAnalyze`: an identifier is analysed twice. -/
def writeAnalyze (value : ValueNode) (st : SymbolTable) (scope : String) : Sem Unit :=
  match value with
  | .identifier idNode =>
    (idNode.traverseAndAnalyze st scope).andThen fun _ st1 => value.traverseAndAnalyze st1 scope
  | .number _ => value.traverseAndAnalyze st scope

/-- The method `ArgNode::traverseAndAnalyze`. -/
def argAnalyze (pidentifier : String) (st : SymbolTable) (scope : String) : Sem Unit :=
  match st.getVariable pidentifier scope with
  | none =>
    if !st.arrayExists pidentifier scope then
      .thrown ("Error: " ++ pidentifier ++ " not declared in scope " ++ scope) st
    else .ok () st
  | some v => .ok () (st.putVariable pidentifier scope { v with isInitialized := true })

/-- The method `ArgsNode::traverseAndAnalyze`. -/
def argsAnalyze : List String → SymbolTable → String → Sem Unit
  | [], st, _ => .ok () st
  | a :: rest, st, scope => (argAnalyze a st scope).andThen fun _ st1 => argsAnalyze rest st1 scope

/-- The method `ProcCallNode::traverseAndAnalyze`. -/
def procCallAnalyze (pidentifier : String) (args : List String) (st : SymbolTable)
    (scope : String) : Sem Unit :=
  if !st.procedureExists pidentifier "GLOBAL" ∨ scope = pidentifier then
    .thrown ("Error: Procedure " ++ pidentifier ++ " not declared in scope " ++ scope) st
  else if !st.isParamsTypeCorrect pidentifier scope args then
    .thrown ("Error: Incorrect type of arguments in procedure " ++ pidentifier ++ " in scope " ++
      scope) st
  else argsAnalyze args st scope

/-- The start of `ForToNode::traverseAndAnalyze` and `ForDownToNode::traverseAndAnalyze`:
declare the iterator when missing, mark it initialised, make it the active iterator. -/
def forEnter (pidentifier : String) (st : SymbolTable) (scope : String) : Sem Unit :=
  let added : Sem Unit :=
    if !st.variableExists pidentifier scope then st.addVariable pidentifier scope else .ok () st
  added.andThen fun _ st1 =>
    match st1.getVariable pidentifier scope with
    | none => .undefined
    | some v =>
      .ok () { (st1.putVariable pidentifier scope { v with isInitialized := true }) with
               iterator := pidentifier }

mutual
/-- The virtual method `traverseAndAnalyze` on the command nodes. -/
def Command.traverseAndAnalyze : Command → SymbolTable → String → Sem Unit
  | .assignment identifier expression, st, scope => assignmentAnalyze identifier expression st scope
  | .ifElse condition truecommands falsecommands, st, scope =>
    (condition.traverseAndAnalyze st scope).andThen fun _ st1 =>
    (truecommands.traverseAndAnalyze st1 scope).andThen fun _ st2 =>
      falsecommands.traverseAndAnalyze st2 scope
  | .ifThen condition truecommands, st, scope =>
    (condition.traverseAndAnalyze st scope).andThen fun _ st1 =>
      truecommands.traverseAndAnalyze st1 scope
  | .whileDo condition commands, st, scope =>
    (condition.traverseAndAnalyze st scope).andThen fun _ st1 =>
      commands.traverseAndAnalyze st1 scope
  | .repeatUntil commands condition, st, scope =>
    (commands.traverseAndAnalyze st scope).andThen fun _ st1 =>
      condition.traverseAndAnalyze st1 scope
  | .forTo pidentifier fromvalue tovalue commands, st, scope =>
    (forEnter pidentifier st scope).andThen fun _ st1 =>
    (fromvalue.traverseAndAnalyze st1 scope).andThen fun _ st2 =>
    (tovalue.traverseAndAnalyze st2 scope).andThen fun _ st3 =>
    (commands.traverseAndAnalyze st3 scope).andThen fun _ st4 =>
      .ok () { st4 with iterator := "" }
  | .forDownTo pidentifier fromvalue downtovalue commands, st, scope =>
    (forEnter pidentifier st scope).andThen fun _ st1 =>
    (fromvalue.traverseAndAnalyze st1 scope).andThen fun _ st2 =>
    (downtovalue.traverseAndAnalyze st2 scope).andThen fun _ st3 =>
    (commands.traverseAndAnalyze st3 scope).andThen fun _ st4 =>
      .ok () { st4 with iterator := "" }
  | .procCall pidentifier args, st, scope => procCallAnalyze pidentifier args st scope
  | .read identifier, st, scope => readAnalyze identifier st scope
  | .write value, st, scope => writeAnalyze value st scope
/-- The method `CommandsNode::traverseAndAnalyze`. -/
def Commands.traverseAndAnalyze : Commands → SymbolTable → String → Sem Unit
  | .nil, st, _ => .ok () st
  | .cons command rest, st, scope =>
    (command.traverseAndAnalyze st scope).andThen fun _ st1 => rest.traverseAndAnalyze st1 scope
end

/-! ## AST.hpp: emission for the command nodes -/

/-- The method `AssignmentNode::generateCode`. -/
def assignmentGenerate (identifier : IdentifierNode) (expression : Expression)
    (cg : CodeGenerator) (st : SymbolTable) (scope : String) :
    Except GenError (CodeGenerator × SymbolTable) :=
  match identifier.identifierType with
  | .SIMPLE =>
    match expression.generateCode cg st scope with
    | .error err => .error err
    | .ok (cg1, st1) =>
      (identifier.getMemoryPosition st1 scope).map fun pos => (cg1.emit "STORE" pos, st1)
  | .INDEXED_NUM =>
    match st.getArray identifier.pidentifier scope with
    | none => .error .nullDereference
    | some a =>
      if !a.isArgument then
        match expression.generateCode cg st scope with
        | .error err => .error err
        | .ok (cg1, st1) =>
          (identifier.getMemoryPosition st1 scope).map fun pos => (cg1.emit "STORE" pos, st1)
      else
        let cg0 := ((cg.emit "SET" identifier.index).emit "ADD" a.memoryPosition).emit "STORE" 8
        (expression.generateCode cg0 st scope).map fun r => (r.1.emit "STOREI" 8, r.2)
  | .INDEXED_ID =>
    match st.getArray identifier.pidentifier scope with
    | none => .error .nullDereference
    | some a =>
      match st.getVariable identifier.indexIdentifier scope with
      | none => .error .nullDereference
      | some iv =>
        let cg0 :=
          if !a.isArgument then
            ((cg.emit "SET" a.memoryPosition).emit "ADD" iv.memoryPosition).emit "STORE" 8
          else
            ((cg.emit "LOAD" a.memoryPosition).emit "ADD" iv.memoryPosition).emit "STORE" 8
        (expression.generateCode cg0 st scope).map fun r => (r.1.emit "STOREI" 8, r.2)

/-- The method `ReadNode::generateCode`. -/
def readGenerate (identifier : IdentifierNode) (cg : CodeGenerator) (st : SymbolTable)
    (scope : String) : Except GenError CodeGenerator :=
  match identifier.identifierType with
  | .SIMPLE => (identifier.getMemoryPosition st scope).map fun pos => cg.emit "GET" pos
  | .INDEXED_NUM =>
    match st.getArray identifier.pidentifier scope with
    | none => .error .nullDereference
    | some a =>
      if !a.isArgument then
        (identifier.getMemoryPosition st scope).map fun pos => cg.emit "GET" pos
      else .ok (cg.emit "GET" (a.memoryPosition + identifier.index))
  | .INDEXED_ID =>
    match st.getArray identifier.pidentifier scope with
    | none => .error .nullDereference
    | some a =>
      if !a.isArgument then
        (identifier.generateCode cg st scope).map fun cg1 =>
          ((cg1.emit "STORE" 6).emit "GET" 0).emit "STOREI" 6
      else
        match st.getVariable identifier.indexIdentifier scope with
        | none => .error .nullDereference
        | some iv =>
          .ok (((((cg.emit "LOAD" a.memoryPosition).emit "ADD" iv.memoryPosition).emit
            "STORE" 6).emit "GET" 0).emit "STOREI" 6)

/-- The method `WriteNode::generateCode`. -/
def writeGenerate (value : ValueNode) (cg : CodeGenerator) (st : SymbolTable) (scope : String) :
    Except GenError CodeGenerator :=
  match value with
  | .identifier idNode =>
    match idNode.identifierType with
    | .SIMPLE => (idNode.getMemoryPosition st scope).map fun pos => cg.emit "PUT" pos
    | .INDEXED_NUM =>
      match st.getArray idNode.pidentifier scope with
      | none => .error .nullDereference
      | some a =>
        if !a.isArgument then
          (idNode.getMemoryPosition st scope).map fun pos => cg.emit "PUT" pos
        else (idNode.generateCode cg st scope).map fun cg1 => cg1.emit "PUT" 0
    | .INDEXED_ID => (idNode.generateCode cg st scope).map fun cg1 => cg1.emit "PUT" 0
  | .number v => .ok ((cg.emit "SET" v).emit "PUT" 0)

/-- One iteration of the argument-marshalling loop of `ProcCallNode::generateCode`
for actual `arg` at position `i`. `paramsString[i]` is read only when the
left operand of the `&&` holds; reading it past the end is out of range. -/
def marshalArg (pidentifier scope : String) (paramsString : List String) (arg : String) (i : Nat)
    (cg : CodeGenerator) (st : SymbolTable) : Except GenError (CodeGenerator × SymbolTable) :=
  let arrayCase : Except GenError (CodeGenerator × SymbolTable) :=
    match st.getArray arg scope with
    | none => .ok (cg, st)
    | some array =>
      match paramsString[i]? with
      | none => .error .outOfRange
      | some p =>
        match st.getArray p pidentifier with
        | none => .ok (cg, st)
        | some arrayParam =>
          let cg1 :=
            if !array.isArgument then cg.emit "SET" (array.memoryPosition - array.startIndex)
            else cg.emit "LOAD" (array.memoryPosition - array.startIndex)
          .ok (cg1.emit "STORE" arrayParam.memoryPosition,
            st.putArray p pidentifier
              { arrayParam with startIndex := array.startIndex, endIndex := array.endIndex })
  match st.getVariable arg scope with
  | none => arrayCase
  | some actual =>
    match paramsString[i]? with
    | none => .error .outOfRange
    | some p =>
      match st.getVariable p pidentifier with
      | none => arrayCase
      | some variableParam =>
        .ok ((cg.emit "LOAD" actual.memoryPosition).emit "STORE" variableParam.memoryPosition,
          st)

/-- The argument-marshalling loop of `ProcCallNode::generateCode`. -/
def marshalArgs (pidentifier scope : String) (paramsString : List String) :
    List String → Nat → CodeGenerator → SymbolTable →
    Except GenError (CodeGenerator × SymbolTable)
  | [], _, cg, st => .ok (cg, st)
  | arg :: rest, i, cg, st =>
    match marshalArg pidentifier scope paramsString arg i cg st with
    | .error err => .error err
    | .ok (cg1, st1) => marshalArgs pidentifier scope paramsString rest (i + 1) cg1 st1

/-- The copy-out loop of `ProcCallNode::generateCode` (variable parameters only). -/
def copyOutArgs (pidentifier scope : String) (paramsString : List String) (st : SymbolTable) :
    List String → Nat → CodeGenerator → Except GenError CodeGenerator
  | [], _, cg => .ok cg
  | arg :: rest, i, cg =>
    match st.getVariable arg scope with
    | none => copyOutArgs pidentifier scope paramsString st rest (i + 1) cg
    | some actual =>
      match paramsString[i]? with
      | none => .error .outOfRange
      | some p =>
        match st.getVariable p pidentifier with
        | none => copyOutArgs pidentifier scope paramsString st rest (i + 1) cg
        | some variableParam =>
          copyOutArgs pidentifier scope paramsString st rest (i + 1)
            ((cg.emit "LOAD" variableParam.memoryPosition).emit "STORE" actual.memoryPosition)

/-- The method `ProcCallNode::generateCode`. -/
def procCallGenerate (pidentifier : String) (args : List String) (cg : CodeGenerator)
    (st : SymbolTable) (scope : String) : Except GenError (CodeGenerator × SymbolTable) :=
  match st.getProcedure pidentifier "GLOBAL" with
  | none => .error .nullDereference
  | some procedure =>
    let paramsString := procedure.params.map Param.name
    match marshalArgs pidentifier scope paramsString args 0 cg st with
    | .error err => .error err
    | .ok (cg1, st1) =>
      match st1.getProcedure pidentifier "GLOBAL" with
      | none => .error .nullDereference
      | some proc1 =>
        let cg2 := (cg1.emit "SET" (cg1.getCurrentLine + 3)).emit "STORE"
          proc1.returnVariable.memoryPosition
        match proc1.jumpLabel with
        | none => .error .indeterminate
        | some jumpLabel =>
          let cg3 := if jumpLabel ≠ -1 then cg2.emit "JUMP" (jumpLabel - cg2.getCurrentLine)
                     else cg2
          (copyOutArgs pidentifier scope paramsString st1 args 0 cg3).map fun cg4 => (cg4, st1)

mutual
/-- The virtual method `generateCode` on the command nodes (`IfNode`,
`WhileNode`, `RepeatNode`, `ForToNode`, `ForDownToNode` inline; the others
through the functions above). -/
def Command.generateCode : Command → CodeGenerator → SymbolTable → String →
    Except GenError (CodeGenerator × SymbolTable)
  | .assignment identifier expression, cg, st, scope =>
    assignmentGenerate identifier expression cg st scope
  | .ifElse condition truecommands falsecommands, cg, st, scope =>
    match condition.generateCode cg st scope with
    | .error err => .error err
    | .ok cg1 =>
      let jump := cg1.getCurrentLine - 1
      let cond := cg1.getCommand jump
      let first : Except GenError (CodeGenerator × SymbolTable × command) :=
        if cond.arg = 1 then
          match falsecommands.generateCode cg1 st scope with
          | .error err => .error err
          | .ok (cg2, st2) =>
            let jump2 := cg2.getCurrentLine
            let cg3 := (cg2.updateCommand jump cond.code (jump2 - jump + 1)).emit "JUMP" 0
            match truecommands.generateCode cg3 st2 scope with
            | .error err => .error err
            | .ok (cg4, st4) =>
              let jump3 := cg4.getCurrentLine
              let cond2 := cg4.getCommand jump2
              .ok (cg4.updateCommand jump2 cond2.code (jump3 - jump2), st4, cond2)
        else .ok (cg1, st, cond)
      match first with
      | .error err => .error err
      | .ok (cg5, st5, cond5) =>
        if cond5.arg = 2 then
          match truecommands.generateCode cg5 st5 scope with
          | .error err => .error err
          | .ok (cg6, st6) =>
            let jump2 := cg6.getCurrentLine
            let cg7 := (cg6.updateCommand jump cond5.code (jump2 - jump + 1)).emit "JUMP" 0
            match falsecommands.generateCode cg7 st6 scope with
            | .error err => .error err
            | .ok (cg8, st8) =>
              let jump3 := cg8.getCurrentLine
              let cond6 := cg8.getCommand jump2
              .ok (cg8.updateCommand jump2 cond6.code (jump3 - jump2), st8)
        else .ok (cg5, st5)
  | .ifThen condition truecommands, cg, st, scope =>
    match condition.generateCode cg st scope with
    | .error err => .error err
    | .ok cg1 =>
      let jump := cg1.getCurrentLine - 1
      let cond := cg1.getCommand jump
      let first : Except GenError (CodeGenerator × SymbolTable × command) :=
        if cond.arg = 1 then
          let cg2 := cg1.emit "JUMP" 0
          let jump2 := cg2.getCurrentLine - 1
          match truecommands.generateCode cg2 st scope with
          | .error err => .error err
          | .ok (cg3, st3) =>
            let cg4 := cg3.updateCommand jump cond.code (jump2 - jump + 1)
            let jump3 := cg4.getCurrentLine
            let cond2 := cg4.getCommand jump2
            .ok (cg4.updateCommand jump2 cond2.code (jump3 - jump2), st3, cond2)
        else .ok (cg1, st, cond)
      match first with
      | .error err => .error err
      | .ok (cg5, st5, cond5) =>
        if cond5.arg = 2 then
          match truecommands.generateCode cg5 st5 scope with
          | .error err => .error err
          | .ok (cg6, st6) =>
            let jump2 := cg6.getCurrentLine
            .ok (cg6.updateCommand jump cond5.code (jump2 - jump), st6)
        else .ok (cg5, st5)
  | .whileDo condition commands, cg, st, scope =>
    let jump := cg.getCurrentLine
    match condition.generateCode cg st scope with
    | .error err => .error err
    | .ok cg1 =>
      let jump2 := cg1.getCurrentLine
      let cond := cg1.getCommand (jump2 - 1)
      let first : Except GenError (CodeGenerator × SymbolTable) :=
        if cond.arg = 1 then
          let cg2 := (cg1.updateCommand (jump2 - 1) cond.code 2).emit "JUMP" 0
          match commands.generateCode cg2 st scope with
          | .error err => .error err
          | .ok (cg3, st3) =>
            let jump3 := cg3.getCurrentLine
            .ok ((cg3.emit "JUMP" (jump - jump3)).updateCommand jump2 "JUMP" (jump3 + 1 - jump2),
              st3)
        else .ok (cg1, st)
      match first with
      | .error err => .error err
      | .ok (cg4, st4) =>
        if cond.arg = 2 then
          match commands.generateCode cg4 st4 scope with
          | .error err => .error err
          | .ok (cg5, st5) =>
            let jump3 := cg5.getCurrentLine
            .ok ((cg5.emit "JUMP" (jump - jump3)).updateCommand (jump2 - 1) cond.code
              (jump3 + 1 - jump2 + 1), st5)
        else .ok (cg4, st4)
  | .repeatUntil commands condition, cg, st, scope =>
    let jump := cg.getCurrentLine
    match commands.generateCode cg st scope with
    | .error err => .error err
    | .ok (cg1, st1) =>
      match condition.generateCode cg1 st1 scope with
      | .error err => .error err
      | .ok cg2 =>
        let jump2 := cg2.getCurrentLine
        let cond := cg2.getCommand (jump2 - 1)
        let cg3 :=
          if cond.arg = 1 then
            (cg2.updateCommand (jump2 - 1) cond.code 2).emit "JUMP" (jump - jump2)
          else cg2
        let cg4 :=
          if cond.arg = 2 then cg3.updateCommand (jump2 - 1) cond.code (jump - jump2 + 1)
          else cg3
        .ok (cg4, st1)
  | .forTo pidentifier fromvalue tovalue commands, cg, st, scope =>
    match st.getVariable pidentifier scope with
    | none => .error .nullDereference
    | some iterator =>
      let iteratorMemoryPosition := iterator.memoryPosition
      let cg0 := if !st.one then (cg.emit "SET" 1).emit "STORE" 10 else cg
      match tovalue.generateCode cg0 st scope with
      | .error err => .error err
      | .ok cg1 =>
        match fromvalue.generateCode ((cg1.emit "ADD" 10).emit "STORE" 9) st scope with
        | .error err => .error err
        | .ok cg2 =>
          let cg3 := cg2.emit "STORE" iteratorMemoryPosition
          let jump := cg3.getCurrentLine
          let cg4 := cg3.emit "SUB" 9
          let jump2 := cg4.getCurrentLine
          match commands.generateCode (cg4.emit "JZERO" 0) st scope with
          | .error err => .error err
          | .ok (cg5, st5) =>
            let cg6 := ((cg5.emit "LOAD" iteratorMemoryPosition).emit "ADD" 10).emit "STORE"
              iteratorMemoryPosition
            let jump3 := cg6.getCurrentLine
            .ok ((cg6.emit "JUMP" (jump - jump3)).updateCommand jump2 "JZERO" (jump3 - jump2 + 1),
              st5)
  | .forDownTo pidentifier fromvalue downtovalue commands, cg, st, scope =>
    let cg0 := if !st.one then (cg.emit "SET" 1).emit "STORE" 10 else cg
    match downtovalue.generateCode cg0 st scope with
    | .error err => .error err
    | .ok cg1 =>
      match fromvalue.generateCode ((cg1.emit "SUB" 10).emit "STORE" 9) st scope with
      | .error err => .error err
      | .ok cg2 =>
        match st.getVariable pidentifier scope with
        | none => .error .nullDereference
        | some iterator =>
          let cg3 := cg2.emit "STORE" iterator.memoryPosition
          let jump := cg3.getCurrentLine
          let cg4 := cg3.emit "SUB" 9
          let jump2 := cg4.getCurrentLine
          match commands.generateCode (cg4.emit "JZERO" 0) st scope with
          | .error err => .error err
          | .ok (cg5, st5) =>
            match st5.getVariable pidentifier scope with
            | none => .error .nullDereference
            | some it5 =>
              let cg6 := (((cg5.emit "LOAD" it5.memoryPosition).emit "SUB" 10).emit "STORE"
                it5.memoryPosition).emit "LOAD" it5.memoryPosition
              let jump3 := cg6.getCurrentLine
              .ok ((cg6.emit "JUMP" (jump - jump3)).updateCommand jump2 "JZERO"
                (jump3 - jump2 + 1), st5)
  | .procCall pidentifier args, cg, st, scope => procCallGenerate pidentifier args cg st scope
  | .read identifier, cg, st, scope =>
    (readGenerate identifier cg st scope).map fun cg1 => (cg1, st)
  | .write value, cg, st, scope =>
    (writeGenerate value cg st scope).map fun cg1 => (cg1, st)
/-- The method `CommandsNode::generateCode`. -/
def Commands.generateCode : Commands → CodeGenerator → SymbolTable → String →
    Except GenError (CodeGenerator × SymbolTable)
  | .nil, cg, st, _ => .ok (cg, st)
  | .cons command rest, cg, st, scope =>
    match command.generateCode cg st scope with
    | .error err => .error err
    | .ok (cg1, st1) => rest.generateCode cg1 st1 scope
end

/-! ## AST.hpp: declarations, procedures, program -/

/-- The `class DeclarationNode`: a variable, or an array with its bounds. -/
structure DeclarationNode where
  pidentifier : String
  isArray : Bool
  lowerBound : Int
  upperBound : Int
deriving DecidableEq, Repr

/-- The method `DeclarationNode::traverseAndAnalyze`. -/
def DeclarationNode.traverseAndAnalyze (d : DeclarationNode) (st : SymbolTable)
    (scope : String) : Sem Unit :=
  if d.isArray then st.addArray d.pidentifier scope d.lowerBound d.upperBound
  else st.addVariable d.pidentifier scope

/-- The method `DeclarationsNode::traverseAndAnalyze`. -/
def declarationsAnalyze : List DeclarationNode → SymbolTable → String → Sem Unit
  | [], st, _ => .ok () st
  | d :: rest, st, scope =>
    (d.traverseAndAnalyze st scope).andThen fun _ st1 => declarationsAnalyze rest st1 scope

/-- The `class ArgsdeclNode`: a formal parameter, scalar or array. -/
structure ArgsdeclNode where
  pidentifier : String
  isArray : Bool
deriving DecidableEq, Repr

/-- The method `ArgsdeclNode::traverseAndAnalyze`; `scope` is the procedure name. -/
def ArgsdeclNode.traverseAndAnalyze (d : ArgsdeclNode) (st : SymbolTable) (scope : String) :
    Sem Unit :=
  if d.isArray then
    let arrayParam : Array := ⟨d.pidentifier, scope, [], [], 0, 0, 0, false⟩
    (st.addProcedureParam scope "GLOBAL" (.arrayParam arrayParam)).andThen fun _ st1 =>
    (st1.addArray d.pidentifier scope 0 0).andThen fun _ st2 =>
      match st2.getArray d.pidentifier scope with
      | none => .undefined
      | some a =>
        .ok () (st2.putArray d.pidentifier scope
          { a with isInitialized := mapSet 0 true a.isInitialized, isArgument := true })
  else
    let variableParam : Variable := ⟨d.pidentifier, scope, true, 0, false⟩
    (st.addProcedureParam scope "GLOBAL" (.variableParam variableParam)).andThen fun _ st1 =>
    (st1.addVariableV variableParam).andThen fun _ st2 =>
      match st2.getVariable d.pidentifier scope with
      | none => .undefined
      | some v => .ok () (st2.putVariable d.pidentifier scope { v with isArgument := true })

/-- The method `ArgsdeclsNode::traverseAndAnalyze`. -/
def argsdeclsAnalyze : List ArgsdeclNode → SymbolTable → String → Sem Unit
  | [], st, _ => .ok () st
  | d :: rest, st, scope =>
    (d.traverseAndAnalyze st scope).andThen fun _ st1 => argsdeclsAnalyze rest st1 scope

/-- The `class ProcHeadNode`: the procedure name and its formal parameters. -/
structure ProcHeadNode where
  pidentifier : String
  args_decl : List ArgsdeclNode
deriving DecidableEq, Repr

/-- The method `ProcHeadNode::traverseAndAnalyze`: the formals are analysed in
the scope named after the procedure. -/
def ProcHeadNode.traverseAndAnalyze (h : ProcHeadNode) (st : SymbolTable) : Sem Unit :=
  argsdeclsAnalyze h.args_decl st h.pidentifier

mutual
/-- The nodes that can stand as a `procedures` child: a `ProceduresNode` (a
vector of such nodes) or a `ProcedureNode`, whose own `procedures` child may be
null (`none`). -/
inductive ProcTree where
  | proceduresNode (procedures : ProcList)
  | procedureNode (procedures : OptProcTree) (proc_head : ProcHeadNode)
      (declarations : List DeclarationNode) (commands : Commands)
/-- A vector of procedure nodes. -/
inductive ProcList where
  | nil
  | cons (procedure : ProcTree) (rest : ProcList)
/-- A possibly null `procedures` child. -/
inductive OptProcTree where
  | null
  | node (procedures : ProcTree)
end

mutual
/-- The methods `ProceduresNode::traverseAndAnalyze` and
`ProcedureNode::traverseAndAnalyze`. -/
def ProcTree.traverseAndAnalyze : ProcTree → SymbolTable → String → Sem Unit
  | .proceduresNode procedures, st, scope => procedures.traverseAndAnalyze st scope
  | .procedureNode procedures proc_head declarations commands, st, scope =>
    let newScope := proc_head.pidentifier
    (st.addProcedure newScope scope []).andThen fun _ st1 =>
    (procedures.traverseAndAnalyze st1 scope).andThen fun _ st2 =>
    (proc_head.traverseAndAnalyze st2).andThen fun _ st3 =>
    (declarationsAnalyze declarations st3 newScope).andThen fun _ st4 =>
      commands.traverseAndAnalyze st4 newScope
/-- The loop of `ProceduresNode::traverseAndAnalyze`. -/
def ProcList.traverseAndAnalyze : ProcList → SymbolTable → String → Sem Unit
  | .nil, st, _ => .ok () st
  | .cons procedure rest, st, scope =>
    (procedure.traverseAndAnalyze st scope).andThen fun _ st1 =>
      rest.traverseAndAnalyze st1 scope
/-- The guarded call `if (procedures) procedures->traverseAndAnalyze(...)`. -/
def OptProcTree.traverseAndAnalyze : OptProcTree → SymbolTable → String → Sem Unit
  | .null, st, _ => .ok () st
  | .node procedures, st, scope => procedures.traverseAndAnalyze st scope
end

mutual
/-- The methods `ProceduresNode::generateCode` and `ProcedureNode::generateCode`. -/
def ProcTree.generateCode : ProcTree → CodeGenerator → SymbolTable → String →
    Except GenError (CodeGenerator × SymbolTable)
  | .proceduresNode procedures, cg, st, scope => procedures.generateCode cg st scope
  | .procedureNode procedures proc_head _ commands, cg, st, scope =>
    match procedures.generateCode cg st scope with
    | .error err => .error err
    | .ok (cg1, st1) =>
      let newScope := proc_head.pidentifier
      match st1.getProcedure proc_head.pidentifier scope with
      | none => .error .nullDereference
      | some p =>
        let st2 := st1.putProcedure proc_head.pidentifier scope
          { p with jumpLabel := some cg1.getCurrentLine }
        match commands.generateCode cg1 st2 newScope with
        | .error err => .error err
        | .ok (cg3, st3) =>
          match st3.getProcedure proc_head.pidentifier scope with
          | none => .error .nullDereference
          | some p3 => .ok (cg3.emit "RTRN" p3.returnVariable.memoryPosition, st3)
/-- The loop of `ProceduresNode::generateCode`. -/
def ProcList.generateCode : ProcList → CodeGenerator → SymbolTable → String →
    Except GenError (CodeGenerator × SymbolTable)
  | .nil, cg, st, _ => .ok (cg, st)
  | .cons procedure rest, cg, st, scope =>
    match procedure.generateCode cg st scope with
    | .error err => .error err
    | .ok (cg1, st1) => rest.generateCode cg1 st1 scope
/-- The guarded call `if (procedures) procedures->generateCode(...)`. -/
def OptProcTree.generateCode : OptProcTree → CodeGenerator → SymbolTable → String →
    Except GenError (CodeGenerator × SymbolTable)
  | .null, cg, st, _ => .ok (cg, st)
  | .node procedures, cg, st, scope => procedures.generateCode cg st scope
end

/-- The `class MainNode`. -/
structure MainNode where
  declarations : List DeclarationNode
  commands : Commands

/-- The method `MainNode::traverseAndAnalyze`. -/
def MainNode.traverseAndAnalyze (m : MainNode) (st : SymbolTable) (scope : String) : Sem Unit :=
  (declarationsAnalyze m.declarations st scope).andThen fun _ st1 =>
    m.commands.traverseAndAnalyze st1 scope

/-- The method `MainNode::generateCode`. -/
def MainNode.generateCode (m : MainNode) (cg : CodeGenerator) (st : SymbolTable)
    (scope : String) : Except GenError (CodeGenerator × SymbolTable) :=
  m.commands.generateCode cg st scope

/-- The `class ProgramNode`; `procedures` may be null. -/
structure ProgramNode where
  procedures : OptProcTree
  main : MainNode

/-- The method `ProgramNode::traverseAndAnalyze`. -/
def ProgramNode.traverseAndAnalyze (p : ProgramNode) (st : SymbolTable) : Sem Unit :=
  (p.procedures.traverseAndAnalyze st "GLOBAL").andThen fun _ st1 =>
    p.main.traverseAndAnalyze st1 "MAIN"

/-- The method `ProgramNode::generateCode`. -/
def ProgramNode.generateCode (p : ProgramNode) (cg : CodeGenerator) (st : SymbolTable) :
    Except GenError (CodeGenerator × SymbolTable) :=
  let start : Except GenError (CodeGenerator × SymbolTable) :=
    match p.procedures with
    | .null => .ok (cg, st)
    | .node procedures => procedures.generateCode (cg.emit "JUMP" 0) st "GLOBAL"
  match start with
  | .error err => .error err
  | .ok (cg1, st1) =>
    let mainLabel := cg1.getCurrentLine
    match p.main.generateCode cg1 st1 "MAIN" with
    | .error err => .error err
    | .ok (cg2, st2) =>
      let cg3 :=
        match p.procedures with
        | .null => cg2
        | .node _ =>
          if (cg2.getCommand 0).code = "JUMP" then cg2.updateCommand 0 "JUMP" mainLabel else cg2
      .ok (cg3.emit "HALT" 0, st2)

/-- The driver of `compiler.cpp`: the semantic pass on a fresh symbol table,
then, when it did not throw, the emission pass on a fresh code generator; the
result is the emitted program. -/
def compile (p : ProgramNode) : Option (List command) :=
  match p.traverseAndAnalyze SymbolTable.new with
  | .ok _ st =>
    match p.generateCode CodeGenerator.new st with
    | .ok (cg, _) => some cg.generatedCode
    | .error _ => none
  | _ => none

/-- The initial machine state for a run on the given input: every cell 0. -/
def VM.init (input : List Int) : VM :=
  { pc := 0, mem := fun _ => 0, input := input, output := [], halted := false }


/-! ## Specification-level definitions -/

/-- The symbol tables built from the empty table by successful declarations:
both overloads of `addVariable` and of `addArray`, `addProcedure` and
`addProcedureParam`; and by what the compiler writes in between through the
pointers `getVariable`, `getArray` and `getProcedure` return and into the two
flags of the table, writes that leave the name, the scope and the cells of the entry alone. -/
inductive Reachable : SymbolTable → Prop where
  | new : Reachable SymbolTable.new
  | addVariable {st st1 : SymbolTable} (name scope : String) :
      Reachable st → st.addVariable name scope = .ok () st1 → Reachable st1
  | addVariableV {st st1 : SymbolTable} (v : Variable) :
      Reachable st → st.addVariableV v = .ok () st1 → Reachable st1
  | addArray {st st1 : SymbolTable} (name scope : String) (lo hi : Int) :
      Reachable st → st.addArray name scope lo hi = .ok () st1 → Reachable st1
  | addArrayA {st st1 : SymbolTable} (a : Array) :
      Reachable st → st.addArrayA a = .ok () st1 → Reachable st1
  | addProcedure {st st1 : SymbolTable} (name scope : String) (params : List Param) :
      Reachable st → st.addProcedure name scope params = .ok () st1 → Reachable st1
  | addProcedureParam {st st1 : SymbolTable} (name scope : String) (param : Param) :
      Reachable st → st.addProcedureParam name scope param = .ok () st1 → Reachable st1
  | markVariable {st : SymbolTable} (name scope : String) (v v1 : Variable) :
      Reachable st → st.getVariable name scope = some v → v1.name = v.name →
      v1.scope = v.scope → v1.memoryPosition = v.memoryPosition →
      Reachable (st.putVariable name scope v1)
  | markArray {st : SymbolTable} (name scope : String) (a a1 : Array) :
      Reachable st → st.getArray name scope = some a → a1.name = a.name →
      a1.scope = a.scope → a1.memoryPositions = a.memoryPositions →
      Reachable (st.putArray name scope a1)
  | markProcedure {st : SymbolTable} (name scope : String) (p p1 : Procedure) :
      Reachable st → st.getProcedure name scope = some p → p1.name = p.name →
      p1.scope = p.scope → p1.returnVariable = p.returnVariable →
      Reachable (st.putProcedure name scope p1)
  | setIterator {st : SymbolTable} (x : String) :
      Reachable st → Reachable { st with iterator := x }
  | setOne {st : SymbolTable} (b : Bool) : Reachable st → Reachable { st with one := b }

/-- How many variables of the table carry the given name and scope. -/
def SymbolTable.variableCount (st : SymbolTable) (name scope : String) : Nat :=
  st.vars.countP fun p => decide (p.2.name = name ∧ p.2.scope = scope)

/-- How many arrays of the table carry the given name and scope. -/
def SymbolTable.arrayCount (st : SymbolTable) (name scope : String) : Nat :=
  st.arrays.countP fun p => decide (p.2.name = name ∧ p.2.scope = scope)

/-- How many procedures of the table carry the given name and scope. -/
def SymbolTable.procedureCount (st : SymbolTable) (name scope : String) : Nat :=
  st.procedures.countP fun p => decide (p.2.name = name ∧ p.2.scope = scope)

/-- The memory cells the table has handed out: one per variable, one per array
element (the values of `memoryPositions`), one per procedure return variable. -/
def SymbolTable.cells (st : SymbolTable) : List Int :=
  st.vars.map (fun p => p.2.memoryPosition) ++
  (st.arrays.map (fun p => p.2.memoryPositions.map Prod.snd)).flatten ++
  st.procedures.map (fun p => p.2.returnVariable.memoryPosition)

/-- The cells `first, first + 1, ..., first + n - 1`. -/
def cellRange (first : Int) : Nat → List Int
  | 0 => []
  | n + 1 => first :: cellRange (first + 1) n

/-- The map entries `(i, pos), (i + 1, pos + 1), ...`, `n` of them. -/
def entriesFrom (i pos : Int) : Nat → List (Int × Int)
  | 0 => []
  | n + 1 => (i, pos) :: entriesFrom (i + 1) (pos + 1) n

/-- The map entries `(i, b), (i + 1, b), ...`, `n` of them. -/
def flagsFrom (i : Int) (b : Bool) : Nat → List (Int × Bool)
  | 0 => []
  | n + 1 => (i, b) :: flagsFrom (i + 1) b n

/-- Whether the instruction is one of the four jumps. -/
def command.isJump (c : command) : Bool :=
  c.code = "JUMP" || c.code = "JZERO" || c.code = "JPOS" || c.code = "JNEG"

/-- Whether every jump among `code`, taken as the instructions at addresses
`p, p + 1, ...` of a template of `len` instructions, lands inside the template
or at its end. -/
def jumpsWithinFrom (len : Int) : Int → List command → Bool
  | _, [] => true
  | p, c :: rest =>
    (!c.isJump || (decide (0 ≤ p + c.arg) && decide (p + c.arg ≤ len))) &&
      jumpsWithinFrom len (p + 1) rest

/-- Whether every jump of the template lands inside it or at its end. -/
def jumpsWithin (code : List command) : Bool := jumpsWithinFrom code.length 0 code

/-- The program `x := a * b` over three variables of `MAIN`, used to exercise the
multiplication of two identifiers. -/
def tableThreeVars : SymbolTable :=
  { iterator := "", one := false,
    vars := [("a:MAIN", ⟨"a", "MAIN", true, 11, false⟩),
             ("b:MAIN", ⟨"b", "MAIN", true, 12, false⟩),
             ("x:MAIN", ⟨"x", "MAIN", false, 13, false⟩)],
    arrays := [], procedures := [], currentMemoryPosition := 14 }

/-- A machine at address 0 whose cells 11 and 12 hold `a` and `b`; every other
cell holds `junk`. -/
def machineWith (a b junk : Int) : VM :=
  { pc := 0, mem := fun x => if x = 11 then a else if x = 12 then b else junk,
    input := [], output := [], halted := false }

/-- The simple identifier `x`. -/
def simpleId (x : String) : IdentifierNode := ⟨.SIMPLE, x, 0, ""⟩

/-- The AST of the program
`n, s  READ n; s := 0; FOR i FROM 1 TO n DO s := s + i ENDFOR; WRITE s`. -/
def sumProgram : ProgramNode :=
  { procedures := .null,
    main :=
      { declarations := [⟨"n", false, 0, 0⟩, ⟨"s", false, 0, 0⟩],
        commands :=
          .cons (.read (simpleId "n")) <|
          .cons (.assignment (simpleId "s") (.value (.number 0))) <|
          .cons (.forTo "i" (.number 1) (.identifier (simpleId "n"))
            (.cons (.assignment (simpleId "s")
              (.binary ⟨.identifier (simpleId "s"), "+", .identifier (simpleId "i")⟩)) .nil)) <|
          .cons (.write (.identifier (simpleId "s"))) .nil } }

/-- The instructions the compiler emits for `sumProgram` (`n`, `s`, `i` in cells
11, 12, 13). -/
def sumCode : List command :=
  [⟨"GET", 11⟩, ⟨"SET", 0⟩, ⟨"STORE", 12⟩, ⟨"SET", 1⟩, ⟨"STORE", 10⟩, ⟨"LOAD", 11⟩,
   ⟨"ADD", 10⟩, ⟨"STORE", 9⟩, ⟨"SET", 1⟩, ⟨"STORE", 13⟩, ⟨"SUB", 9⟩, ⟨"JZERO", 8⟩,
   ⟨"LOAD", 12⟩, ⟨"ADD", 13⟩, ⟨"STORE", 12⟩, ⟨"LOAD", 13⟩, ⟨"ADD", 10⟩, ⟨"STORE", 13⟩,
   ⟨"JUMP", -8⟩, ⟨"PUT", 12⟩, ⟨"HALT", 0⟩]

/-- The AST of the program with the procedure `p(a, T t)` whose body is
`t[0] := a * a`, and the main block `x, arr[0:0]  READ x; p(x, arr); WRITE arr[0]`. -/
def squareProgram : ProgramNode :=
  { procedures := .node (.procedureNode .null ⟨"p", [⟨"a", false⟩, ⟨"t", true⟩]⟩ []
      (.cons (.assignment ⟨.INDEXED_NUM, "t", 0, ""⟩
        (.binary ⟨.identifier (simpleId "a"), "*", .identifier (simpleId "a")⟩)) .nil)),
    main :=
      { declarations := [⟨"x", false, 0, 0⟩, ⟨"arr", true, 0, 0⟩],
        commands :=
          .cons (.read (simpleId "x")) <|
          .cons (.procCall "p" ["x", "arr"]) <|
          .cons (.write (.identifier ⟨.INDEXED_NUM, "arr", 0, ""⟩)) .nil } }

/-- The symbol table the semantic pass builds for `squareProgram`: the return
cell of `p` is 11, its formals `a` and `t` are cells 12 and 13, and the
variable `x` and the array `arr[0:0]` of `MAIN` are cells 14 and 15. -/
def squareTable : SymbolTable :=
  match squareProgram.traverseAndAnalyze SymbolTable.new with
  | .ok _ st => st
  | _ => SymbolTable.new

/-- The instructions the compiler emits for `squareProgram`. -/
def squareCode : List command :=
  [⟨"JUMP", 54⟩, ⟨"SET", 0⟩, ⟨"ADD", 13⟩, ⟨"STORE", 8⟩, ⟨"LOAD", 12⟩, ⟨"JZERO", 47⟩,
   ⟨"JPOS", 3⟩, ⟨"SUB", 12⟩, ⟨"SUB", 12⟩, ⟨"STORE", 1⟩, ⟨"LOAD", 12⟩, ⟨"JZERO", 41⟩,
   ⟨"JPOS", 3⟩, ⟨"SUB", 12⟩, ⟨"SUB", 12⟩, ⟨"STORE", 2⟩, ⟨"SUB", 0⟩, ⟨"STORE", 3⟩,
   ⟨"LOAD", 2⟩, ⟨"JPOS", 2⟩, ⟨"JUMP", 20⟩, ⟨"HALF", 0⟩, ⟨"ADD", 0⟩, ⟨"SUB", 2⟩,
   ⟨"STORE", 5⟩, ⟨"SET", 1⟩, ⟨"STORE", 10⟩, ⟨"ADD", 5⟩, ⟨"JZERO", 2⟩, ⟨"JUMP", 4⟩,
   ⟨"LOAD", 3⟩, ⟨"ADD", 1⟩, ⟨"STORE", 3⟩, ⟨"LOAD", 1⟩, ⟨"ADD", 1⟩, ⟨"STORE", 1⟩,
   ⟨"LOAD", 2⟩, ⟨"HALF", 0⟩, ⟨"STORE", 2⟩, ⟨"JUMP", -21⟩, ⟨"LOAD", 12⟩, ⟨"JPOS", 4⟩,
   ⟨"LOAD", 12⟩, ⟨"JNEG", 8⟩, ⟨"JUMP", 3⟩, ⟨"LOAD", 12⟩, ⟨"JPOS", 5⟩, ⟨"LOAD", 3⟩,
   ⟨"SUB", 3⟩, ⟨"SUB", 3⟩, ⟨"JUMP", 2⟩, ⟨"LOAD", 3⟩, ⟨"STOREI", 8⟩, ⟨"RTRN", 11⟩,
   ⟨"GET", 14⟩, ⟨"LOAD", 14⟩, ⟨"STORE", 12⟩, ⟨"SET", 15⟩, ⟨"STORE", 13⟩, ⟨"SET", 62⟩,
   ⟨"STORE", 11⟩, ⟨"JUMP", -60⟩, ⟨"LOAD", 12⟩, ⟨"STORE", 14⟩, ⟨"PUT", 15⟩, ⟨"HALT", 0⟩]

/-- The table after `a` is declared in `MAIN`. -/
def tableVar : SymbolTable :=
  { iterator := "", one := false,
    vars := [("a:MAIN", ⟨"a", "MAIN", false, 11, false⟩)], arrays := [], procedures := [],
    currentMemoryPosition := 12 }

/-- The table after `a` and then the array `a[0:5]` are declared in `MAIN`. -/
def tableVarAndArray : SymbolTable :=
  match SymbolTable.new.addVariable "a" "MAIN" with
  | .ok _ st1 =>
    match st1.addArray "a" "MAIN" 0 5 with
    | .ok _ st2 => st2
    | _ => st1
  | _ => SymbolTable.new

/-- The kind of failure of an emission result, when it is one. -/
def genErrorOf {α : Type} : Except GenError α → Option GenError
  | .ok _ => none
  | .error err => some err

/-- A table inside the body of a for-loop over `i` in `MAIN`: the iterator `i`
is declared, initialised and active. -/
def tableInLoop : SymbolTable :=
  { iterator := "i", one := false,
    vars := [("i:MAIN", ⟨"i", "MAIN", true, 11, false⟩)], arrays := [], procedures := [],
    currentMemoryPosition := 12 }

/-- The table `tableInLoop` with the procedure `p(a)` declared in `GLOBAL`. -/
def tableInLoopCall : SymbolTable :=
  { tableInLoop with
    procedures := [("p:GLOBAL", ⟨"p", [.variableParam ⟨"a", "p", true, 0, false⟩],
      "GLOBAL", none, none, ⟨"return", "GLOBAL", true, 11, false⟩⟩)] }

/-- The AST of the program with the procedure `p(a)` whose body is `a := 0`, and
the main block `FOR i FROM 1 TO 3 DO p(i) ENDFOR`. -/
def iterArgProgram : ProgramNode :=
  { procedures := .node (.procedureNode .null ⟨"p", [⟨"a", false⟩]⟩ []
      (.cons (.assignment (simpleId "a") (.value (.number 0))) .nil)),
    main :=
      { declarations := [],
        commands :=
          .cons (.forTo "i" (.number 1) (.number 3)
            (.cons (.procCall "p" ["i"]) .nil)) .nil } }

/-- The instructions the compiler emits for `iterArgProgram`: the return cell of
`p` is 11, its formal `a` is cell 12 and the iterator `i` is cell 13; the call
in the loop body ends with the copy-out `LOAD 12; STORE 13` into the iterator. -/
def iterArgCode : List command :=
  [⟨"JUMP", 4⟩, ⟨"SET", 0⟩, ⟨"STORE", 12⟩, ⟨"RTRN", 11⟩, ⟨"SET", 1⟩, ⟨"STORE", 10⟩,
   ⟨"SET", 3⟩, ⟨"ADD", 10⟩, ⟨"STORE", 9⟩, ⟨"SET", 1⟩, ⟨"STORE", 13⟩, ⟨"SUB", 9⟩,
   ⟨"JZERO", 12⟩, ⟨"LOAD", 13⟩, ⟨"STORE", 12⟩, ⟨"SET", 18⟩, ⟨"STORE", 11⟩, ⟨"JUMP", -16⟩,
   ⟨"LOAD", 12⟩, ⟨"STORE", 13⟩, ⟨"LOAD", 13⟩, ⟨"ADD", 10⟩, ⟨"STORE", 13⟩, ⟨"JUMP", -12⟩,
   ⟨"HALT", 0⟩]

/-- The AST of a program with two procedures held in the nested form: the node
of `q` (declared second) has the node of `p` (declared first) as its
`procedures` child. The body of `p` is the call `q()`, the body of `q` is the
call `p()`, and the main block is the call `p()`. -/
def mutualProgram : ProgramNode :=
  { procedures := .node (.procedureNode
      (.node (.procedureNode .null ⟨"p", []⟩ [] (.cons (.procCall "q" []) .nil)))
      ⟨"q", []⟩ [] (.cons (.procCall "p" []) .nil)),
    main := { declarations := [], commands := .cons (.procCall "p" []) .nil } }

/-- The same two procedures held in a `ProceduresNode` list, `p` first. -/
def mutualListProgram : ProgramNode :=
  { procedures := .node (.proceduresNode
      (.cons (.procedureNode .null ⟨"p", []⟩ [] (.cons (.procCall "q" []) .nil))
      (.cons (.procedureNode .null ⟨"q", []⟩ [] (.cons (.procCall "p" []) .nil)) .nil))),
    main := { declarations := [], commands := .cons (.procCall "p" []) .nil } }

/-- The symbol table the semantic pass builds for `mutualProgram`. -/
def mutualTable : SymbolTable :=
  match mutualProgram.traverseAndAnalyze SymbolTable.new with
  | .ok _ st => st
  | _ => SymbolTable.new

/-- The kind test of one position as the specification words it: the actual
names a variable of `scope` when the formal is a scalar, an array of `scope`
when the formal is an array. -/
def kindMatches (st : SymbolTable) (scope : String) (formal : Param) (actual : String) : Prop :=
  match formal with
  | .variableParam _ => st.variableExists actual scope = true
  | .arrayParam _ => st.arrayExists actual scope = true

/-- The signature test as the specification words it: the procedure is declared
in `GLOBAL`, the numbers of actuals and formals agree, and the kinds match at
every position. -/
def signatureMatches (st : SymbolTable) (procedureName scope : String) (actuals : List String) :
    Prop :=
  ∃ procedure, st.getProcedure procedureName "GLOBAL" = some procedure ∧
    procedure.params.length = actuals.length ∧
    ∀ (i : Nat) (formal : Param) (actual : String),
      procedure.params[i]? = some formal → actuals[i]? = some actual →
      kindMatches st scope formal actual

/-- The kind test of one position as `isParamsTypeCorrect` performs it: the
variables of `scope` are consulted first, its arrays only for a name that is
not a variable. -/
def kindMatchesVariableFirst (st : SymbolTable) (scope : String) (formal : Param)
    (actual : String) : Prop :=
  match formal with
  | .variableParam _ => st.variableExists actual scope = true
  | .arrayParam _ => st.variableExists actual scope = false ∧ st.arrayExists actual scope = true

/-- The AST of the program with the procedure `p(T t)` and the main block
declaring the variable `a` and the array `a[0:5]` and calling `p(a)`. -/
def sameNameProgram : ProgramNode :=
  { procedures := .node (.procedureNode .null ⟨"p", [⟨"t", true⟩]⟩ []
      (.cons (.write (.number 0)) .nil)),
    main :=
      { declarations := [⟨"a", false, 0, 0⟩, ⟨"a", true, 0, 5⟩],
        commands := .cons (.procCall "p" ["a"]) .nil } }

/-- The symbol table at the call `p(a)` of `sameNameProgram`, where the
semantic pass stops. -/
def sameNameTable : SymbolTable :=
  match sameNameProgram.traverseAndAnalyze SymbolTable.new with
  | .thrown _ st => st
  | _ => SymbolTable.new


deriving instance DecidableEq for Except

deriving instance DecidableEq for Sem

/-- The body of the procedure `p(a, T t)` of `squareProgram`: `t[0] := a * a`. -/
def squareBody : Commands :=
  .cons (.assignment ⟨.INDEXED_NUM, "t", 0, ""⟩
    (.binary ⟨.identifier (simpleId "a"), "*", .identifier (simpleId "a")⟩)) .nil

/-- The code generator and the table after the procedure of `squareProgram` is
emitted, starting from the placeholder `JUMP 0`. -/
def squareProcEmitted : CodeGenerator × SymbolTable :=
  match ProcTree.generateCode
      (.procedureNode .null ⟨"p", [⟨"a", false⟩, ⟨"t", true⟩]⟩ [] squareBody)
      (CodeGenerator.new.emit "JUMP" 0) squareTable "GLOBAL" with
  | .ok r => r
  | .error _ => (CodeGenerator.new, SymbolTable.new)

/-- The code generator and the table after the call `p(x, arr)` is emitted in
`MAIN`, right after the procedure. -/
def squareCallEmitted : CodeGenerator × SymbolTable :=
  match Command.generateCode (.procCall "p" ["x", "arr"]) squareProcEmitted.1
      squareProcEmitted.2 "MAIN" with
  | .ok r => r
  | .error _ => (CodeGenerator.new, SymbolTable.new)
/-- The line counter of the code generator agrees with the number of emitted
instructions. -/
def CodeGenerator.WF (cg : CodeGenerator) : Prop := cg.currentLine = cg.generatedCode.length

/-- The instruction `c` at address `i`, when it is a jump, lands in `[0, len]`. -/
def Good (len : Int) (i : Nat) (c : command) : Prop :=
  c.isJump = true → 0 ≤ (i : Int) + c.arg ∧ (i : Int) + c.arg ≤ len

/-- What a stretch of emission does to the code generator: from `cg` to `cg1`
the line counter stays in step, the instructions already present keep their
place and content, and every instruction from the old end on, except at the
addresses in `E`, is a jump landing at most `k` past the new end, if it is a
jump at all. -/
structure Appends (E : Nat → Prop) (k : Nat) (cg cg1 : CodeGenerator) : Prop where
  wf : cg1.WF
  le : cg.generatedCode.length ≤ cg1.generatedCode.length
  old : ∀ i, i < cg.generatedCode.length → cg1.generatedCode[i]? = cg.generatedCode[i]?
  good : ∀ i c, cg.generatedCode.length ≤ i → ¬ E i → cg1.generatedCode[i]? = some c →
    Good (cg1.generatedCode.length + k) i c

/-- No address is excepted. -/
def noAddress : Nat → Prop := fun _ => False

/-- What emission leaves alone in the symbol table at the level of commands: the
variables and the procedures, which arrays exist, and the per-index
initialisation entries of every array. -/
structure SameSymbols (st st1 : SymbolTable) : Prop where
  vars : st1.vars = st.vars
  procedures : st1.procedures = st.procedures
  arrays : ∀ key, (mapFind key st1.arrays).isSome = (mapFind key st.arrays).isSome
  entries : ∀ key, (mapFind key st1.arrays).map Array.isInitialized =
    (mapFind key st.arrays).map Array.isInitialized

/-- Every jump label recorded in the table is an address in `[0, len]`. -/
def LabelsOK (procedures : List (String × Procedure)) (len : Int) : Prop :=
  ∀ key p j, mapFind key procedures = some p → p.jumpLabel = some j → 0 ≤ j ∧ j ≤ len

/-- The displacement of a jump instruction, `none` for any other instruction. -/
def command.jumpPart (c : command) : Option Int := if c.isJump then some c.arg else none

/-- The check of `jumpsWithinFrom` on the displacements alone. -/
def partsWithinFrom (len : Int) : Int → List (Option Int) → Bool
  | _, [] => true
  | p, none :: rest => partsWithinFrom len (p + 1) rest
  | p, some d :: rest =>
    (decide (0 ≤ p + d) && decide (p + d ≤ len)) && partsWithinFrom len (p + 1) rest

/-- A run of instructions none of which is a jump. -/
def PlainCode (code : List command) : Prop := code.all (fun c => !c.isJump) = true

/-- A run of instructions whose jumps, counted from the start of the run, land
inside the run or at most `k` past its end. -/
def LocalJumps (k : Int) (code : List command) : Prop :=
  ∀ (i : Nat) (c : command), code[i]? = some c → c.isJump = true →
    0 ≤ (i : Int) + c.arg ∧ (i : Int) + c.arg ≤ code.length + k

/-- What the emission of a command does: it keeps the symbols of the table and,
started on a code generator in step whose recorded labels are valid, only
appends instructions whose jumps land inside the code. -/
def Framed (cg : CodeGenerator) (st : SymbolTable) (cg1 : CodeGenerator) (st1 : SymbolTable) :
    Prop :=
  SameSymbols st st1 ∧
    (cg.WF → LabelsOK st.procedures cg.generatedCode.length → Appends noAddress 0 cg cg1)

/-- A procedure entry without its jump label. -/
def Procedure.sansLabel (p : Procedure) : Procedure := { p with jumpLabel := none }

/-- What emission leaves alone in the symbol table at the level of procedures:
the variables, which arrays exist, every procedure entry up to its jump
label, and the per-index initialisation entries of every array. -/
structure SameEntities (st st1 : SymbolTable) : Prop where
  vars : st1.vars = st.vars
  arrays : ∀ key, (mapFind key st1.arrays).isSome = (mapFind key st.arrays).isSome
  procedures : ∀ key, (mapFind key st1.procedures).map Procedure.sansLabel =
    (mapFind key st.procedures).map Procedure.sansLabel
  entries : ∀ key, (mapFind key st1.arrays).map Array.isInitialized =
    (mapFind key st.arrays).map Array.isInitialized

/-- What the emission of procedures does: it keeps the entities of the table
and, started on a code generator in step whose recorded labels are valid, only
appends instructions whose jumps land inside the code, and records valid
labels. -/
def ProcFramed (cg : CodeGenerator) (st : SymbolTable) (cg1 : CodeGenerator)
    (st1 : SymbolTable) : Prop :=
  SameEntities st st1 ∧
    (cg.WF → LabelsOK st.procedures cg.generatedCode.length →
      Appends noAddress 0 cg cg1 ∧ LabelsOK st1.procedures cg1.generatedCode.length)

/-- The table `st1` still answers every lookup `st` answers: no variable, array
or procedure has gone, and no procedure has lost a formal parameter. -/
structure Keeps (st st1 : SymbolTable) : Prop where
  vars : ∀ key, (mapFind key st.vars).isSome = true → (mapFind key st1.vars).isSome = true
  arrays : ∀ key, (mapFind key st.arrays).isSome = true → (mapFind key st1.arrays).isSome = true
  procedures : ∀ key p, mapFind key st.procedures = some p →
    ∃ p1, mapFind key st1.procedures = some p1 ∧ p.params.length ≤ p1.params.length

/-- No procedure of the table has a jump label yet. -/
def NoLabels (st : SymbolTable) : Prop :=
  ∀ key p, mapFind key st.procedures = some p → p.jumpLabel = none

/-- What the semantic pass does to the table over a command: nothing is lost and
the procedures are untouched. -/
def VarStep (st st1 : SymbolTable) : Prop := Keeps st st1 ∧ st1.procedures = st.procedures

/-- What the semantic pass does to the table in general: nothing is lost and no
jump label is set. -/
def Analysed (st st1 : SymbolTable) : Prop := Keeps st st1 ∧ (NoLabels st → NoLabels st1)

/-- The table answers the lookups emission makes for the identifier. -/
def IdentifierNode.Ready (n : IdentifierNode) (st : SymbolTable) (scope : String) : Prop :=
  match n.identifierType with
  | .SIMPLE => st.variableExists n.pidentifier scope = true
  | .INDEXED_ID =>
    st.arrayExists n.pidentifier scope = true ∧ st.variableExists n.indexIdentifier scope = true
  | .INDEXED_NUM => st.arrayExists n.pidentifier scope = true

/-- The table answers the lookups emission makes for the value. -/
def ValueNode.Ready : ValueNode → SymbolTable → String → Prop
  | .number _, _, _ => True
  | .identifier n, st, scope => n.Ready st scope

/-- The table answers the lookups emission makes for the right-hand side. -/
def Expression.Ready : Expression → SymbolTable → String → Prop
  | .value v, st, scope => v.Ready st scope
  | .binary e, st, scope => e.leftValue.Ready st scope ∧ e.rightValue.Ready st scope

/-- The table answers the lookups emission makes for the condition. -/
def ConditionNode.Ready (c : ConditionNode) (st : SymbolTable) (scope : String) : Prop :=
  c.leftValue.Ready st scope ∧ c.rightValue.Ready st scope

mutual
/-- The table answers the lookups emission makes for the command: every
variable, array and procedure it dereferences is present, and a called
procedure has a formal for every actual. -/
def Command.Ready : Command → SymbolTable → String → Prop
  | .assignment identifier expression, st, scope =>
    identifier.Ready st scope ∧ expression.Ready st scope
  | .ifElse condition truecommands falsecommands, st, scope =>
    condition.Ready st scope ∧ truecommands.Ready st scope ∧ falsecommands.Ready st scope
  | .ifThen condition truecommands, st, scope =>
    condition.Ready st scope ∧ truecommands.Ready st scope
  | .whileDo condition commands, st, scope =>
    condition.Ready st scope ∧ commands.Ready st scope
  | .repeatUntil commands condition, st, scope =>
    commands.Ready st scope ∧ condition.Ready st scope
  | .forTo pidentifier fromvalue tovalue commands, st, scope =>
    st.variableExists pidentifier scope = true ∧ fromvalue.Ready st scope ∧
      tovalue.Ready st scope ∧ commands.Ready st scope
  | .forDownTo pidentifier fromvalue downtovalue commands, st, scope =>
    st.variableExists pidentifier scope = true ∧ fromvalue.Ready st scope ∧
      downtovalue.Ready st scope ∧ commands.Ready st scope
  | .procCall pidentifier args, st, _ =>
    ∃ p, st.getProcedure pidentifier "GLOBAL" = some p ∧ args.length ≤ p.params.length
  | .read identifier, st, scope => identifier.Ready st scope
  | .write value, st, scope => value.Ready st scope
/-- The table answers the lookups emission makes for each command. -/
def Commands.Ready : Commands → SymbolTable → String → Prop
  | .nil, _, _ => True
  | .cons command rest, st, scope => command.Ready st scope ∧ rest.Ready st scope
end

mutual
/-- The table answers the lookups emission makes for the procedures. -/
def ProcTree.Ready : ProcTree → SymbolTable → String → Prop
  | .proceduresNode procedures, st, scope => procedures.Ready st scope
  | .procedureNode procedures proc_head _ commands, st, scope =>
    procedures.Ready st scope ∧ st.procedureExists proc_head.pidentifier scope = true ∧
      commands.Ready st proc_head.pidentifier
/-- The table answers the lookups emission makes for each procedure. -/
def ProcList.Ready : ProcList → SymbolTable → String → Prop
  | .nil, _, _ => True
  | .cons procedure rest, st, scope => procedure.Ready st scope ∧ rest.Ready st scope
/-- The table answers the lookups emission makes for the procedures, if any. -/
def OptProcTree.Ready : OptProcTree → SymbolTable → String → Prop
  | .null, _, _ => True
  | .node procedures, st, scope => procedures.Ready st scope
end

/-- The table answers the lookups emission makes for the program. -/
def ProgramNode.Ready (p : ProgramNode) (st : SymbolTable) : Prop :=
  p.procedures.Ready st "GLOBAL" ∧ p.main.commands.Ready st "MAIN"

/-- An emission result is not a failed lookup: it is a normal return, or the
read of a jump label that was never set, or the trap of a division of two
literals. -/
def NoFailedLookup {α : Type} (r : Except GenError α) : Prop :=
  ∀ err, r = .error err → err = .indeterminate ∨ err = .arithmeticTrap

/-- What the semantic pass can meet that bears on initialisation: the declaration
of a scalar formal parameter, a simple variable as the target of an assignment
or of a `READ`, as the iterator of a for-loop or as an actual argument of a
call, and a simple variable as an operand of a binary arithmetic expression. -/
inductive EventKind where
  | formal
  | assigned
  | read
  | iterator
  | argument
  | use
deriving DecidableEq, Repr

/-- One such occurrence: its kind, the name involved, and the scope the
semantic pass is in. -/
structure Event where
  kind : EventKind
  name : String
  scope : String
deriving DecidableEq, Repr

/-- The arithmetic use of an operand: an event when the operand is a simple
variable. -/
def ValueNode.uses : ValueNode → String → List Event
  | .identifier n, scope =>
    if n.identifierType = .SIMPLE then [⟨.use, n.pidentifier, scope⟩] else []
  | .number _, _ => []

/-- The arithmetic uses of a right-hand side, left operand first; a plain
value is not an arithmetic expression. -/
def Expression.uses : Expression → String → List Event
  | .binary e, scope => e.leftValue.uses scope ++ e.rightValue.uses scope
  | .value _, _ => []

/-- The write of an identifier: an event when it is a simple variable. -/
def IdentifierNode.written (n : IdentifierNode) (kind : EventKind) (scope : String) :
    List Event :=
  if n.identifierType = .SIMPLE then [⟨kind, n.pidentifier, scope⟩] else []

mutual
/-- The events of a command, in the order `traverseAndAnalyze` meets them: an
assignment checks its right-hand side and then marks its target. -/
def Command.events : Command → String → List Event
  | .assignment identifier expression, scope =>
    expression.uses scope ++ identifier.written .assigned scope
  | .ifElse _ truecommands falsecommands, scope =>
    truecommands.events scope ++ falsecommands.events scope
  | .ifThen _ truecommands, scope => truecommands.events scope
  | .whileDo _ commands, scope => commands.events scope
  | .repeatUntil commands _, scope => commands.events scope
  | .forTo pidentifier _ _ commands, scope =>
    ⟨.iterator, pidentifier, scope⟩ :: commands.events scope
  | .forDownTo pidentifier _ _ commands, scope =>
    ⟨.iterator, pidentifier, scope⟩ :: commands.events scope
  | .procCall _ args, scope => args.map fun a => ⟨.argument, a, scope⟩
  | .read identifier, scope => identifier.written .read scope
  | .write _, _ => []
/-- The events of a run of commands. -/
def Commands.events : Commands → String → List Event
  | .nil, _ => []
  | .cons command rest, scope => command.events scope ++ rest.events scope
end

/-- The event of a formal parameter declaration (scalar formals only). -/
def ArgsdeclNode.events (d : ArgsdeclNode) (scope : String) : List Event :=
  if d.isArray then [] else [⟨.formal, d.pidentifier, scope⟩]

/-- The events of the formal parameter declarations. -/
def argsdeclsEvents : List ArgsdeclNode → String → List Event
  | [], _ => []
  | d :: rest, scope => d.events scope ++ argsdeclsEvents rest scope

mutual
/-- The events of the procedures, in the order `traverseAndAnalyze` meets them:
the nested procedures, then the formals, then the body, in the scope named
after the procedure. -/
def ProcTree.events : ProcTree → List Event
  | .proceduresNode procedures => procedures.events
  | .procedureNode procedures proc_head _ commands =>
    procedures.events ++ argsdeclsEvents proc_head.args_decl proc_head.pidentifier ++
      commands.events proc_head.pidentifier
/-- The events of a vector of procedures. -/
def ProcList.events : ProcList → List Event
  | .nil => []
  | .cons procedure rest => procedure.events ++ rest.events
/-- The events of a possibly null `procedures` child. -/
def OptProcTree.events : OptProcTree → List Event
  | .null => []
  | .node procedures => procedures.events
end

/-- The events of a program: the procedures, then the main block in scope
`MAIN`. -/
def ProgramNode.events (p : ProgramNode) : List Event :=
  p.procedures.events ++ p.main.commands.events "MAIN"

/-- Every variable of the table that is marked initialised or marked as an
argument has, in the trace, an initialising event under its key. -/
def Flagged (st : SymbolTable) (tr : List Event) : Prop :=
  ∀ key v, mapFind key st.vars = some v → (v.isInitialized = true ∨ v.isArgument = true) →
    ∃ e ∈ tr, e.kind ≠ .use ∧ mkKey e.name e.scope = key

/-- Every arithmetic use in the trace comes after an initialising event under
the same key. -/
def Sound (tr : List Event) : Prop :=
  ∀ (i : Nat) (name scope : String), tr[i]? = some ⟨.use, name, scope⟩ →
    ∃ (j : Nat) (e : Event), j < i ∧ tr[j]? = some e ∧ e.kind ≠ .use ∧
      mkKey e.name e.scope = mkKey name scope

/-- The table and the trace of the semantic pass so far agree. -/
def Traced (st : SymbolTable) (tr : List Event) : Prop := Flagged st tr ∧ Sound tr

/-- The AST of the program `a, b  READ a; b := a + 1; WRITE b`. -/
def incrementProgram : ProgramNode :=
  { procedures := .null,
    main :=
      { declarations := [⟨"a", false, 0, 0⟩, ⟨"b", false, 0, 0⟩],
        commands :=
          .cons (.read (simpleId "a")) <|
          .cons (.assignment (simpleId "b")
            (.binary ⟨.identifier (simpleId "a"), "+", .number 1⟩)) <|
          .cons (.write (.identifier (simpleId "b"))) .nil } }

/-- The symbol table the semantic pass builds for `incrementProgram`. -/
def incrementTable : SymbolTable :=
  match incrementProgram.traverseAndAnalyze SymbolTable.new with
  | .ok _ st => st
  | _ => SymbolTable.new
/-- The output of the compiled program on the given input, when the compiler
produces code and the run halts within `fuel` steps. -/
def runProgram (p : ProgramNode) (input : List Int) (fuel : Nat) : Option (List Int) :=
  match compile p with
  | some code =>
    let s := VM.steps code fuel (VM.init input)
    if s.halted then some s.output else none
  | none => none

/-- The array cell `name[index]` with a literal index. -/
def cellAt (name : String) (index : Int) : IdentifierNode := ⟨.INDEXED_NUM, name, index, ""⟩

/-- The array cell `name[indexName]` with a variable index. -/
def cellBy (name indexName : String) : IdentifierNode := ⟨.INDEXED_ID, name, 0, indexName⟩

/-- The AST of the program
`x, i, t[0:2]  x := 3; i := 0; t[0] := 5; IF x > t[i] THEN WRITE 1; ELSE WRITE 0; ENDIF`. -/
def compareCellProgram : ProgramNode :=
  { procedures := .null,
    main :=
      { declarations := [⟨"x", false, 0, 0⟩, ⟨"i", false, 0, 0⟩, ⟨"t", true, 0, 2⟩],
        commands :=
          .cons (.assignment (simpleId "x") (.value (.number 3))) <|
          .cons (.assignment (simpleId "i") (.value (.number 0))) <|
          .cons (.assignment (cellAt "t" 0) (.value (.number 5))) <|
          .cons (.ifElse ⟨.identifier (simpleId "x"), ">", .identifier (cellBy "t" "i")⟩
            (.cons (.write (.number 1)) .nil) (.cons (.write (.number 0)) .nil)) .nil } }

/-- The symbol table the semantic pass builds for `compareCellProgram`: `x` and
`i` are cells 11 and 12, `t[0:2]` is cells 13 to 15. -/
def compareCellTable : SymbolTable :=
  match compareCellProgram.traverseAndAnalyze SymbolTable.new with
  | .ok _ st => st
  | _ => SymbolTable.new

/-- The AST of the program
`i, t[5:7]  i := 5; t[i] := 9; WRITE t[5]; WRITE t[i]`. -/
def storeCellProgram : ProgramNode :=
  { procedures := .null,
    main :=
      { declarations := [⟨"i", false, 0, 0⟩, ⟨"t", true, 5, 7⟩],
        commands :=
          .cons (.assignment (simpleId "i") (.value (.number 5))) <|
          .cons (.assignment (cellBy "t" "i") (.value (.number 9))) <|
          .cons (.write (.identifier (cellAt "t" 5))) <|
          .cons (.write (.identifier (cellBy "t" "i"))) .nil } }

/-- The symbol table the semantic pass builds for `storeCellProgram`: `i` is
cell 11, `t[5:7]` is cells 12 to 14. -/
def storeCellTable : SymbolTable :=
  match storeCellProgram.traverseAndAnalyze SymbolTable.new with
  | .ok _ st => st
  | _ => SymbolTable.new

/-- The AST of the program `i, t[0:2]  i := 1; READ t[i]; WRITE t[1]`. -/
def readCellProgram : ProgramNode :=
  { procedures := .null,
    main :=
      { declarations := [⟨"i", false, 0, 0⟩, ⟨"t", true, 0, 2⟩],
        commands :=
          .cons (.assignment (simpleId "i") (.value (.number 1))) <|
          .cons (.read (cellBy "t" "i")) <|
          .cons (.write (.identifier (cellAt "t" 1))) .nil } }

/-- The AST of the program with the procedure `p(T t)` whose body is
`READ t[0]`, and the main block `a[0:1]  p(a); WRITE a[0]`. -/
def readFormalProgram : ProgramNode :=
  { procedures := .node (.procedureNode .null ⟨"p", [⟨"t", true⟩]⟩ []
      (.cons (.read (cellAt "t" 0)) .nil)),
    main :=
      { declarations := [⟨"a", true, 0, 1⟩],
        commands :=
          .cons (.procCall "p" ["a"]) <|
          .cons (.write (.identifier (cellAt "a" 0))) .nil } }

/-- The AST of the program `x  x := l op r; WRITE x` with two literals. -/
def foldProgram (l : Int) (op : String) (r : Int) : ProgramNode :=
  { procedures := .null,
    main :=
      { declarations := [⟨"x", false, 0, 0⟩],
        commands :=
          .cons (.assignment (simpleId "x") (.binary ⟨.number l, op, .number r⟩)) <|
          .cons (.write (.identifier (simpleId "x"))) .nil } }

/-- The AST of the program `x, y  READ x; y := x op k; WRITE y` with a literal
right operand. -/
def byLiteralProgram (op : String) (k : Int) : ProgramNode :=
  { procedures := .null,
    main :=
      { declarations := [⟨"x", false, 0, 0⟩, ⟨"y", false, 0, 0⟩],
        commands :=
          .cons (.read (simpleId "x")) <|
          .cons (.assignment (simpleId "y")
            (.binary ⟨.identifier (simpleId "x"), op, .number k⟩)) <|
          .cons (.write (.identifier (simpleId "y"))) .nil } }

/-- The AST of the program `x, y  READ x; y := k op x; WRITE y` with a literal
left operand. -/
def literalByProgram (k : Int) (op : String) : ProgramNode :=
  { procedures := .null,
    main :=
      { declarations := [⟨"x", false, 0, 0⟩, ⟨"y", false, 0, 0⟩],
        commands :=
          .cons (.read (simpleId "x")) <|
          .cons (.assignment (simpleId "y")
            (.binary ⟨.number k, op, .identifier (simpleId "x")⟩)) <|
          .cons (.write (.identifier (simpleId "y"))) .nil } }

/-- The AST of the program
`a, b, c, x  READ a; READ b; c := a * a; x := a / b; WRITE x`. -/
def divideAfterProgram : ProgramNode :=
  { procedures := .null,
    main :=
      { declarations := [⟨"a", false, 0, 0⟩, ⟨"b", false, 0, 0⟩, ⟨"c", false, 0, 0⟩,
          ⟨"x", false, 0, 0⟩],
        commands :=
          .cons (.read (simpleId "a")) <|
          .cons (.read (simpleId "b")) <|
          .cons (.assignment (simpleId "c")
            (.binary ⟨.identifier (simpleId "a"), "*", .identifier (simpleId "a")⟩)) <|
          .cons (.assignment (simpleId "x")
            (.binary ⟨.identifier (simpleId "a"), "/", .identifier (simpleId "b")⟩)) <|
          .cons (.write (.identifier (simpleId "x"))) .nil } }

/-! ## The layout of the control structures -/

/-- The six comparison operators of the language. -/
def comparisonOps : List String := ["=", "!=", "<", ">", "<=", ">="]

/-- Modelled from the language: whether `left op right` holds, given the
difference `d = left - right`. -/
def comparisonHolds (op : String) (d : Int) : Bool :=
  if op = "=" then decide (d = 0)
  else if op = "!=" then decide (d ≠ 0)
  else if op = "<" then decide (d < 0)
  else if op = ">" then decide (0 < d)
  else if op = "<=" then decide (d ≤ 0)
  else if op = ">=" then decide (0 ≤ d)
  else false

/-- The block `cs` occupies the addresses `[start, stop)` of `prog`: emitted in
the scope `scope` on a code generator in step with `start` instructions, under
a table with the symbols of `st`, it brings the code to `stop` instructions,
and `prog` holds in `[start, stop)` the instructions it emitted. -/
def BlockAt (cs : Commands) (st : SymbolTable) (scope : String) (prog : List command)
    (start stop : Nat) : Prop :=
  ∃ (cgA : CodeGenerator) (stA : SymbolTable) (cgB : CodeGenerator) (stB : SymbolTable),
    SameSymbols st stA ∧ cgA.WF ∧ cs.generateCode cgA stA scope = .ok (cgB, stB) ∧
    cgA.generatedCode.length = start ∧ cgB.generatedCode.length = stop ∧
    ∀ i, start ≤ i → i < stop → prog[i]? = cgB.generatedCode[i]?

/-- Control arriving at the address `e` continues at `target`: the two are the
same address, or one step of a running machine at `e` moves it to `target` and
changes nothing else. -/
def ContinuesAt (prog : List command) (e target : Nat) : Prop :=
  e = target ∨
    ∀ s : VM, s.pc = (e : Int) → s.halted = false →
      VM.step prog s = { s with pc := (target : Int) }

/-- The program `prog` holds in `[start, stop)` the instructions of `code`. -/
def AgreesOn (prog code : List command) (start stop : Nat) : Prop :=
  ∀ i, start ≤ i → i < stop → prog[i]? = code[i]?

/-- The command `IF x > 0 THEN WRITE 1; ELSE WRITE 0; ENDIF`. -/
def signIfElse : Command :=
  .ifElse ⟨.identifier (simpleId "x"), ">", .number 0⟩
    (.cons (.write (.number 1)) .nil) (.cons (.write (.number 0)) .nil)

/-- The command `IF x = 0 THEN WRITE 1; ENDIF`. -/
def zeroIfThen : Command :=
  .ifThen ⟨.identifier (simpleId "x"), "=", .number 0⟩ (.cons (.write (.number 1)) .nil)

/-- The command `WHILE x > 0 DO x := x - 1; ENDWHILE`. -/
def countDownWhile : Command :=
  .whileDo ⟨.identifier (simpleId "x"), ">", .number 0⟩
    (.cons (.assignment (simpleId "x")
      (.binary ⟨.identifier (simpleId "x"), "-", .number 1⟩)) .nil)

/-- What `generateCode` emits for a command, started on an empty code generator
under the table of `compareCellProgram` in the scope `MAIN`. -/
def emittedAlone (c : Command) : CodeGenerator × SymbolTable :=
  match c.generateCode CodeGenerator.new compareCellTable "MAIN" with
  | .ok r => r
  | .error _ => (CodeGenerator.new, compareCellTable)

/-! ## Programs for the arithmetic short forms, the modulus by zero, the constant one, nested loops and `READ` into an array cell -/

/-- The AST of the program
`a, b, r  READ a; READ b; r := 5; r := a % b; WRITE r`. -/
def modZeroProgram : ProgramNode :=
  { procedures := .null,
    main :=
      { declarations := [⟨"a", false, 0, 0⟩, ⟨"b", false, 0, 0⟩, ⟨"r", false, 0, 0⟩],
        commands :=
          .cons (.read (simpleId "a")) <|
          .cons (.read (simpleId "b")) <|
          .cons (.assignment (simpleId "r") (.value (.number 5))) <|
          .cons (.assignment (simpleId "r")
            (.binary ⟨.identifier (simpleId "a"), "%", .identifier (simpleId "b")⟩)) <|
          .cons (.write (.identifier (simpleId "r"))) .nil } }

/-- The AST of the program `b, r  READ b; r := 5; r := 7 % b; WRITE r`. -/
def literalModZeroProgram : ProgramNode :=
  { procedures := .null,
    main :=
      { declarations := [⟨"b", false, 0, 0⟩, ⟨"r", false, 0, 0⟩],
        commands :=
          .cons (.read (simpleId "b")) <|
          .cons (.assignment (simpleId "r") (.value (.number 5))) <|
          .cons (.assignment (simpleId "r")
            (.binary ⟨.number 7, "%", .identifier (simpleId "b")⟩)) <|
          .cons (.write (.identifier (simpleId "r"))) .nil } }

/-- The AST of the program
`a, b, c, d, x, y  READ a; READ b; READ c; READ d; x := a * b; y := c * d; WRITE y`. -/
def twoProductsProgram : ProgramNode :=
  { procedures := .null,
    main :=
      { declarations := [⟨"a", false, 0, 0⟩, ⟨"b", false, 0, 0⟩, ⟨"c", false, 0, 0⟩,
          ⟨"d", false, 0, 0⟩, ⟨"x", false, 0, 0⟩, ⟨"y", false, 0, 0⟩],
        commands :=
          .cons (.read (simpleId "a")) <|
          .cons (.read (simpleId "b")) <|
          .cons (.read (simpleId "c")) <|
          .cons (.read (simpleId "d")) <|
          .cons (.assignment (simpleId "x")
            (.binary ⟨.identifier (simpleId "a"), "*", .identifier (simpleId "b")⟩)) <|
          .cons (.assignment (simpleId "y")
            (.binary ⟨.identifier (simpleId "c"), "*", .identifier (simpleId "d")⟩)) <|
          .cons (.write (.identifier (simpleId "y"))) .nil } }

/-- The machine running the code of `twoProductsProgram` on the given input,
after `n` steps. -/
def twoProductsRun (input : List Int) (n : Nat) : VM :=
  VM.steps ((compile twoProductsProgram).getD []) n (VM.init input)

/-- The AST of the program `FOR i FROM 1 TO 3 DO WRITE i; ENDFOR`. -/
def singleForProgram : ProgramNode :=
  { procedures := .null,
    main :=
      { declarations := [],
        commands :=
          .cons (.forTo "i" (.number 1) (.number 3)
            (.cons (.write (.identifier (simpleId "i"))) .nil)) .nil } }

/-- The AST of the program
`FOR i FROM 1 TO 3 DO FOR j FROM 1 TO 1 DO WRITE i; ENDFOR ENDFOR`. -/
def nestedForProgram : ProgramNode :=
  { procedures := .null,
    main :=
      { declarations := [],
        commands :=
          .cons (.forTo "i" (.number 1) (.number 3)
            (.cons (.forTo "j" (.number 1) (.number 1)
              (.cons (.write (.identifier (simpleId "i"))) .nil)) .nil)) .nil } }

/-- The machine running the code of `nestedForProgram`, after `n` steps. -/
def nestedForRun (n : Nat) : VM :=
  VM.steps ((compile nestedForProgram).getD []) n (VM.init [])

/-- The AST of the program `x, t[0:2]  READ t[1]; x := t[1] + 1; WRITE x`. -/
def readThenUseProgram : ProgramNode :=
  { procedures := .null,
    main :=
      { declarations := [⟨"x", false, 0, 0⟩, ⟨"t", true, 0, 2⟩],
        commands :=
          .cons (.read (cellAt "t" 1)) <|
          .cons (.assignment (simpleId "x")
            (.binary ⟨.identifier (cellAt "t" 1), "+", .number 1⟩)) <|
          .cons (.write (.identifier (simpleId "x"))) .nil } }

/-- The AST of the program `x, y  READ y; x := y + 1; WRITE x`. -/
def readThenUseSimple : ProgramNode :=
  { procedures := .null,
    main :=
      { declarations := [⟨"x", false, 0, 0⟩, ⟨"y", false, 0, 0⟩],
        commands :=
          .cons (.read (simpleId "y")) <|
          .cons (.assignment (simpleId "x")
            (.binary ⟨.identifier (simpleId "y"), "+", .number 1⟩)) <|
          .cons (.write (.identifier (simpleId "x"))) .nil } }

/-- The table after the declarations `x, t[0:2]` in `MAIN`: `x` is cell 11 and
`t[0:2]` is cells 12 to 14, nothing initialised. -/
def declaredCellTable : SymbolTable :=
  match declarationsAnalyze [⟨"x", false, 0, 0⟩, ⟨"t", true, 0, 2⟩] SymbolTable.new "MAIN" with
  | .ok _ st => st
  | _ => SymbolTable.new

/-- The message of an outcome that is a throw. -/
def Sem.message {α : Type} : Sem α → Option String
  | .thrown msg _ => some msg
  | _ => none


/-! ## The code generator and its serialisation -/

/-- The code generators a sequence of `emit` and `updateCommand` calls builds
from the constructor. -/
inductive CodeGenerator.Built : CodeGenerator → Prop
  | fresh : CodeGenerator.Built CodeGenerator.new
  | emitted (cg : CodeGenerator) (code : String) (arg : Int) :
      CodeGenerator.Built cg → CodeGenerator.Built (cg.emit code arg)
  | updated (cg : CodeGenerator) (line : Int) (code : String) (arg : Int) :
      CodeGenerator.Built cg → CodeGenerator.Built (cg.updateCommand line code arg)

/-- One iteration of the loop of `saveToFile` and of `print`: what the stream
holds after the instruction `c` is written behind `out`; `<<` on an `int64_t`
writes its decimal form. -/
def writeCommand (out : String) (c : command) : String :=
  if c.code = "HALT" ∨ c.code = "HALF" then out ++ c.code ++ "\n"
  else out ++ c.code ++ " " ++ toString c.arg ++ "\n"

/-- The method `saveToFile`: the content written to the file, or `none` when the
file could not be opened. -/
def CodeGenerator.saveToFile (cg : CodeGenerator) (opened : Bool) : Option String :=
  if !opened then none else some (cg.generatedCode.foldl writeCommand "")

/-- The method `print`: what is written to the standard output. -/
def CodeGenerator.printed (cg : CodeGenerator) : String :=
  cg.generatedCode.foldl writeCommand ""

/-- Modelled from the spec: the line of one instruction, the bare opcode for
`HALT` and `HALF`, and the opcode, one space and the decimal argument
otherwise, each ended by a newline. -/
def command.line (c : command) : String :=
  (if c.code = "HALT" ∨ c.code = "HALF" then c.code
   else c.code ++ " " ++ toString c.arg) ++ "\n"

/-- Modelled from the spec: the serialised form of an instruction sequence, the
concatenation of the lines of its instructions in order. -/
def serialized : List command → String
  | [] => ""
  | c :: rest => c.line ++ serialized rest

/-- The number of newline characters of a string. -/
def newlines (s : String) : Nat := s.data.count '\n'


/-- The AST of the program
`a, b, c, d, x, y  READ a; READ b; READ c; READ d; x := a * b; y := c / d; WRITE y`. -/
def quotientAfterProductProgram : ProgramNode :=
  { procedures := .null,
    main :=
      { declarations := [⟨"a", false, 0, 0⟩, ⟨"b", false, 0, 0⟩, ⟨"c", false, 0, 0⟩,
          ⟨"d", false, 0, 0⟩, ⟨"x", false, 0, 0⟩, ⟨"y", false, 0, 0⟩],
        commands :=
          .cons (.read (simpleId "a")) <|
          .cons (.read (simpleId "b")) <|
          .cons (.read (simpleId "c")) <|
          .cons (.read (simpleId "d")) <|
          .cons (.assignment (simpleId "x")
            (.binary ⟨.identifier (simpleId "a"), "*", .identifier (simpleId "b")⟩)) <|
          .cons (.assignment (simpleId "y")
            (.binary ⟨.identifier (simpleId "c"), "/", .identifier (simpleId "d")⟩)) <|
          .cons (.write (.identifier (simpleId "y"))) .nil } }

/-! ## The initialisation entries of the arrays -/

/-- The array has a per-index initialisation entry for exactly the indices
within its bounds. -/
def Array.Exact (a : Array) : Prop :=
  ∀ i : Int, (mapFind i a.isInitialized).isSome = true ↔ (a.startIndex ≤ i ∧ i ≤ a.endIndex)

/-- Every array of the table has its initialisation entries exactly within its
bounds. -/
def ArraysExact (st : SymbolTable) : Prop :=
  ∀ key a, mapFind key st.arrays = some a → a.Exact

/-- The table an outcome leaves behind, returned or thrown, satisfies `P`. -/
def Sem.Holds {α : Type} (P : SymbolTable → Prop) : Sem α → Prop
  | .ok _ st => P st
  | .thrown _ st => P st
  | .undefined => True

/-- What a stretch of the semantic pass does to the arrays: an array present
before is still present with the same bounds and the same argument mark, and
exact entries stay exact; an array that is new has exact entries. -/
structure ArraysKept (st st1 : SymbolTable) : Prop where
  old : ∀ key a, mapFind key st.arrays = some a →
    ∃ a1, mapFind key st1.arrays = some a1 ∧ a1.startIndex = a.startIndex ∧
      a1.endIndex = a.endIndex ∧ a1.isArgument = a.isArgument ∧ (a.Exact → a1.Exact)
  fresh : ∀ key a1, mapFind key st.arrays = none → mapFind key st1.arrays = some a1 → a1.Exact

/-- The identifier, when it is `name[number]`, names an array of the table and,
unless that array is an argument, an index within its bounds. -/
def IdentifierNode.InBounds (n : IdentifierNode) (st : SymbolTable) (scope : String) : Prop :=
  n.identifierType = .INDEXED_NUM →
    ∃ a, st.getArray n.pidentifier scope = some a ∧
      (a.isArgument = false → a.startIndex ≤ n.index ∧ n.index ≤ a.endIndex)

/-- The AST of a program with the procedure `p(T t)` whose body is `t[5] := 1`,
and the main block that declares `a[5:7]` and calls `p(a)`. -/
def boundsProgram : ProgramNode :=
  { procedures := .node (.procedureNode .null ⟨"p", [⟨"t", true⟩]⟩ []
      (.cons (.assignment ⟨.INDEXED_NUM, "t", 5, ""⟩ (.value (.number 1))) .nil)),
    main :=
      { declarations := [⟨"a", true, 5, 7⟩],
        commands := .cons (.procCall "p" ["a"]) .nil } }

/-- The symbol table the semantic pass builds for `boundsProgram`. -/
def boundsTable : SymbolTable :=
  match boundsProgram.traverseAndAnalyze SymbolTable.new with
  | .ok _ st => st
  | _ => SymbolTable.new

/-- The symbol table the emission pass leaves for `boundsProgram`. -/
def boundsEmitted : SymbolTable :=
  match boundsProgram.generateCode CodeGenerator.new boundsTable with
  | .ok (_, st) => st
  | .error _ => SymbolTable.new

/-- The code generator the emission pass leaves for `boundsProgram`. -/
def boundsCode : CodeGenerator :=
  match boundsProgram.generateCode CodeGenerator.new boundsTable with
  | .ok (cg, _) => cg
  | .error _ => CodeGenerator.new

/-! ## Programs for the trap of a literal division and for a forward call -/

/-- The symbol table the semantic pass builds for `x  x := l op r; WRITE x`. -/
def foldTable : SymbolTable :=
  match (foldProgram minInt64 "/" (-1)).traverseAndAnalyze SymbolTable.new with
  | .ok _ st => st
  | _ => SymbolTable.new

/-- The AST of a program whose first procedure calls the second: `p` has the
body `q()`, `q` has the body `WRITE 1`, and the main block is `p()`. The node of
`q`, declared second, has the node of `p` as its `procedures` child. -/
def forwardCallProgram : ProgramNode :=
  { procedures := .node (.procedureNode
      (.node (.procedureNode .null ⟨"p", []⟩ [] (.cons (.procCall "q" []) .nil)))
      ⟨"q", []⟩ [] (.cons (.write (.number 1)) .nil)),
    main := { declarations := [], commands := .cons (.procCall "p" []) .nil } }

/-- The symbol table the semantic pass builds for `forwardCallProgram`. -/
def forwardCallTable : SymbolTable :=
  match forwardCallProgram.traverseAndAnalyze SymbolTable.new with
  | .ok _ st => st
  | _ => SymbolTable.new

/-- The same two procedures with the call turned around: `q`, declared first,
has the body `WRITE 1`; `p`, declared second, has the body `q()`; the main
block is `p()`. -/
def backwardCallProgram : ProgramNode :=
  { procedures := .node (.procedureNode
      (.node (.procedureNode .null ⟨"q", []⟩ [] (.cons (.write (.number 1)) .nil)))
      ⟨"p", []⟩ [] (.cons (.procCall "q" []) .nil)),
    main := { declarations := [], commands := .cons (.procCall "p" []) .nil } }

/-! ## Lemmas on the association lists -/

theorem mapFind_mapSet_same {κ α : Type} [DecidableEq κ] (k : κ) (v : α) (m : List (κ × α)) :
    mapFind k (mapSet k v m) = some v := by
  induction m with
  | nil => simp [mapSet, mapFind]
  | cons p rest ih =>
    obtain ⟨k1, w⟩ := p
    by_cases h : k1 = k
    · simp [mapSet, mapFind, h]
    · simp [mapSet, mapFind, h, ih]

theorem mapFind_mapSet_ne {κ α : Type} [DecidableEq κ] (k k2 : κ) (v : α) (m : List (κ × α))
    (hne : k2 ≠ k) : mapFind k2 (mapSet k v m) = mapFind k2 m := by
  induction m with
  | nil => simp [mapSet, mapFind, Ne.symm hne]
  | cons p rest ih =>
    obtain ⟨k1, w⟩ := p
    by_cases h : k1 = k
    · subst h
      simp [mapSet, mapFind, Ne.symm hne]
    · by_cases h2 : k1 = k2
      · subst h2
        simp [mapSet, mapFind, h]
      · simp [mapSet, mapFind, h, h2, ih]

theorem mapSet_of_mapFind_none {κ α : Type} [DecidableEq κ] (k : κ) (v : α) (m : List (κ × α))
    (hn : mapFind k m = none) : mapSet k v m = m ++ [(k, v)] := by
  induction m with
  | nil => simp [mapSet]
  | cons p rest ih =>
    obtain ⟨k1, w⟩ := p
    by_cases h : k1 = k
    · simp [mapFind, h] at hn
    · simp [mapFind, h] at hn
      simp [mapSet, h, ih hn]

theorem mapFind_some_mem {κ α : Type} [DecidableEq κ] (k : κ) (v : α) (m : List (κ × α))
    (h : mapFind k m = some v) : (k, v) ∈ m := by
  induction m with
  | nil => simp [mapFind] at h
  | cons p rest ih =>
    obtain ⟨k1, w⟩ := p
    by_cases h1 : k1 = k
    · simp [mapFind, h1] at h
      simp [h1, h]
    · simp [mapFind, h1] at h
      exact List.mem_cons_of_mem _ (ih h)

theorem mapFind_none_of_not_mem {κ α : Type} [DecidableEq κ] (k : κ) (m : List (κ × α))
    (h : k ∉ m.map Prod.fst) : mapFind k m = none := by
  induction m with
  | nil => simp [mapFind]
  | cons p rest ih =>
    obtain ⟨k1, w⟩ := p
    simp at h
    have h1 : k1 ≠ k := fun e => h.1 e.symm
    simp [mapFind, h1]
    apply ih
    simpa using h.2

theorem mapFind_isSome_of_mem {κ α : Type} [DecidableEq κ] (k : κ) (v : α) (m : List (κ × α))
    (h : (k, v) ∈ m) : (mapFind k m).isSome = true := by
  induction m with
  | nil => simp at h
  | cons p rest ih =>
    obtain ⟨k1, w⟩ := p
    by_cases h1 : k1 = k
    · simp [mapFind, h1]
    · simp [mapFind, h1]
      apply ih
      simp at h
      rcases h with h | h
      · exact absurd h.1.symm h1
      · exact h


theorem list_split_unique (c : Char) :
    ∀ (l1 l2 r1 r2 : List Char), c ∉ l1 → c ∉ l2 → l1 ++ c :: r1 = l2 ++ c :: r2 →
      l1 = l2 ∧ r1 = r2 := by
  intro l1
  induction l1 with
  | nil =>
    intro l2 r1 r2 _ h2 h
    cases l2 with
    | nil => simpa using h
    | cons x xs =>
      simp at h
      simp at h2
      exact absurd h.1 (fun e => h2.1 e)
  | cons y ys ih =>
    intro l2 r1 r2 h1 h2 h
    cases l2 with
    | nil =>
      simp at h
      simp at h1
      exact absurd h.1.symm (fun e => h1.1 e)
    | cons x xs =>
      simp at h h1 h2
      obtain ⟨e1, e2⟩ := ih xs r1 r2 h1.2 h2.2 h.2
      exact ⟨by rw [h.1, e1], e2⟩

theorem mkKey_injective (n1 s1 n2 s2 : String) (h1 : ':' ∉ n1.data) (h2 : ':' ∉ n2.data)
    (h : mkKey n1 s1 = mkKey n2 s2) : n1 = n2 ∧ s1 = s2 := by
  have hd : (mkKey n1 s1).data = (mkKey n2 s2).data := by rw [h]
  simp only [mkKey, String.data_append] at hd
  simp only [List.append_assoc, List.singleton_append] at hd
  obtain ⟨e1, e2⟩ := list_split_unique ':' _ _ _ _ h1 h2 hd
  exact ⟨String.ext e1, String.ext e2⟩


/-! ## Identifier references -/

/-- C10. `IdentifierNode::traverseAndAnalyze` throws exactly when: the reference
is a simple name and the scope has no such variable; or it is `A[v]` and the
scope lacks the array `A` or the variable `v`; or it is `A[k]` and the scope
lacks the array `A`, or `A` is a non-argument array and `k` is outside
`[startIndex, endIndex]`. A literal index into an argument array is never
rejected, and whatever the outcome the symbol table is returned unchanged. -/
theorem identifier_analyze_throws_iff (n : IdentifierNode) (st : SymbolTable) (scope : String) :
    ((n.traverseAndAnalyze st scope).throws = true ↔
      (n.identifierType = .SIMPLE ∧ st.getVariable n.pidentifier scope = none) ∨
      (n.identifierType = .INDEXED_ID ∧
        (st.getArray n.pidentifier scope = none ∨
          st.getVariable n.indexIdentifier scope = none)) ∨
      (n.identifierType = .INDEXED_NUM ∧
        (st.getArray n.pidentifier scope = none ∨
          ∃ a, st.getArray n.pidentifier scope = some a ∧ a.isArgument = false ∧
            (n.index < a.startIndex ∨ a.endIndex < n.index)))) ∧
    (∀ a, n.identifierType = .INDEXED_NUM → st.getArray n.pidentifier scope = some a →
      a.isArgument = true → n.traverseAndAnalyze st scope = .ok () st) ∧
    (n.traverseAndAnalyze st scope).table = some st := by
  obtain ⟨ty, pid, idx, iid⟩ := n
  cases ty
  · -- SIMPLE
    simp only [IdentifierNode.traverseAndAnalyze, SymbolTable.variableExists,
      SymbolTable.getVariable]
    cases h : mapFind (mkKey pid scope) st.vars <;> simp [Sem.throws, Sem.table]
  · -- INDEXED_ID
    simp only [IdentifierNode.traverseAndAnalyze, SymbolTable.variableExists,
      SymbolTable.arrayExists, SymbolTable.getVariable, SymbolTable.getArray]
    cases h : mapFind (mkKey pid scope) st.arrays <;>
      cases h2 : mapFind (mkKey iid scope) st.vars <;> simp [Sem.throws, Sem.table]
  · -- INDEXED_NUM
    simp only [IdentifierNode.traverseAndAnalyze, SymbolTable.getArray]
    cases h : mapFind (mkKey pid scope) st.arrays with
    | none => simp [Sem.throws, Sem.table]
    | some a =>
      by_cases harg : a.isArgument = true
      · simp [Sem.throws, Sem.table, harg]
      · have harg2 : a.isArgument = false := by simpa using harg
        by_cases hb : idx < a.startIndex ∨ idx > a.endIndex
        · simp [Sem.throws, Sem.table, harg2, hb]
        · simp [Sem.throws, Sem.table, harg2, hb]

/-- C10, at the table holding the variable `a` and the array `a[0:5]` of `MAIN`:
the reference `a[6]` is rejected, being out of bounds. -/
theorem identifier_analyze_throws_iff_witness :
    (IdentifierNode.traverseAndAnalyze ⟨.INDEXED_NUM, "a", 6, ""⟩ tableVarAndArray "MAIN").throws
      = true :=
  (identifier_analyze_throws_iff ⟨.INDEXED_NUM, "a", 6, ""⟩ tableVarAndArray "MAIN").1.2
    (Or.inr (Or.inr ⟨rfl, Or.inr ⟨_, rfl, rfl, Or.inr (by decide)⟩⟩))


/-! ## The layout `addArray` gives an array -/

theorem addArrayLoop_spec (init : Bool) (n : Nat) :
    ∀ (i : Int) (a : Array) (pos : Int),
      (∀ p ∈ a.memoryPositions, p.1 < i) → (∀ p ∈ a.isInitialized, p.1 < i) →
      (addArrayLoop init n i (a, pos)).2 = pos + n ∧
      (addArrayLoop init n i (a, pos)).1.memoryPositions =
        a.memoryPositions ++ entriesFrom i pos n ∧
      (addArrayLoop init n i (a, pos)).1.isInitialized =
        a.isInitialized ++ flagsFrom i init n ∧
      (addArrayLoop init n i (a, pos)).1.name = a.name ∧
      (addArrayLoop init n i (a, pos)).1.scope = a.scope ∧
      (addArrayLoop init n i (a, pos)).1.startIndex = a.startIndex ∧
      (addArrayLoop init n i (a, pos)).1.endIndex = a.endIndex ∧
      (addArrayLoop init n i (a, pos)).1.isArgument = a.isArgument ∧
      (addArrayLoop init n i (a, pos)).1.memoryPosition =
        (if i ≤ a.startIndex ∧ a.startIndex < i + n then pos + (a.startIndex - i)
         else a.memoryPosition) := by
  induction n with
  | zero =>
    intro i a pos _ _
    have hno : ¬ (i ≤ a.startIndex ∧ a.startIndex < i) := by omega
    simp [addArrayLoop, entriesFrom, flagsFrom, hno]
  | succ n ih =>
    intro i a pos h1 h2
    have hf1 : mapFind i a.memoryPositions = none := by
      apply mapFind_none_of_not_mem
      intro hmem
      obtain ⟨p, hp, hpe⟩ := List.mem_map.1 hmem
      have := h1 p hp
      omega
    have hf2 : mapFind i a.isInitialized = none := by
      apply mapFind_none_of_not_mem
      intro hmem
      obtain ⟨p, hp, hpe⟩ := List.mem_map.1 hmem
      have := h2 p hp
      omega
    simp only [addArrayLoop]
    rw [mapSet_of_mapFind_none _ _ _ hf1, mapSet_of_mapFind_none _ _ _ hf2]
    by_cases hs : i = a.startIndex
    · have key := ih (i + 1)
        { a with memoryPositions := a.memoryPositions ++ [(i, pos)],
                 isInitialized := a.isInitialized ++ [(i, init)], memoryPosition := pos }
        (pos + 1)
        (by
          intro p hp
          simp at hp
          rcases hp with hp | hp
          · have := h1 p hp
            omega
          · subst hp
            simp)
        (by
          intro p hp
          simp at hp
          rcases hp with hp | hp
          · have := h2 p hp
            omega
          · subst hp
            simp)
      simp only [hs, if_true] at key ⊢
      obtain ⟨k1, k2, k3, k4, k5, k6, k7, k8, k9⟩ := key
      refine ⟨?_, ?_, ?_, k4, k5, k6, k7, k8, ?_⟩
      · rw [k1]
        push_cast
        ring
      · rw [k2]
        simp [entriesFrom]
      · rw [k3]
        simp [flagsFrom]
      · rw [k9]
        have : ¬ (a.startIndex + 1 ≤ a.startIndex ∧ a.startIndex < a.startIndex + 1 + (n : Int)) := by
          omega
        have h3 : a.startIndex ≤ a.startIndex ∧ a.startIndex < a.startIndex + ((n + 1 : Nat) : Int) := by
          push_cast
          omega
        simp [this, h3]
    · have key := ih (i + 1)
        { a with memoryPositions := a.memoryPositions ++ [(i, pos)],
                 isInitialized := a.isInitialized ++ [(i, init)] }
        (pos + 1)
        (by
          intro p hp
          simp at hp
          rcases hp with hp | hp
          · have := h1 p hp
            omega
          · subst hp
            simp)
        (by
          intro p hp
          simp at hp
          rcases hp with hp | hp
          · have := h2 p hp
            omega
          · subst hp
            simp)
      simp only [hs, if_false] at key ⊢
      obtain ⟨k1, k2, k3, k4, k5, k6, k7, k8, k9⟩ := key
      refine ⟨?_, ?_, ?_, k4, k5, k6, k7, k8, ?_⟩
      · rw [k1]
        push_cast
        ring
      · rw [k2]
        simp [entriesFrom]
      · rw [k3]
        simp [flagsFrom]
      · rw [k9]
        by_cases hin : i + 1 ≤ a.startIndex ∧ a.startIndex < i + 1 + (n : Int)
        · have h3 : i ≤ a.startIndex ∧ a.startIndex < i + ((n + 1 : Nat) : Int) := by
            push_cast
            omega
          simp only [hin, h3, and_self, if_true]
          ring
        · have h3 : ¬ (i ≤ a.startIndex ∧ a.startIndex < i + ((n + 1 : Nat) : Int)) := by
            push_cast
            omega
          simp only [hin, h3, if_false]

theorem mapFind_entriesFrom (n : Nat) :
    ∀ (i pos j : Int), i ≤ j → j < i + n →
      mapFind j (entriesFrom i pos n) = some (pos + (j - i)) := by
  induction n with
  | zero =>
    intro i pos j h1 h2
    simp at h2
    omega
  | succ n ih =>
    intro i pos j h1 h2
    by_cases h : i = j
    · subst h
      simp [entriesFrom, mapFind]
    · simp only [entriesFrom, mapFind, h, if_false]
      rw [ih (i + 1) (pos + 1) j (by omega) (by push_cast at h2; omega)]
      congr 1
      ring

theorem entriesFrom_values (n : Nat) :
    ∀ (i pos : Int), (entriesFrom i pos n).map Prod.snd = cellRange pos n := by
  induction n with
  | zero => intro i pos; rfl
  | succ n ih =>
    intro i pos
    simp [entriesFrom, cellRange, ih]

/-- C9. After a successful `addArray(name, scope, lo, hi)` with `lo <= hi` the
cell counter has advanced by exactly `hi - lo + 1`, the array's base cell is the
counter's previous value, and for every `i` in `[lo, hi]` both the recorded cell
of index `i` and the address `IdentifierNode::getMemoryPosition` returns for
`name[i]` equal `base_cell + (i - lo)`. -/
theorem addArray_layout (st st1 : SymbolTable) (name scope : String) (lo hi : Int)
    (hle : lo ≤ hi) (hok : st.addArray name scope lo hi = .ok () st1) :
    st1.currentMemoryPosition = st.currentMemoryPosition + (hi - lo + 1) ∧
    ∃ a, st1.getArray name scope = some a ∧ a.memoryPosition = st.currentMemoryPosition ∧
      a.startIndex = lo ∧ a.endIndex = hi ∧
      ∀ i, lo ≤ i → i ≤ hi →
        mapFind i a.memoryPositions = some (a.memoryPosition + (i - lo)) ∧
        ∀ iid, IdentifierNode.getMemoryPosition ⟨.INDEXED_NUM, name, i, iid⟩ st1 scope =
          .ok (a.memoryPosition + (i - lo)) := by
  unfold SymbolTable.addArray at hok
  split at hok
  · cases hok
  · injection hok with _ hst
    have spec := addArrayLoop_spec false (loopCount lo hi) lo
      ⟨name, scope, [], [], lo, hi, 0, false⟩ st.currentMemoryPosition
      (by intro p hp; cases hp) (by intro p hp; cases hp)
    obtain ⟨k1, k2, k3, k4, k5, k6, k7, k8, k9⟩ := spec
    have hn : ((loopCount lo hi : Nat) : Int) = hi - lo + 1 := by
      unfold loopCount
      omega
    subst hst
    refine ⟨?_, _, ?_, ?_, k6, k7, ?_⟩
    · simp only [k1, hn]
    · simp only [SymbolTable.getArray]
      exact mapFind_mapSet_same _ _ _
    · rw [k9]
      have : lo ≤ lo ∧ lo < lo + ((loopCount lo hi : Nat) : Int) := by omega
      simp [this]
    · intro i h1 h2
      have hbase : (addArrayLoop false (loopCount lo hi) lo
          (⟨name, scope, [], [], lo, hi, 0, false⟩, st.currentMemoryPosition)).1.memoryPosition
          = st.currentMemoryPosition := by
        rw [k9]
        have : lo ≤ lo ∧ lo < lo + ((loopCount lo hi : Nat) : Int) := by omega
        simp [this]
      refine ⟨?_, ?_⟩
      · rw [k2, hbase]
        simp only [List.nil_append]
        exact mapFind_entriesFrom _ lo _ i h1 (by omega)
      · intro iid
        simp only [IdentifierNode.getMemoryPosition, SymbolTable.getArray]
        rw [mapFind_mapSet_same]
        simp only [k6]

/-- C9, at the declaration of `a[0:5]` in a table that holds one variable: the
counter moves from 12 to 18. -/
theorem addArray_layout_witness :
    tableVarAndArray.currentMemoryPosition = 12 + (5 - 0 + 1) :=
  (addArray_layout tableVar tableVarAndArray "a" "MAIN" 0 5 (by decide) rfl).1


/-! ## Invariants of the reachable symbol tables -/

theorem not_mem_keys_of_mapFind_none {κ α : Type} [DecidableEq κ] (k : κ) (m : List (κ × α))
    (h : mapFind k m = none) : k ∉ m.map Prod.fst := by
  intro hmem
  obtain ⟨p, hp, hpe⟩ := List.mem_map.1 hmem
  obtain ⟨k1, v⟩ := p
  simp at hpe
  subst hpe
  have := mapFind_isSome_of_mem k1 v m hp
  rw [h] at this
  simp at this

theorem cellRange_append (n : Nat) :
    ∀ (first : Int) (k : Nat), cellRange first (n + k) = cellRange first n ++ cellRange (first + n) k := by
  induction n with
  | zero => intro first k; simp [cellRange]
  | succ n ih =>
    intro first k
    have h : n + 1 + k = (n + k) + 1 := by omega
    rw [h]
    simp only [cellRange, List.cons_append]
    rw [ih (first + 1) k]
    congr 3
    push_cast
    ring

theorem mem_cellRange (n : Nat) :
    ∀ (first c : Int), c ∈ cellRange first n ↔ first ≤ c ∧ c < first + n := by
  induction n with
  | zero => intro first c; simp [cellRange]
  | succ n ih =>
    intro first c
    simp only [cellRange, List.mem_cons, ih]
    push_cast
    omega

theorem nodup_cellRange (n : Nat) : ∀ (first : Int), (cellRange first n).Nodup := by
  induction n with
  | zero => intro first; simp [cellRange]
  | succ n ih =>
    intro first
    simp only [cellRange, List.nodup_cons, mem_cellRange]
    exact ⟨by omega, ih _⟩

theorem countP_le_one_of_keyed {α : Type} (name scope : String) (f : α → String × String) :
    ∀ (m : List (String × α)),
      (∀ p ∈ m, p.1 = mkKey (f p.2).1 (f p.2).2) → (m.map Prod.fst).Nodup →
      m.countP (fun p => decide ((f p.2).1 = name ∧ (f p.2).2 = scope)) ≤ 1 := by
  intro m
  induction m with
  | nil => intro _ _; simp
  | cons p rest ih =>
    intro hk hn
    have hk2 : ∀ q ∈ rest, q.1 = mkKey (f q.2).1 (f q.2).2 :=
      fun q hq => hk q (List.mem_cons_of_mem _ hq)
    simp only [List.map_cons, List.nodup_cons] at hn
    by_cases hp : (f p.2).1 = name ∧ (f p.2).2 = scope
    · have hz : rest.countP (fun q => decide ((f q.2).1 = name ∧ (f q.2).2 = scope)) = 0 := by
        rw [List.countP_eq_zero]
        intro q hq hdec
        have hq2 : (f q.2).1 = name ∧ (f q.2).2 = scope := by simpa using hdec
        apply hn.1
        have e1 := hk p (List.mem_cons_self _ _)
        have e2 := hk2 q hq
        rw [hp.1, hp.2] at e1
        rw [hq2.1, hq2.2] at e2
        rw [e1, ← e2]
        exact List.mem_map_of_mem _ hq
      rw [List.countP_cons_of_pos _ _ (by simpa using hp), hz]
    · rw [List.countP_cons_of_neg _ _ (by simpa using hp)]
      exact ih hk2 hn.2

theorem mapFind_isSome_of_keyed {α : Type} (name scope : String) (f : α → String × String)
    (m : List (String × α)) (hk : ∀ p ∈ m, p.1 = mkKey (f p.2).1 (f p.2).2)
    (hc : 1 ≤ m.countP (fun p => decide ((f p.2).1 = name ∧ (f p.2).2 = scope))) :
    (mapFind (mkKey name scope) m).isSome = true := by
  have hpos : 0 < m.countP (fun p => decide ((f p.2).1 = name ∧ (f p.2).2 = scope)) := hc
  rw [List.countP_pos_iff] at hpos
  obtain ⟨p, hp, hdec⟩ := hpos
  have hp2 : (f p.2).1 = name ∧ (f p.2).2 = scope := by simpa using hdec
  have e := hk p hp
  rw [hp2.1, hp2.2] at e
  obtain ⟨k, v⟩ := p
  simp at e
  subst e
  exact mapFind_isSome_of_mem _ v m hp

theorem mem_mapSet {κ α : Type} [DecidableEq κ] (k : κ) (v : α) :
    ∀ (m : List (κ × α)) (p : κ × α), p ∈ mapSet k v m → p = (k, v) ∨ p ∈ m := by
  intro m
  induction m with
  | nil =>
    intro p hp
    simp only [mapSet, List.mem_singleton] at hp
    exact Or.inl hp
  | cons q rest ih =>
    intro p hp
    obtain ⟨k1, w⟩ := q
    simp only [mapSet] at hp
    split at hp
    · rcases List.mem_cons.1 hp with h | h
      · exact Or.inl h
      · exact Or.inr (List.mem_cons_of_mem _ h)
    · rcases List.mem_cons.1 hp with h | h
      · exact Or.inr (h ▸ List.mem_cons_self _ _)
      · rcases ih p h with h1 | h1
        · exact Or.inl h1
        · exact Or.inr (List.mem_cons_of_mem _ h1)

theorem mapSet_keys_of_mapFind {κ α : Type} [DecidableEq κ] (k : κ) (v w : α) :
    ∀ (m : List (κ × α)), mapFind k m = some w →
      (mapSet k v m).map Prod.fst = m.map Prod.fst := by
  intro m
  induction m with
  | nil => intro h; cases h
  | cons q rest ih =>
    intro h
    obtain ⟨k1, w1⟩ := q
    simp only [mapFind] at h
    simp only [mapSet]
    split
    · rename_i hk
      simp [hk]
    · rename_i hk
      rw [if_neg hk] at h
      simp [ih h]

theorem mapSet_map_of_mapFind {κ α β : Type} [DecidableEq κ] (k : κ) (v w : α) (f : α → β)
    (hf : f v = f w) :
    ∀ (m : List (κ × α)), mapFind k m = some w →
      (mapSet k v m).map (fun p => f p.2) = m.map (fun p => f p.2) := by
  intro m
  induction m with
  | nil => intro h; cases h
  | cons q rest ih =>
    intro h
    obtain ⟨k1, w1⟩ := q
    simp only [mapFind] at h
    simp only [mapSet]
    split
    · rename_i hk
      rw [if_pos hk] at h
      cases h
      simp [hf]
    · rename_i hk
      rw [if_neg hk] at h
      simp [ih h]

theorem keyed_mapSet {α : Type} (f : α → String × String) (m : List (String × α))
    (k : String) (v w : α)
    (hk : (∀ p ∈ m, p.1 = mkKey (f p.2).1 (f p.2).2) ∧ (m.map Prod.fst).Nodup)
    (h : mapFind k m = some w) (hf : f v = f w) :
    (∀ p ∈ mapSet k v m, p.1 = mkKey (f p.2).1 (f p.2).2) ∧
      ((mapSet k v m).map Prod.fst).Nodup := by
  refine ⟨fun p hp => ?_, ?_⟩
  · rcases mem_mapSet k v m p hp with e | hm
    · subst e
      have := hk.1 _ (mapFind_some_mem k w m h)
      simp only at this
      simp only [hf]
      exact this
    · exact hk.1 p hm
  · rw [mapSet_keys_of_mapFind k v w m h]
    exact hk.2

theorem keyed_insert {α : Type} (f : α → String × String) (m : List (String × α))
    (v : α)
    (hk : (∀ p ∈ m, p.1 = mkKey (f p.2).1 (f p.2).2) ∧ (m.map Prod.fst).Nodup)
    (h : mapFind (mkKey (f v).1 (f v).2) m = none) :
    (∀ p ∈ mapSet (mkKey (f v).1 (f v).2) v m, p.1 = mkKey (f p.2).1 (f p.2).2) ∧
      ((mapSet (mkKey (f v).1 (f v).2) v m).map Prod.fst).Nodup := by
  rw [mapSet_of_mapFind_none _ _ _ h]
  refine ⟨?_, ?_⟩
  · intro p hp
    simp at hp
    rcases hp with hp | hp
    · exact hk.1 p hp
    · subst hp
      rfl
  · simp only [List.map_append, List.map_cons, List.map_nil]
    rw [List.nodup_append]
    refine ⟨hk.2, by simp, ?_⟩
    intro a ha hb
    simp at hb
    subst hb
    exact not_mem_keys_of_mapFind_none _ _ h ha

theorem reachable_keyed (st : SymbolTable) (h : Reachable st) :
    ((∀ p ∈ st.vars, p.1 = mkKey p.2.name p.2.scope) ∧ (st.vars.map Prod.fst).Nodup) ∧
    ((∀ p ∈ st.arrays, p.1 = mkKey p.2.name p.2.scope) ∧ (st.arrays.map Prod.fst).Nodup) ∧
    ((∀ p ∈ st.procedures, p.1 = mkKey p.2.name p.2.scope) ∧
      (st.procedures.map Prod.fst).Nodup) := by
  induction h with
  | new => simp [SymbolTable.new]
  | @addVariable st st1 name scope _ hok ih =>
    unfold SymbolTable.addVariable at hok
    split at hok
    · cases hok
    · rename_i hex
      injection hok with _ hst
      subst hst
      have hnone : mapFind (mkKey name scope) st.vars = none := by
        simpa [SymbolTable.variableExists] using hex
      simp only [mapSet_of_mapFind_none _ _ _ hnone]
      refine ⟨⟨?_, ?_⟩, ih.2.1, ih.2.2⟩
      · intro p hp
        simp at hp
        rcases hp with hp | hp
        · exact ih.1.1 p hp
        · subst hp
          rfl
      · simp only [List.map_append, List.map_cons, List.map_nil]
        rw [List.nodup_append]
        refine ⟨ih.1.2, by simp, ?_⟩
        intro a ha hb
        simp at hb
        subst hb
        exact not_mem_keys_of_mapFind_none _ _ hnone ha
  | @addArray st st1 name scope lo hi _ hok ih =>
    unfold SymbolTable.addArray at hok
    split at hok
    · cases hok
    · rename_i hex
      injection hok with _ hst
      subst hst
      have hnone : mapFind (mkKey name scope) st.arrays = none := by
        simpa [SymbolTable.arrayExists] using hex
      have spec := addArrayLoop_spec false (loopCount lo hi) lo
        ⟨name, scope, [], [], lo, hi, 0, false⟩ st.currentMemoryPosition
        (by intro p hp; cases hp) (by intro p hp; cases hp)
      simp only [mapSet_of_mapFind_none _ _ _ hnone]
      refine ⟨ih.1, ⟨?_, ?_⟩, ih.2.2⟩
      · intro p hp
        simp at hp
        rcases hp with hp | hp
        · exact ih.2.1.1 p hp
        · subst hp
          simp only [spec.2.2.2.1, spec.2.2.2.2.1]
      · simp only [List.map_append, List.map_cons, List.map_nil]
        rw [List.nodup_append]
        refine ⟨ih.2.1.2, by simp, ?_⟩
        intro a ha hb
        simp at hb
        subst hb
        exact not_mem_keys_of_mapFind_none _ _ hnone ha
  | @addProcedure st st1 name scope params _ hok ih =>
    unfold SymbolTable.addProcedure at hok
    split at hok
    · cases hok
    · rename_i hex
      injection hok with _ hst
      subst hst
      have hnone : mapFind (mkKey name scope) st.procedures = none := by
        simpa [SymbolTable.procedureExists] using hex
      simp only [mapSet_of_mapFind_none _ _ _ hnone]
      refine ⟨ih.1, ih.2.1, ⟨?_, ?_⟩⟩
      · intro p hp
        simp at hp
        rcases hp with hp | hp
        · exact ih.2.2.1 p hp
        · subst hp
          rfl
      · simp only [List.map_append, List.map_cons, List.map_nil]
        rw [List.nodup_append]
        refine ⟨ih.2.2.2, by simp, ?_⟩
        intro a ha hb
        simp at hb
        subst hb
        exact not_mem_keys_of_mapFind_none _ _ hnone ha
  | @addVariableV st st1 v _ hok ih =>
    unfold SymbolTable.addVariableV at hok
    split at hok
    · cases hok
    · rename_i hex
      injection hok with _ hst
      subst hst
      have hnone : mapFind (mkKey v.name v.scope) st.vars = none := by
        simpa [SymbolTable.variableExists] using hex
      exact ⟨keyed_insert (fun x : Variable => (x.name, x.scope)) st.vars
        ⟨v.name, v.scope, true, st.currentMemoryPosition, false⟩ ih.1 hnone, ih.2.1, ih.2.2⟩
  | @addArrayA st st1 a _ hok ih =>
    unfold SymbolTable.addArrayA at hok
    split at hok
    · cases hok
    · rename_i hex
      injection hok with _ hst
      subst hst
      have hnone : mapFind (mkKey a.name a.scope) st.arrays = none := by
        simpa [SymbolTable.arrayExists] using hex
      have spec := addArrayLoop_spec true (loopCount a.startIndex a.endIndex) a.startIndex
        ⟨a.name, a.scope, [], [], a.startIndex, a.endIndex, 0, false⟩ st.currentMemoryPosition
        (by intro p hp; cases hp) (by intro p hp; cases hp)
      have hn := spec.2.2.2.1
      have hs := spec.2.2.2.2.1
      simp only at hn hs
      have hnone2 : mapFind (mkKey
          (addArrayLoop true (loopCount a.startIndex a.endIndex) a.startIndex
            (⟨a.name, a.scope, [], [], a.startIndex, a.endIndex, 0, false⟩,
              st.currentMemoryPosition)).1.name
          (addArrayLoop true (loopCount a.startIndex a.endIndex) a.startIndex
            (⟨a.name, a.scope, [], [], a.startIndex, a.endIndex, 0, false⟩,
              st.currentMemoryPosition)).1.scope) st.arrays = none := by
        rw [hn, hs]
        exact hnone
      have := keyed_insert (fun x : Array => (x.name, x.scope)) st.arrays _ ih.2.1 hnone2
      simp only [hn, hs] at this
      exact ⟨ih.1, this, ih.2.2⟩
  | @addProcedureParam st st1 name scope param _ hok ih =>
    unfold SymbolTable.addProcedureParam at hok
    simp only at hok
    split at hok
    · cases hok
    · rename_i p hp
      injection hok with _ hst
      subst hst
      exact ⟨ih.1, ih.2.1, keyed_mapSet (fun x : Procedure => (x.name, x.scope)) st.procedures
        _ _ p ih.2.2 hp rfl⟩
  | @markVariable st name scope v v1 _ hget hn hs _ ih =>
    exact ⟨keyed_mapSet (fun x : Variable => (x.name, x.scope)) st.vars _ v1 v ih.1 hget
      (by simp only [hn, hs]), ih.2.1, ih.2.2⟩
  | @markArray st name scope a a1 _ hget hn hs _ ih =>
    exact ⟨ih.1, keyed_mapSet (fun x : Array => (x.name, x.scope)) st.arrays _ a1 a ih.2.1 hget
      (by simp only [hn, hs]), ih.2.2⟩
  | @markProcedure st name scope p p1 _ hget hn hs _ ih =>
    exact ⟨ih.1, ih.2.1, keyed_mapSet (fun x : Procedure => (x.name, x.scope)) st.procedures
      _ p1 p ih.2.2 hget (by simp only [hn, hs])⟩
  | @setIterator st x _ ih => exact ih
  | @setOne st b _ ih => exact ih

theorem reachable_tableVarAndArray : Reachable tableVarAndArray :=
  Reachable.addArray "a" "MAIN" 0 5
    (@Reachable.addVariable SymbolTable.new tableVar "a" "MAIN" Reachable.new rfl) rfl

set_option maxRecDepth 100000 in
theorem reachable_squareTable : Reachable squareTable := by
  have h1 := Reachable.addProcedure "p" "GLOBAL" [] Reachable.new rfl
  have h2 := Reachable.addProcedureParam "p" "GLOBAL"
    (.variableParam ⟨"a", "p", true, 0, false⟩) h1 rfl
  have h3 := Reachable.addVariableV ⟨"a", "p", true, 0, false⟩ h2 rfl
  have h4 := Reachable.markVariable "a" "p" ⟨"a", "p", true, 12, false⟩
    ⟨"a", "p", true, 12, true⟩ h3 rfl rfl rfl rfl
  have h5 := Reachable.addProcedureParam "p" "GLOBAL"
    (.arrayParam ⟨"t", "p", [], [], 0, 0, 0, false⟩) h4 rfl
  have h6 := Reachable.addArray "t" "p" 0 0 h5 rfl
  have h7 := Reachable.markArray "t" "p" ⟨"t", "p", [(0, 13)], [(0, false)], 0, 0, 13, false⟩
    ⟨"t", "p", [(0, 13)], [(0, true)], 0, 0, 13, true⟩ h6 rfl rfl rfl rfl
  have h8 := Reachable.addVariable "x" "MAIN" h7 rfl
  have h9 := Reachable.addArray "arr" "MAIN" 0 0 h8 rfl
  have h10 := Reachable.markVariable "x" "MAIN" ⟨"x", "MAIN", false, 14, false⟩
    ⟨"x", "MAIN", true, 14, false⟩ h9 rfl rfl rfl rfl
  exact (show ∀ t, Reachable t → t = squareTable → Reachable squareTable from
    fun t h e => e ▸ h) _ h10 (by decide!)

/-- C7 as stated fails: in the reachable table that holds the variable `a` of
`MAIN`, the declaration of the array `a[0:5]` in `MAIN` is not rejected, and
afterwards the pair (`a`, `MAIN`) names two entities; so "at most one entity
across the kinds" does not hold of every reachable table. -/
theorem not_one_entity_across_kinds :
    (tableVar.variableCount "a" "MAIN" = 1 ∧
      (tableVar.addArray "a" "MAIN" 0 5).throws = false) ∧
    ¬ (∀ st, Reachable st → ∀ name scope,
        st.variableCount name scope + st.arrayCount name scope +
          st.procedureCount name scope ≤ 1) := by
  refine ⟨by decide, ?_⟩
  intro h
  have h2 := h tableVarAndArray reachable_tableVarAndArray "a" "MAIN"
  revert h2
  decide

/-- C7, amended. In every reachable symbol table each (name, scope) pair names
at most one variable, at most one array and at most one procedure, and a
declaration whose (name, scope) is already used by an entity of the same kind
is rejected, by either overload of `addVariable` and of `addArray` and by
`addProcedure`. -/
theorem reachable_one_entity_per_kind (st : SymbolTable) (h : Reachable st)
    (name scope : String) :
    st.variableCount name scope ≤ 1 ∧ st.arrayCount name scope ≤ 1 ∧
    st.procedureCount name scope ≤ 1 ∧
    (1 ≤ st.variableCount name scope → (st.addVariable name scope).throws = true) ∧
    (1 ≤ st.arrayCount name scope → ∀ lo hi, (st.addArray name scope lo hi).throws = true) ∧
    (1 ≤ st.procedureCount name scope →
      ∀ params, (st.addProcedure name scope params).throws = true) ∧
    (1 ≤ st.variableCount name scope →
      ∀ v : Variable, v.name = name → v.scope = scope → (st.addVariableV v).throws = true) ∧
    (1 ≤ st.arrayCount name scope →
      ∀ a : Array, a.name = name → a.scope = scope → (st.addArrayA a).throws = true) := by
  obtain ⟨⟨hv1, hv2⟩, ⟨ha1, ha2⟩, ⟨hp1, hp2⟩⟩ := reachable_keyed st h
  refine ⟨?_, ?_, ?_, ?_, ?_, ?_, ?_, ?_⟩
  · exact countP_le_one_of_keyed name scope (fun v : Variable => (v.name, v.scope)) st.vars hv1 hv2
  · exact countP_le_one_of_keyed name scope (fun a : Array => (a.name, a.scope)) st.arrays ha1 ha2
  · exact countP_le_one_of_keyed name scope (fun p : Procedure => (p.name, p.scope))
      st.procedures hp1 hp2
  · intro hc
    have := mapFind_isSome_of_keyed name scope (fun v : Variable => (v.name, v.scope)) st.vars
      hv1 hc
    simp [SymbolTable.addVariable, SymbolTable.variableExists, this, Sem.throws]
  · intro hc lo hi
    have := mapFind_isSome_of_keyed name scope (fun a : Array => (a.name, a.scope)) st.arrays
      ha1 hc
    simp [SymbolTable.addArray, SymbolTable.arrayExists, this, Sem.throws]
  · intro hc params
    have := mapFind_isSome_of_keyed name scope (fun p : Procedure => (p.name, p.scope))
      st.procedures hp1 hc
    simp [SymbolTable.addProcedure, SymbolTable.procedureExists, this, Sem.throws]
  · intro hc v hn hs
    have := mapFind_isSome_of_keyed name scope (fun v : Variable => (v.name, v.scope)) st.vars
      hv1 hc
    simp [SymbolTable.addVariableV, SymbolTable.variableExists, hn, hs, this, Sem.throws]
  · intro hc a hn hs
    have := mapFind_isSome_of_keyed name scope (fun a : Array => (a.name, a.scope)) st.arrays
      ha1 hc
    simp [SymbolTable.addArrayA, SymbolTable.arrayExists, hn, hs, this, Sem.throws]

set_option maxRecDepth 100000 in
/-- C7 amended, at the table holding the variable `a` and the array `a[0:5]` of
`MAIN`: the pair names one variable, and declaring the variable again throws;
and at the table the semantic pass builds for the program with the procedure
`p(a, T t)`: the pair (`a`, `p`) names one variable, the scalar formal, and
declaring it again through `addVariable(Variable)` throws. -/
theorem reachable_one_entity_per_kind_witness :
    tableVarAndArray.variableCount "a" "MAIN" ≤ 1 ∧
    (tableVarAndArray.addVariable "a" "MAIN").throws = true ∧
    squareTable.variableCount "a" "p" ≤ 1 ∧
    (squareTable.addVariableV ⟨"a", "p", true, 0, false⟩).throws = true :=
  ⟨(reachable_one_entity_per_kind tableVarAndArray reachable_tableVarAndArray "a" "MAIN").1,
   (reachable_one_entity_per_kind tableVarAndArray reachable_tableVarAndArray "a" "MAIN").2.2.2.1
     (by decide),
   (reachable_one_entity_per_kind squareTable reachable_squareTable "a" "p").1,
   (reachable_one_entity_per_kind squareTable reachable_squareTable "a" "p").2.2.2.2.2.2.1
     (by decide!) ⟨"a", "p", true, 0, false⟩ rfl rfl⟩

theorem cellRange_grow (c : Int) (k : Nat) (hc : 11 ≤ c) :
    cellRange 11 (c + k - 11).toNat = cellRange 11 (c - 11).toNat ++ cellRange c k := by
  have h1 : (c + k - 11).toNat = (c - 11).toNat + k := by omega
  rw [h1, cellRange_append]
  congr 2
  omega

theorem reachable_cells (st : SymbolTable) (h : Reachable st) :
    11 ≤ st.currentMemoryPosition ∧
    st.cells.Perm (cellRange 11 (st.currentMemoryPosition - 11).toNat) := by
  induction h with
  | new => simp [SymbolTable.new, SymbolTable.cells, cellRange]
  | @addVariable st st1 name scope _ hok ih =>
    unfold SymbolTable.addVariable at hok
    split at hok
    · cases hok
    · rename_i hex
      injection hok with _ hst
      subst hst
      have hnone : mapFind (mkKey name scope) st.vars = none := by
        simpa [SymbolTable.variableExists] using hex
      refine ⟨by simp only; omega, ?_⟩
      have hg := cellRange_grow st.currentMemoryPosition 1 ih.1
      simp only [Nat.cast_one] at hg
      simp only [SymbolTable.cells, mapSet_of_mapFind_none _ _ _ hnone, List.map_append,
        List.map_cons, List.map_nil, hg, cellRange]
      have hp := ih.2
      simp only [SymbolTable.cells] at hp
      refine List.Perm.trans ?_ (List.Perm.append_right _ hp)
      simp only [List.append_assoc]
      refine List.Perm.append_left _ ?_
      exact List.perm_append_comm.trans (by simp)
  | @addArray st st1 name scope lo hi _ hok ih =>
    unfold SymbolTable.addArray at hok
    split at hok
    · cases hok
    · rename_i hex
      injection hok with _ hst
      subst hst
      have hnone : mapFind (mkKey name scope) st.arrays = none := by
        simpa [SymbolTable.arrayExists] using hex
      have spec := addArrayLoop_spec false (loopCount lo hi) lo
        ⟨name, scope, [], [], lo, hi, 0, false⟩ st.currentMemoryPosition
        (by intro p hp; cases hp) (by intro p hp; cases hp)
      obtain ⟨k1, k2, _⟩ := spec
      refine ⟨by simp only [k1]; omega, ?_⟩
      have hg := cellRange_grow st.currentMemoryPosition (loopCount lo hi) ih.1
      simp only [SymbolTable.cells, mapSet_of_mapFind_none _ _ _ hnone, List.map_append,
        List.map_cons, List.map_nil, k1, k2, hg, List.nil_append, entriesFrom_values,
        List.flatten_append, List.flatten_cons, List.flatten_nil, List.append_nil]
      have hp := ih.2
      simp only [SymbolTable.cells] at hp
      refine List.Perm.trans ?_ (List.Perm.append_right _ hp)
      simp only [List.append_assoc]
      refine List.Perm.append_left _ ?_
      refine List.Perm.append_left _ ?_
      exact List.perm_append_comm
  | @addProcedure st st1 name scope params _ hok ih =>
    unfold SymbolTable.addProcedure at hok
    split at hok
    · cases hok
    · rename_i hex
      injection hok with _ hst
      subst hst
      have hnone : mapFind (mkKey name scope) st.procedures = none := by
        simpa [SymbolTable.procedureExists] using hex
      refine ⟨by simp only; omega, ?_⟩
      have hg := cellRange_grow st.currentMemoryPosition 1 ih.1
      simp only [Nat.cast_one] at hg
      simp only [SymbolTable.cells, mapSet_of_mapFind_none _ _ _ hnone, List.map_append,
        List.map_cons, List.map_nil, hg, cellRange]
      have hp := ih.2
      simp only [SymbolTable.cells] at hp
      refine List.Perm.trans ?_ (List.Perm.append_right _ hp)
      simp only [List.append_assoc]
      exact List.Perm.refl _
  | @addVariableV st st1 v _ hok ih =>
    unfold SymbolTable.addVariableV at hok
    split at hok
    · cases hok
    · rename_i hex
      injection hok with _ hst
      subst hst
      have hnone : mapFind (mkKey v.name v.scope) st.vars = none := by
        simpa [SymbolTable.variableExists] using hex
      refine ⟨by simp only; omega, ?_⟩
      have hg := cellRange_grow st.currentMemoryPosition 1 ih.1
      simp only [Nat.cast_one] at hg
      simp only [SymbolTable.cells, mapSet_of_mapFind_none _ _ _ hnone, List.map_append,
        List.map_cons, List.map_nil, hg, cellRange]
      have hp := ih.2
      simp only [SymbolTable.cells] at hp
      refine List.Perm.trans ?_ (List.Perm.append_right _ hp)
      simp only [List.append_assoc]
      refine List.Perm.append_left _ ?_
      exact List.perm_append_comm.trans (by simp)
  | @addArrayA st st1 a _ hok ih =>
    unfold SymbolTable.addArrayA at hok
    split at hok
    · cases hok
    · rename_i hex
      injection hok with _ hst
      subst hst
      have hnone : mapFind (mkKey a.name a.scope) st.arrays = none := by
        simpa [SymbolTable.arrayExists] using hex
      have spec := addArrayLoop_spec true (loopCount a.startIndex a.endIndex) a.startIndex
        ⟨a.name, a.scope, [], [], a.startIndex, a.endIndex, 0, false⟩ st.currentMemoryPosition
        (by intro p hp; cases hp) (by intro p hp; cases hp)
      obtain ⟨k1, k2, _⟩ := spec
      refine ⟨by simp only [k1]; omega, ?_⟩
      have hg := cellRange_grow st.currentMemoryPosition
        (loopCount a.startIndex a.endIndex) ih.1
      simp only [SymbolTable.cells, mapSet_of_mapFind_none _ _ _ hnone, List.map_append,
        List.map_cons, List.map_nil, k1, k2, hg, List.nil_append, entriesFrom_values,
        List.flatten_append, List.flatten_cons, List.flatten_nil, List.append_nil]
      have hp := ih.2
      simp only [SymbolTable.cells] at hp
      refine List.Perm.trans ?_ (List.Perm.append_right _ hp)
      simp only [List.append_assoc]
      refine List.Perm.append_left _ ?_
      refine List.Perm.append_left _ ?_
      exact List.perm_append_comm
  | @addProcedureParam st st1 name scope param _ hok ih =>
    unfold SymbolTable.addProcedureParam at hok
    simp only at hok
    split at hok
    · cases hok
    · rename_i p hp
      injection hok with _ hst
      subst hst
      have e := mapSet_map_of_mapFind (mkKey name scope)
        { p with params := p.params ++ [param] } p
        (fun x : Procedure => x.returnVariable.memoryPosition) rfl st.procedures hp
      simp only [SymbolTable.cells, e]
      exact ih
  | @markVariable st name scope v v1 _ hget _ _ hm ih =>
    have e := mapSet_map_of_mapFind (mkKey name scope) v1 v
      (fun x : Variable => x.memoryPosition) hm st.vars hget
    simp only [SymbolTable.cells, SymbolTable.putVariable, e]
    exact ih
  | @markArray st name scope a a1 _ hget _ _ hm ih =>
    have e := mapSet_map_of_mapFind (mkKey name scope) a1 a
      (fun x : Array => x.memoryPositions.map Prod.snd) (by simp only [hm]) st.arrays hget
    simp only [SymbolTable.cells, SymbolTable.putArray, e]
    exact ih
  | @markProcedure st name scope p p1 _ hget _ _ hm ih =>
    have e := mapSet_map_of_mapFind (mkKey name scope) p1 p
      (fun x : Procedure => x.returnVariable.memoryPosition) (by simp only [hm]) st.procedures
      hget
    simp only [SymbolTable.cells, SymbolTable.putProcedure, e]
    exact ih
  | @setIterator st x _ ih => exact ih
  | @setOne st b _ ih => exact ih

/-- C8. In every symbol table built from the empty table by successful
`addVariable`, `addArray` (either overload of each) and `addProcedure` calls,
and by the writes the compiler makes in between that leave the cells of the
entries alone, the cells handed to variables, to array elements and to
procedure return variables are pairwise distinct, and together they are
exactly the cells from 11 up to, and not including, the current value of the
cell counter. -/
theorem reachable_cells_distinct_and_contiguous (st : SymbolTable) (h : Reachable st) :
    st.cells.Nodup ∧ ∀ c, c ∈ st.cells ↔ 11 ≤ c ∧ c < st.currentMemoryPosition := by
  obtain ⟨hge, hperm⟩ := reachable_cells st h
  refine ⟨(List.Perm.nodup_iff hperm).2 (nodup_cellRange _ _), ?_⟩
  intro c
  rw [List.Perm.mem_iff hperm, mem_cellRange]
  omega

set_option maxRecDepth 100000 in
/-- C8, at the table holding the variable `a` (cell 11) and the array `a[0:5]`
(cells 12 to 17) of `MAIN`: cell 17 is handed out and cell 18 is not; and at
the table the semantic pass builds for the program with the procedure
`p(a, T t)`, whose scalar formal `a` is declared through `addVariable(Variable)`:
the cells are distinct, cell 15 is handed out and cell 16 is not. -/
theorem reachable_cells_distinct_and_contiguous_witness :
    (tableVarAndArray.cells.Nodup ∧ (17 : Int) ∈ tableVarAndArray.cells ∧
      (18 : Int) ∉ tableVarAndArray.cells) ∧
    (squareTable.cells.Nodup ∧ (15 : Int) ∈ squareTable.cells ∧
      (16 : Int) ∉ squareTable.cells) :=
  ⟨⟨(reachable_cells_distinct_and_contiguous tableVarAndArray reachable_tableVarAndArray).1,
    ((reachable_cells_distinct_and_contiguous tableVarAndArray reachable_tableVarAndArray).2
      17).2 (by decide),
    fun hmem =>
      absurd
        (((reachable_cells_distinct_and_contiguous tableVarAndArray
          reachable_tableVarAndArray).2 18).1 hmem).2
        (by decide)⟩,
   ⟨(reachable_cells_distinct_and_contiguous squareTable reachable_squareTable).1,
    ((reachable_cells_distinct_and_contiguous squareTable reachable_squareTable).2 15).2
      (by decide!),
    fun hmem =>
      absurd
        (((reachable_cells_distinct_and_contiguous squareTable reachable_squareTable).2
          16).1 hmem).2
        (by decide!)⟩⟩

/-! ## Declarations: duplicates are rejected and leave the table alone -/

theorem count_pos_of_mapFind {α : Type} (name scope : String) (f : α → String × String)
    (m : List (String × α)) (hk : ∀ p ∈ m, p.1 = mkKey (f p.2).1 (f p.2).2)
    (hname : ':' ∉ name.data) (hnames : ∀ p ∈ m, ':' ∉ (f p.2).1.data) (v : α)
    (hf : mapFind (mkKey name scope) m = some v) :
    1 ≤ m.countP (fun p => decide ((f p.2).1 = name ∧ (f p.2).2 = scope)) := by
  have hmem := mapFind_some_mem _ _ _ hf
  have hkey := hk _ hmem
  simp only at hkey
  have e := mkKey_injective _ _ _ _ hname (hnames _ hmem) hkey
  have hpos : 0 < m.countP (fun p => decide ((f p.2).1 = name ∧ (f p.2).2 = scope)) := by
    rw [List.countP_pos_iff]
    exact ⟨_, hmem, by simp [e.1, e.2]⟩
  exact hpos

/-- C6. `addVariable(name, scope)` throws exactly when the table already holds a
variable under (name, scope), `addArray(name, scope, lo, hi)` throws exactly
when it already holds an array under (name, scope), and a throw of either
leaves the whole symbol table, the memory-cell counter included, as it was.
"Holds under (name, scope)" is the table's own lookup (the key is
`name + ":" + scope`); in a reachable table whose names are free of `:` this
is the same as holding an entry whose name and scope fields are the given ones. -/
theorem add_throws_iff_exists_and_keeps_table (st : SymbolTable) (name scope : String)
    (lo hi : Int) :
    ((st.addVariable name scope).throws = true ↔ ∃ v, st.getVariable name scope = some v) ∧
    ((st.addArray name scope lo hi).throws = true ↔ ∃ a, st.getArray name scope = some a) ∧
    (∀ msg st1, st.addVariable name scope = .thrown msg st1 → st1 = st) ∧
    (∀ msg st1, st.addArray name scope lo hi = .thrown msg st1 → st1 = st) ∧
    (Reachable st → ':' ∉ name.data →
      (∀ p ∈ st.vars, ':' ∉ p.2.name.data) → (∀ p ∈ st.arrays, ':' ∉ p.2.name.data) →
      ((st.addVariable name scope).throws = true ↔ 1 ≤ st.variableCount name scope) ∧
      ((st.addArray name scope lo hi).throws = true ↔ 1 ≤ st.arrayCount name scope)) := by
  have hA : (st.addVariable name scope).throws = true ↔
      ∃ v, st.getVariable name scope = some v := by
    unfold SymbolTable.addVariable SymbolTable.variableExists SymbolTable.getVariable
    cases h : mapFind (mkKey name scope) st.vars <;> simp [Sem.throws]
  have hB : (st.addArray name scope lo hi).throws = true ↔
      ∃ a, st.getArray name scope = some a := by
    unfold SymbolTable.addArray SymbolTable.arrayExists SymbolTable.getArray
    cases h : mapFind (mkKey name scope) st.arrays <;> simp [Sem.throws]
  refine ⟨hA, hB, ?_, ?_, ?_⟩
  · intro msg st1
    unfold SymbolTable.addVariable
    split
    · intro h
      injection h with _ h2
      exact h2.symm
    · intro h
      cases h
  · intro msg st1
    unfold SymbolTable.addArray
    split
    · intro h
      injection h with _ h2
      exact h2.symm
    · intro h
      cases h
  · intro hr hname hvn han
    obtain ⟨⟨hv1, _⟩, ⟨ha1, _⟩, _⟩ := reachable_keyed st hr
    refine ⟨?_, ?_⟩
    · rw [hA]
      constructor
      · rintro ⟨v, hv⟩
        exact count_pos_of_mapFind name scope (fun v : Variable => (v.name, v.scope)) st.vars
          hv1 hname hvn v hv
      · intro hc
        have := mapFind_isSome_of_keyed name scope (fun v : Variable => (v.name, v.scope))
          st.vars hv1 hc
        exact Option.isSome_iff_exists.1 this
    · rw [hB]
      constructor
      · rintro ⟨a, ha⟩
        exact count_pos_of_mapFind name scope (fun a : Array => (a.name, a.scope)) st.arrays
          ha1 hname han a ha
      · intro hc
        have := mapFind_isSome_of_keyed name scope (fun a : Array => (a.name, a.scope))
          st.arrays ha1 hc
        exact Option.isSome_iff_exists.1 this

/-- C6, at the reachable table that holds the variable `a` and the array
`a[0:5]` of `MAIN`: declaring the variable again throws, the pair (`a`, `MAIN`)
being the name and scope of a variable of the table, and returns that very table. -/
theorem add_throws_iff_exists_and_keeps_table_witness :
    (tableVarAndArray.addVariable "a" "MAIN").throws = true ∧
    1 ≤ tableVarAndArray.variableCount "a" "MAIN" ∧
    (∀ msg st1, tableVarAndArray.addVariable "a" "MAIN" = .thrown msg st1 →
      st1 = tableVarAndArray) :=
  ⟨by decide,
   ((add_throws_iff_exists_and_keeps_table tableVarAndArray "a" "MAIN" 0 0).2.2.2.2
      reachable_tableVarAndArray (by decide) (by decide) (by decide)).1.1 (by decide),
   (add_throws_iff_exists_and_keeps_table tableVarAndArray "a" "MAIN" 0 0).2.2.1⟩


/-! ## Running emitted code -/

theorem VM.steps_add (prog : List command) (n k : Nat) :
    ∀ s : VM, VM.steps prog (n + k) s = VM.steps prog k (VM.steps prog n s) := by
  induction n with
  | zero => intro s; simp [VM.steps]
  | succ n ih =>
    intro s
    have h : n + 1 + k = (n + k) + 1 := by omega
    rw [h]
    simp only [VM.steps]
    exact ih _

@[simp] theorem setCell_apply (m : Int → Int) (k v x : Int) :
    setCell m k v x = if x = k then v else m x := rfl

theorem emitAll_generatedCode (code : List command) :
    ∀ cg : CodeGenerator, (cg.emitAll code).generatedCode = cg.generatedCode ++ code := by
  induction code with
  | nil => intro cg; simp [CodeGenerator.emitAll]
  | cons c rest ih =>
    intro cg
    simp [CodeGenerator.emitAll, ih, CodeGenerator.emit]


/-! ## Identifier times identifier -/

theorem mulIdId_loop_body (l r : Int) (flag : Bool) (s : VM)
    (hpc : s.pc = 14) (hh : s.halted = false) (hy : 0 < s.mem 2)
    (h10 : flag = true → s.mem 10 = 1) :
    ∃ n, (VM.steps (mulIdId l r flag) n s).pc = 14 ∧
      (VM.steps (mulIdId l r flag) n s).halted = false ∧
      (VM.steps (mulIdId l r flag) n s).input = s.input ∧
      (VM.steps (mulIdId l r flag) n s).output = s.output ∧
      (VM.steps (mulIdId l r flag) n s).mem 1 = 2 * s.mem 1 ∧
      (VM.steps (mulIdId l r flag) n s).mem 2 = s.mem 2 / 2 ∧
      (VM.steps (mulIdId l r flag) n s).mem 3 = s.mem 3 + (s.mem 2 % 2) * s.mem 1 ∧
      (VM.steps (mulIdId l r flag) n s).mem 10 = 1 ∧
      ∀ x, 11 ≤ x → (VM.steps (mulIdId l r flag) n s).mem x = s.mem x := by
  obtain ⟨pc, m, i, o, h⟩ := s
  simp only at hpc hh hy h10
  subst hpc hh
  cases flag
  · simp only [mulIdId, mulLoop, loadOne, oneOf, List.cons_append, List.nil_append,
      Bool.false_eq_true, if_false, if_true]
    by_cases hodd : m 2 % 2 = 1
    · have h2 : m 2 / 2 + m 2 / 2 - m 2 = -1 := by omega
      refine ⟨20, ?_⟩
      simp [VM.steps, VM.step, VM.execute, hy, h2, hodd]
      refine ⟨by ring, ?_⟩
      intro x hx
      have e0 : x ≠ 0 := by omega
      have e1 : x ≠ 1 := by omega
      have e2 : x ≠ 2 := by omega
      have e3 : x ≠ 3 := by omega
      have e5 : x ≠ 5 := by omega
      have e10 : x ≠ 10 := by omega
      simp [e0, e1, e2, e3, e5, e10]
    · have h2 : m 2 / 2 + m 2 / 2 - m 2 = 0 := by omega
      have h3 : m 2 % 2 = 0 := by omega
      refine ⟨18, ?_⟩
      simp [VM.steps, VM.step, VM.execute, hy, h2, h3]
      refine ⟨by ring, ?_⟩
      intro x hx
      have e0 : x ≠ 0 := by omega
      have e1 : x ≠ 1 := by omega
      have e2 : x ≠ 2 := by omega
      have e5 : x ≠ 5 := by omega
      have e10 : x ≠ 10 := by omega
      simp [e0, e1, e2, e5, e10]
  · have h10b : m 10 = 1 := h10 rfl
    simp only [mulIdId, mulLoop, loadOne, oneOf, List.cons_append, List.nil_append,
      if_false, if_true]
    by_cases hodd : m 2 % 2 = 1
    · have h2 : m 2 / 2 + m 2 / 2 - m 2 = -1 := by omega
      refine ⟨19, ?_⟩
      simp [VM.steps, VM.step, VM.execute, hy, h2, hodd, h10b]
      refine ⟨by ring, ?_⟩
      intro x hx
      have e0 : x ≠ 0 := by omega
      have e1 : x ≠ 1 := by omega
      have e2 : x ≠ 2 := by omega
      have e3 : x ≠ 3 := by omega
      have e5 : x ≠ 5 := by omega
      simp [e0, e1, e2, e3, e5]
    · have h2 : m 2 / 2 + m 2 / 2 - m 2 = 0 := by omega
      have h3 : m 2 % 2 = 0 := by omega
      refine ⟨17, ?_⟩
      simp [VM.steps, VM.step, VM.execute, hy, h2, h3, h10b]
      refine ⟨by ring, ?_⟩
      intro x hx
      have e0 : x ≠ 0 := by omega
      have e1 : x ≠ 1 := by omega
      have e2 : x ≠ 2 := by omega
      have e5 : x ≠ 5 := by omega
      simp [e0, e1, e2, e5]

theorem mulIdId_loop (l r : Int) (flag : Bool) :
    ∀ (y : Nat) (s : VM), s.pc = 14 → s.halted = false → s.mem 2 = y →
      (flag = true → s.mem 10 = 1) →
      ∃ n, (VM.steps (mulIdId l r flag) n s).pc = 35 + oneOf flag ∧
        (VM.steps (mulIdId l r flag) n s).halted = false ∧
        (VM.steps (mulIdId l r flag) n s).input = s.input ∧
        (VM.steps (mulIdId l r flag) n s).output = s.output ∧
        (VM.steps (mulIdId l r flag) n s).mem 3 = s.mem 3 + s.mem 1 * s.mem 2 ∧
        ∀ x, 11 ≤ x → (VM.steps (mulIdId l r flag) n s).mem x = s.mem x := by
  intro y
  induction y using Nat.strong_induction_on with
  | _ y ih =>
    intro s hpc hh h2 h10
    by_cases hz : y = 0
    · subst hz
      obtain ⟨pc, m, i, o, h⟩ := s
      simp only at hpc hh h2 h10
      subst hpc hh
      refine ⟨3, ?_⟩
      cases flag
      · simp only [mulIdId, mulLoop, loadOne, oneOf, List.cons_append, List.nil_append,
          Bool.false_eq_true, if_false, if_true]
        simp [VM.steps, VM.step, VM.execute, h2]
        intro x hx
        have e0 : x ≠ 0 := by omega
        simp [e0]
      · simp only [mulIdId, mulLoop, loadOne, oneOf, List.cons_append, List.nil_append,
          if_false, if_true]
        simp [VM.steps, VM.step, VM.execute, h2]
        intro x hx
        have e0 : x ≠ 0 := by omega
        simp [e0]
    · have hpos : 0 < s.mem 2 := by omega
      obtain ⟨n1, b1, b2, b3, b4, b5, b6, b7, b8, b9⟩ :=
        mulIdId_loop_body l r flag s hpc hh hpos h10
      have hy2 : (VM.steps (mulIdId l r flag) n1 s).mem 2 = ((y / 2 : Nat) : Int) := by
        rw [b6, h2]
        norm_cast
      obtain ⟨n2, c1, c2, c3, c4, c5, c6⟩ :=
        ih (y / 2) (by omega) (VM.steps (mulIdId l r flag) n1 s) b1 b2 hy2 (fun _ => b8)
      refine ⟨n1 + n2, ?_⟩
      rw [VM.steps_add]
      refine ⟨c1, c2, c3.trans b3, c4.trans b4, ?_, ?_⟩
      · rw [c5, b7, b5, b6]
        have e := Int.emod_add_ediv (s.mem 2) 2
        have e2 : s.mem 1 * s.mem 2 = s.mem 1 * (s.mem 2 % 2 + 2 * (s.mem 2 / 2)) := by rw [e]
        rw [e2]
        ring
      · intro x hx
        rw [c6 x hx, b9 x hx]

theorem mulIdId_prefix (l r : Int) (flag : Bool) (hl : 11 ≤ l) (hr : 11 ≤ r) (s : VM)
    (hpc : s.pc = 0) (hh : s.halted = false) (ha : s.mem l ≠ 0) (hb : s.mem r ≠ 0) :
    ∃ n, (VM.steps (mulIdId l r flag) n s).pc = 14 ∧
      (VM.steps (mulIdId l r flag) n s).halted = false ∧
      (VM.steps (mulIdId l r flag) n s).input = s.input ∧
      (VM.steps (mulIdId l r flag) n s).output = s.output ∧
      (VM.steps (mulIdId l r flag) n s).mem 1 = |s.mem l| ∧
      (VM.steps (mulIdId l r flag) n s).mem 2 = |s.mem r| ∧
      (VM.steps (mulIdId l r flag) n s).mem 3 = 0 ∧
      ∀ x, 6 ≤ x → (VM.steps (mulIdId l r flag) n s).mem x = s.mem x := by
  obtain ⟨pc, m, i, o, h⟩ := s
  simp only at hpc hh ha hb
  subst hpc hh
  have l0 : l ≠ 0 := by omega
  have l1 : l ≠ 1 := by omega
  have l2 : l ≠ 2 := by omega
  have r0 : r ≠ 0 := by omega
  have r1 : r ≠ 1 := by omega
  have r2 : r ≠ 2 := by omega
  have hx : ∀ x : Int, 6 ≤ x → x ≠ 0 ∧ x ≠ 1 ∧ x ≠ 2 ∧ x ≠ 3 := by
    intro x h6
    omega
  rcases lt_or_gt_of_ne ha with ha1 | ha1 <;> rcases lt_or_gt_of_ne hb with hb1 | hb1
  · have a1 : ¬ 0 < m l := by omega
    have b1 : ¬ 0 < m r := by omega
    refine ⟨14, ?_⟩
    cases flag <;>
      simp [mulIdId, mulLoop, loadOne, oneOf, VM.steps, VM.step, VM.execute, ha, hb, a1, b1,
        l0, l1, l2, r0, r1, r2, abs_of_neg ha1, abs_of_neg hb1] <;>
      exact fun x h6 => by simp [hx x h6]
  · have a1 : ¬ 0 < m l := by omega
    have hb2 : 0 < m r := hb1
    refine ⟨12, ?_⟩
    cases flag <;>
      simp [mulIdId, mulLoop, loadOne, oneOf, VM.steps, VM.step, VM.execute, ha, hb, a1, hb2,
        l0, l1, l2, r0, r1, r2, abs_of_neg ha1, abs_of_pos hb2] <;>
      exact fun x h6 => by simp [hx x h6]
  · have ha2 : 0 < m l := ha1
    have b1 : ¬ 0 < m r := by omega
    refine ⟨12, ?_⟩
    cases flag <;>
      simp [mulIdId, mulLoop, loadOne, oneOf, VM.steps, VM.step, VM.execute, ha, hb, ha2, b1,
        l0, l1, l2, r0, r1, r2, abs_of_pos ha2, abs_of_neg hb1] <;>
      exact fun x h6 => by simp [hx x h6]
  · have ha2 : 0 < m l := ha1
    have hb2 : 0 < m r := hb1
    refine ⟨10, ?_⟩
    cases flag <;>
      simp [mulIdId, mulLoop, loadOne, oneOf, VM.steps, VM.step, VM.execute, ha, hb, ha2, hb2,
        l0, l1, l2, r0, r1, r2, abs_of_pos ha2, abs_of_pos hb2] <;>
      exact fun x h6 => by simp [hx x h6]

theorem mulIdId_tail (l r : Int) (flag : Bool) (hl : 11 ≤ l) (hr : 11 ≤ r) (s : VM)
    (hpc : s.pc = 35 + oneOf flag) (hh : s.halted = false) (ha : s.mem l ≠ 0)
    (hb : s.mem r ≠ 0) (h3 : s.mem 3 = |s.mem l| * |s.mem r|) :
    ∃ n, (VM.steps (mulIdId l r flag) n s).pc = 47 + oneOf flag ∧
      (VM.steps (mulIdId l r flag) n s).halted = false ∧
      (VM.steps (mulIdId l r flag) n s).input = s.input ∧
      (VM.steps (mulIdId l r flag) n s).output = s.output ∧
      (VM.steps (mulIdId l r flag) n s).mem 0 = s.mem l * s.mem r := by
  obtain ⟨pc, m, i, o, h⟩ := s
  simp only at hpc hh ha hb h3
  subst hpc hh
  have l0 : l ≠ 0 := by omega
  have r0 : r ≠ 0 := by omega
  rcases lt_or_gt_of_ne ha with ha1 | ha1 <;> rcases lt_or_gt_of_ne hb with hb1 | hb1
  · have a1 : ¬ 0 < m l := by omega
    rw [abs_of_neg ha1, abs_of_neg hb1] at h3
    refine ⟨5, ?_⟩
    cases flag <;>
      simp [mulIdId, mulLoop, loadOne, oneOf, VM.steps, VM.step, VM.execute, a1, hb1,
        l0, r0, h3]
  · have a1 : ¬ 0 < m l := by omega
    have hb2 : 0 < m r := hb1
    have b1 : ¬ m r < 0 := by omega
    rw [abs_of_neg ha1, abs_of_pos hb2] at h3
    refine ⟨9, ?_⟩
    cases flag <;>
      simp [mulIdId, mulLoop, loadOne, oneOf, VM.steps, VM.step, VM.execute, a1, b1,
        l0, r0, h3]
  · have ha2 : 0 < m l := ha1
    have b1 : ¬ 0 < m r := by omega
    rw [abs_of_pos ha2, abs_of_neg hb1] at h3
    refine ⟨8, ?_⟩
    cases flag <;>
      simp [mulIdId, mulLoop, loadOne, oneOf, VM.steps, VM.step, VM.execute, ha2, b1,
        l0, r0, h3]
  · have ha2 : 0 < m l := ha1
    have hb2 : 0 < m r := hb1
    rw [abs_of_pos ha2, abs_of_pos hb2] at h3
    refine ⟨5, ?_⟩
    cases flag <;>
      simp [mulIdId, mulLoop, loadOne, oneOf, VM.steps, VM.step, VM.execute, ha2, hb2,
        l0, r0, h3]

theorem mulIdId_zero (l r : Int) (flag : Bool) (hl : 11 ≤ l) (hr : 11 ≤ r) (s : VM)
    (hpc : s.pc = 0) (hh : s.halted = false) (hz : s.mem l = 0 ∨ s.mem r = 0) :
    ∃ n, (VM.steps (mulIdId l r flag) n s).pc = 47 + oneOf flag ∧
      (VM.steps (mulIdId l r flag) n s).halted = false ∧
      (VM.steps (mulIdId l r flag) n s).input = s.input ∧
      (VM.steps (mulIdId l r flag) n s).output = s.output ∧
      (VM.steps (mulIdId l r flag) n s).mem 0 = s.mem l * s.mem r := by
  obtain ⟨pc, m, i, o, h⟩ := s
  simp only at hpc hh hz
  subst hpc hh
  have l0 : l ≠ 0 := by omega
  have l1 : l ≠ 1 := by omega
  have r0 : r ≠ 0 := by omega
  have r1 : r ≠ 1 := by omega
  by_cases ha : m l = 0
  · refine ⟨2, ?_⟩
    cases flag <;>
      simp [mulIdId, mulLoop, loadOne, oneOf, VM.steps, VM.step, VM.execute, ha]
  · have hb : m r = 0 := by
      rcases hz with hz | hz
      · exact absurd hz ha
      · exact hz
    rcases lt_or_gt_of_ne ha with ha1 | ha1
    · have a1 : ¬ 0 < m l := by omega
      refine ⟨8, ?_⟩
      cases flag <;>
        simp [mulIdId, mulLoop, loadOne, oneOf, VM.steps, VM.step, VM.execute, ha, hb, a1,
          l0, l1, r0, r1]
    · have ha2 : 0 < m l := ha1
      refine ⟨6, ?_⟩
      cases flag <;>
        simp [mulIdId, mulLoop, loadOne, oneOf, VM.steps, VM.step, VM.execute, ha, hb, ha2,
          l0, l1, r0, r1]

theorem mulIdId_length (l r : Int) (flag : Bool) :
    ((mulIdId l r flag).length : Int) = 47 + oneOf flag := by
  cases flag <;> simp [mulIdId, mulLoop, loadOne, oneOf]

theorem mulIdId_jumpsWithin (l r : Int) (flag : Bool) : jumpsWithin (mulIdId l r flag) = true := by
  cases flag <;>
    simp [jumpsWithin, jumpsWithinFrom, command.isJump, mulIdId, mulLoop, loadOne, oneOf]

theorem mulIdId_runs (l r : Int) (flag : Bool) (hl : 11 ≤ l) (hr : 11 ≤ r) (s : VM)
    (hpc : s.pc = 0) (hh : s.halted = false) (h10 : flag = true → s.mem 10 = 1) :
    ∃ n, (VM.steps (mulIdId l r flag) n s).pc = (mulIdId l r flag).length ∧
      (VM.steps (mulIdId l r flag) n s).halted = false ∧
      (VM.steps (mulIdId l r flag) n s).input = s.input ∧
      (VM.steps (mulIdId l r flag) n s).output = s.output ∧
      (VM.steps (mulIdId l r flag) n s).mem 0 = s.mem l * s.mem r := by
  rw [mulIdId_length]
  by_cases hz : s.mem l = 0 ∨ s.mem r = 0
  · exact mulIdId_zero l r flag hl hr s hpc hh hz
  · have ha : s.mem l ≠ 0 := fun e => hz (Or.inl e)
    have hb : s.mem r ≠ 0 := fun e => hz (Or.inr e)
    obtain ⟨n1, p1, p2, p3, p4, p5, p6, p7, p8⟩ := mulIdId_prefix l r flag hl hr s hpc hh ha hb
    have hnat : (VM.steps (mulIdId l r flag) n1 s).mem 2 = ((|s.mem r|).toNat : Int) := by
      rw [p6, Int.toNat_of_nonneg (abs_nonneg _)]
    obtain ⟨n2, q1, q2, q3, q4, q5, q6⟩ :=
      mulIdId_loop l r flag _ (VM.steps (mulIdId l r flag) n1 s) p1 p2 hnat
        (fun hf => by rw [p8 10 (by omega)]; exact h10 hf)
    have el : (VM.steps (mulIdId l r flag) n2 (VM.steps (mulIdId l r flag) n1 s)).mem l
        = s.mem l := by rw [q6 l hl, p8 l (by omega)]
    have er : (VM.steps (mulIdId l r flag) n2 (VM.steps (mulIdId l r flag) n1 s)).mem r
        = s.mem r := by rw [q6 r hr, p8 r (by omega)]
    obtain ⟨n3, t1, t2, t3, t4, t5⟩ :=
      mulIdId_tail l r flag hl hr _ q1 q2 (by rw [el]; exact ha) (by rw [er]; exact hb)
        (by rw [q5, p7, p5, p6, el, er]; ring)
    refine ⟨n1 + n2 + n3, ?_⟩
    rw [VM.steps_add, VM.steps_add]
    refine ⟨t1, t2, ?_, ?_, ?_⟩
    · rw [t3, q3, p3]
    · rw [t4, q4, p4]
    · rw [t5, el, er]

/-- C3. For two simple variables (possibly the same one) whose cells, at 11 or
above, hold `a` and `b`, and for both variants of the template (constant-one
flag unset; or set, with cell 10 holding 1), the code
`ExpressionNode::generateCode` emits for their product is the multiplication
template, every jump of which lands inside the template or at its end; run
from its first instruction it reaches the end of the template, not halted,
with `a * b` in the accumulator, and the flag is set afterwards. -/
theorem mul_identifiers_correct (st : SymbolTable) (scope : String) (nx ny : IdentifierNode)
    (vx vy : Variable) (hsx : nx.identifierType = .SIMPLE) (hsy : ny.identifierType = .SIMPLE)
    (hx : st.getVariable nx.pidentifier scope = some vx)
    (hy : st.getVariable ny.pidentifier scope = some vy)
    (hlx : 11 ≤ vx.memoryPosition) (hly : 11 ≤ vy.memoryPosition)
    (s : VM) (hpc : s.pc = 0) (hh : s.halted = false) (h10 : st.one = true → s.mem 10 = 1) :
    ∃ cg st1,
      ExpressionNode.generateCode ⟨.identifier nx, "*", .identifier ny⟩ CodeGenerator.new st scope
        = .ok (cg, st1) ∧
      cg.generatedCode = mulIdId vx.memoryPosition vy.memoryPosition st.one ∧
      st1.one = true ∧
      jumpsWithin cg.generatedCode = true ∧
      ∃ n, (VM.steps cg.generatedCode n s).pc = cg.generatedCode.length ∧
        (VM.steps cg.generatedCode n s).halted = false ∧
        (VM.steps cg.generatedCode n s).mem 0 =
          s.mem vx.memoryPosition * s.mem vy.memoryPosition := by
  refine ⟨CodeGenerator.new.emitAll (mulIdId vx.memoryPosition vy.memoryPosition st.one),
    { st with one := true }, ?_, ?_, rfl, ?_, ?_⟩
  · simp [ExpressionNode.generateCode, IdentifierNode.getMemoryPosition, hsx, hsy, hx, hy,
      stageOperand, notTypeIsSimple, IdentifierType.toInt, arithIdId]
  · simp [emitAll_generatedCode, CodeGenerator.new]
  · simp only [emitAll_generatedCode, CodeGenerator.new, List.nil_append]
    exact mulIdId_jumpsWithin _ _ _
  · simp only [emitAll_generatedCode, CodeGenerator.new, List.nil_append]
    obtain ⟨n, r1, r2, _, _, r5⟩ :=
      mulIdId_runs vx.memoryPosition vy.memoryPosition st.one hlx hly s hpc hh h10
    exact ⟨n, r1, r2, r5⟩

/-- C3, at `a * b` over the variables of cells 11 and 12 holding -7 and 5, flag
unset, every other cell holding 9: the run ends with -35 in the accumulator. -/
theorem mul_identifiers_correct_witness :
    ∃ cg st1,
      ExpressionNode.generateCode
          ⟨.identifier ⟨.SIMPLE, "a", 0, ""⟩, "*", .identifier ⟨.SIMPLE, "b", 0, ""⟩⟩
          CodeGenerator.new tableThreeVars "MAIN" = .ok (cg, st1) ∧
      cg.generatedCode = mulIdId 11 12 false ∧
      st1.one = true ∧
      jumpsWithin cg.generatedCode = true ∧
      ∃ n, (VM.steps cg.generatedCode n (machineWith (-7) 5 9)).pc = cg.generatedCode.length ∧
        (VM.steps cg.generatedCode n (machineWith (-7) 5 9)).halted = false ∧
        (VM.steps cg.generatedCode n (machineWith (-7) 5 9)).mem 0 = (-7) * 5 :=
  mul_identifiers_correct tableThreeVars "MAIN" ⟨.SIMPLE, "a", 0, ""⟩ ⟨.SIMPLE, "b", 0, ""⟩
    ⟨"a", "MAIN", true, 11, false⟩ ⟨"b", "MAIN", true, 12, false⟩ rfl rfl rfl rfl
    (by decide) (by decide) (machineWith (-7) 5 9) rfl rfl (by decide)


/-! ## The summation program -/

set_option maxRecDepth 100000 in
theorem compile_sumProgram : compile sumProgram = some sumCode := by decide

theorem sum_step_arith (i : Int) : (i - 1) * i / 2 + i = (i + 1 - 1) * (i + 1) / 2 := by
  have h : (i + 1 - 1) * (i + 1) = (i - 1) * i + i * 2 := by ring
  rw [h, Int.add_mul_ediv_right _ _ (by decide : (2 : Int) ≠ 0)]

theorem sumCode_loop (n : Int) :
    ∀ (d : Nat) (i : Int) (s : VM), s.pc = 10 → s.halted = false → s.mem 0 = i →
      s.mem 13 = i → s.mem 9 = n + 1 → s.mem 10 = 1 → s.mem 12 = (i - 1) * i / 2 →
      i + d = n + 1 →
      ∃ k, (VM.steps sumCode k s).halted = true ∧
        (VM.steps sumCode k s).output = s.output ++ [n * (n + 1) / 2] := by
  intro d
  induction d with
  | zero =>
    intro i s hpc hh h0 h13 h9 h10 h12 hd
    obtain ⟨pc, m, inp, out, h⟩ := s
    simp only at hpc hh h0 h13 h9 h10 h12
    subst hpc hh
    have hi : i = n + 1 := by simpa using hd
    subst hi
    refine ⟨4, ?_⟩
    simp [sumCode, VM.steps, VM.step, VM.execute, h0, h9, h12]
  | succ d ih =>
    intro i s hpc hh h0 h13 h9 h10 h12 hd
    have hne : i - (n + 1) ≠ 0 := by
      push_cast at hd
      omega
    have key : ∃ k, (VM.steps sumCode k s).pc = 10 ∧ (VM.steps sumCode k s).halted = false ∧
        (VM.steps sumCode k s).output = s.output ∧
        (VM.steps sumCode k s).mem 0 = i + 1 ∧ (VM.steps sumCode k s).mem 13 = i + 1 ∧
        (VM.steps sumCode k s).mem 9 = n + 1 ∧ (VM.steps sumCode k s).mem 10 = 1 ∧
        (VM.steps sumCode k s).mem 12 = (i - 1) * i / 2 + i := by
      obtain ⟨pc, m, inp, out, h⟩ := s
      simp only at hpc hh h0 h13 h9 h10 h12
      subst hpc hh
      refine ⟨9, ?_⟩
      simp [sumCode, VM.steps, VM.step, VM.execute, h0, h9, h12, h13, h10, hne]
    obtain ⟨k1, a1, a2, a3, a4, a5, a6, a7, a8⟩ := key
    obtain ⟨k2, b1, b2⟩ := ih (i + 1) (VM.steps sumCode k1 s) a1 a2 a4 a5 a6 a7
      (by rw [a8]; exact sum_step_arith i) (by push_cast at hd ⊢; omega)
    refine ⟨k1 + k2, ?_⟩
    rw [VM.steps_add]
    exact ⟨b1, by rw [b2, a3]⟩

/-- C4. For every integer `n >= 0` supplied as the first input, and whatever
the machine's memory holds at the start, the program the compiler produces for
`READ n; s := 0; FOR i FROM 1 TO n DO s := s + i END; WRITE s` halts and its
output is exactly `n * (n + 1) / 2`. -/
theorem sum_program_correct (n : Int) (hn : 0 ≤ n) (rest : List Int) (m0 : Int → Int) :
    ∃ code, compile sumProgram = some code ∧
      ∃ k, (VM.steps code k ⟨0, m0, n :: rest, [], false⟩).halted = true ∧
        (VM.steps code k ⟨0, m0, n :: rest, [], false⟩).output = [n * (n + 1) / 2] := by
  refine ⟨sumCode, compile_sumProgram, ?_⟩
  have pre : (VM.steps sumCode 10 ⟨0, m0, n :: rest, [], false⟩).pc = 10 ∧
      (VM.steps sumCode 10 ⟨0, m0, n :: rest, [], false⟩).halted = false ∧
      (VM.steps sumCode 10 ⟨0, m0, n :: rest, [], false⟩).output = [] ∧
      (VM.steps sumCode 10 ⟨0, m0, n :: rest, [], false⟩).mem 0 = 1 ∧
      (VM.steps sumCode 10 ⟨0, m0, n :: rest, [], false⟩).mem 13 = 1 ∧
      (VM.steps sumCode 10 ⟨0, m0, n :: rest, [], false⟩).mem 9 = n + 1 ∧
      (VM.steps sumCode 10 ⟨0, m0, n :: rest, [], false⟩).mem 10 = 1 ∧
      (VM.steps sumCode 10 ⟨0, m0, n :: rest, [], false⟩).mem 12 = (1 - 1) * 1 / 2 := by
    simp [sumCode, VM.steps, VM.step, VM.execute]
  obtain ⟨a1, a2, a3, a4, a5, a6, a7, a8⟩ := pre
  obtain ⟨k2, b1, b2⟩ := sumCode_loop n n.toNat 1 _ a1 a2 a4 a5 a6 a7 a8
    (by rw [Int.toNat_of_nonneg hn]; ring)
  refine ⟨10 + k2, ?_⟩
  rw [VM.steps_add]
  exact ⟨b1, by rw [b2, a3]; rfl⟩

/-- C4, at input 10 with an all-zero memory: the program halts with output 55. -/
theorem sum_program_correct_witness :
    ∃ code, compile sumProgram = some code ∧
      ∃ k, (VM.steps code k ⟨0, fun _ => 0, [10], [], false⟩).halted = true ∧
        (VM.steps code k ⟨0, fun _ => 0, [10], [], false⟩).output = [55] :=
  sum_program_correct 10 (by decide) [] (fun _ => 0)


/-! ## Arrays passed to procedures -/

set_option maxRecDepth 100000 in
/-- C1 at `a = -7`, `b = 2` (simple variables `a`, `b` in cells 11 and 12, flag
unset, every other cell 0): the code `ExpressionNode::generateCode` emits for
`a / b` is the division template, and its run ends at the end of the template
with -3 in the accumulator, while the floored quotient is -4; the sibling
branch for the literal divisor 2 emits `LOAD 11; HALF`, which leaves -4. -/
theorem div_identifiers_at_minus7_2 :
    (ExpressionNode.generateCode
        ⟨.identifier ⟨.SIMPLE, "a", 0, ""⟩, "/", .identifier ⟨.SIMPLE, "b", 0, ""⟩⟩
        CodeGenerator.new tableThreeVars "MAIN").toOption.map (fun r => r.1.generatedCode)
      = some (divIdId 11 12 false) ∧
    (VM.steps (divIdId 11 12 false) 200 (machineWith (-7) 2 0)).pc
      = (divIdId 11 12 false).length ∧
    (VM.steps (divIdId 11 12 false) 200 (machineWith (-7) 2 0)).mem 0 = -3 ∧
    Int.fdiv (-7) 2 = -4 ∧
    (ExpressionNode.generateCode
        ⟨.identifier ⟨.SIMPLE, "a", 0, ""⟩, "/", .number 2⟩
        CodeGenerator.new tableThreeVars "MAIN").toOption.map (fun r => r.1.generatedCode)
      = some [⟨"LOAD", 11⟩, ⟨"HALF", 0⟩] ∧
    (VM.steps [⟨"LOAD", 11⟩, ⟨"HALF", 0⟩] 2 (machineWith (-7) 2 0)).mem 0 = -4 := by
  refine ⟨by decide!, by decide!, by decide!, by decide, by decide!, by decide!⟩

set_option maxRecDepth 100000 in
/-- C2 at `a = -7`, `b = 3` (simple variables `a`, `b` in cells 11 and 12, every
other cell 0): the code `ExpressionNode::generateCode` emits for `a % b` is the
modulus template, and its run ends at the end of the template with 1 in the
accumulator, while the floored remainder `a - b * floor(a / b)` is 2; the
sibling branch for two literals emits `SET 2` for `-7 % 3`. -/
theorem mod_identifiers_at_minus7_3 :
    (ExpressionNode.generateCode
        ⟨.identifier ⟨.SIMPLE, "a", 0, ""⟩, "%", .identifier ⟨.SIMPLE, "b", 0, ""⟩⟩
        CodeGenerator.new tableThreeVars "MAIN").toOption.map (fun r => r.1.generatedCode)
      = some (modIdId 11 12) ∧
    (VM.steps (modIdId 11 12) 200 (machineWith (-7) 3 0)).pc = (modIdId 11 12).length ∧
    (VM.steps (modIdId 11 12) 200 (machineWith (-7) 3 0)).mem 0 = 1 ∧
    (-7 : Int) - 3 * Int.fdiv (-7) 3 = 2 ∧
    (ExpressionNode.generateCode ⟨.number (-7), "%", .number 3⟩
        CodeGenerator.new tableThreeVars "MAIN").toOption.map (fun r => r.1.generatedCode)
      = some [⟨"SET", 2⟩] := by
  refine ⟨by decide!, by decide!, by decide!, by decide, by decide!⟩

/-! ## The semantic pass: iterator, calls, signatures -/

/-- C12. When the semantic pass analyses an assignment to, or a `READ` into, a
simple variable whose name is the active (non-empty) iterator, it throws, and
the symbol table at the throw is the table on entry: no initialisation flag
(nor anything else) has been changed. -/
theorem iterator_write_throws_before_flags (identifier : IdentifierNode)
    (expression : Expression) (st : SymbolTable) (scope : String)
    (hs : identifier.identifierType = .SIMPLE)
    (hit : identifier.pidentifier = st.iterator) (hne : st.iterator ≠ "") :
    Command.traverseAndAnalyze (.assignment identifier expression) st scope =
      .thrown ("Error: Cannot assign value to iterator " ++ identifier.pidentifier ++
        " in scope " ++ scope) st ∧
    Command.traverseAndAnalyze (.read identifier) st scope =
      .thrown ("Error: Cannot read value to iterator " ++ identifier.pidentifier ++
        " in scope " ++ scope) st := by
  have hne2 : identifier.pidentifier ≠ "" := by rw [hit]; exact hne
  constructor
  · simp [Command.traverseAndAnalyze, assignmentAnalyze, hit, hne]
  · simp [Command.traverseAndAnalyze, readAnalyze, hs, hit, hne, Sem.andThen]

/-- C12 at `i := 0` and `READ i` inside a loop over `i`. -/
theorem iterator_write_throws_before_flags_witness :
    Command.traverseAndAnalyze (.assignment (simpleId "i") (.value (.number 0))) tableInLoop
        "MAIN" =
      .thrown ("Error: Cannot assign value to iterator " ++ (simpleId "i").pidentifier ++
        " in scope " ++ "MAIN") tableInLoop ∧
    Command.traverseAndAnalyze (.read (simpleId "i")) tableInLoop "MAIN" =
      .thrown ("Error: Cannot read value to iterator " ++ (simpleId "i").pidentifier ++
        " in scope " ++ "MAIN") tableInLoop :=
  iterator_write_throws_before_flags (simpleId "i") (.value (.number 0)) tableInLoop "MAIN"
    rfl rfl (by decide)

/-- C13. The program `FOR i FROM 1 TO 3 DO p(i) ENDFOR` with `p(a)` assigning
to its formal is accepted by the semantic pass: the call with the active
iterator `i` as actual argument does not throw, while an assignment to `i` and a
`READ` into `i` on the same table do. The emitted call copies the formal back
into the iterator's cell (`LOAD 12; STORE 13`). -/
theorem iterator_as_argument_accepted :
    (iterArgProgram.traverseAndAnalyze SymbolTable.new).returns = true ∧
    (Command.traverseAndAnalyze (.procCall "p" ["i"]) tableInLoopCall "MAIN").returns = true ∧
    (Command.traverseAndAnalyze (.assignment (simpleId "i") (.value (.number 0)))
      tableInLoopCall "MAIN").throws = true ∧
    (Command.traverseAndAnalyze (.read (simpleId "i")) tableInLoopCall "MAIN").throws = true ∧
    compile iterArgProgram = some iterArgCode := by
  refine ⟨by decide!, by decide!, by decide!, by decide!, by decide!⟩

/-- C14. `ProcCallNode::traverseAndAnalyze` throws whenever the callee is not a
procedure of `GLOBAL`, and whenever the callee's name is the scope the call is
analysed in, whatever the arguments are (they are not looked at before). -/
theorem procCall_throws_undeclared_or_self (pidentifier : String) (args : List String)
    (st : SymbolTable) (scope : String)
    (h : st.procedureExists pidentifier "GLOBAL" = false ∨ scope = pidentifier) :
    Command.traverseAndAnalyze (.procCall pidentifier args) st scope =
      .thrown ("Error: Procedure " ++ pidentifier ++ " not declared in scope " ++ scope) st := by
  rcases h with h | h
  · simp [Command.traverseAndAnalyze, procCallAnalyze, h]
  · simp [Command.traverseAndAnalyze, procCallAnalyze, h]

/-- C14 at a call of `p` analysed inside `p` itself. -/
theorem procCall_throws_undeclared_or_self_witness :
    Command.traverseAndAnalyze (.procCall "p" ["x"]) mutualTable "p" =
      .thrown ("Error: Procedure " ++ "p" ++ " not declared in scope " ++ "p") mutualTable :=
  procCall_throws_undeclared_or_self "p" ["x"] mutualTable "p" (Or.inr rfl)

/-- C15. The program whose procedures `p` and `q` are held in the nested form
(`q`, declared second, is the outer node) and call each other is accepted by
the semantic pass, so its call graph has the cycle `p` calls `q`, `q` calls
`p`; the same two procedures held in a list are rejected. Emission of the
accepted program then reads the jump label of `q`, which was never set. -/
theorem nested_mutual_recursion_accepted :
    (mutualProgram.traverseAndAnalyze SymbolTable.new).returns = true ∧
    (mutualListProgram.traverseAndAnalyze SymbolTable.new).throws = true ∧
    genErrorOf (mutualProgram.generateCode CodeGenerator.new mutualTable) =
      some .indeterminate := by
  refine ⟨by decide!, by decide!, by decide!⟩

theorem paramsLoop_iff (st : SymbolTable) (scope : String) :
    ∀ (formals : List Param) (actuals : List String), formals.length = actuals.length →
      (paramsLoop st scope formals actuals = true ↔
        ∀ (i : Nat) (formal : Param) (actual : String),
          formals[i]? = some formal → actuals[i]? = some actual →
          kindMatchesVariableFirst st scope formal actual) := by
  intro formals
  induction formals with
  | nil =>
    intro actuals hlen
    cases actuals with
    | nil => simp [paramsLoop]
    | cons a rest => simp at hlen
  | cons p ps ih =>
    intro actuals hlen
    cases actuals with
    | nil => simp at hlen
    | cons a rest =>
      have hlen1 : ps.length = rest.length := by simpa using hlen
      have ih1 := ih rest hlen1
      constructor
      · intro h i formal actual hf ha
        cases i with
        | zero =>
          simp only [List.getElem?_cons_zero, Option.some.injEq] at hf ha
          subst hf; subst ha
          unfold paramsLoop at h
          cases hv : st.variableExists a scope <;> cases p <;>
            simp [hv, kindMatchesVariableFirst] at h ⊢
          · exact h.1
        | succ j =>
          simp only [List.getElem?_cons_succ] at hf ha
          have hrest : paramsLoop st scope ps rest = true := by
            unfold paramsLoop at h
            cases hv : st.variableExists a scope <;> cases p <;> simp [hv] at h
            · exact h.2
            · exact h
          exact (ih1.mp hrest) j formal actual hf ha
      · intro h
        have h0 := h 0 p a (by simp) (by simp)
        have hrest : paramsLoop st scope ps rest = true :=
          ih1.mpr (fun i formal actual hf ha =>
            h (i + 1) formal actual (by simpa using hf) (by simpa using ha))
        unfold paramsLoop
        cases p with
        | variableParam v =>
          simp only [kindMatchesVariableFirst] at h0
          simp [h0, hrest]
        | arrayParam arr =>
          simp only [kindMatchesVariableFirst] at h0
          simp [h0.1, h0.2, hrest]

/-- C16, as the claim words it, fails where a name is both a variable and an
array of the calling scope: with the variable `a` and the array `a[0:5]` in
`MAIN` and the procedure `p(T t)`, the actual `a` names an array of `MAIN` at
the array formal, yet `isParamsTypeCorrect` returns false. -/
theorem signature_check_not_kind_match :
    ¬ (sameNameTable.isParamsTypeCorrect "p" "MAIN" ["a"] = true ↔
       signatureMatches sameNameTable "p" "MAIN" ["a"]) := by
  intro h
  have hfalse : sameNameTable.isParamsTypeCorrect "p" "MAIN" ["a"] = false := by decide!
  have hsig : signatureMatches sameNameTable "p" "MAIN" ["a"] := by
    refine ⟨⟨"p", [.arrayParam ⟨"t", "p", [], [], 0, 0, 0, false⟩], "GLOBAL", none, none,
      ⟨"return", "GLOBAL", true, 11, false⟩⟩, by decide!, rfl, ?_⟩
    intro i formal actual hf ha
    cases i with
    | zero =>
      simp only [List.getElem?_cons_zero, Option.some.injEq] at hf ha
      subst hf; subst ha
      show sameNameTable.arrayExists "a" "MAIN" = true
      decide!
    | succ j => simp at hf
  rw [h.mpr hsig] at hfalse
  exact Bool.noConfusion hfalse

/-- C16, amended. `isParamsTypeCorrect(proc, scope, actuals)` returns true if
and only if `proc` is declared in `GLOBAL`, the number of actuals equals the
number of formals, and at every position the actual names a variable of
`scope` when the formal is a scalar, and names an array but no variable of
`scope` when the formal is an array. -/
theorem isParamsTypeCorrect_iff (st : SymbolTable) (procedureName scope : String)
    (actuals : List String) :
    st.isParamsTypeCorrect procedureName scope actuals = true ↔
      ∃ procedure, st.getProcedure procedureName "GLOBAL" = some procedure ∧
        procedure.params.length = actuals.length ∧
        ∀ (i : Nat) (formal : Param) (actual : String),
          procedure.params[i]? = some formal → actuals[i]? = some actual →
          kindMatchesVariableFirst st scope formal actual := by
  unfold SymbolTable.isParamsTypeCorrect
  cases hp : st.getProcedure procedureName "GLOBAL" with
  | none => simp
  | some procedure =>
    by_cases hlen : procedure.params.length = actuals.length
    · simp only [hlen, ne_eq, not_true_eq_false, if_false, Option.some.injEq, exists_eq_left',
        true_and]
      exact paramsLoop_iff st scope procedure.params actuals hlen
    · simp [hlen]

/-! ## Emission only appends and patches its own instructions -/

@[simp] theorem emit_generatedCode (cg : CodeGenerator) (code : String) (arg : Int) :
    (cg.emit code arg).generatedCode = cg.generatedCode ++ [⟨code, arg⟩] := rfl

@[simp] theorem emit_currentLine (cg : CodeGenerator) (code : String) (arg : Int) :
    (cg.emit code arg).currentLine = cg.currentLine + 1 := rfl

@[simp] theorem updateCommand_currentLine (cg : CodeGenerator) (j : Int) (code : String)
    (arg : Int) : (cg.updateCommand j code arg).currentLine = cg.currentLine := by
  unfold CodeGenerator.updateCommand
  split <;> rfl

@[simp] theorem updateCommand_length (cg : CodeGenerator) (j : Int) (code : String)
    (arg : Int) :
    (cg.updateCommand j code arg).generatedCode.length = cg.generatedCode.length := by
  unfold CodeGenerator.updateCommand
  split <;> simp

theorem updateCommand_getElem? (cg : CodeGenerator) (j : Int) (code : String) (arg : Int)
    (i : Nat) :
    (cg.updateCommand j code arg).generatedCode[i]? =
      if (i : Int) = j ∧ i < cg.generatedCode.length then some ⟨code, arg⟩
      else cg.generatedCode[i]? := by
  unfold CodeGenerator.updateCommand
  by_cases hj : j < 0 ∨ j ≥ cg.generatedCode.length
  · rw [if_pos hj]
    have : ¬ ((i : Int) = j ∧ i < cg.generatedCode.length) := by
      rintro ⟨h1, h2⟩
      rcases hj with hj | hj <;> omega
    rw [if_neg this]
  · rw [if_neg hj]
    simp only [List.getElem?_set]
    have hj0 : 0 ≤ j := by omega
    by_cases hi : (i : Int) = j
    · have h1 : j.toNat = i := by omega
      have h2 : i < cg.generatedCode.length := by omega
      simp [hi, h1, h2]
    · have h1 : ¬ j.toNat = i := by omega
      simp [hi, h1]

theorem emitAll_currentLine (code : List command) :
    ∀ cg : CodeGenerator, (cg.emitAll code).currentLine = cg.currentLine + code.length := by
  induction code with
  | nil => intro cg; simp [CodeGenerator.emitAll]
  | cons c rest ih =>
    intro cg
    simp [CodeGenerator.emitAll, ih]
    omega

theorem getCurrentLine_of_wf (cg : CodeGenerator) (h : cg.WF) :
    cg.getCurrentLine = (cg.generatedCode.length : Int) := by
  unfold CodeGenerator.getCurrentLine
  rw [h]

theorem Good.good_mono {len len1 : Int} {i : Nat} {c : command} (h : Good len i c)
    (hle : len ≤ len1) : Good len1 i c := by
  intro hj
  have := h hj
  exact ⟨this.1, by omega⟩

theorem good_of_not_jump (len : Int) (i : Nat) (code : String) (arg : Int)
    (h : command.isJump ⟨code, arg⟩ = false) : Good len i ⟨code, arg⟩ := by
  intro hj
  rw [h] at hj
  exact Bool.noConfusion hj

theorem Appends.appends_refl (E : Nat → Prop) (k : Nat) (cg : CodeGenerator) (h : cg.WF) :
    Appends E k cg cg :=
  ⟨h, Nat.le_refl _, fun _ _ => rfl, fun i c hi _ hc => by
    have := List.getElem?_eq_some_iff.mp hc
    obtain ⟨hlt, _⟩ := this
    omega⟩

theorem Appends.appends_mono {E E1 : Nat → Prop} {k k1 : Nat} {cg cg1 : CodeGenerator}
    (h : Appends E k cg cg1) (hE : ∀ i, E i → E1 i) (hk : k ≤ k1) : Appends E1 k1 cg cg1 :=
  ⟨h.wf, h.le, h.old, fun i c hi hne hc =>
    (h.good i c hi (fun he => hne (hE i he)) hc).good_mono (by omega)⟩

theorem Appends.appends_trans {E : Nat → Prop} {k : Nat} {cg cg1 cg2 : CodeGenerator}
    (h1 : Appends E k cg cg1) (h2 : Appends noAddress k cg1 cg2) : Appends E k cg cg2 := by
  refine ⟨h2.wf, Nat.le_trans h1.le h2.le, ?_, ?_⟩
  · intro i hi
    rw [h2.old i (Nat.lt_of_lt_of_le hi h1.le), h1.old i hi]
  · intro i c hi hne hc
    by_cases hlt : i < cg1.generatedCode.length
    · rw [h2.old i hlt] at hc
      have hle := h2.le
      exact (h1.good i c hi hne hc).good_mono (by omega)
    · exact h2.good i c (by omega) (fun hf => hf) hc

theorem Appends.emit {E : Nat → Prop} {k : Nat} {cg cg1 : CodeGenerator}
    (h : Appends E (k + 1) cg cg1) (code : String) (arg : Int)
    (hg : E cg1.generatedCode.length ∨
      Good (cg1.generatedCode.length + 1 + k) cg1.generatedCode.length ⟨code, arg⟩) :
    Appends E k cg (cg1.emit code arg) := by
  have hwf := h.wf
  unfold CodeGenerator.WF at hwf
  refine ⟨by simp [CodeGenerator.WF, hwf], by simp; have := h.le; omega, ?_, ?_⟩
  · intro i hi
    have hle := h.le
    simp only [emit_generatedCode]
    rw [List.getElem?_append_left (by omega)]
    exact h.old i hi
  · intro i c hi hne hc
    simp only [emit_generatedCode] at hc ⊢
    by_cases hlt : i < cg1.generatedCode.length
    · rw [List.getElem?_append_left hlt] at hc
      have := h.good i c hi hne hc
      refine this.good_mono ?_
      simp
      omega
    · have hlen : i = cg1.generatedCode.length := by
        have := List.getElem?_eq_some_iff.mp hc
        obtain ⟨h3, _⟩ := this
        simp at h3
        omega
      subst hlen
      simp at hc
      subst hc
      rcases hg with hg | hg
      · exact absurd hg hne
      · refine hg.good_mono ?_
        simp

theorem Appends.emit_same {E : Nat → Prop} {k : Nat} {cg cg1 : CodeGenerator}
    (h : Appends E k cg cg1) (code : String) (arg : Int)
    (hg : E cg1.generatedCode.length ∨
      Good (cg1.generatedCode.length + 1 + k) cg1.generatedCode.length ⟨code, arg⟩) :
    Appends E k cg (cg1.emit code arg) :=
  (h.appends_mono (fun _ he => he) (Nat.le_succ k)).emit code arg hg

theorem Appends.patch {E : Nat → Prop} {k : Nat} {cg cg1 : CodeGenerator}
    (h : Appends E k cg cg1) (j : Int) (code : String) (arg : Int)
    (hj : (cg.generatedCode.length : Int) ≤ j)
    (hg : E j.toNat ∨ Good (cg1.generatedCode.length + k) j.toNat ⟨code, arg⟩) :
    Appends E k cg (cg1.updateCommand j code arg) := by
  have hwf := h.wf
  unfold CodeGenerator.WF at hwf
  refine ⟨by simp [CodeGenerator.WF, hwf], by simp; exact h.le, ?_, ?_⟩
  · intro i hi
    rw [updateCommand_getElem?]
    have : ¬ ((i : Int) = j ∧ i < cg1.generatedCode.length) := by
      rintro ⟨h1, _⟩
      omega
    rw [if_neg this]
    exact h.old i hi
  · intro i c hi hne hc
    rw [updateCommand_getElem?] at hc
    simp only [updateCommand_length]
    by_cases hij : (i : Int) = j ∧ i < cg1.generatedCode.length
    · rw [if_pos hij] at hc
      have h1 : j.toNat = i := by omega
      rw [h1] at hg
      rcases hg with hg | hg
      · exact absurd hg hne
      · simp only [Option.some.injEq] at hc
        subst hc
        exact hg
    · rw [if_neg hij] at hc
      exact h.good i c hi hne hc

theorem Appends.patch_clear {k : Nat} {cg cg1 : CodeGenerator} (j : Int)
    (h : Appends (fun i => (i : Int) = j) k cg cg1) (code : String) (arg : Int)
    (hj : (cg.generatedCode.length : Int) ≤ j)
    (hg : Good (cg1.generatedCode.length + k) j.toNat ⟨code, arg⟩) :
    Appends noAddress k cg (cg1.updateCommand j code arg) := by
  have hwf := h.wf
  unfold CodeGenerator.WF at hwf
  refine ⟨by simp [CodeGenerator.WF, hwf], by simp; exact h.le, ?_, ?_⟩
  · intro i hi
    rw [updateCommand_getElem?]
    have : ¬ ((i : Int) = j ∧ i < cg1.generatedCode.length) := by
      rintro ⟨h1, _⟩
      omega
    rw [if_neg this]
    exact h.old i hi
  · intro i c hi _ hc
    rw [updateCommand_getElem?] at hc
    simp only [updateCommand_length]
    by_cases hij : (i : Int) = j
    · have hlt : i < cg1.generatedCode.length := by
        by_contra hge
        rw [if_neg (fun hh => hge hh.2)] at hc
        have := List.getElem?_eq_some_iff.mp hc
        obtain ⟨h3, _⟩ := this
        exact hge h3
      rw [if_pos ⟨hij, hlt⟩] at hc
      have h1 : j.toNat = i := by omega
      rw [h1] at hg
      simp only [Option.some.injEq] at hc
      subst hc
      exact hg
    · rw [if_neg (fun hh => hij hh.1)] at hc
      exact h.good i c hi hij hc

theorem Appends.emitAll {E : Nat → Prop} {k : Nat} {cg cg1 : CodeGenerator}
    (h : Appends E k cg cg1) (code : List command)
    (hg : ∀ i c, code[i]? = some c → E (cg1.generatedCode.length + i) ∨
      Good (cg1.generatedCode.length + code.length + k) (cg1.generatedCode.length + i) c) :
    Appends E k cg (cg1.emitAll code) := by
  have hwf := h.wf
  unfold CodeGenerator.WF at hwf
  refine ⟨?_, ?_, ?_, ?_⟩
  · simp [CodeGenerator.WF, emitAll_currentLine, emitAll_generatedCode, hwf]
  · rw [emitAll_generatedCode]
    have := h.le
    simp
    omega
  · intro i hi
    have hle := h.le
    rw [emitAll_generatedCode, List.getElem?_append_left (by omega)]
    exact h.old i hi
  · intro i c hi hne hc
    rw [emitAll_generatedCode] at hc ⊢
    by_cases hlt : i < cg1.generatedCode.length
    · rw [List.getElem?_append_left hlt] at hc
      refine (h.good i c hi hne hc).good_mono ?_
      simp
    · rw [List.getElem?_append_right (by omega)] at hc
      have := hg (i - cg1.generatedCode.length) c hc
      have e : cg1.generatedCode.length + (i - cg1.generatedCode.length) = i := by omega
      rw [e] at this
      rcases this with this | this
      · exact absurd this hne
      · refine this.good_mono ?_
        simp

theorem Appends.exists_append {E : Nat → Prop} {k : Nat} {cg cg1 : CodeGenerator}
    (h : Appends E k cg cg1) :
    ∃ added, cg1.generatedCode = cg.generatedCode ++ added := by
  refine ⟨cg1.generatedCode.drop cg.generatedCode.length, ?_⟩
  apply List.ext_getElem?
  intro i
  by_cases hi : i < cg.generatedCode.length
  · rw [List.getElem?_append_left hi]
    exact h.old i hi
  · rw [List.getElem?_append_right (by omega), List.getElem?_drop]
    congr 1
    omega

/-! ## Emission of commands keeps the symbols of the table -/

theorem SameSymbols.symbols_refl (st : SymbolTable) : SameSymbols st st :=
  ⟨rfl, rfl, fun _ => rfl, fun _ => rfl⟩

theorem SameSymbols.symbols_trans {st st1 st2 : SymbolTable} (h1 : SameSymbols st st1)
    (h2 : SameSymbols st1 st2) : SameSymbols st st2 :=
  ⟨h2.vars.trans h1.vars, h2.procedures.trans h1.procedures,
    fun key => (h2.arrays key).trans (h1.arrays key),
    fun key => (h2.entries key).trans (h1.entries key)⟩

theorem SameSymbols.one (st : SymbolTable) (b : Bool) : SameSymbols st { st with one := b } :=
  ⟨rfl, rfl, fun _ => rfl, fun _ => rfl⟩

theorem mapFind_mapSet_isSome {α : Type} (key key1 : String) (v : α) (m : List (String × α))
    (h : (mapFind key1 m).isSome = true) :
    (mapFind key (mapSet key1 v m)).isSome = (mapFind key m).isSome := by
  by_cases hk : key = key1
  · subst hk
    rw [mapFind_mapSet_same, h]
    rfl
  · rw [mapFind_mapSet_ne _ _ _ _ hk]

theorem SameSymbols.symbols_putArray (st : SymbolTable) (name scope : String) (a a1 : Array)
    (h : st.getArray name scope = some a) (he : a1.isInitialized = a.isInitialized) :
    SameSymbols st (st.putArray name scope a1) := by
  refine ⟨rfl, rfl, fun key => ?_, fun key => ?_⟩
  · unfold SymbolTable.putArray
    unfold SymbolTable.getArray at h
    exact mapFind_mapSet_isSome key _ a1 st.arrays (by rw [h]; rfl)
  · unfold SymbolTable.putArray
    unfold SymbolTable.getArray at h
    by_cases hk : key = mkKey name scope
    · subst hk
      simp only
      rw [mapFind_mapSet_same, h]
      simp only [Option.map_some', he]
    · simp only
      rw [mapFind_mapSet_ne _ _ _ _ hk]

theorem ExpressionNode.generateCode_same_node (e : ExpressionNode) (cg : CodeGenerator)
    (st : SymbolTable) (scope : String) (cg1 : CodeGenerator) (st1 : SymbolTable)
    (h : e.generateCode cg st scope = .ok (cg1, st1)) : SameSymbols st st1 := by
  unfold ExpressionNode.generateCode at h
  split at h
  · split at h
    · split at h
      · cases h
      · split at h
        · cases h
        · simp only [Except.ok.injEq, Prod.mk.injEq] at h
          rw [← h.2]
          exact SameSymbols.one _ _
    · cases h
    · cases h
  · split at h
    · cases h
    · split at h
      · cases h
      · split at h
        · cases h
        · simp only [Except.ok.injEq, Prod.mk.injEq] at h
          rw [← h.2]
          exact SameSymbols.one _ _
  · split at h
    · cases h
    · split at h
      · cases h
      · split at h
        · cases h
        · simp only [Except.ok.injEq, Prod.mk.injEq] at h
          rw [← h.2]
          exact SameSymbols.one _ _
  · split at h
    · cases h
    · simp only [Except.ok.injEq, Prod.mk.injEq] at h
      rw [← h.2]
      exact SameSymbols.symbols_refl _

theorem except_map_ok {ε α β : Type} (f : α → β) (x : Except ε α) (b : β)
    (h : x.map f = .ok b) : ∃ a, x = .ok a ∧ f a = b := by
  cases x with
  | error e => cases h
  | ok a =>
    refine ⟨a, rfl, ?_⟩
    simpa [Except.map] using h

theorem Expression.generateCode_same_expr (x : Expression) (cg : CodeGenerator)
    (st : SymbolTable) (scope : String) (cg1 : CodeGenerator) (st1 : SymbolTable)
    (h : x.generateCode cg st scope = .ok (cg1, st1)) : SameSymbols st st1 := by
  cases x with
  | value v =>
    simp only [Expression.generateCode] at h
    obtain ⟨a, _, ha⟩ := except_map_ok _ _ _ h
    simp only [Prod.mk.injEq] at ha
    rw [← ha.2]
    exact SameSymbols.symbols_refl _
  | binary e => exact e.generateCode_same_node cg st scope cg1 st1 h

theorem assignmentGenerate_same (identifier : IdentifierNode) (expression : Expression)
    (cg : CodeGenerator) (st : SymbolTable) (scope : String) (cg1 : CodeGenerator)
    (st1 : SymbolTable) (h : assignmentGenerate identifier expression cg st scope = .ok (cg1, st1)) :
    SameSymbols st st1 := by
  unfold assignmentGenerate at h
  split at h
  · split at h
    · cases h
    · rename_i cg2 st2 he
      obtain ⟨a, _, ha⟩ := except_map_ok _ _ _ h
      simp only [Prod.mk.injEq] at ha
      rw [← ha.2]
      exact expression.generateCode_same_expr _ _ _ _ _ he
  · split at h
    · cases h
    · split at h
      · split at h
        · cases h
        · rename_i cg2 st2 he
          obtain ⟨a, _, ha⟩ := except_map_ok _ _ _ h
          simp only [Prod.mk.injEq] at ha
          rw [← ha.2]
          exact expression.generateCode_same_expr _ _ _ _ _ he
      · obtain ⟨a, he, ha⟩ := except_map_ok _ _ _ h
        simp only [Prod.mk.injEq] at ha
        rw [← ha.2]
        exact expression.generateCode_same_expr _ _ _ _ _ he
  · split at h
    · cases h
    · split at h
      · cases h
      · obtain ⟨a, he, ha⟩ := except_map_ok _ _ _ h
        simp only [Prod.mk.injEq] at ha
        rw [← ha.2]
        exact expression.generateCode_same_expr _ _ _ _ _ he

theorem marshalArg_same (pidentifier scope : String) (paramsString : List String)
    (arg : String) (i : Nat) (cg : CodeGenerator) (st : SymbolTable) (cg1 : CodeGenerator)
    (st1 : SymbolTable)
    (h : marshalArg pidentifier scope paramsString arg i cg st = .ok (cg1, st1)) :
    SameSymbols st st1 := by
  unfold marshalArg at h
  simp only at h
  repeat' split at h
  all_goals first
    | (cases h; exact SameSymbols.symbols_refl _)
    | (cases h; refine SameSymbols.symbols_putArray st _ _ _ _ (by assumption) ?_; rfl)
    | cases h

theorem marshalArgs_same (pidentifier scope : String) (paramsString : List String) :
    ∀ (args : List String) (i : Nat) (cg : CodeGenerator) (st : SymbolTable)
      (cg1 : CodeGenerator) (st1 : SymbolTable),
      marshalArgs pidentifier scope paramsString args i cg st = .ok (cg1, st1) →
      SameSymbols st st1 := by
  intro args
  induction args with
  | nil =>
    intro i cg st cg1 st1 h
    simp only [marshalArgs, Except.ok.injEq, Prod.mk.injEq] at h
    rw [← h.2]
    exact SameSymbols.symbols_refl _
  | cons a rest ih =>
    intro i cg st cg1 st1 h
    simp only [marshalArgs] at h
    split at h
    · cases h
    · rename_i cg2 st2 hm
      exact (marshalArg_same _ _ _ _ _ _ _ _ _ hm).symbols_trans (ih _ _ _ _ _ h)

theorem procCallGenerate_same (pidentifier : String) (args : List String)
    (cg : CodeGenerator) (st : SymbolTable) (scope : String) (cg1 : CodeGenerator)
    (st1 : SymbolTable) (h : procCallGenerate pidentifier args cg st scope = .ok (cg1, st1)) :
    SameSymbols st st1 := by
  unfold procCallGenerate at h
  split at h
  · cases h
  · simp only at h
    split at h
    · cases h
    · rename_i cg2 st2 hm
      split at h
      · cases h
      · split at h
        · cases h
        · obtain ⟨a, _, ha⟩ := except_map_ok _ _ _ h
          simp only [Prod.mk.injEq] at ha
          rw [← ha.2]
          exact marshalArgs_same _ _ _ _ _ _ _ _ _ hm

/-! ## Jumps of the arithmetic templates -/

theorem jumpsWithinFrom_spec (len : Int) :
    ∀ (code : List command) (p : Int), jumpsWithinFrom len p code = true →
      ∀ (i : Nat) (c : command), code[i]? = some c → c.isJump = true →
        0 ≤ p + i + c.arg ∧ p + i + c.arg ≤ len := by
  intro code
  induction code with
  | nil => intro p _ i c hc; simp at hc
  | cons d rest ih =>
    intro p h i c hc hj
    simp only [jumpsWithinFrom, Bool.and_eq_true, Bool.or_eq_true, Bool.not_eq_true',
      decide_eq_true_eq] at h
    cases i with
    | zero =>
      simp only [List.getElem?_cons_zero, Option.some.injEq] at hc
      subst hc
      rcases h.1 with h1 | h1
      · rw [h1] at hj
        exact Bool.noConfusion hj
      · simpa using h1
    | succ j =>
      simp only [List.getElem?_cons_succ] at hc
      have := ih (p + 1) h.2 j c hc hj
      push_cast
      constructor <;> omega

theorem doublings_adds : ∀ (fuel : Nat) (v : Int) (ds : List command),
    doublings fuel v = some ds → ∀ c ∈ ds, c = ⟨"ADD", 0⟩ := by
  intro fuel
  induction fuel with
  | zero =>
    intro v ds h c hc
    simp only [doublings] at h
    split at h
    · cases h
    · cases h
      simp at hc
  | succ n ih =>
    intro v ds h c hc
    simp only [doublings] at h
    split at h
    · split at h
      · rename_i rest hr
        cases h
        simp only [List.mem_cons] at hc
        rcases hc with hc | hc
        · exact hc
        · exact ih _ _ hr c hc
      · cases h
    · cases h
      simp at hc

theorem jumpsWithinFrom_of_no_jump (len : Int) :
    ∀ (code : List command) (p : Int), (∀ c ∈ code, c.isJump = false) →
      jumpsWithinFrom len p code = true := by
  intro code
  induction code with
  | nil => intro p _; rfl
  | cons d rest ih =>
    intro p h
    simp only [jumpsWithinFrom, Bool.and_eq_true, Bool.or_eq_true, Bool.not_eq_true']
    exact ⟨Or.inl (h d (by simp)), ih _ (fun c hc => h c (by simp [hc]))⟩

theorem jumpsWithinFrom_eq_parts (len : Int) :
    ∀ (code : List command) (p : Int),
      jumpsWithinFrom len p code = partsWithinFrom len p (code.map command.jumpPart) := by
  intro code
  induction code with
  | nil => intro p; rfl
  | cons c rest ih =>
    intro p
    simp only [List.map_cons, jumpsWithinFrom, ih]
    unfold command.jumpPart
    cases hj : c.isJump <;> simp [partsWithinFrom]

theorem template_jumps (code : List command) (parts : List (Option Int))
    (h : code.map command.jumpPart = parts)
    (hp : partsWithinFrom (parts.length + 1) 0 parts = true) :
    jumpsWithinFrom (code.length + 1) 0 code = true := by
  rw [jumpsWithinFrom_eq_parts, h, ← List.length_map code command.jumpPart, h]
  exact hp

theorem jumpPart_GET (a : Int) : command.jumpPart ⟨"GET", a⟩ = none := rfl
theorem jumpPart_PUT (a : Int) : command.jumpPart ⟨"PUT", a⟩ = none := rfl
theorem jumpPart_LOAD (a : Int) : command.jumpPart ⟨"LOAD", a⟩ = none := rfl
theorem jumpPart_STORE (a : Int) : command.jumpPart ⟨"STORE", a⟩ = none := rfl
theorem jumpPart_LOADI (a : Int) : command.jumpPart ⟨"LOADI", a⟩ = none := rfl
theorem jumpPart_STOREI (a : Int) : command.jumpPart ⟨"STOREI", a⟩ = none := rfl
theorem jumpPart_ADD (a : Int) : command.jumpPart ⟨"ADD", a⟩ = none := rfl
theorem jumpPart_SUB (a : Int) : command.jumpPart ⟨"SUB", a⟩ = none := rfl
theorem jumpPart_SUBI (a : Int) : command.jumpPart ⟨"SUBI", a⟩ = none := rfl
theorem jumpPart_SET (a : Int) : command.jumpPart ⟨"SET", a⟩ = none := rfl
theorem jumpPart_HALF (a : Int) : command.jumpPart ⟨"HALF", a⟩ = none := rfl
theorem jumpPart_JUMP (a : Int) : command.jumpPart ⟨"JUMP", a⟩ = some a := rfl
theorem jumpPart_JPOS (a : Int) : command.jumpPart ⟨"JPOS", a⟩ = some a := rfl
theorem jumpPart_JNEG (a : Int) : command.jumpPart ⟨"JNEG", a⟩ = some a := rfl
theorem jumpPart_JZERO (a : Int) : command.jumpPart ⟨"JZERO", a⟩ = some a := rfl

theorem mulIdId_jumps (l r : Int) (flag : Bool) :
    jumpsWithinFrom ((mulIdId l r flag).length + 1) 0 (mulIdId l r flag) = true := by
  refine template_jumps _ ((mulIdId 0 0 flag).map command.jumpPart) ?_ ?_
  · cases flag <;>
    simp only [mulIdId, mulLoop, loadOne, List.map_append, apply_ite (List.map command.jumpPart),
      List.map_cons, List.map_nil, jumpPart_LOAD, jumpPart_STORE, jumpPart_ADD, jumpPart_SUB,
      jumpPart_SET, jumpPart_HALF, jumpPart_JUMP, jumpPart_JPOS, jumpPart_JNEG, jumpPart_JZERO,
      ite_self, gt_iff_lt, Int.reduceLT, Int.reduceNeg, if_true, if_false]
  · cases flag <;> decide

theorem divIdId_jumps (l r : Int) (flag : Bool) :
    jumpsWithinFrom ((divIdId l r flag).length + 1) 0 (divIdId l r flag) = true := by
  refine template_jumps _ ((divIdId 0 0 flag).map command.jumpPart) ?_ ?_
  · cases flag <;>
    simp only [divIdId, divLoop, List.map_append, apply_ite (List.map command.jumpPart),
      List.map_cons, List.map_nil, jumpPart_LOAD, jumpPart_STORE, jumpPart_ADD, jumpPart_SUB,
      jumpPart_SET, jumpPart_HALF, jumpPart_JUMP, jumpPart_JPOS, jumpPart_JNEG, jumpPart_JZERO,
      ite_self, gt_iff_lt, Int.reduceLT, Int.reduceNeg, if_true, if_false]
  · cases flag <;> decide

theorem modIdId_jumps (l r : Int) :
    jumpsWithinFrom ((modIdId l r).length + 1) 0 (modIdId l r) = true := by
  refine template_jumps _ ((modIdId 0 0).map command.jumpPart) ?_ ?_
  · simp only [modIdId, modLoop, List.map_append, apply_ite (List.map command.jumpPart),
      List.map_cons, List.map_nil, jumpPart_LOAD, jumpPart_STORE, jumpPart_ADD, jumpPart_SUB,
      jumpPart_SET, jumpPart_HALF, jumpPart_JUMP, jumpPart_JPOS, jumpPart_JNEG, jumpPart_JZERO,
      ite_self, gt_iff_lt, Int.reduceLT, Int.reduceNeg, if_true, if_false]
  · decide

theorem mulIdOdd_jumps (l v : Int) (flag : Bool) :
    jumpsWithinFrom ((mulIdOdd l v flag).length + 1) 0 (mulIdOdd l v flag) = true := by
  refine template_jumps _
    (if v > 0 then (mulIdOdd 0 1 flag).map command.jumpPart else (mulIdOdd 0 (-1) flag).map command.jumpPart) ?_ ?_
  · by_cases hv : 0 < v <;> cases flag <;>
    simp only [hv, mulIdOdd, mulLoop, loadOne, List.map_append, apply_ite (List.map command.jumpPart),
      List.map_cons, List.map_nil, jumpPart_LOAD, jumpPart_STORE, jumpPart_ADD, jumpPart_SUB,
      jumpPart_SET, jumpPart_HALF, jumpPart_JUMP, jumpPart_JPOS, jumpPart_JNEG, jumpPart_JZERO,
      ite_self, gt_iff_lt, Int.reduceLT, Int.reduceNeg, if_true, if_false]
  · split <;> cases flag <;> decide

theorem divIdLit_jumps (l v : Int) (flag : Bool) :
    jumpsWithinFrom ((divIdLit l v flag).length + 1) 0 (divIdLit l v flag) = true := by
  refine template_jumps _ ((divIdLit 0 1 flag).map command.jumpPart) ?_ ?_
  · cases flag <;>
    simp only [divIdLit, divLoop, List.map_append, apply_ite (List.map command.jumpPart),
      List.map_cons, List.map_nil, jumpPart_LOAD, jumpPart_STORE, jumpPart_ADD, jumpPart_SUB,
      jumpPart_SET, jumpPart_HALF, jumpPart_JUMP, jumpPart_JPOS, jumpPart_JNEG, jumpPart_JZERO,
      ite_self, gt_iff_lt, Int.reduceLT, Int.reduceNeg, if_true, if_false]
  · cases flag <;> decide

theorem modIdLit_jumps (l v : Int) :
    jumpsWithinFrom ((modIdLit l v).length + 1) 0 (modIdLit l v) = true := by
  refine template_jumps _
    (if v > 0 then (modIdLit 0 1).map command.jumpPart
     else (modIdLit 0 (-1)).map command.jumpPart) ?_ ?_
  · by_cases hv : 0 < v <;>
    simp only [hv, modIdLit, modLoop, List.map_append, apply_ite (List.map command.jumpPart),
      List.map_cons, List.map_nil, jumpPart_LOAD, jumpPart_STORE, jumpPart_ADD, jumpPart_SUB,
      jumpPart_SET, jumpPart_HALF, jumpPart_JUMP, jumpPart_JPOS, jumpPart_JNEG, jumpPart_JZERO,
      ite_self, gt_iff_lt, Int.reduceLT, Int.reduceNeg, if_true, if_false]
  · split <;> decide

theorem mulOddId_jumps (v r : Int) (flag : Bool) :
    jumpsWithinFrom ((mulOddId v r flag).length + 1) 0 (mulOddId v r flag) = true := by
  refine template_jumps _
    (if v > 0 then (mulOddId 1 0 flag).map command.jumpPart else (mulOddId (-1) 0 flag).map command.jumpPart) ?_ ?_
  · by_cases hv : 0 < v <;> cases flag <;>
    simp only [hv, mulOddId, mulLoop, loadOne, List.map_append, apply_ite (List.map command.jumpPart),
      List.map_cons, List.map_nil, jumpPart_LOAD, jumpPart_STORE, jumpPart_ADD, jumpPart_SUB,
      jumpPart_SET, jumpPart_HALF, jumpPart_JUMP, jumpPart_JPOS, jumpPart_JNEG, jumpPart_JZERO,
      ite_self, gt_iff_lt, Int.reduceLT, Int.reduceNeg, if_true, if_false]
  · split <;> cases flag <;> decide

theorem divLitId_jumps (v r : Int) (flag : Bool) :
    jumpsWithinFrom ((divLitId v r flag).length + 1) 0 (divLitId v r flag) = true := by
  refine template_jumps _ ((divLitId 1 0 flag).map command.jumpPart) ?_ ?_
  · cases flag <;>
    simp only [divLitId, divLoop, List.map_append, apply_ite (List.map command.jumpPart),
      List.map_cons, List.map_nil, jumpPart_LOAD, jumpPart_STORE, jumpPart_ADD, jumpPart_SUB,
      jumpPart_SET, jumpPart_HALF, jumpPart_JUMP, jumpPart_JPOS, jumpPart_JNEG, jumpPart_JZERO,
      ite_self, gt_iff_lt, Int.reduceLT, Int.reduceNeg, if_true, if_false]
  · cases flag <;> decide

theorem modLitId_jumps (v r : Int) :
    jumpsWithinFrom ((modLitId v r).length + 1) 0 (modLitId v r) = true := by
  refine template_jumps _ ((modLitId 1 0).map command.jumpPart) ?_ ?_
  · simp only [modLitId, modLoop, List.map_append, apply_ite (List.map command.jumpPart),
      List.map_cons, List.map_nil, jumpPart_LOAD, jumpPart_STORE, jumpPart_ADD, jumpPart_SUB,
      jumpPart_SET, jumpPart_HALF, jumpPart_JUMP, jumpPart_JPOS, jumpPart_JNEG, jumpPart_JZERO,
      ite_self, gt_iff_lt, Int.reduceLT, Int.reduceNeg, if_true, if_false]
  · decide

theorem arithIdId_jumps (op : String) (l r : Int) (flag : Bool) :
    jumpsWithinFrom ((arithIdId op l r flag).1.length + 1) 0 (arithIdId op l r flag).1 = true := by
  unfold arithIdId
  repeat' split
  · rfl
  · rfl
  · exact mulIdId_jumps _ _ _
  · exact divIdId_jumps _ _ _
  · exact modIdId_jumps _ _
  · rfl

theorem doublings_jumps (fuel : Nat) (v a : Int) (ds : List command) (code : String)
    (hc : command.isJump ⟨code, a⟩ = false) (hd : doublings fuel v = some ds) :
    jumpsWithinFrom ((⟨code, a⟩ :: ds).length + 1) 0 (⟨code, a⟩ :: ds) = true := by
  apply jumpsWithinFrom_of_no_jump
  intro c hcm
  simp only [List.mem_cons] at hcm
  rcases hcm with hcm | hcm
  · subst hcm; exact hc
  · rw [doublings_adds _ _ _ hd c hcm]; rfl

theorem arithIdLit_jumps (op : String) (x y : Int) (flag : Bool) (t : List command × Bool)
    (h : arithIdLit op x y flag = .ok t) :
    jumpsWithinFrom (t.1.length + 1) 0 t.1 = true := by
  unfold arithIdLit at h
  by_cases h1 : op = "+"
  · rw [if_pos h1] at h; cases h; rfl
  rw [if_neg h1] at h
  by_cases h2 : op = "-"
  · rw [if_pos h2] at h; cases h; rfl
  rw [if_neg h2] at h
  by_cases h3 : op = "*"
  · rw [if_pos h3] at h
    by_cases h4 : y = 0
    · rw [if_pos h4] at h; cases h; rfl
    rw [if_neg h4] at h
    by_cases h5 : Int.tmod y 2 = 0
    · rw [if_pos h5] at h
      cases hd : doublings y.natAbs y with
      | none => rw [hd] at h; cases h
      | some ds =>
        rw [hd] at h
        cases h
        exact doublings_jumps _ _ _ _ _ rfl hd
    · rw [if_neg h5] at h; cases h; exact mulIdOdd_jumps _ _ _
  rw [if_neg h3] at h
  by_cases h6 : op = "/"
  · rw [if_pos h6] at h
    by_cases h7 : y = 0
    · rw [if_pos h7] at h; cases h; rfl
    rw [if_neg h7] at h
    by_cases h8 : y = 1
    · rw [if_pos h8] at h; cases h; rfl
    rw [if_neg h8] at h
    by_cases h9 : y = -1
    · rw [if_pos h9] at h; cases h; rfl
    rw [if_neg h9] at h
    by_cases h10 : y = 2
    · rw [if_pos h10] at h; cases h; rfl
    rw [if_neg h10] at h
    by_cases h11 : y = -2
    · rw [if_pos h11] at h; cases h; rfl
    rw [if_neg h11] at h
    cases h
    exact divIdLit_jumps _ _ _
  rw [if_neg h6] at h
  by_cases h12 : op = "%"
  · rw [if_pos h12] at h
    by_cases h13 : y = 0 ∨ y = 1 ∨ y = -1
    · rw [if_pos h13] at h; cases h; rfl
    rw [if_neg h13] at h
    cases h
    exact modIdLit_jumps _ _
  rw [if_neg h12] at h
  cases h
  rfl

theorem arithLitId_jumps (op : String) (x y : Int) (flag : Bool) (t : List command × Bool)
    (h : arithLitId op x y flag = .ok t) :
    jumpsWithinFrom (t.1.length + 1) 0 t.1 = true := by
  unfold arithLitId at h
  by_cases h1 : op = "+"
  · rw [if_pos h1] at h; cases h; rfl
  rw [if_neg h1] at h
  by_cases h2 : op = "-"
  · rw [if_pos h2] at h; cases h; rfl
  rw [if_neg h2] at h
  by_cases h3 : op = "*"
  · rw [if_pos h3] at h
    by_cases h4 : x = 0
    · rw [if_pos h4] at h; cases h; rfl
    rw [if_neg h4] at h
    by_cases h5 : Int.tmod x 2 = 0
    · rw [if_pos h5] at h
      cases hd : doublings x.natAbs x with
      | none => rw [hd] at h; cases h
      | some ds =>
        rw [hd] at h
        cases h
        exact doublings_jumps _ _ _ _ _ rfl hd
    · rw [if_neg h5] at h; cases h; exact mulOddId_jumps _ _ _
  rw [if_neg h3] at h
  by_cases h6 : op = "/"
  · rw [if_pos h6] at h
    by_cases h7 : x = 0
    · rw [if_pos h7] at h; cases h; rfl
    rw [if_neg h7] at h
    by_cases h8 : x = 1
    · rw [if_pos h8] at h; cases h; rfl
    rw [if_neg h8] at h
    by_cases h9 : x = -1
    · rw [if_pos h9] at h; cases h; rfl
    rw [if_neg h9] at h
    by_cases h10 : x = 2
    · rw [if_pos h10] at h; cases h; rfl
    rw [if_neg h10] at h
    by_cases h11 : x = -2
    · rw [if_pos h11] at h; cases h; rfl
    rw [if_neg h11] at h
    cases h
    exact divLitId_jumps _ _ _
  rw [if_neg h6] at h
  by_cases h12 : op = "%"
  · rw [if_pos h12] at h
    by_cases h13 : x = 0
    · rw [if_pos h13] at h; cases h; rfl
    rw [if_neg h13] at h
    cases h
    exact modLitId_jumps _ _
  rw [if_neg h12] at h
  cases h
  rfl

theorem arithLitLit_jumps (op : String) (a b : Int) (code : List command)
    (h : arithLitLit op a b = .ok code) :
    jumpsWithinFrom (code.length + 1) 0 code = true := by
  apply jumpsWithinFrom_of_no_jump
  intro c hc
  unfold arithLitLit at h
  repeat' split at h
  all_goals cases h
  all_goals simp at hc
  all_goals (subst hc; rfl)

/-! ## What the leaves of emission append -/

theorem emitAll_append (a b : List command) :
    ∀ cg : CodeGenerator, (cg.emitAll a).emitAll b = cg.emitAll (a ++ b) := by
  induction a with
  | nil => intro cg; rfl
  | cons c rest ih => intro cg; exact ih (cg.emit c.code c.arg)

theorem emit_eq_emitAll (cg : CodeGenerator) (code : String) (arg : Int) :
    cg.emit code arg = cg.emitAll [⟨code, arg⟩] := rfl

theorem emitAll_emit (cg : CodeGenerator) (a : List command) (code : String) (arg : Int) :
    (cg.emitAll a).emit code arg = cg.emitAll (a ++ [⟨code, arg⟩]) := by
  rw [emit_eq_emitAll, emitAll_append]

theorem mem_of_getElem?_eq_some {α : Type} {l : List α} {i : Nat} {a : α}
    (h : l[i]? = some a) : a ∈ l := by
  obtain ⟨hlt, he⟩ := List.getElem?_eq_some_iff.mp h
  rw [← he]
  exact List.getElem_mem hlt

theorem PlainCode.mem {code : List command} (h : PlainCode code) (c : command) (hc : c ∈ code) :
    c.isJump = false := by
  unfold PlainCode at h
  rw [List.all_eq_true] at h
  simpa using h c hc

theorem PlainCode.plain_append {a b : List command} (ha : PlainCode a) (hb : PlainCode b) :
    PlainCode (a ++ b) := by
  unfold PlainCode at *
  rw [List.all_append, ha, hb]
  rfl

theorem PlainCode.localJumps {code : List command} (h : PlainCode code) (k : Int) :
    LocalJumps k code := by
  intro i c hc hj
  rw [h.mem c (List.getElem?_mem hc)] at hj
  exact Bool.noConfusion hj

theorem LocalJumps.append_plain_left {a b : List command} {k : Int} (ha : PlainCode a)
    (hb : LocalJumps k b) : LocalJumps k (a ++ b) := by
  intro i c hc hj
  by_cases hi : i < a.length
  · rw [List.getElem?_append_left hi] at hc
    rw [ha.mem c (List.getElem?_mem hc)] at hj
    exact Bool.noConfusion hj
  · rw [List.getElem?_append_right (by omega)] at hc
    have := hb _ c hc hj
    simp only [List.length_append, Nat.cast_add]
    have e : ((i - a.length : Nat) : Int) = (i : Int) - a.length := by omega
    rw [e] at this
    omega

theorem LocalJumps.append_plain_right {a b : List command} {k : Int}
    (ha : LocalJumps (k + b.length) a) (hb : PlainCode b) : LocalJumps k (a ++ b) := by
  intro i c hc hj
  by_cases hi : i < a.length
  · rw [List.getElem?_append_left hi] at hc
    have := ha _ c hc hj
    simp only [List.length_append, Nat.cast_add]
    omega
  · rw [List.getElem?_append_right (by omega)] at hc
    rw [hb.mem c (List.getElem?_mem hc)] at hj
    exact Bool.noConfusion hj

theorem Appends.emitAll_local {E : Nat → Prop} {k : Nat} {cg cg1 : CodeGenerator}
    (h : Appends E k cg cg1) (code : List command) (hl : LocalJumps k code) :
    Appends E k cg (cg1.emitAll code) := by
  refine h.emitAll code ?_
  intro i c hc
  refine Or.inr ?_
  intro hj
  have := hl i c hc hj
  push_cast
  constructor <;> omega

theorem IdentifierNode.loadCode_plain (n : IdentifierNode) (st : SymbolTable) (scope : String)
    (code : List command) (h : n.loadCode st scope = .ok code) :
    PlainCode code ∧ code ≠ [] := by
  unfold IdentifierNode.loadCode at h
  repeat' split at h
  all_goals try cases h
  all_goals exact ⟨rfl, by simp⟩

theorem IdentifierNode.generateCode_plain_id (n : IdentifierNode) (cg : CodeGenerator)
    (st : SymbolTable) (scope : String) (cg1 : CodeGenerator)
    (h : n.generateCode cg st scope = .ok cg1) :
    ∃ code, cg1 = cg.emitAll code ∧ PlainCode code ∧ code ≠ [] := by
  unfold IdentifierNode.generateCode at h
  cases hl : n.loadCode st scope with
  | error e => rw [hl] at h; cases h
  | ok code =>
    rw [hl] at h
    cases h
    exact ⟨code, rfl, n.loadCode_plain st scope code hl⟩

theorem ValueNode.generateCode_plain_value (v : ValueNode) (cg : CodeGenerator)
    (st : SymbolTable) (scope : String) (cg1 : CodeGenerator)
    (h : v.generateCode cg st scope = .ok cg1) :
    ∃ code, cg1 = cg.emitAll code ∧ PlainCode code ∧ code ≠ [] := by
  cases v with
  | identifier n => exact n.generateCode_plain_id cg st scope cg1 h
  | number value =>
    simp only [ValueNode.generateCode, Except.ok.injEq] at h
    subst h
    exact ⟨[⟨"SET", value⟩], rfl, rfl, by simp⟩

theorem stageOperand_plain (n : IdentifierNode) (pos cell : Int) (cg : CodeGenerator)
    (st : SymbolTable) (scope : String) (cg1 : CodeGenerator) (l : Int)
    (h : stageOperand n pos cell cg st scope = .ok (cg1, l)) :
    ∃ code, cg1 = cg.emitAll code ∧ PlainCode code := by
  unfold stageOperand at h
  by_cases hn : notTypeIsSimple n.identifierType = true
  · rw [if_pos hn] at h
    cases hg : n.generateCode cg st scope with
    | error e => rw [hg] at h; cases h
    | ok cgg =>
      rw [hg] at h
      obtain ⟨code, hc, hp, _⟩ := n.generateCode_plain_id cg st scope cgg hg
      simp only [Except.ok.injEq, Prod.mk.injEq] at h
      refine ⟨code ++ [⟨"STORE", cell⟩], ?_,
        hp.plain_append (show PlainCode [⟨"STORE", cell⟩] from rfl)⟩
      rw [← h.1, hc, emitAll_emit]
  · rw [if_neg hn] at h
    simp only [Except.ok.injEq, Prod.mk.injEq] at h
    exact ⟨[], h.1.symm, rfl⟩

theorem localJumps_of_jumpsWithinFrom (code : List command)
    (h : jumpsWithinFrom (code.length + 1) 0 code = true) : LocalJumps 1 code := by
  intro i c hc hj
  have := jumpsWithinFrom_spec _ code 0 h i c hc hj
  omega

theorem ExpressionNode.generateCode_local_node (e : ExpressionNode) (cg : CodeGenerator)
    (st : SymbolTable) (scope : String) (cg1 : CodeGenerator) (st1 : SymbolTable)
    (h : e.generateCode cg st scope = .ok (cg1, st1)) :
    ∃ code, cg1 = cg.emitAll code ∧ LocalJumps 1 code := by
  obtain ⟨left, op, right⟩ := e
  cases left with
  | identifier leftId =>
    cases right with
    | identifier rightId =>
      simp only [ExpressionNode.generateCode] at h
      cases hl : leftId.getMemoryPosition st scope with
      | error err =>
        cases hr : rightId.getMemoryPosition st scope <;> (rw [hl, hr] at h; cases h)
      | ok l0 =>
        cases hr : rightId.getMemoryPosition st scope with
        | error err => rw [hl, hr] at h; cases h
        | ok r0 =>
          rw [hl, hr] at h
          simp only at h
          cases h1 : stageOperand leftId l0 6 cg st scope with
          | error err => rw [h1] at h; cases h
          | ok p1 =>
            obtain ⟨cga, l⟩ := p1
            rw [h1] at h
            simp only at h
            cases h2 : stageOperand rightId r0 7 cga st scope with
            | error err => rw [h2] at h; cases h
            | ok p2 =>
              obtain ⟨cgb, r⟩ := p2
              rw [h2] at h
              simp only [Except.ok.injEq, Prod.mk.injEq] at h
              obtain ⟨c1, hc1, hp1⟩ := stageOperand_plain _ _ _ _ _ _ _ _ h1
              obtain ⟨c2, hc2, hp2⟩ := stageOperand_plain _ _ _ _ _ _ _ _ h2
              refine ⟨(c1 ++ c2) ++ (arithIdId op l r st.one).1, ?_, ?_⟩
              · rw [← h.1, hc2, hc1, emitAll_append, emitAll_append, List.append_assoc]
              · exact LocalJumps.append_plain_left (hp1.plain_append hp2)
                  (localJumps_of_jumpsWithinFrom _ (arithIdId_jumps _ _ _ _))
    | number rightValue =>
      simp only [ExpressionNode.generateCode] at h
      cases hl : leftId.getMemoryPosition st scope with
      | error err => rw [hl] at h; cases h
      | ok l0 =>
        rw [hl] at h
        simp only at h
        cases h1 : stageOperand leftId l0 6 cg st scope with
        | error err => rw [h1] at h; cases h
        | ok p1 =>
          obtain ⟨cga, l⟩ := p1
          rw [h1] at h
          simp only at h
          cases ht : arithIdLit op l rightValue st.one with
          | error err => rw [ht] at h; cases h
          | ok t =>
            rw [ht] at h
            simp only [Except.ok.injEq, Prod.mk.injEq] at h
            obtain ⟨c1, hc1, hp1⟩ := stageOperand_plain _ _ _ _ _ _ _ _ h1
            refine ⟨c1 ++ t.1, ?_, ?_⟩
            · rw [← h.1, hc1, emitAll_append]
            · exact LocalJumps.append_plain_left hp1
                (localJumps_of_jumpsWithinFrom _ (arithIdLit_jumps _ _ _ _ _ ht))
  | number leftValue =>
    cases right with
    | identifier rightId =>
      simp only [ExpressionNode.generateCode] at h
      cases hr : rightId.getMemoryPosition st scope with
      | error err => rw [hr] at h; cases h
      | ok r0 =>
        rw [hr] at h
        simp only at h
        cases h1 : stageOperand rightId r0 7 cg st scope with
        | error err => rw [h1] at h; cases h
        | ok p1 =>
          obtain ⟨cga, r⟩ := p1
          rw [h1] at h
          simp only at h
          cases ht : arithLitId op leftValue r st.one with
          | error err => rw [ht] at h; cases h
          | ok t =>
            rw [ht] at h
            simp only [Except.ok.injEq, Prod.mk.injEq] at h
            obtain ⟨c1, hc1, hp1⟩ := stageOperand_plain _ _ _ _ _ _ _ _ h1
            refine ⟨c1 ++ t.1, ?_, ?_⟩
            · rw [← h.1, hc1, emitAll_append]
            · exact LocalJumps.append_plain_left hp1
                (localJumps_of_jumpsWithinFrom _ (arithLitId_jumps _ _ _ _ _ ht))
    | number rightValue =>
      simp only [ExpressionNode.generateCode] at h
      cases ht : arithLitLit op leftValue rightValue with
      | error err => rw [ht] at h; cases h
      | ok code =>
        rw [ht] at h
        simp only [Except.ok.injEq, Prod.mk.injEq] at h
        exact ⟨_, h.1.symm, localJumps_of_jumpsWithinFrom _ (arithLitLit_jumps _ _ _ _ ht)⟩

theorem Expression.generateCode_local_expr (x : Expression) (cg : CodeGenerator)
    (st : SymbolTable) (scope : String) (cg1 : CodeGenerator) (st1 : SymbolTable)
    (h : x.generateCode cg st scope = .ok (cg1, st1)) :
    ∃ code, cg1 = cg.emitAll code ∧ LocalJumps 1 code := by
  cases x with
  | value v =>
    simp only [Expression.generateCode] at h
    obtain ⟨a, ha, he⟩ := except_map_ok _ _ _ h
    simp only [Prod.mk.injEq] at he
    obtain ⟨code, hc, hp, _⟩ := v.generateCode_plain_value cg st scope a ha
    exact ⟨code, by rw [← he.1, hc], hp.localJumps 1⟩
  | binary e => exact e.generateCode_local_node cg st scope cg1 st1 h


theorem conditionBranch_code (op : String) (cg : CodeGenerator) :
    ∃ b, conditionBranch op cg = cg.emitAll b ∧
      (b = [] ∨ ∃ c, b = [c] ∧ (c.arg = 1 ∨ c.arg = 2)) := by
  unfold conditionBranch
  by_cases h1 : op = "="
  · rw [if_pos h1]; exact ⟨[⟨"JZERO", 1⟩], rfl, Or.inr ⟨_, rfl, Or.inl rfl⟩⟩
  rw [if_neg h1]
  by_cases h2 : op = "!="
  · rw [if_pos h2]; exact ⟨[⟨"JZERO", 2⟩], rfl, Or.inr ⟨_, rfl, Or.inr rfl⟩⟩
  rw [if_neg h2]
  by_cases h3 : op = "<"
  · rw [if_pos h3]; exact ⟨[⟨"JNEG", 1⟩], rfl, Or.inr ⟨_, rfl, Or.inl rfl⟩⟩
  rw [if_neg h3]
  by_cases h4 : op = ">"
  · rw [if_pos h4]; exact ⟨[⟨"JPOS", 1⟩], rfl, Or.inr ⟨_, rfl, Or.inl rfl⟩⟩
  rw [if_neg h4]
  by_cases h5 : op = "<="
  · rw [if_pos h5]; exact ⟨[⟨"JPOS", 2⟩], rfl, Or.inr ⟨_, rfl, Or.inr rfl⟩⟩
  rw [if_neg h5]
  by_cases h6 : op = ">="
  · rw [if_pos h6]; exact ⟨[⟨"JNEG", 2⟩], rfl, Or.inr ⟨_, rfl, Or.inr rfl⟩⟩
  rw [if_neg h6]
  exact ⟨[], rfl, Or.inl rfl⟩

theorem subRight_plain (rightId : IdentifierNode) (cg : CodeGenerator) (st : SymbolTable)
    (scope : String) (cg1 : CodeGenerator) (h : subRight rightId cg st scope = .ok cg1) :
    ∃ code, cg1 = cg.emitAll code ∧ PlainCode code ∧ code ≠ [] := by
  unfold subRight at h
  split at h
  · obtain ⟨a, ha, he⟩ := except_map_ok _ _ _ h
    obtain ⟨code, hc, hp, _⟩ := rightId.generateCode_plain_id _ st scope a ha
    refine ⟨(⟨"STORE", 6⟩ :: code) ++ [⟨"SUBI", 6⟩], ?_,
      PlainCode.plain_append (PlainCode.plain_append (show PlainCode [⟨"STORE", 6⟩] from rfl) hp)
        (show PlainCode [⟨"SUBI", 6⟩] from rfl), by simp⟩
    rw [← he, hc, emitAll_emit]
    rfl
  · obtain ⟨a, ha, he⟩ := except_map_ok _ _ _ h
    exact ⟨[⟨"SUB", a⟩], he.symm, rfl, by simp⟩

/-- The shape of the code of a condition: a non-empty run of plain
instructions, then at most one branch, whose displacement is 1 or 2. -/
theorem ConditionNode.generateCode_code (c : ConditionNode) (cg : CodeGenerator)
    (st : SymbolTable) (scope : String) (cg1 : CodeGenerator)
    (h : c.generateCode cg st scope = .ok cg1) :
    ∃ pre b, cg1 = cg.emitAll (pre ++ b) ∧ PlainCode pre ∧ pre ≠ [] ∧
      (b = [] ∨ ∃ br, b = [br] ∧ (br.arg = 1 ∨ br.arg = 2)) := by
  obtain ⟨left, op, right⟩ := c
  cases left with
  | identifier leftId =>
    cases right with
    | identifier rightId =>
      simp only [ConditionNode.generateCode] at h
      cases hl : leftId.generateCode cg st scope with
      | error err => rw [hl] at h; cases h
      | ok cga =>
        rw [hl] at h
        simp only at h
        obtain ⟨cgb, hb, he⟩ := except_map_ok _ _ _ h
        obtain ⟨c1, hc1, hp1, hn1⟩ := leftId.generateCode_plain_id _ _ _ _ hl
        obtain ⟨c2, hc2, hp2, _⟩ := subRight_plain _ _ _ _ _ hb
        obtain ⟨b, hbr, hbs⟩ := conditionBranch_code op cgb
        refine ⟨c1 ++ c2, b, ?_, hp1.plain_append hp2, by simp [hn1], hbs⟩
        rw [← he, hbr, hc2, hc1, emitAll_append, emitAll_append, List.append_assoc]
    | number rightValue =>
      simp only [ConditionNode.generateCode] at h
      by_cases hz : rightValue = 0
      · rw [if_pos hz] at h
        obtain ⟨cga, ha, he⟩ := except_map_ok _ _ _ h
        obtain ⟨c1, hc1, hp1, hn1⟩ := leftId.generateCode_plain_id _ _ _ _ ha
        obtain ⟨b, hbr, hbs⟩ := conditionBranch_code op cga
        refine ⟨c1, b, ?_, hp1, hn1, hbs⟩
        rw [← he, hbr, hc1, emitAll_append]
      · rw [if_neg hz] at h
        obtain ⟨cga, ha, he⟩ := except_map_ok _ _ _ h
        obtain ⟨c1, hc1, hp1, hn1⟩ := leftId.generateCode_plain_id _ _ _ _ ha
        obtain ⟨b, hbr, hbs⟩ := conditionBranch_code op (cga.emit "SUB" 1)
        refine ⟨([⟨"SET", rightValue⟩, ⟨"STORE", 1⟩] ++ c1) ++ [⟨"SUB", 1⟩], b, ?_,
          PlainCode.plain_append (PlainCode.plain_append
            (show PlainCode [⟨"SET", rightValue⟩, ⟨"STORE", 1⟩] from rfl) hp1)
            (show PlainCode [⟨"SUB", 1⟩] from rfl), by simp, hbs⟩
        rw [← he, hbr, hc1, emitAll_emit, emitAll_append]
        rfl
  | number leftValue =>
    cases right with
    | identifier rightId =>
      simp only [ConditionNode.generateCode] at h
      obtain ⟨cga, ha, he⟩ := except_map_ok _ _ _ h
      obtain ⟨c2, hc2, hp2, _⟩ := subRight_plain _ _ _ _ _ ha
      obtain ⟨b, hbr, hbs⟩ := conditionBranch_code op cga
      refine ⟨⟨"SET", leftValue⟩ :: c2, b, ?_,
        PlainCode.plain_append (show PlainCode [⟨"SET", leftValue⟩] from rfl) hp2, by simp, hbs⟩
      rw [← he, hbr, hc2, emitAll_append]
      rfl
    | number rightValue =>
      simp only [ConditionNode.generateCode, Except.ok.injEq] at h
      obtain ⟨b, hbr, hbs⟩ := conditionBranch_code op (cg.emit "SET" (leftValue - rightValue))
      refine ⟨[⟨"SET", leftValue - rightValue⟩], b, ?_, rfl, by simp, hbs⟩
      rw [← h, hbr]
      rfl

/-! ## The code of a condition inside the frame -/

theorem getCommand_emitAll_last (cg : CodeGenerator) (hwf : cg.WF) (pre : List command)
    (br : command) :
    (cg.emitAll (pre ++ [br])).getCommand ((cg.emitAll (pre ++ [br])).getCurrentLine - 1) = br := by
  unfold CodeGenerator.getCommand CodeGenerator.getCurrentLine
  unfold CodeGenerator.WF at hwf
  rw [emitAll_currentLine, emitAll_generatedCode, hwf]
  simp only [List.length_append, List.length_cons, List.length_nil]
  have hne : ¬ (((cg.generatedCode.length + (pre.length + (0 + 1)) : Nat) : Int) - 1 < 0 ∨
      ((cg.generatedCode.length + (pre.length + (0 + 1)) : Nat) : Int) - 1 ≥
        ((cg.generatedCode.length + (pre.length + (0 + 1)) : Nat) : Int)) := by omega
  rw [if_neg hne]
  have e : (((cg.generatedCode.length + (pre.length + (0 + 1)) : Nat) : Int) - 1).toNat =
      cg.generatedCode.length + pre.length := by omega
  rw [e, List.getD_eq_getElem?_getD, ← List.append_assoc,
    List.getElem?_append_right (by simp)]
  simp

theorem getCommand_emitAll_plain (cg : CodeGenerator) (hwf : cg.WF) (pre : List command)
    (hp : PlainCode pre) (hn : pre ≠ []) :
    ((cg.emitAll pre).getCommand ((cg.emitAll pre).getCurrentLine - 1)).isJump = false := by
  obtain ⟨init, last, rfl⟩ : ∃ init last, pre = init ++ [last] :=
    ⟨pre.dropLast, pre.getLast hn, (List.dropLast_append_getLast hn).symm⟩
  rw [getCommand_emitAll_last cg hwf init last]
  exact hp.mem last (by simp)

theorem ConditionNode.generateCode_appends (c : ConditionNode) (cg : CodeGenerator)
    (st : SymbolTable) (scope : String) (cg1 : CodeGenerator)
    (h : c.generateCode cg st scope = .ok cg1) (hwf : cg.WF) :
    cg.generatedCode.length < cg1.generatedCode.length ∧
    Appends (fun i => (i : Int) = cg1.getCurrentLine - 1) 0 cg cg1 ∧
    ((cg1.getCommand (cg1.getCurrentLine - 1)).isJump = true →
      (cg1.getCommand (cg1.getCurrentLine - 1)).arg = 1 ∨
      (cg1.getCommand (cg1.getCurrentLine - 1)).arg = 2) := by
  obtain ⟨pre, b, hc, hp, hn, hb⟩ := c.generateCode_code cg st scope cg1 h
  have hwf0 := hwf
  unfold CodeGenerator.WF at hwf0
  have hpl : 0 < pre.length := List.length_pos.mpr hn
  have hline : cg1.getCurrentLine = ((cg.generatedCode.length + (pre ++ b).length : Nat) : Int) := by
    unfold CodeGenerator.getCurrentLine
    rw [hc, emitAll_currentLine, hwf0]
  refine ⟨?_, ?_, ?_⟩
  · rw [hc, emitAll_generatedCode]
    simp only [List.length_append]
    omega
  · rw [hline, hc]
    refine (Appends.appends_refl _ 0 cg hwf).emitAll (pre ++ b) ?_
    intro i x hx
    by_cases hi : i + 1 = (pre ++ b).length
    · left
      show ((cg.generatedCode.length + i : Nat) : Int) =
        ((cg.generatedCode.length + (pre ++ b).length : Nat) : Int) - 1
      omega
    · right
      have hlt : i < (pre ++ b).length := (List.getElem?_eq_some_iff.mp hx).1
      have hipre : i < pre.length := by
        rcases hb with hb | ⟨br, hb, _⟩
        · subst hb; simp at hlt; exact hlt
        · subst hb; simp at hlt hi; omega
      rw [List.getElem?_append_left hipre] at hx
      exact good_of_not_jump _ _ _ _ (hp.mem x (List.getElem?_mem hx))
  · rcases hb with hb | ⟨br, hb, hbr⟩
    · subst hb
      rw [List.append_nil] at hc
      rw [hc, getCommand_emitAll_plain cg hwf pre hp hn]
      intro hf
      exact Bool.noConfusion hf
    · subst hb
      rw [hc, getCommand_emitAll_last cg hwf pre br]
      exact fun _ => hbr

theorem getCommand_of_getElem? (cg : CodeGenerator) (i : Nat) (c : command)
    (h : cg.generatedCode[i]? = some c) : cg.getCommand (i : Int) = c := by
  obtain ⟨hlt, he⟩ := List.getElem?_eq_some_iff.mp h
  unfold CodeGenerator.getCommand
  have hne : ¬ ((i : Int) < 0 ∨ (i : Int) ≥ cg.generatedCode.length) := by omega
  rw [if_neg hne, List.getD_eq_getElem?_getD]
  simp [h]

theorem Appends.clear {k : Nat} {cg cg1 : CodeGenerator} (j : Int)
    (h : Appends (fun i => (i : Int) = j) k cg cg1)
    (hg : (cg1.getCommand j).isJump = false) : Appends noAddress k cg cg1 := by
  refine ⟨h.wf, h.le, h.old, ?_⟩
  intro i c hi _ hc
  by_cases hij : (i : Int) = j
  · have := getCommand_of_getElem? cg1 i c hc
    rw [hij] at this
    rw [this] at hg
    intro hj
    rw [hg] at hj
    exact Bool.noConfusion hj
  · exact h.good i c hi hij hc

theorem LabelsOK.labels_mono {procedures : List (String × Procedure)} {len len1 : Int}
    (h : LabelsOK procedures len) (hle : len ≤ len1) : LabelsOK procedures len1 := by
  intro key p j hp hj
  have := h key p j hp hj
  exact ⟨this.1, by omega⟩

theorem Appends.labels {E : Nat → Prop} {k : Nat} {cg cg1 : CodeGenerator}
    {st st1 : SymbolTable} (h : Appends E k cg cg1) (hs : SameSymbols st st1)
    (hl : LabelsOK st.procedures cg.generatedCode.length) :
    LabelsOK st1.procedures cg1.generatedCode.length := by
  rw [hs.procedures]
  have := h.le
  exact hl.labels_mono (by omega)

theorem Appends.of_code {cg : CodeGenerator} (hwf : cg.WF) (code : List command)
    (hl : LocalJumps 0 code) : Appends noAddress 0 cg (cg.emitAll code) :=
  (Appends.appends_refl noAddress 0 cg hwf).emitAll_local code hl

/-! ## The code of the simple commands -/

theorem readGenerate_plain (identifier : IdentifierNode) (cg : CodeGenerator)
    (st : SymbolTable) (scope : String) (cg1 : CodeGenerator)
    (h : readGenerate identifier cg st scope = .ok cg1) :
    ∃ code, cg1 = cg.emitAll code ∧ PlainCode code := by
  unfold readGenerate at h
  split at h
  · obtain ⟨a, _, he⟩ := except_map_ok _ _ _ h
    exact ⟨[⟨"GET", a⟩], he.symm, rfl⟩
  · split at h
    · cases h
    · split at h
      · obtain ⟨a, _, he⟩ := except_map_ok _ _ _ h
        exact ⟨[⟨"GET", a⟩], he.symm, rfl⟩
      · cases h
        exact ⟨[⟨"GET", _⟩], rfl, rfl⟩
  · split at h
    · cases h
    · split at h
      · obtain ⟨a, ha, he⟩ := except_map_ok _ _ _ h
        obtain ⟨code, hc, hp, _⟩ := identifier.generateCode_plain_id _ _ _ _ ha
        refine ⟨code ++ [⟨"STORE", 6⟩, ⟨"GET", 0⟩, ⟨"STOREI", 6⟩], ?_,
          hp.plain_append (show PlainCode [⟨"STORE", 6⟩, ⟨"GET", 0⟩, ⟨"STOREI", 6⟩] from rfl)⟩
        rw [← he, hc, ← emitAll_append]
        rfl
      · split at h
        · cases h
        · cases h
          exact ⟨[⟨"LOAD", _⟩, ⟨"ADD", _⟩, ⟨"STORE", 6⟩, ⟨"GET", 0⟩, ⟨"STOREI", 6⟩], rfl, rfl⟩

theorem writeGenerate_plain (value : ValueNode) (cg : CodeGenerator)
    (st : SymbolTable) (scope : String) (cg1 : CodeGenerator)
    (h : writeGenerate value cg st scope = .ok cg1) :
    ∃ code, cg1 = cg.emitAll code ∧ PlainCode code := by
  unfold writeGenerate at h
  split at h
  · rename_i idNode
    have hgen : ∀ cga, (idNode.generateCode cg st scope).map (fun cg1 => cg1.emit "PUT" 0) =
        .ok cga → ∃ code, cga = cg.emitAll code ∧ PlainCode code := by
      intro cga hg
      obtain ⟨a, ha, he⟩ := except_map_ok _ _ _ hg
      obtain ⟨code, hc, hp, _⟩ := idNode.generateCode_plain_id _ _ _ _ ha
      refine ⟨code ++ [⟨"PUT", 0⟩], ?_, hp.plain_append (show PlainCode [⟨"PUT", 0⟩] from rfl)⟩
      rw [← he, hc, emitAll_emit]
    split at h
    · obtain ⟨a, _, he⟩ := except_map_ok _ _ _ h
      exact ⟨[⟨"PUT", a⟩], he.symm, rfl⟩
    · split at h
      · cases h
      · split at h
        · obtain ⟨a, _, he⟩ := except_map_ok _ _ _ h
          exact ⟨[⟨"PUT", a⟩], he.symm, rfl⟩
        · exact hgen _ h
    · exact hgen _ h
  · cases h
    exact ⟨[⟨"SET", _⟩, ⟨"PUT", 0⟩], rfl, rfl⟩

theorem assignmentGenerate_local (identifier : IdentifierNode) (expression : Expression)
    (cg : CodeGenerator) (st : SymbolTable) (scope : String) (cg1 : CodeGenerator)
    (st1 : SymbolTable) (h : assignmentGenerate identifier expression cg st scope = .ok (cg1, st1)) :
    ∃ code, cg1 = cg.emitAll code ∧ LocalJumps 0 code := by
  have direct : ∀ (cga : CodeGenerator) (sta : SymbolTable) (cgb : CodeGenerator)
      (stb : SymbolTable) (pos : Int),
      expression.generateCode cg st scope = .ok (cga, sta) →
      (cga.emit "STORE" pos, sta) = (cgb, stb) →
      ∃ code, cgb = cg.emitAll code ∧ LocalJumps 0 code := by
    intro cga sta cgb stb pos he hb
    obtain ⟨code, hc, hl⟩ := expression.generateCode_local_expr _ _ _ _ _ he
    simp only [Prod.mk.injEq] at hb
    refine ⟨code ++ [⟨"STORE", pos⟩], ?_, ?_⟩
    · rw [← hb.1, hc, emitAll_emit]
    · exact LocalJumps.append_plain_right (by simpa using hl)
        (show PlainCode [⟨"STORE", pos⟩] from rfl)
  have indirect : ∀ (pre : List command) (r : CodeGenerator × SymbolTable)
      (cgb : CodeGenerator) (stb : SymbolTable), PlainCode pre →
      expression.generateCode (cg.emitAll pre) st scope = .ok r →
      (r.1.emit "STOREI" 8, r.2) = (cgb, stb) →
      ∃ code, cgb = cg.emitAll code ∧ LocalJumps 0 code := by
    intro pre r cgb stb hp he hb
    obtain ⟨cga, sta⟩ := r
    obtain ⟨code, hc, hl⟩ := expression.generateCode_local_expr _ _ _ _ _ he
    simp only [Prod.mk.injEq] at hb
    refine ⟨(pre ++ code) ++ [⟨"STOREI", 8⟩], ?_, ?_⟩
    · rw [← hb.1, hc, emitAll_emit, emitAll_append, List.append_assoc]
    · exact LocalJumps.append_plain_right
        (LocalJumps.append_plain_left hp (by simpa using hl))
        (show PlainCode [⟨"STOREI", 8⟩] from rfl)
  unfold assignmentGenerate at h
  split at h
  · split at h
    · cases h
    · rename_i cg2 st2 he
      obtain ⟨pos, _, hb⟩ := except_map_ok _ _ _ h
      exact direct _ _ _ _ pos he hb
  · split at h
    · cases h
    · split at h
      · split at h
        · cases h
        · rename_i cg2 st2 he
          obtain ⟨pos, _, hb⟩ := except_map_ok _ _ _ h
          exact direct _ _ _ _ pos he hb
      · obtain ⟨r, he, hb⟩ := except_map_ok _ _ _ h
        exact indirect [⟨"SET", _⟩, ⟨"ADD", _⟩, ⟨"STORE", 8⟩] r _ _ rfl he hb
  · split at h
    · cases h
    · split at h
      · cases h
      · rename_i a _ _ iv _
        obtain ⟨r, he, hb⟩ := except_map_ok _ _ _ h
        by_cases ha : (!a.isArgument) = true
        · rw [if_pos ha] at he
          exact indirect [⟨"SET", _⟩, ⟨"ADD", _⟩, ⟨"STORE", 8⟩] r _ _ rfl he hb
        · rw [if_neg ha] at he
          exact indirect [⟨"LOAD", _⟩, ⟨"ADD", _⟩, ⟨"STORE", 8⟩] r _ _ rfl he hb

theorem marshalArg_plain (pidentifier scope : String) (paramsString : List String)
    (arg : String) (i : Nat) (cg : CodeGenerator) (st : SymbolTable) (cg1 : CodeGenerator)
    (st1 : SymbolTable)
    (h : marshalArg pidentifier scope paramsString arg i cg st = .ok (cg1, st1)) :
    ∃ code, cg1 = cg.emitAll code ∧ PlainCode code := by
  unfold marshalArg at h
  simp only at h
  repeat' split at h
  all_goals try cases h
  all_goals first
    | exact ⟨[], rfl, rfl⟩
    | exact ⟨[⟨"SET", _⟩, ⟨"STORE", _⟩], rfl, rfl⟩
    | exact ⟨[⟨"LOAD", _⟩, ⟨"STORE", _⟩], rfl, rfl⟩

theorem marshalArgs_plain (pidentifier scope : String) (paramsString : List String) :
    ∀ (args : List String) (i : Nat) (cg : CodeGenerator) (st : SymbolTable)
      (cg1 : CodeGenerator) (st1 : SymbolTable),
      marshalArgs pidentifier scope paramsString args i cg st = .ok (cg1, st1) →
      ∃ code, cg1 = cg.emitAll code ∧ PlainCode code := by
  intro args
  induction args with
  | nil =>
    intro i cg st cg1 st1 h
    simp only [marshalArgs, Except.ok.injEq, Prod.mk.injEq] at h
    exact ⟨[], h.1.symm, rfl⟩
  | cons a rest ih =>
    intro i cg st cg1 st1 h
    simp only [marshalArgs] at h
    split at h
    · cases h
    · rename_i cg2 st2 hm
      obtain ⟨c1, hc1, hp1⟩ := marshalArg_plain _ _ _ _ _ _ _ _ _ hm
      obtain ⟨c2, hc2, hp2⟩ := ih _ _ _ _ _ h
      exact ⟨c1 ++ c2, by rw [hc2, hc1, emitAll_append], hp1.plain_append hp2⟩

theorem copyOutArgs_plain (pidentifier scope : String) (paramsString : List String)
    (st : SymbolTable) :
    ∀ (args : List String) (i : Nat) (cg cg1 : CodeGenerator),
      copyOutArgs pidentifier scope paramsString st args i cg = .ok cg1 →
      ∃ code, cg1 = cg.emitAll code ∧ PlainCode code := by
  intro args
  induction args with
  | nil =>
    intro i cg cg1 h
    simp only [copyOutArgs, Except.ok.injEq] at h
    exact ⟨[], h.symm, rfl⟩
  | cons a rest ih =>
    intro i cg cg1 h
    simp only [copyOutArgs] at h
    split at h
    · exact ih _ _ _ h
    · split at h
      · cases h
      · split at h
        · exact ih _ _ _ h
        · rename_i _ actual _ _ _ _ _ formal _
          obtain ⟨c2, hc2, hp2⟩ := ih _ _ _ h
          refine ⟨[⟨"LOAD", formal.memoryPosition⟩, ⟨"STORE", actual.memoryPosition⟩] ++ c2, ?_,
            PlainCode.plain_append (show PlainCode
              [⟨"LOAD", formal.memoryPosition⟩, ⟨"STORE", actual.memoryPosition⟩] from rfl) hp2⟩
          rw [hc2, ← emitAll_append]
          rfl

/-! ## The code of a procedure call -/

theorem getCurrentLine_emitAll (cg : CodeGenerator) (code : List command) :
    (cg.emitAll code).getCurrentLine = cg.getCurrentLine + code.length := by
  unfold CodeGenerator.getCurrentLine
  rw [emitAll_currentLine]
  push_cast
  rfl

theorem getCurrentLine_emit (cg : CodeGenerator) (code : String) (arg : Int) :
    (cg.emit code arg).getCurrentLine = cg.getCurrentLine + 1 := by
  unfold CodeGenerator.getCurrentLine
  rw [emit_currentLine]
  push_cast
  rfl

/-- The shape of the code of a call: the marshalling of the arguments, then
`SET r; STORE return cell` and, unless the recorded label is -1, `JUMP d`, then
the copy-out; `r` is the address after the jump and `d` leads from the jump to
the recorded label. -/
theorem procCallGenerate_code (pidentifier : String) (args : List String)
    (cg : CodeGenerator) (st : SymbolTable) (scope : String) (cg1 : CodeGenerator)
    (st1 : SymbolTable) (h : procCallGenerate pidentifier args cg st scope = .ok (cg1, st1)) :
    ∃ (proc : Procedure) (label : Int) (pre post : List command),
      st.getProcedure pidentifier "GLOBAL" = some proc ∧ proc.jumpLabel = some label ∧
      PlainCode pre ∧ PlainCode post ∧
      cg1 = cg.emitAll (pre ++
        ([⟨"SET", cg.getCurrentLine + pre.length + 3⟩,
          ⟨"STORE", proc.returnVariable.memoryPosition⟩] ++
         (if label ≠ -1 then [⟨"JUMP", label - (cg.getCurrentLine + pre.length + 2)⟩] else [])) ++
        post) := by
  unfold procCallGenerate at h
  cases hp : st.getProcedure pidentifier "GLOBAL" with
  | none => rw [hp] at h; cases h
  | some proc =>
    rw [hp] at h
    simp only at h
    cases hm : marshalArgs pidentifier scope (proc.params.map Param.name) args 0 cg st with
    | error err => rw [hm] at h; cases h
    | ok r =>
      obtain ⟨cga, sta⟩ := r
      rw [hm] at h
      simp only at h
      have hsame := marshalArgs_same _ _ _ _ _ _ _ _ _ hm
      have hp1 : sta.getProcedure pidentifier "GLOBAL" = some proc := by
        unfold SymbolTable.getProcedure at hp ⊢
        rw [hsame.procedures]
        exact hp
      rw [hp1] at h
      simp only at h
      cases hj : proc.jumpLabel with
      | none => rw [hj] at h; cases h
      | some label =>
        rw [hj] at h
        simp only at h
        obtain ⟨cgb, hco, he⟩ := except_map_ok _ _ _ h
        simp only [Prod.mk.injEq] at he
        obtain ⟨pre, hpre, hpp⟩ := marshalArgs_plain _ _ _ _ _ _ _ _ _ hm
        obtain ⟨post, hpost, hpq⟩ := copyOutArgs_plain _ _ _ _ _ _ _ _ hco
        refine ⟨proc, label, pre, post, rfl, hj, hpp, hpq, ?_⟩
        rw [← he.1, hpost, hpre]
        by_cases hl : label ≠ -1
        · rw [if_pos hl, if_pos hl, getCurrentLine_emit, getCurrentLine_emit,
            getCurrentLine_emitAll, emitAll_emit, emitAll_emit, emitAll_emit, emitAll_append]
          congr 1
          simp only [List.append_assoc, List.cons_append, List.nil_append, List.singleton_append]
          congr 4
        · rw [if_neg hl, if_neg hl, getCurrentLine_emitAll, emitAll_emit, emitAll_emit,
            emitAll_append]
          congr 1
          simp only [List.append_assoc, List.cons_append, List.nil_append, List.singleton_append,
            List.append_nil]

theorem procCallGenerate_appends (pidentifier : String) (args : List String)
    (cg : CodeGenerator) (st : SymbolTable) (scope : String) (cg1 : CodeGenerator)
    (st1 : SymbolTable) (h : procCallGenerate pidentifier args cg st scope = .ok (cg1, st1))
    (hwf : cg.WF) (hl : LabelsOK st.procedures cg.generatedCode.length) :
    Appends noAddress 0 cg cg1 := by
  obtain ⟨proc, label, pre, post, hp, hj, hpp, hpq, hc⟩ :=
    procCallGenerate_code _ _ _ _ _ _ _ h
  have hlab := hl _ proc label hp hj
  rw [hc]
  refine (Appends.appends_refl noAddress 0 cg hwf).emitAll _ ?_
  intro i c hi
  right
  intro hjump
  have hline := getCurrentLine_of_wf cg hwf
  by_cases h1 : i < pre.length
  · rw [List.append_assoc, List.getElem?_append_left h1] at hi
    rw [hpp.mem c (List.getElem?_mem hi)] at hjump
    exact Bool.noConfusion hjump
  · rw [List.append_assoc, List.getElem?_append_right (by omega)] at hi
    by_cases hlab1 : label ≠ -1
    · rw [if_pos hlab1] at hi
      simp only [List.cons_append, List.nil_append] at hi
      rcases hk : i - pre.length with _ | _ | _ | m
      · rw [hk] at hi
        simp only [List.getElem?_cons_zero, Option.some.injEq] at hi
        subst hi
        exact Bool.noConfusion hjump
      · rw [hk] at hi
        simp only [List.getElem?_cons_succ, List.getElem?_cons_zero, Option.some.injEq] at hi
        subst hi
        exact Bool.noConfusion hjump
      · rw [hk] at hi
        simp only [List.getElem?_cons_succ, List.getElem?_cons_zero, Option.some.injEq] at hi
        subst hi
        simp only [List.length_append, List.length_cons, List.length_nil, if_pos hlab1]
        rw [hline]
        push_cast
        constructor <;> omega
      · rw [hk] at hi
        simp only [List.getElem?_cons_succ] at hi
        rw [hpq.mem c (List.getElem?_mem hi)] at hjump
        exact Bool.noConfusion hjump
    · rw [if_neg hlab1] at hi
      simp only [List.cons_append, List.nil_append] at hi
      rcases hk : i - pre.length with _ | _ | m
      · rw [hk] at hi
        simp only [List.getElem?_cons_zero, Option.some.injEq] at hi
        subst hi
        exact Bool.noConfusion hjump
      · rw [hk] at hi
        simp only [List.getElem?_cons_succ, List.getElem?_cons_zero, Option.some.injEq] at hi
        subst hi
        exact Bool.noConfusion hjump
      · rw [hk] at hi
        simp only [List.getElem?_cons_succ] at hi
        rw [hpq.mem c (List.getElem?_mem hi)] at hjump
        exact Bool.noConfusion hjump

/-! ## The patching of the control structures inside the frame -/

@[simp] theorem getCurrentLine_updateCommand (cg : CodeGenerator) (j : Int) (code : String)
    (arg : Int) : (cg.updateCommand j code arg).getCurrentLine = cg.getCurrentLine := by
  unfold CodeGenerator.getCurrentLine
  rw [updateCommand_currentLine]

theorem Appends.line {E : Nat → Prop} {k : Nat} {cg cg1 : CodeGenerator}
    (h : Appends E k cg cg1) : cg1.getCurrentLine = (cg1.generatedCode.length : Int) :=
  getCurrentLine_of_wf cg1 h.wf

theorem LabelsOK.labels_same {st st1 : SymbolTable} {n m : Int} (hs : SameSymbols st st1)
    (h : LabelsOK st.procedures n) (hle : n ≤ m) : LabelsOK st1.procedures m := by
  rw [hs.procedures]
  exact h.labels_mono hle

theorem good_jump (len : Int) (i : Nat) (code : String) (arg : Int)
    (h1 : 0 ≤ (i : Int) + arg) (h2 : (i : Int) + arg ≤ len) : Good len i ⟨code, arg⟩ :=
  fun _ => ⟨h1, h2⟩

/-- The second arm of `IfNode::generateCode` without `falsecommands`: the body,
then the branch at `j` patched to its end. -/
theorem arm_then_second {cg cgS cg6 : CodeGenerator} {st stS st6 : SymbolTable} (j d : Int)
    (code : String) (A : Appends (fun i => (i : Int) = j) 0 cg cgS)
    (hj : (cg.generatedCode.length : Int) ≤ j) (hs : SameSymbols st stS)
    (hl : LabelsOK st.procedures cg.generatedCode.length)
    (fT : Framed cgS stS cg6 st6) (hd : d = cg6.getCurrentLine - j) :
    Appends noAddress 0 cg (cg6.updateCommand j code d) := by
  have hle := A.le
  have a := fT.2 A.wf (hl.labels_same hs (by omega))
  have A6 := A.appends_trans a
  have h6 := A6.line
  refine A6.patch_clear j code d hj ?_
  apply good_jump <;> omega

/-- The first arm of `IfNode::generateCode` without `falsecommands`: a `JUMP`,
the body, then the branch at `j` patched to the body and the `JUMP` to the end. -/
theorem arm_then_first {cg cgc cg3 : CodeGenerator} {st st3 : SymbolTable}
    (j j2 d1 d2 : Int) (code code2 : String)
    (A : Appends (fun i => (i : Int) = j) 0 cg cgc)
    (hj : (cg.generatedCode.length : Int) ≤ j) (hjc : j = cgc.getCurrentLine - 1)
    (hl : LabelsOK st.procedures cg.generatedCode.length)
    (fT : Framed (cgc.emit "JUMP" 0) st cg3 st3)
    (hj2 : j2 = (cgc.emit "JUMP" 0).getCurrentLine - 1) (hd1 : d1 = j2 - j + 1)
    (hd2 : d2 = (cg3.updateCommand j code d1).getCurrentLine - j2) :
    Appends noAddress 0 cg ((cg3.updateCommand j code d1).updateCommand j2 code2 d2) := by
  have hle := A.le
  have hc := A.line
  have A2 := A.emit_same "JUMP" 0 (Or.inr (by apply good_jump <;> omega))
  have h2 := A2.line
  have hlen2 : (cgc.emit "JUMP" 0).generatedCode.length = cgc.generatedCode.length + 1 := by
    simp
  have a := fT.2 A2.wf (hl.labels_mono (by omega))
  have hle3 := a.le
  have A3 := A2.appends_trans a
  have h3 := A3.line
  have A4 := A3.patch_clear j code d1 hj (by apply good_jump <;> omega)
  refine A4.patch j2 code2 d2 (by omega) (Or.inr ?_)
  simp only [getCurrentLine_updateCommand] at hd2
  simp only [updateCommand_length]
  apply good_jump <;> omega

theorem Appends.trans_right {E : Nat → Prop} {k : Nat} {cg cg1 cg2 : CodeGenerator}
    (h1 : Appends noAddress k cg cg1) (h2 : Appends E k cg1 cg2) : Appends E k cg cg2 := by
  refine ⟨h2.wf, Nat.le_trans h1.le h2.le, ?_, ?_⟩
  · intro i hi
    rw [h2.old i (Nat.lt_of_lt_of_le hi h1.le), h1.old i hi]
  · intro i c hi hne hc
    by_cases hlt : i < cg1.generatedCode.length
    · rw [h2.old i hlt] at hc
      have hle := h2.le
      exact (h1.good i c hi (fun hf => hf) hc).good_mono (by omega)
    · exact h2.good i c (by omega) hne hc

/-- An arm of `IfNode::generateCode` with `falsecommands`: one block, the branch
at `j` patched past the `JUMP` that follows, the other block, and the `JUMP`
patched to the end. -/
theorem arm_else {cg cgS cgA cgB : CodeGenerator} {st stS stA stB : SymbolTable}
    (j jA d1 d2 : Int) (code code2 : String)
    (A : Appends (fun i => (i : Int) = j) 0 cg cgS)
    (hj : (cg.generatedCode.length : Int) ≤ j) (hs : SameSymbols st stS)
    (hl : LabelsOK st.procedures cg.generatedCode.length)
    (fA : Framed cgS stS cgA stA) (hjA : jA = cgA.getCurrentLine) (hd1 : d1 = jA - j + 1)
    (fB : Framed ((cgA.updateCommand j code d1).emit "JUMP" 0) stA cgB stB)
    (hd2 : d2 = cgB.getCurrentLine - jA) :
    Appends noAddress 0 cg (cgB.updateCommand jA code2 d2) := by
  have hle := A.le
  have a := fA.2 A.wf (hl.labels_same hs (by omega))
  have hleA := a.le
  have A1 := A.appends_trans a
  have hA := A1.line
  have A1p := (A1.appends_mono (fun _ hf => hf) (Nat.zero_le 1)).patch_clear j code d1 hj
    (by apply good_jump <;> omega)
  have A2 := A1p.emit "JUMP" 0 (Or.inr (by
    simp only [updateCommand_length]
    apply good_jump <;> omega))
  have hlen2 : ((cgA.updateCommand j code d1).emit "JUMP" 0).generatedCode.length =
      cgA.generatedCode.length + 1 := by simp
  have b := fB.2 A2.wf (hl.labels_same (hs.symbols_trans fA.1) (by omega))
  have hleB := b.le
  have A3 := A2.appends_trans b
  have hB := A3.line
  refine A3.patch jA code2 d2 (by omega) (Or.inr ?_)
  apply good_jump <;> omega

/-- The first arm of `WhileNode::generateCode`: the branch at `j` set to skip the
`JUMP` after it, the body, the `JUMP` back, and the first `JUMP` patched to the
end. -/
theorem arm_while_first {cg cgc cg3 : CodeGenerator} {st st3 : SymbolTable}
    (j j2 d1 d2 : Int) (code : String) (hwf : cg.WF)
    (A : Appends (fun i => (i : Int) = j) 0 cg cgc)
    (hj : (cg.generatedCode.length : Int) ≤ j) (hjc : j = cgc.getCurrentLine - 1)
    (hl : LabelsOK st.procedures cg.generatedCode.length)
    (fC : Framed ((cgc.updateCommand j code 2).emit "JUMP" 0) st cg3 st3)
    (hj2 : j2 = cgc.getCurrentLine) (hd1 : d1 = cg.getCurrentLine - cg3.getCurrentLine)
    (hd2 : d2 = cg3.getCurrentLine + 1 - j2) :
    Appends noAddress 0 cg ((cg3.emit "JUMP" d1).updateCommand j2 "JUMP" d2) := by
  have hle := A.le
  have h0 := getCurrentLine_of_wf cg hwf
  have hc := A.line
  have A1p := (A.appends_mono (fun _ hf => hf) (Nat.zero_le 1)).patch_clear j code 2 hj
    (by apply good_jump <;> omega)
  have A2 := A1p.emit "JUMP" 0 (Or.inr (by
    simp only [updateCommand_length]
    apply good_jump <;> omega))
  have hlen2 : ((cgc.updateCommand j code 2).emit "JUMP" 0).generatedCode.length =
      cgc.generatedCode.length + 1 := by simp
  have c := fC.2 A2.wf (hl.labels_mono (by omega))
  have hle3 := c.le
  have A3 := A2.appends_trans c
  have h3 := A3.line
  have A4 := A3.emit_same "JUMP" d1 (Or.inr (by apply good_jump <;> omega))
  refine A4.patch j2 "JUMP" d2 (by omega) (Or.inr ?_)
  simp only [emit_generatedCode, List.length_append, List.length_singleton]
  apply good_jump <;> (push_cast; omega)

/-- The second arm of `WhileNode::generateCode`: the body, the `JUMP` back, and
the branch at `j` patched to the end. -/
theorem arm_while_second {cg cgc cg5 : CodeGenerator} {st st5 : SymbolTable}
    (j d1 d2 : Int) (code : String) (hwf : cg.WF)
    (A : Appends (fun i => (i : Int) = j) 0 cg cgc)
    (hj : (cg.generatedCode.length : Int) ≤ j) (hjc : j = cgc.getCurrentLine - 1)
    (hl : LabelsOK st.procedures cg.generatedCode.length)
    (fC : Framed cgc st cg5 st5)
    (hd1 : d1 = cg.getCurrentLine - cg5.getCurrentLine)
    (hd2 : d2 = cg5.getCurrentLine + 1 - cgc.getCurrentLine + 1) :
    Appends noAddress 0 cg ((cg5.emit "JUMP" d1).updateCommand j code d2) := by
  have hle := A.le
  have h0 := getCurrentLine_of_wf cg hwf
  have hc := A.line
  have c := fC.2 A.wf (hl.labels_mono (by omega))
  have hle5 := c.le
  have A5 := A.appends_trans c
  have h5 := A5.line
  have A6 := A5.emit_same "JUMP" d1 (Or.inr (by apply good_jump <;> omega))
  refine A6.patch_clear j code d2 hj ?_
  simp only [emit_generatedCode, List.length_append, List.length_singleton]
  apply good_jump <;> (push_cast; omega)

/-- The patches of `RepeatNode::generateCode` after the body and the condition. -/
theorem arm_repeat {cg cgA cgc : CodeGenerator} (j d1 d2 : Int) (code : String) (hwf : cg.WF)
    (a : Appends noAddress 0 cg cgA) (A : Appends (fun i => (i : Int) = j) 0 cgA cgc)
    (hj : (cgA.generatedCode.length : Int) ≤ j) (hjc : j = cgc.getCurrentLine - 1)
    (hd1 : d1 = cg.getCurrentLine - cgc.getCurrentLine)
    (hd2 : d2 = cg.getCurrentLine - cgc.getCurrentLine + 1) :
    Appends noAddress 0 cg ((cgc.updateCommand j code 2).emit "JUMP" d1) ∧
    Appends noAddress 0 cg (cgc.updateCommand j code d2) := by
  have hle := a.le
  have hleA := A.le
  have h0 := getCurrentLine_of_wf cg hwf
  have A1 := a.trans_right A
  have hc := A1.line
  constructor
  · have A1p := (A1.appends_mono (fun _ hf => hf) (Nat.zero_le 1)).patch_clear j code 2 (by omega)
      (by apply good_jump <;> omega)
    refine A1p.emit "JUMP" d1 (Or.inr ?_)
    simp only [updateCommand_length]
    apply good_jump <;> omega
  · refine A1.patch_clear j code d2 (by omega) ?_
    apply good_jump <;> omega

/-- The loop of `ForToNode::generateCode` and `ForDownToNode::generateCode` after
the header: the `JZERO`, the body, the step `post`, the `JUMP` back to `j`, and
the `JZERO` patched past it. -/
theorem arm_for {cg cgP cg5 : CodeGenerator} {st st5 : SymbolTable} (j j2 d1 d2 : Int)
    (post : List command) (P : Appends noAddress 0 cg cgP)
    (hj : (cg.generatedCode.length : Int) ≤ j) (hjc : j + 1 = cgP.getCurrentLine)
    (hl : LabelsOK st.procedures cg.generatedCode.length)
    (fC : Framed (cgP.emit "JZERO" 0) st cg5 st5) (hpost : PlainCode post)
    (hj2 : j2 = cgP.getCurrentLine)
    (hd1 : d1 = j - (cg5.emitAll post).getCurrentLine)
    (hd2 : d2 = (cg5.emitAll post).getCurrentLine - j2 + 1) :
    Appends noAddress 0 cg (((cg5.emitAll post).emit "JUMP" d1).updateCommand j2 "JZERO" d2) := by
  have hle := P.le
  have hP := P.line
  have A1 := P.emit_same "JZERO" 0 (Or.inr (by apply good_jump <;> omega))
  have hlen1 : (cgP.emit "JZERO" 0).generatedCode.length = cgP.generatedCode.length + 1 := by
    simp
  have c := fC.2 A1.wf (hl.labels_mono (by omega))
  have hle5 := c.le
  have A5 := A1.appends_trans c
  have A6 := A5.emitAll_local post (hpost.localJumps 0)
  have h6 := A6.line
  have hlen6 : (cg5.emitAll post).generatedCode.length = cg5.generatedCode.length + post.length := by
    rw [emitAll_generatedCode, List.length_append]
  have A7 := A6.emit_same "JUMP" d1 (Or.inr (by apply good_jump <;> omega))
  refine A7.patch j2 "JZERO" d2 (by omega) (Or.inr ?_)
  simp only [emit_generatedCode, List.length_append, List.length_singleton]
  apply good_jump <;> (push_cast; omega)

/-- The header of `ForToNode::generateCode`, up to `SUB 9`. -/
theorem forTo_header (cg : CodeGenerator) (st : SymbolTable) (scope : String)
    (fromvalue tovalue : ValueNode) (cgt cgf : CodeGenerator) (pos : Int)
    (ht : tovalue.generateCode
      (if (!st.one) = true then (cg.emit "SET" 1).emit "STORE" 10 else cg) st scope = .ok cgt)
    (hf : fromvalue.generateCode ((cgt.emit "ADD" 10).emit "STORE" 9) st scope = .ok cgf) :
    ∃ pre, PlainCode pre ∧ (cgf.emit "STORE" pos).emit "SUB" 9 = cg.emitAll pre ∧
      2 ≤ pre.length := by
  obtain ⟨c1, hc1, hp1, _⟩ := tovalue.generateCode_plain_value _ _ _ _ ht
  obtain ⟨c2, hc2, hp2, _⟩ := fromvalue.generateCode_plain_value _ _ _ _ hf
  by_cases h1 : (!st.one) = true
  · rw [if_pos h1] at hc1
    refine ⟨[⟨"SET", 1⟩, ⟨"STORE", 10⟩] ++ c1 ++ [⟨"ADD", 10⟩, ⟨"STORE", 9⟩] ++ c2 ++
      [⟨"STORE", pos⟩, ⟨"SUB", 9⟩], ?_, ?_⟩
    · exact PlainCode.plain_append (PlainCode.plain_append (PlainCode.plain_append (PlainCode.plain_append
        (show PlainCode [⟨"SET", 1⟩, ⟨"STORE", 10⟩] from rfl) hp1)
        (show PlainCode [⟨"ADD", 10⟩, ⟨"STORE", 9⟩] from rfl)) hp2)
        (show PlainCode [⟨"STORE", pos⟩, ⟨"SUB", 9⟩] from rfl)
    · refine ⟨?_, by simp⟩
      rw [hc2, hc1, ← emitAll_append, ← emitAll_append, ← emitAll_append, ← emitAll_append]
      rfl
  · rw [if_neg h1] at hc1
    refine ⟨c1 ++ [⟨"ADD", 10⟩, ⟨"STORE", 9⟩] ++ c2 ++ [⟨"STORE", pos⟩, ⟨"SUB", 9⟩], ?_, ?_⟩
    · exact PlainCode.plain_append (PlainCode.plain_append (PlainCode.plain_append hp1
        (show PlainCode [⟨"ADD", 10⟩, ⟨"STORE", 9⟩] from rfl)) hp2)
        (show PlainCode [⟨"STORE", pos⟩, ⟨"SUB", 9⟩] from rfl)
    · refine ⟨?_, by simp; omega⟩
      rw [hc2, hc1, ← emitAll_append, ← emitAll_append, ← emitAll_append]
      rfl

/-- The header of `ForDownToNode::generateCode`, up to `SUB 9`. -/
theorem forDownTo_header (cg : CodeGenerator) (st : SymbolTable) (scope : String)
    (fromvalue downtovalue : ValueNode) (cgt cgf : CodeGenerator) (pos : Int)
    (ht : downtovalue.generateCode
      (if (!st.one) = true then (cg.emit "SET" 1).emit "STORE" 10 else cg) st scope = .ok cgt)
    (hf : fromvalue.generateCode ((cgt.emit "SUB" 10).emit "STORE" 9) st scope = .ok cgf) :
    ∃ pre, PlainCode pre ∧ (cgf.emit "STORE" pos).emit "SUB" 9 = cg.emitAll pre ∧
      2 ≤ pre.length := by
  obtain ⟨c1, hc1, hp1, _⟩ := downtovalue.generateCode_plain_value _ _ _ _ ht
  obtain ⟨c2, hc2, hp2, _⟩ := fromvalue.generateCode_plain_value _ _ _ _ hf
  by_cases h1 : (!st.one) = true
  · rw [if_pos h1] at hc1
    refine ⟨[⟨"SET", 1⟩, ⟨"STORE", 10⟩] ++ c1 ++ [⟨"SUB", 10⟩, ⟨"STORE", 9⟩] ++ c2 ++
      [⟨"STORE", pos⟩, ⟨"SUB", 9⟩], ?_, ?_⟩
    · exact PlainCode.plain_append (PlainCode.plain_append (PlainCode.plain_append (PlainCode.plain_append
        (show PlainCode [⟨"SET", 1⟩, ⟨"STORE", 10⟩] from rfl) hp1)
        (show PlainCode [⟨"SUB", 10⟩, ⟨"STORE", 9⟩] from rfl)) hp2)
        (show PlainCode [⟨"STORE", pos⟩, ⟨"SUB", 9⟩] from rfl)
    · refine ⟨?_, by simp⟩
      rw [hc2, hc1, ← emitAll_append, ← emitAll_append, ← emitAll_append, ← emitAll_append]
      rfl
  · rw [if_neg h1] at hc1
    refine ⟨c1 ++ [⟨"SUB", 10⟩, ⟨"STORE", 9⟩] ++ c2 ++ [⟨"STORE", pos⟩, ⟨"SUB", 9⟩], ?_, ?_⟩
    · exact PlainCode.plain_append (PlainCode.plain_append (PlainCode.plain_append hp1
        (show PlainCode [⟨"SUB", 10⟩, ⟨"STORE", 9⟩] from rfl)) hp2)
        (show PlainCode [⟨"STORE", pos⟩, ⟨"SUB", 9⟩] from rfl)
    · refine ⟨?_, by simp; omega⟩
      rw [hc2, hc1, ← emitAll_append, ← emitAll_append, ← emitAll_append]
      rfl

/-! ## Emission of commands: the frame -/

mutual
theorem Command.generateCode_framed_cmd : ∀ (c : Command) (cg : CodeGenerator) (st : SymbolTable)
    (scope : String) (cg1 : CodeGenerator) (st1 : SymbolTable),
    c.generateCode cg st scope = .ok (cg1, st1) → Framed cg st cg1 st1
  | .assignment identifier expression, cg, st, scope, cg1, st1, h => by
    simp only [Command.generateCode] at h
    refine ⟨assignmentGenerate_same _ _ _ _ _ _ _ h, fun hwf _ => ?_⟩
    obtain ⟨code, hc, hl⟩ := assignmentGenerate_local _ _ _ _ _ _ _ h
    rw [hc]
    exact Appends.of_code hwf code hl
  | .ifElse condition truecommands falsecommands, cg, st, scope, cg1, st1, h => by
    simp only [Command.generateCode] at h
    cases hc : condition.generateCode cg st scope with
    | error err => rw [hc] at h; cases h
    | ok cgc =>
      rw [hc] at h
      simp only at h
      have hcond := fun hwf => condition.generateCode_appends cg st scope cgc hc hwf
      have hj : cg.WF → (cg.generatedCode.length : Int) ≤ cgc.getCurrentLine - 1 := by
        intro hwf
        have := (hcond hwf).1
        have := (hcond hwf).2.1.line
        omega
      by_cases h1 : (cgc.getCommand (cgc.getCurrentLine - 1)).arg = 1
      · rw [if_pos h1] at h
        split at h
        · cases h
        · rename_i cg5 st5 cond5 hfirst
          split at hfirst
          · cases hfirst
          · rename_i cg2 st2 hf
            have fF := Commands.generateCode_framed_cmds falsecommands _ _ _ _ _ hf
            split at hfirst
            · cases hfirst
            · rename_i cg4 st4 ht
              have fT := Commands.generateCode_framed_cmds truecommands _ _ _ _ _ ht
              simp only [Except.ok.injEq, Prod.mk.injEq] at hfirst
              obtain ⟨e1, e2, e3⟩ := hfirst
              have A5 := fun hwf (hl : LabelsOK st.procedures cg.generatedCode.length) =>
                arm_else _ _ _ _ (cgc.getCommand (cgc.getCurrentLine - 1)).code
                  (cg4.getCommand cg2.getCurrentLine).code (hcond hwf).2.1 (hj hwf)
                  (SameSymbols.symbols_refl _) hl fF rfl rfl fT rfl
              rw [e1] at A5
              rw [← e2] at h
              split at h
              · split at h
                · cases h
                · rename_i cg6 st6 ht2
                  have fT2 := Commands.generateCode_framed_cmds truecommands _ _ _ _ _ ht2
                  split at h
                  · cases h
                  · rename_i cg8 st8 hf2
                    have fF2 := Commands.generateCode_framed_cmds falsecommands _ _ _ _ _ hf2
                    simp only [Except.ok.injEq, Prod.mk.injEq] at h
                    rw [← h.1, ← h.2]
                    refine ⟨((fF.1.symbols_trans fT.1).symbols_trans fT2.1).symbols_trans fF2.1, fun hwf hl => ?_⟩
                    exact arm_else _ _ _ _ _ _
                      ((A5 hwf hl).appends_mono (fun _ hf => hf.elim) (Nat.le_refl _)) (hj hwf)
                      (fF.1.symbols_trans fT.1) hl fT2 rfl rfl fF2 rfl
              · simp only [Except.ok.injEq, Prod.mk.injEq] at h
                rw [← h.1, ← h.2]
                exact ⟨fF.1.symbols_trans fT.1, A5⟩
      · rw [if_neg h1] at h
        simp only at h
        split at h
        · rename_i h2
          split at h
          · cases h
          · rename_i cg6 st6 ht2
            have fT2 := Commands.generateCode_framed_cmds truecommands _ _ _ _ _ ht2
            split at h
            · cases h
            · rename_i cg8 st8 hf2
              have fF2 := Commands.generateCode_framed_cmds falsecommands _ _ _ _ _ hf2
              simp only [Except.ok.injEq, Prod.mk.injEq] at h
              rw [← h.1, ← h.2]
              refine ⟨fT2.1.symbols_trans fF2.1, fun hwf hl => ?_⟩
              exact arm_else _ _ _ _ _ _ (hcond hwf).2.1 (hj hwf)
                (SameSymbols.symbols_refl _) hl fT2 rfl rfl fF2 rfl
        · rename_i h2
          simp only [Except.ok.injEq, Prod.mk.injEq] at h
          rw [← h.1, ← h.2]
          refine ⟨SameSymbols.symbols_refl _, fun hwf hl => ?_⟩
          refine (hcond hwf).2.1.clear _ ?_
          cases hjmp : (cgc.getCommand (cgc.getCurrentLine - 1)).isJump with
          | false => rfl
          | true =>
            rcases (hcond hwf).2.2 hjmp with h3 | h3
            · exact absurd h3 h1
            · exact absurd h3 h2
  | .ifThen condition truecommands, cg, st, scope, cg1, st1, h => by
    simp only [Command.generateCode] at h
    cases hc : condition.generateCode cg st scope with
    | error err => rw [hc] at h; cases h
    | ok cgc =>
      rw [hc] at h
      simp only at h
      have hcond := fun hwf => condition.generateCode_appends cg st scope cgc hc hwf
      by_cases h1 : (cgc.getCommand (cgc.getCurrentLine - 1)).arg = 1
      · rw [if_pos h1] at h
        cases ht : truecommands.generateCode (cgc.emit "JUMP" 0) st scope with
        | error err => rw [ht] at h; cases h
        | ok r =>
          obtain ⟨cg3, st3⟩ := r
          rw [ht] at h
          simp only at h
          have fT := Commands.generateCode_framed_cmds truecommands _ _ _ _ _ ht
          have A5 := fun hwf (hl : LabelsOK st.procedures cg.generatedCode.length) =>
            arm_then_first _ _ _ _ (cgc.getCommand (cgc.getCurrentLine - 1)).code
              ((cg3.updateCommand (cgc.getCurrentLine - 1) (cgc.getCommand (cgc.getCurrentLine - 1)).code
                  ((cgc.emit "JUMP" 0).getCurrentLine - 1 - (cgc.getCurrentLine - 1) + 1)).getCommand
              ((cgc.emit "JUMP" 0).getCurrentLine - 1)).code (hcond hwf).2.1
              (by have := (hcond hwf).1; have := (hcond hwf).2.1.line; omega) rfl hl fT rfl rfl rfl
          split at h
          · split at h
            · cases h
            · rename_i cg6 st6 ht2
              have fT2 := Commands.generateCode_framed_cmds truecommands _ _ _ _ _ ht2
              simp only [Except.ok.injEq, Prod.mk.injEq] at h
              rw [← h.1, ← h.2]
              refine ⟨fT.1.symbols_trans fT2.1, fun hwf hl => ?_⟩
              exact arm_then_second _ _ _ ((A5 hwf hl).appends_mono (fun _ hf => hf.elim) (Nat.le_refl _))
                (by have := (hcond hwf).1; have := (hcond hwf).2.1.line; omega) fT.1 hl fT2 rfl
          · simp only [Except.ok.injEq, Prod.mk.injEq] at h
            rw [← h.1, ← h.2]
            exact ⟨fT.1, A5⟩
      · rw [if_neg h1] at h
        simp only at h
        split at h
        · rename_i h2
          split at h
          · cases h
          · rename_i cg6 st6 ht2
            have fT2 := Commands.generateCode_framed_cmds truecommands _ _ _ _ _ ht2
            simp only [Except.ok.injEq, Prod.mk.injEq] at h
            rw [← h.1, ← h.2]
            refine ⟨fT2.1, fun hwf hl => ?_⟩
            exact arm_then_second _ _ _ (hcond hwf).2.1
              (by have := (hcond hwf).1; have := (hcond hwf).2.1.line; omega)
              (SameSymbols.symbols_refl _) hl fT2 rfl
        · rename_i h2
          simp only [Except.ok.injEq, Prod.mk.injEq] at h
          rw [← h.1, ← h.2]
          refine ⟨SameSymbols.symbols_refl _, fun hwf hl => ?_⟩
          refine (hcond hwf).2.1.clear _ ?_
          cases hj : (cgc.getCommand (cgc.getCurrentLine - 1)).isJump with
          | false => rfl
          | true =>
            rcases (hcond hwf).2.2 hj with h3 | h3
            · exact absurd h3 h1
            · exact absurd h3 h2
  | .whileDo condition commands, cg, st, scope, cg1, st1, h => by
    simp only [Command.generateCode] at h
    cases hc : condition.generateCode cg st scope with
    | error err => rw [hc] at h; cases h
    | ok cgc =>
      rw [hc] at h
      simp only at h
      have hcond := fun hwf => condition.generateCode_appends cg st scope cgc hc hwf
      have hj : cg.WF → (cg.generatedCode.length : Int) ≤ cgc.getCurrentLine - 1 := by
        intro hwf
        have := (hcond hwf).1
        have := (hcond hwf).2.1.line
        omega
      by_cases h1 : (cgc.getCommand (cgc.getCurrentLine - 1)).arg = 1
      · have h2 : ¬ (cgc.getCommand (cgc.getCurrentLine - 1)).arg = 2 := by
          rw [h1]; decide
        rw [if_pos h1] at h
        split at h
        · cases h
        · rename_i cg4 st4 hfirst
          rw [if_neg h2] at h
          split at hfirst
          · cases hfirst
          · rename_i cg3 st3 hb
            have fC := Commands.generateCode_framed_cmds commands _ _ _ _ _ hb
            simp only [Except.ok.injEq, Prod.mk.injEq] at hfirst h
            rw [← h.1, ← h.2, ← hfirst.1, ← hfirst.2]
            refine ⟨fC.1, fun hwf hl => ?_⟩
            exact arm_while_first _ _ _ _ _ hwf (hcond hwf).2.1 (hj hwf) rfl hl fC rfl rfl rfl
      · rw [if_neg h1] at h
        simp only at h
        split at h
        · split at h
          · cases h
          · rename_i cg5 st5 hb
            have fC := Commands.generateCode_framed_cmds commands _ _ _ _ _ hb
            simp only [Except.ok.injEq, Prod.mk.injEq] at h
            rw [← h.1, ← h.2]
            refine ⟨fC.1, fun hwf hl => ?_⟩
            exact arm_while_second _ _ _ _ hwf (hcond hwf).2.1 (hj hwf) rfl hl fC rfl rfl
        · rename_i h2
          simp only [Except.ok.injEq, Prod.mk.injEq] at h
          rw [← h.1, ← h.2]
          refine ⟨SameSymbols.symbols_refl _, fun hwf hl => ?_⟩
          refine (hcond hwf).2.1.clear _ ?_
          cases hjmp : (cgc.getCommand (cgc.getCurrentLine - 1)).isJump with
          | false => rfl
          | true =>
            rcases (hcond hwf).2.2 hjmp with h3 | h3
            · exact absurd h3 h1
            · exact absurd h3 h2
  | .repeatUntil commands condition, cg, st, scope, cg1, st1, h => by
    simp only [Command.generateCode] at h
    cases hb : commands.generateCode cg st scope with
    | error err => rw [hb] at h; cases h
    | ok r =>
      obtain ⟨cgA, stA⟩ := r
      rw [hb] at h
      simp only at h
      have fC := Commands.generateCode_framed_cmds commands _ _ _ _ _ hb
      cases hc : condition.generateCode cgA stA scope with
      | error err => rw [hc] at h; cases h
      | ok cgc =>
        rw [hc] at h
        simp only [Except.ok.injEq, Prod.mk.injEq] at h
        rw [← h.1, ← h.2]
        refine ⟨fC.1, fun hwf hl => ?_⟩
        have a := fC.2 hwf hl
        obtain ⟨hlt, A, hcj⟩ := condition.generateCode_appends cgA stA scope cgc hc a.wf
        have hj : (cgA.generatedCode.length : Int) ≤ cgc.getCurrentLine - 1 := by
          have := A.line
          omega
        have arms := arm_repeat (cgc.getCurrentLine - 1)
          (cg.getCurrentLine - cgc.getCurrentLine) (cg.getCurrentLine - cgc.getCurrentLine + 1)
          (cgc.getCommand (cgc.getCurrentLine - 1)).code hwf a A hj rfl rfl rfl
        by_cases h1 : (cgc.getCommand (cgc.getCurrentLine - 1)).arg = 1
        · have h2 : ¬ (cgc.getCommand (cgc.getCurrentLine - 1)).arg = 2 := by
            rw [h1]; decide
          rw [if_pos h1, if_neg h2]
          exact arms.1
        · rw [if_neg h1]
          by_cases h2 : (cgc.getCommand (cgc.getCurrentLine - 1)).arg = 2
          · rw [if_pos h2]
            exact arms.2
          · rw [if_neg h2]
            refine (a.trans_right A).clear _ ?_
            cases hjmp : (cgc.getCommand (cgc.getCurrentLine - 1)).isJump with
            | false => rfl
            | true =>
              rcases hcj hjmp with h3 | h3
              · exact absurd h3 h1
              · exact absurd h3 h2
  | .forTo pidentifier fromvalue tovalue commands, cg, st, scope, cg1, st1, h => by
    simp only [Command.generateCode] at h
    split at h
    · cases h
    · rename_i iterator hit
      split at h
      · cases h
      · rename_i cgt ht
        split at h
        · cases h
        · rename_i cgf hf
          split at h
          · cases h
          · rename_i cg5 st5 hb
            have fC := Commands.generateCode_framed_cmds commands _ _ _ _ _ hb
            simp only [Except.ok.injEq, Prod.mk.injEq] at h
            rw [← h.1, ← h.2]
            refine ⟨fC.1, fun hwf hl => ?_⟩
            obtain ⟨pre, hpre, he, hpl⟩ := forTo_header cg st scope fromvalue tovalue cgt cgf
              iterator.memoryPosition ht hf
            rw [he] at fC
            have P := Appends.of_code hwf pre (hpre.localJumps 0)
            have hline : (cgf.emit "STORE" iterator.memoryPosition).getCurrentLine + 1 =
                (cg.emitAll pre).getCurrentLine := by
              rw [← he]
              exact (getCurrentLine_emit _ _ _).symm
            have hlen : (cg.emitAll pre).generatedCode.length =
                cg.generatedCode.length + pre.length := by
              rw [emitAll_generatedCode, List.length_append]
            have := arm_for (cgf.emit "STORE" iterator.memoryPosition).getCurrentLine _ _ _
              [⟨"LOAD", iterator.memoryPosition⟩, ⟨"ADD", 10⟩, ⟨"STORE", iterator.memoryPosition⟩]
              P (by have := P.line; omega) hline hl fC rfl rfl rfl rfl
            rw [← he] at this
            exact this
  | .forDownTo pidentifier fromvalue downtovalue commands, cg, st, scope, cg1, st1, h => by
    simp only [Command.generateCode] at h
    split at h
    · cases h
    · rename_i cgt ht
      split at h
      · cases h
      · rename_i cgf hf
        split at h
        · cases h
        · rename_i iterator hit
          split at h
          · cases h
          · rename_i cg5 st5 hb
            have fC := Commands.generateCode_framed_cmds commands _ _ _ _ _ hb
            split at h
            · cases h
            · rename_i it5 hit5
              simp only [Except.ok.injEq, Prod.mk.injEq] at h
              rw [← h.1, ← h.2]
              refine ⟨fC.1, fun hwf hl => ?_⟩
              obtain ⟨pre, hpre, he, hpl⟩ := forDownTo_header cg st scope fromvalue downtovalue
                cgt cgf iterator.memoryPosition ht hf
              rw [he] at fC
              have P := Appends.of_code hwf pre (hpre.localJumps 0)
              have hline : (cgf.emit "STORE" iterator.memoryPosition).getCurrentLine + 1 =
                  (cg.emitAll pre).getCurrentLine := by
                rw [← he]
                exact (getCurrentLine_emit _ _ _).symm
              have hlen : (cg.emitAll pre).generatedCode.length =
                  cg.generatedCode.length + pre.length := by
                rw [emitAll_generatedCode, List.length_append]
              have := arm_for (cgf.emit "STORE" iterator.memoryPosition).getCurrentLine _ _ _
                [⟨"LOAD", it5.memoryPosition⟩, ⟨"SUB", 10⟩, ⟨"STORE", it5.memoryPosition⟩,
                  ⟨"LOAD", it5.memoryPosition⟩]
                P (by have := P.line; omega) hline hl fC rfl rfl rfl rfl
              rw [← he] at this
              exact this
  | .procCall pidentifier args, cg, st, scope, cg1, st1, h => by
    simp only [Command.generateCode] at h
    exact ⟨procCallGenerate_same _ _ _ _ _ _ _ h,
      fun hwf hl => procCallGenerate_appends _ _ _ _ _ _ _ h hwf hl⟩
  | .read identifier, cg, st, scope, cg1, st1, h => by
    simp only [Command.generateCode] at h
    obtain ⟨a, ha, he⟩ := except_map_ok _ _ _ h
    simp only [Prod.mk.injEq] at he
    obtain ⟨code, hc, hp⟩ := readGenerate_plain _ _ _ _ _ ha
    rw [← he.1, ← he.2, hc]
    exact ⟨SameSymbols.symbols_refl _, fun hwf _ => Appends.of_code hwf code (hp.localJumps 0)⟩
  | .write value, cg, st, scope, cg1, st1, h => by
    simp only [Command.generateCode] at h
    obtain ⟨a, ha, he⟩ := except_map_ok _ _ _ h
    simp only [Prod.mk.injEq] at he
    obtain ⟨code, hc, hp⟩ := writeGenerate_plain _ _ _ _ _ ha
    rw [← he.1, ← he.2, hc]
    exact ⟨SameSymbols.symbols_refl _, fun hwf _ => Appends.of_code hwf code (hp.localJumps 0)⟩
theorem Commands.generateCode_framed_cmds : ∀ (cs : Commands) (cg : CodeGenerator) (st : SymbolTable)
    (scope : String) (cg1 : CodeGenerator) (st1 : SymbolTable),
    cs.generateCode cg st scope = .ok (cg1, st1) → Framed cg st cg1 st1
  | .nil, cg, st, scope, cg1, st1, h => by
    simp only [Commands.generateCode, Except.ok.injEq, Prod.mk.injEq] at h
    rw [← h.1, ← h.2]
    exact ⟨SameSymbols.symbols_refl _, fun hwf _ => Appends.appends_refl _ _ _ hwf⟩
  | .cons command rest, cg, st, scope, cg1, st1, h => by
    simp only [Commands.generateCode] at h
    cases hc : command.generateCode cg st scope with
    | error err => rw [hc] at h; cases h
    | ok r =>
      obtain ⟨cg2, st2⟩ := r
      rw [hc] at h
      simp only at h
      have f1 := Command.generateCode_framed_cmd command _ _ _ _ _ hc
      have f2 := Commands.generateCode_framed_cmds rest _ _ _ _ _ h
      refine ⟨f1.1.symbols_trans f2.1, fun hwf hl => ?_⟩
      have a1 := f1.2 hwf hl
      exact a1.appends_trans (f2.2 a1.wf (a1.labels f1.1 hl))
end

/-! ## Emission of procedures: the frame -/

theorem SameEntities.entities_refl (st : SymbolTable) : SameEntities st st :=
  ⟨rfl, fun _ => rfl, fun _ => rfl, fun _ => rfl⟩

theorem SameEntities.entities_trans {st st1 st2 : SymbolTable} (h1 : SameEntities st st1)
    (h2 : SameEntities st1 st2) : SameEntities st st2 :=
  ⟨h2.vars.trans h1.vars, fun key => (h2.arrays key).trans (h1.arrays key),
    fun key => (h2.procedures key).trans (h1.procedures key),
    fun key => (h2.entries key).trans (h1.entries key)⟩

theorem SameSymbols.entities {st st1 : SymbolTable} (h : SameSymbols st st1) :
    SameEntities st st1 :=
  ⟨h.vars, h.arrays, fun key => by rw [h.procedures], h.entries⟩

theorem SameEntities.entities_putLabel (st : SymbolTable) (name scope : String) (p : Procedure)
    (label : Option Int) (h : st.getProcedure name scope = some p) :
    SameEntities st (st.putProcedure name scope { p with jumpLabel := label }) := by
  refine ⟨rfl, fun _ => rfl, fun key => ?_, fun _ => rfl⟩
  unfold SymbolTable.getProcedure at h
  unfold SymbolTable.putProcedure
  by_cases hk : key = mkKey name scope
  · subst hk
    simp only
    rw [mapFind_mapSet_same, h]
    rfl
  · simp only
    rw [mapFind_mapSet_ne _ _ _ _ hk]

theorem LabelsOK.labels_putLabel (st : SymbolTable) (name scope : String) (p : Procedure)
    (len : Int) (h0 : 0 ≤ len) (hl : LabelsOK st.procedures len) :
    LabelsOK (st.putProcedure name scope { p with jumpLabel := some len }).procedures len := by
  intro key q j hq hj
  unfold SymbolTable.putProcedure at hq
  simp only at hq
  by_cases hk : key = mkKey name scope
  · subst hk
    rw [mapFind_mapSet_same] at hq
    simp only [Option.some.injEq] at hq
    subst hq
    simp only [Option.some.injEq] at hj
    subst hj
    exact ⟨h0, Int.le_refl _⟩
  · rw [mapFind_mapSet_ne _ _ _ _ hk] at hq
    exact hl key q j hq hj

mutual
theorem ProcTree.generateCode_framed_proc : ∀ (t : ProcTree) (cg : CodeGenerator) (st : SymbolTable)
    (scope : String) (cg1 : CodeGenerator) (st1 : SymbolTable),
    t.generateCode cg st scope = .ok (cg1, st1) → ProcFramed cg st cg1 st1
  | .proceduresNode procedures, cg, st, scope, cg1, st1, h => by
    simp only [ProcTree.generateCode] at h
    exact ProcList.generateCode_framed_procs procedures _ _ _ _ _ h
  | .procedureNode procedures proc_head declarations commands, cg, st, scope, cg1, st1, h => by
    simp only [ProcTree.generateCode] at h
    split at h
    · cases h
    · rename_i cga sta hp
      have fP := OptProcTree.generateCode_framed_opt procedures _ _ _ _ _ hp
      split at h
      · cases h
      · rename_i p hget
        split at h
        · cases h
        · rename_i cg3 st3 hb
          have fC := Commands.generateCode_framed_cmds commands _ _ _ _ _ hb
          split at h
          · cases h
          · rename_i p3 hget3
            simp only [Except.ok.injEq, Prod.mk.injEq] at h
            rw [← h.1, ← h.2]
            refine ⟨(fP.1.entities_trans (SameEntities.entities_putLabel sta _ _ p _ hget)).entities_trans fC.1.entities,
              fun hwf hl => ?_⟩
            obtain ⟨A1, hl1⟩ := fP.2 hwf hl
            have hline := A1.line
            have hl2 := LabelsOK.labels_putLabel sta proc_head.pidentifier scope p
              cga.getCurrentLine (by omega) (by rw [hline]; exact hl1)
            rw [hline] at hl2 fC
            have c := fC.2 A1.wf hl2
            have A3 := A1.appends_trans c
            refine ⟨A3.emit_same "RTRN" _ (Or.inr (good_of_not_jump _ _ _ _ rfl)), ?_⟩
            have hle := c.le
            rw [fC.1.procedures]
            refine hl2.labels_mono ?_
            simp only [emit_generatedCode, List.length_append, List.length_singleton]
            push_cast
            omega
theorem ProcList.generateCode_framed_procs : ∀ (l : ProcList) (cg : CodeGenerator) (st : SymbolTable)
    (scope : String) (cg1 : CodeGenerator) (st1 : SymbolTable),
    l.generateCode cg st scope = .ok (cg1, st1) → ProcFramed cg st cg1 st1
  | .nil, cg, st, scope, cg1, st1, h => by
    simp only [ProcList.generateCode, Except.ok.injEq, Prod.mk.injEq] at h
    rw [← h.1, ← h.2]
    exact ⟨SameEntities.entities_refl _, fun hwf hl => ⟨Appends.appends_refl _ _ _ hwf, hl⟩⟩
  | .cons procedure rest, cg, st, scope, cg1, st1, h => by
    simp only [ProcList.generateCode] at h
    split at h
    · cases h
    · rename_i cg2 st2 hp
      have f1 := ProcTree.generateCode_framed_proc procedure _ _ _ _ _ hp
      have f2 := ProcList.generateCode_framed_procs rest _ _ _ _ _ h
      refine ⟨f1.1.entities_trans f2.1, fun hwf hl => ?_⟩
      obtain ⟨A1, hl1⟩ := f1.2 hwf hl
      obtain ⟨A2, hl2⟩ := f2.2 A1.wf hl1
      exact ⟨A1.appends_trans A2, hl2⟩
theorem OptProcTree.generateCode_framed_opt : ∀ (o : OptProcTree) (cg : CodeGenerator)
    (st : SymbolTable) (scope : String) (cg1 : CodeGenerator) (st1 : SymbolTable),
    o.generateCode cg st scope = .ok (cg1, st1) → ProcFramed cg st cg1 st1
  | .null, cg, st, scope, cg1, st1, h => by
    simp only [OptProcTree.generateCode, Except.ok.injEq, Prod.mk.injEq] at h
    rw [← h.1, ← h.2]
    exact ⟨SameEntities.entities_refl _, fun hwf hl => ⟨Appends.appends_refl _ _ _ hwf, hl⟩⟩
  | .node procedures, cg, st, scope, cg1, st1, h => by
    simp only [OptProcTree.generateCode] at h
    exact ProcTree.generateCode_framed_proc procedures _ _ _ _ _ h
end

/-! ## The semantic pass: nothing is lost from the table, and what it leaves
answers every lookup of emission -/

theorem Sem.andThen_ok {α β : Type} {r : Sem α} {k : α → SymbolTable → Sem β} {b : β}
    {st2 : SymbolTable} (h : r.andThen k = .ok b st2) :
    ∃ a st1, r = .ok a st1 ∧ k a st1 = .ok b st2 := by
  cases r with
  | ok a st1 => exact ⟨a, st1, rfl, h⟩
  | thrown msg st => simp [Sem.andThen] at h
  | undefined => simp [Sem.andThen] at h

theorem Keeps.keeps_refl (st : SymbolTable) : Keeps st st :=
  ⟨fun _ h => h, fun _ h => h, fun _ p h => ⟨p, h, le_refl _⟩⟩

theorem Keeps.keeps_trans {st st1 st2 : SymbolTable} (h1 : Keeps st st1) (h2 : Keeps st1 st2) :
    Keeps st st2 :=
  ⟨fun key h => h2.vars key (h1.vars key h), fun key h => h2.arrays key (h1.arrays key h),
    fun key p h => by
      obtain ⟨p1, hp1, hl1⟩ := h1.procedures key p h
      obtain ⟨p2, hp2, hl2⟩ := h2.procedures key p1 hp1
      exact ⟨p2, hp2, le_trans hl1 hl2⟩⟩

theorem mapFind_mapSet_keeps {α : Type} (key key1 : String) (v : α) (m : List (String × α))
    (h : (mapFind key m).isSome = true) : (mapFind key (mapSet key1 v m)).isSome = true := by
  by_cases hk : key = key1
  · subst hk
    rw [mapFind_mapSet_same]
    rfl
  · rw [mapFind_mapSet_ne _ _ _ _ hk]
    exact h

theorem VarStep.step_refl (st : SymbolTable) : VarStep st st := ⟨Keeps.keeps_refl st, rfl⟩

theorem VarStep.step_trans {st st1 st2 : SymbolTable} (h1 : VarStep st st1) (h2 : VarStep st1 st2) :
    VarStep st st2 := ⟨h1.1.keeps_trans h2.1, h2.2.trans h1.2⟩

theorem VarStep.of_maps {st st1 : SymbolTable}
    (hv : ∀ key, (mapFind key st.vars).isSome = true → (mapFind key st1.vars).isSome = true)
    (ha : ∀ key, (mapFind key st.arrays).isSome = true → (mapFind key st1.arrays).isSome = true)
    (hp : st1.procedures = st.procedures) : VarStep st st1 :=
  ⟨⟨hv, ha, fun _ p h => ⟨p, by rw [hp]; exact h, le_refl _⟩⟩, hp⟩

theorem VarStep.putVariable (st : SymbolTable) (name scope : String) (v : Variable) :
    VarStep st (st.putVariable name scope v) :=
  VarStep.of_maps (fun key h => mapFind_mapSet_keeps key _ v st.vars h) (fun _ h => h) rfl

theorem VarStep.step_putArray (st : SymbolTable) (name scope : String) (a : Array) :
    VarStep st (st.putArray name scope a) :=
  VarStep.of_maps (fun _ h => h) (fun key h => mapFind_mapSet_keeps key _ a st.arrays h) rfl

theorem VarStep.iterator (st : SymbolTable) (x : String) : VarStep st { st with iterator := x } :=
  VarStep.of_maps (fun _ h => h) (fun _ h => h) rfl

theorem VarStep.addVariable {st st1 : SymbolTable} {name scope : String}
    (h : st.addVariable name scope = .ok () st1) : VarStep st st1 := by
  unfold SymbolTable.addVariable at h
  by_cases he : st.variableExists name scope = true
  · simp [he] at h
  · simp only [he] at h
    cases h
    exact VarStep.of_maps (fun key hk => mapFind_mapSet_keeps key _ _ st.vars hk) (fun _ hk => hk) rfl

theorem VarStep.addVariableV {st st1 : SymbolTable} {v : Variable}
    (h : st.addVariableV v = .ok () st1) : VarStep st st1 := by
  unfold SymbolTable.addVariableV at h
  by_cases he : st.variableExists v.name v.scope = true
  · simp [he] at h
  · simp only [he] at h
    cases h
    exact VarStep.of_maps (fun key hk => mapFind_mapSet_keeps key _ _ st.vars hk) (fun _ hk => hk) rfl

theorem VarStep.addArray {st st1 : SymbolTable} {name scope : String} {lo hi : Int}
    (h : st.addArray name scope lo hi = .ok () st1) : VarStep st st1 := by
  unfold SymbolTable.addArray at h
  by_cases he : st.arrayExists name scope = true
  · simp [he] at h
  · simp only [he] at h
    cases h
    exact VarStep.of_maps (fun _ hk => hk) (fun key hk => mapFind_mapSet_keeps key _ _ st.arrays hk) rfl

theorem Analysed.analysed_refl (st : SymbolTable) : Analysed st st := ⟨Keeps.keeps_refl st, fun h => h⟩

theorem Analysed.analysed_trans {st st1 st2 : SymbolTable} (h1 : Analysed st st1) (h2 : Analysed st1 st2) :
    Analysed st st2 := ⟨h1.1.keeps_trans h2.1, fun h => h2.2 (h1.2 h)⟩

theorem VarStep.analysed {st st1 : SymbolTable} (h : VarStep st st1) : Analysed st st1 :=
  ⟨h.1, fun hn key p hp => hn key p (by rw [← h.2]; exact hp)⟩

theorem Analysed.addProcedure {st st1 : SymbolTable} {name scope : String} {params : List Param}
    (h : st.addProcedure name scope params = .ok () st1) :
    Analysed st st1 ∧ st1.procedureExists name scope = true := by
  unfold SymbolTable.addProcedure at h
  by_cases he : st.procedureExists name scope = true
  · simp [he] at h
  · simp only [he] at h
    cases h
    have hnone : mapFind (mkKey name scope) st.procedures = none := by
      unfold SymbolTable.procedureExists at he
      cases hm : mapFind (mkKey name scope) st.procedures with
      | none => rfl
      | some q => rw [hm] at he; exact absurd rfl he
    refine ⟨⟨⟨fun _ hk => hk, fun _ hk => hk, fun key p hp => ?_⟩, fun hn key p hp => ?_⟩, ?_⟩
    · by_cases hk : key = mkKey name scope
      · subst hk
        rw [hnone] at hp
        cases hp
      · exact ⟨p, by
          show mapFind key (mapSet (mkKey name scope) _ st.procedures) = some p
          rw [mapFind_mapSet_ne _ _ _ _ hk]
          exact hp, le_refl _⟩
    · by_cases hk : key = mkKey name scope
      · subst hk
        have hp1 : mapFind (mkKey name scope) (mapSet (mkKey name scope) _ st.procedures) =
          some p := hp
        rw [mapFind_mapSet_same] at hp1
        cases hp1
        rfl
      · have hp1 : mapFind key (mapSet (mkKey name scope) _ st.procedures) = some p := hp
        rw [mapFind_mapSet_ne _ _ _ _ hk] at hp1
        exact hn key p hp1
    · show (mapFind (mkKey name scope) (mapSet (mkKey name scope) _ st.procedures)).isSome = true
      rw [mapFind_mapSet_same]
      rfl

theorem Analysed.addProcedureParam {st st1 : SymbolTable} {name scope : String} {param : Param}
    (h : st.addProcedureParam name scope param = .ok () st1) : Analysed st st1 := by
  unfold SymbolTable.addProcedureParam at h
  cases hm : mapFind (mkKey name scope) st.procedures with
  | none => simp [hm] at h
  | some q =>
    simp only [hm] at h
    cases h
    refine ⟨⟨fun _ hk => hk, fun _ hk => hk, fun key p hp => ?_⟩, fun hn key p hp => ?_⟩
    · by_cases hk : key = mkKey name scope
      · subst hk
        rw [hm] at hp
        cases hp
        exact ⟨_, mapFind_mapSet_same _ _ _, by simp⟩
      · exact ⟨p, by
          show mapFind key (mapSet (mkKey name scope) _ st.procedures) = some p
          rw [mapFind_mapSet_ne _ _ _ _ hk]
          exact hp, le_refl _⟩
    · by_cases hk : key = mkKey name scope
      · subst hk
        have hp1 : mapFind (mkKey name scope) (mapSet (mkKey name scope) _ st.procedures) =
          some p := hp
        rw [mapFind_mapSet_same] at hp1
        cases hp1
        exact hn _ q hm
      · have hp1 : mapFind key (mapSet (mkKey name scope) _ st.procedures) = some p := hp
        rw [mapFind_mapSet_ne _ _ _ _ hk] at hp1
        exact hn key p hp1

/-! ### Readiness only grows -/

theorem IdentifierNode.Ready.ready_mono_id {n : IdentifierNode} {st st1 : SymbolTable} {scope : String}
    (hk : Keeps st st1) (h : n.Ready st scope) : n.Ready st1 scope := by
  revert h
  unfold IdentifierNode.Ready
  cases n.identifierType
  · exact fun h => hk.vars _ h
  · exact fun h => ⟨hk.arrays _ h.1, hk.vars _ h.2⟩
  · exact fun h => hk.arrays _ h

theorem ValueNode.Ready.ready_mono_value {v : ValueNode} {st st1 : SymbolTable} {scope : String}
    (hk : Keeps st st1) (h : v.Ready st scope) : v.Ready st1 scope := by
  cases v with
  | number _ => trivial
  | identifier n => exact IdentifierNode.Ready.ready_mono_id hk h

theorem Expression.Ready.ready_mono_expr {x : Expression} {st st1 : SymbolTable} {scope : String}
    (hk : Keeps st st1) (h : x.Ready st scope) : x.Ready st1 scope := by
  cases x with
  | value v => exact ValueNode.Ready.ready_mono_value hk h
  | binary e => exact ⟨ValueNode.Ready.ready_mono_value hk h.1, ValueNode.Ready.ready_mono_value hk h.2⟩

theorem ConditionNode.Ready.ready_mono_cond {c : ConditionNode} {st st1 : SymbolTable} {scope : String}
    (hk : Keeps st st1) (h : c.Ready st scope) : c.Ready st1 scope :=
  ⟨ValueNode.Ready.ready_mono_value hk h.1, ValueNode.Ready.ready_mono_value hk h.2⟩

mutual
theorem Command.Ready.ready_mono_cmd : ∀ (c : Command) (st st1 : SymbolTable) (scope : String),
    Keeps st st1 → c.Ready st scope → c.Ready st1 scope
  | .assignment _ _, _, _, _, hk, h => by
    unfold Command.Ready at h ⊢
    exact ⟨IdentifierNode.Ready.ready_mono_id hk h.1, Expression.Ready.ready_mono_expr hk h.2⟩
  | .ifElse _ t f, st, st1, scope, hk, h => by
    unfold Command.Ready at h ⊢
    exact ⟨ConditionNode.Ready.ready_mono_cond hk h.1, Commands.Ready.ready_mono_cmds t st st1 scope hk h.2.1,
      Commands.Ready.ready_mono_cmds f st st1 scope hk h.2.2⟩
  | .ifThen _ t, st, st1, scope, hk, h => by
    unfold Command.Ready at h ⊢
    exact ⟨ConditionNode.Ready.ready_mono_cond hk h.1, Commands.Ready.ready_mono_cmds t st st1 scope hk h.2⟩
  | .whileDo _ t, st, st1, scope, hk, h => by
    unfold Command.Ready at h ⊢
    exact ⟨ConditionNode.Ready.ready_mono_cond hk h.1, Commands.Ready.ready_mono_cmds t st st1 scope hk h.2⟩
  | .repeatUntil t _, st, st1, scope, hk, h => by
    unfold Command.Ready at h ⊢
    exact ⟨Commands.Ready.ready_mono_cmds t st st1 scope hk h.1, ConditionNode.Ready.ready_mono_cond hk h.2⟩
  | .forTo _ _ _ t, st, st1, scope, hk, h => by
    unfold Command.Ready at h ⊢
    exact ⟨hk.vars _ h.1, ValueNode.Ready.ready_mono_value hk h.2.1, ValueNode.Ready.ready_mono_value hk h.2.2.1,
      Commands.Ready.ready_mono_cmds t st st1 scope hk h.2.2.2⟩
  | .forDownTo _ _ _ t, st, st1, scope, hk, h => by
    unfold Command.Ready at h ⊢
    exact ⟨hk.vars _ h.1, ValueNode.Ready.ready_mono_value hk h.2.1, ValueNode.Ready.ready_mono_value hk h.2.2.1,
      Commands.Ready.ready_mono_cmds t st st1 scope hk h.2.2.2⟩
  | .procCall _ _, _, _, _, hk, h => by
    unfold Command.Ready at h ⊢
    obtain ⟨p, hp, hl⟩ := h
    obtain ⟨p1, hp1, hl1⟩ := hk.procedures _ p hp
    exact ⟨p1, hp1, le_trans hl hl1⟩
  | .read _, _, _, _, hk, h => by
    unfold Command.Ready at h ⊢
    exact IdentifierNode.Ready.ready_mono_id hk h
  | .write _, _, _, _, hk, h => by
    unfold Command.Ready at h ⊢
    exact ValueNode.Ready.ready_mono_value hk h
theorem Commands.Ready.ready_mono_cmds : ∀ (c : Commands) (st st1 : SymbolTable) (scope : String),
    Keeps st st1 → c.Ready st scope → c.Ready st1 scope
  | .nil, _, _, _, _, _ => by
    unfold Commands.Ready
    trivial
  | .cons c rest, st, st1, scope, hk, h => by
    unfold Commands.Ready at h ⊢
    exact ⟨Command.Ready.ready_mono_cmd c st st1 scope hk h.1, Commands.Ready.ready_mono_cmds rest st st1 scope hk h.2⟩
end

mutual
theorem ProcTree.Ready.ready_mono_proc : ∀ (t : ProcTree) (st st1 : SymbolTable) (scope : String),
    Keeps st st1 → t.Ready st scope → t.Ready st1 scope
  | .proceduresNode l, st, st1, scope, hk, h => by
    unfold ProcTree.Ready at h ⊢
    exact ProcList.Ready.ready_mono_procs l st st1 scope hk h
  | .procedureNode o head _ cmds, st, st1, scope, hk, h => by
    unfold ProcTree.Ready at h ⊢
    refine ⟨OptProcTree.Ready.ready_mono_opt o st st1 scope hk h.1, ?_,
      Commands.Ready.ready_mono_cmds cmds st st1 _ hk h.2.2⟩
    have h2 := h.2.1
    unfold SymbolTable.procedureExists at h2 ⊢
    cases hm : mapFind (mkKey head.pidentifier scope) st.procedures with
    | none => rw [hm] at h2; cases h2
    | some q =>
      obtain ⟨p1, hp1, _⟩ := hk.procedures _ q hm
      rw [hp1]
      rfl
theorem ProcList.Ready.ready_mono_procs : ∀ (l : ProcList) (st st1 : SymbolTable) (scope : String),
    Keeps st st1 → l.Ready st scope → l.Ready st1 scope
  | .nil, _, _, _, _, _ => by
    unfold ProcList.Ready
    trivial
  | .cons t rest, st, st1, scope, hk, h => by
    unfold ProcList.Ready at h ⊢
    exact ⟨ProcTree.Ready.ready_mono_proc t st st1 scope hk h.1, ProcList.Ready.ready_mono_procs rest st st1 scope hk h.2⟩
theorem OptProcTree.Ready.ready_mono_opt : ∀ (o : OptProcTree) (st st1 : SymbolTable) (scope : String),
    Keeps st st1 → o.Ready st scope → o.Ready st1 scope
  | .null, _, _, _, _, _ => by
    unfold OptProcTree.Ready
    trivial
  | .node t, st, st1, scope, hk, h => by
    unfold OptProcTree.Ready at h ⊢
    exact ProcTree.Ready.ready_mono_proc t st st1 scope hk h
end
/-! ### What a successful analysis establishes -/

theorem IdentifierNode.traverseAndAnalyze_ok_id {n : IdentifierNode} {st st1 : SymbolTable}
    {scope : String} (h : n.traverseAndAnalyze st scope = .ok () st1) :
    st1 = st ∧ n.Ready st scope := by
  revert h
  unfold IdentifierNode.traverseAndAnalyze
  unfold IdentifierNode.Ready
  cases n.identifierType
  · intro h
    by_cases he : st.variableExists n.pidentifier scope = true
    · simp [he] at h
      exact ⟨h.symm, he⟩
    · simp [he] at h
  · intro h
    by_cases he : st.arrayExists n.pidentifier scope = true
    · by_cases hv : st.variableExists n.indexIdentifier scope = true
      · simp [he, hv] at h
        exact ⟨h.symm, he, hv⟩
      · simp [he, hv] at h
    · simp [he] at h
  · intro h
    cases hg : st.getArray n.pidentifier scope with
    | none => simp [hg] at h
    | some a =>
      have he : st.arrayExists n.pidentifier scope = true := by
        unfold SymbolTable.arrayExists
        unfold SymbolTable.getArray at hg
        rw [hg]
        rfl
      refine ⟨?_, he⟩
      simp only [hg] at h
      split at h
      · split at h
        · cases h
        · cases h
          rfl
      · cases h
        rfl

theorem ValueNode.traverseAndAnalyze_ok_value {v : ValueNode} {st st1 : SymbolTable}
    {scope : String} (h : v.traverseAndAnalyze st scope = .ok () st1) :
    st1 = st ∧ v.Ready st scope := by
  cases v with
  | number _ =>
    cases h
    exact ⟨rfl, trivial⟩
  | identifier n => exact IdentifierNode.traverseAndAnalyze_ok_id h

theorem ConditionNode.traverseAndAnalyze_ok_cond {c : ConditionNode} {st st1 : SymbolTable}
    {scope : String} (h : c.traverseAndAnalyze st scope = .ok () st1) :
    st1 = st ∧ c.Ready st scope := by
  unfold ConditionNode.traverseAndAnalyze at h
  obtain ⟨_, st2, h1, h2⟩ := Sem.andThen_ok h
  obtain ⟨e1, r1⟩ := ValueNode.traverseAndAnalyze_ok_value h1
  subst e1
  obtain ⟨e2, r2⟩ := ValueNode.traverseAndAnalyze_ok_value h2
  exact ⟨e2, r1, r2⟩

theorem Expression.traverseAndAnalyze_ok_expr {x : Expression} {st st1 : SymbolTable}
    {scope : String} (h : x.traverseAndAnalyze st scope = .ok () st1) :
    st1 = st ∧ x.Ready st scope := by
  cases x with
  | value v => exact ValueNode.traverseAndAnalyze_ok_value h
  | binary e =>
    have h0 : (e.leftValue.traverseAndAnalyze st scope).andThen
        (fun _ st2 => e.rightValue.traverseAndAnalyze st2 scope) = .ok () st1 := h
    obtain ⟨_, st2, h1, h2⟩ := Sem.andThen_ok h0
    obtain ⟨e1, r1⟩ := ValueNode.traverseAndAnalyze_ok_value h1
    subst e1
    obtain ⟨e2, r2⟩ := ValueNode.traverseAndAnalyze_ok_value h2
    exact ⟨e2, r1, r2⟩

theorem IdentifierNode.isInitialized_step (n : IdentifierNode) (st : SymbolTable)
    (scope : String) : VarStep st (n.isInitialized st scope).2 := by
  unfold IdentifierNode.isInitialized
  repeat' split
  all_goals first
    | exact VarStep.step_refl _
    | exact VarStep.step_putArray _ _ _ _

theorem ValueNode.isVariableInitialized_step (v : ValueNode) (st : SymbolTable)
    (scope : String) : VarStep st (v.isVariableInitialized st scope).2 := by
  cases v with
  | number _ => exact VarStep.step_refl _
  | identifier n => exact IdentifierNode.isInitialized_step n st scope

theorem ExpressionNode.isVariablesInitialized_step {e : ExpressionNode} {st st1 : SymbolTable}
    {scope : String} {b : Bool} (h : e.isVariablesInitialized st scope = .ok b st1) :
    VarStep st st1 := by
  unfold ExpressionNode.isVariablesInitialized at h
  simp only at h
  split at h
  · cases h
  · split at h
    · cases h
    · cases h
      exact (ValueNode.isVariableInitialized_step _ _ _).step_trans
        (ValueNode.isVariableInitialized_step _ _ _)

theorem IdentifierNode.setInitialized_step {n : IdentifierNode} {st st1 : SymbolTable}
    {scope : String} (h : n.setInitialized st scope = some st1) : VarStep st st1 := by
  unfold IdentifierNode.setInitialized at h
  repeat' split at h
  all_goals cases h
  all_goals first
    | exact VarStep.step_refl _
    | exact VarStep.putVariable _ _ _ _
    | exact VarStep.step_putArray _ _ _ _

theorem assignmentAnalyze_ok {identifier : IdentifierNode} {expression : Expression}
    {st st1 : SymbolTable} {scope : String}
    (h : assignmentAnalyze identifier expression st scope = .ok () st1) :
    VarStep st st1 ∧ identifier.Ready st1 scope ∧ expression.Ready st1 scope := by
  unfold assignmentAnalyze at h
  split at h
  · cases h
  · obtain ⟨_, sa, h1, h2⟩ := Sem.andThen_ok h
    obtain ⟨e1, r1⟩ := IdentifierNode.traverseAndAnalyze_ok_id h1
    subst e1
    obtain ⟨_, sb, h3, h4⟩ := Sem.andThen_ok h2
    obtain ⟨e2, r2⟩ := Expression.traverseAndAnalyze_ok_expr h3
    subst e2
    have hs : VarStep sb st1 := by
      cases expression with
      | binary exprNode =>
        simp only at h4
        obtain ⟨ok, sc, h5, h6⟩ := Sem.andThen_ok h4
        have s1 := ExpressionNode.isVariablesInitialized_step h5
        split at h6
        · split at h6
          · cases h6
            rename_i hset
            exact s1.step_trans (IdentifierNode.setInitialized_step hset)
          · cases h6
        · cases h6
          exact s1
      | value exprNode2 =>
        simp only at h4
        have s1 := ValueNode.isVariableInitialized_step exprNode2 sb scope
        split at h4
        · split at h4
          · cases h4
            rename_i hset
            exact s1.step_trans (IdentifierNode.setInitialized_step hset)
          · cases h4
        · cases h4
          exact s1
    exact ⟨hs, IdentifierNode.Ready.ready_mono_id hs.1 r1, Expression.Ready.ready_mono_expr hs.1 r2⟩

theorem readAnalyze_ok {identifier : IdentifierNode} {st st1 : SymbolTable} {scope : String}
    (h : readAnalyze identifier st scope = .ok () st1) :
    VarStep st st1 ∧ identifier.Ready st1 scope := by
  unfold readAnalyze at h
  obtain ⟨_, sa, h1, h2⟩ := Sem.andThen_ok h
  obtain ⟨e1, r1⟩ := IdentifierNode.traverseAndAnalyze_ok_id h2
  subst e1
  refine ⟨?_, r1⟩
  repeat' split at h1
  all_goals cases h1
  all_goals first
    | exact VarStep.step_refl _
    | exact VarStep.putVariable _ _ _ _
    | exact VarStep.step_putArray _ _ _ _

theorem writeAnalyze_ok {value : ValueNode} {st st1 : SymbolTable} {scope : String}
    (h : writeAnalyze value st scope = .ok () st1) :
    VarStep st st1 ∧ value.Ready st1 scope := by
  cases value with
  | number _ =>
    cases h
    exact ⟨VarStep.step_refl _, trivial⟩
  | identifier n =>
    have h0 : (n.traverseAndAnalyze st scope).andThen
        (fun _ st2 => (ValueNode.identifier n).traverseAndAnalyze st2 scope) = .ok () st1 := h
    obtain ⟨_, sa, h1, h2⟩ := Sem.andThen_ok h0
    obtain ⟨e1, _⟩ := IdentifierNode.traverseAndAnalyze_ok_id h1
    subst e1
    obtain ⟨e2, r2⟩ := ValueNode.traverseAndAnalyze_ok_value h2
    subst e2
    exact ⟨VarStep.step_refl _, r2⟩

theorem argAnalyze_ok {pidentifier : String} {st st1 : SymbolTable} {scope : String}
    (h : argAnalyze pidentifier st scope = .ok () st1) : VarStep st st1 := by
  unfold argAnalyze at h
  repeat' split at h
  all_goals cases h
  all_goals first
    | exact VarStep.step_refl _
    | exact VarStep.putVariable _ _ _ _

theorem argsAnalyze_ok : ∀ (args : List String) (st st1 : SymbolTable) (scope : String),
    argsAnalyze args st scope = .ok () st1 → VarStep st st1
  | [], st, st1, _, h => by
    cases h
    exact VarStep.step_refl _
  | a :: rest, st, st1, scope, h => by
    have h0 : (argAnalyze a st scope).andThen (fun _ st2 => argsAnalyze rest st2 scope) =
      .ok () st1 := h
    obtain ⟨_, sa, h1, h2⟩ := Sem.andThen_ok h0
    exact (argAnalyze_ok h1).step_trans (argsAnalyze_ok rest sa st1 scope h2)

theorem procCallAnalyze_ok {pidentifier : String} {args : List String} {st st1 : SymbolTable}
    {scope : String} (h : procCallAnalyze pidentifier args st scope = .ok () st1) :
    VarStep st st1 ∧ (Command.procCall pidentifier args).Ready st1 scope := by
  unfold procCallAnalyze at h
  split at h
  · cases h
  · split at h
    · cases h
    · rename_i _ hp
      have hs := argsAnalyze_ok args st st1 scope h
      refine ⟨hs, ?_⟩
      unfold Command.Ready
      unfold SymbolTable.getProcedure
      rw [hs.2]
      unfold SymbolTable.isParamsTypeCorrect at hp
      cases hg : st.getProcedure pidentifier "GLOBAL" with
      | none => simp [hg] at hp
      | some p =>
        refine ⟨p, hg, ?_⟩
        simp only [hg] at hp
        by_cases hl : p.params.length = args.length
        · omega
        · simp [hl] at hp

theorem forEnter_ok {pidentifier : String} {st st1 : SymbolTable} {scope : String}
    (h : forEnter pidentifier st scope = .ok () st1) :
    VarStep st st1 ∧ st1.variableExists pidentifier scope = true := by
  unfold forEnter at h
  obtain ⟨_, sa, h1, h2⟩ := Sem.andThen_ok h
  have s1 : VarStep st sa := by
    split at h1
    · exact VarStep.addVariable h1
    · cases h1
      exact VarStep.step_refl _
  cases hg : sa.getVariable pidentifier scope with
  | none => simp [hg] at h2
  | some v =>
    simp only [hg] at h2
    cases h2
    refine ⟨s1.step_trans ((VarStep.putVariable _ _ _ _).step_trans (VarStep.iterator _ _)), ?_⟩
    show (mapFind (mkKey pidentifier scope) (mapSet (mkKey pidentifier scope) _ sa.vars)).isSome
      = true
    rw [mapFind_mapSet_same]
    rfl

theorem for_ok {pidentifier : String} {fromvalue tovalue : ValueNode} {commands : Commands}
    {st st1 : SymbolTable} {scope : String}
    (ih : ∀ sa sb, commands.traverseAndAnalyze sa scope = .ok () sb →
      VarStep sa sb ∧ commands.Ready sb scope)
    (h : ((forEnter pidentifier st scope).andThen fun _ s1 =>
      (fromvalue.traverseAndAnalyze s1 scope).andThen fun _ s2 =>
      (tovalue.traverseAndAnalyze s2 scope).andThen fun _ s3 =>
      (commands.traverseAndAnalyze s3 scope).andThen fun _ s4 =>
        .ok () { s4 with iterator := "" }) = .ok () st1) :
    VarStep st st1 ∧ st1.variableExists pidentifier scope = true ∧ fromvalue.Ready st1 scope ∧
      tovalue.Ready st1 scope ∧ commands.Ready st1 scope := by
  obtain ⟨_, s1, h1, h2⟩ := Sem.andThen_ok h
  obtain ⟨_, s2, h3, h4⟩ := Sem.andThen_ok h2
  obtain ⟨_, s3, h5, h6⟩ := Sem.andThen_ok h4
  obtain ⟨_, s4, h7, h8⟩ := Sem.andThen_ok h6
  cases h8
  obtain ⟨e1, rf⟩ := ValueNode.traverseAndAnalyze_ok_value h3
  subst e1
  obtain ⟨e2, rt⟩ := ValueNode.traverseAndAnalyze_ok_value h5
  subst e2
  obtain ⟨sE, hv⟩ := forEnter_ok h1
  obtain ⟨sC, rc⟩ := ih _ _ h7
  have sI := VarStep.iterator s4 ""
  have sR := sC.step_trans sI
  exact ⟨sE.step_trans sR, sR.1.vars _ hv, ValueNode.Ready.ready_mono_value sR.1 rf, ValueNode.Ready.ready_mono_value sR.1 rt,
    Commands.Ready.ready_mono_cmds commands _ _ scope sI.1 rc⟩

mutual
theorem Command.traverseAndAnalyze_ok_cmd : ∀ (c : Command) (st st1 : SymbolTable) (scope : String),
    c.traverseAndAnalyze st scope = .ok () st1 → VarStep st st1 ∧ c.Ready st1 scope
  | .assignment _ _, _, _, _, h => by
    unfold Command.traverseAndAnalyze at h
    unfold Command.Ready
    exact assignmentAnalyze_ok h
  | .ifElse condition t f, st, st1, scope, h => by
    unfold Command.traverseAndAnalyze at h
    unfold Command.Ready
    obtain ⟨_, s1, h1, h2⟩ := Sem.andThen_ok h
    obtain ⟨_, s2, h3, h4⟩ := Sem.andThen_ok h2
    obtain ⟨e1, rc⟩ := ConditionNode.traverseAndAnalyze_ok_cond h1
    subst e1
    obtain ⟨sT, rT⟩ := Commands.traverseAndAnalyze_ok_cmds t _ _ scope h3
    obtain ⟨sF, rF⟩ := Commands.traverseAndAnalyze_ok_cmds f _ _ scope h4
    exact ⟨sT.step_trans sF, ConditionNode.Ready.ready_mono_cond (sT.step_trans sF).1 rc,
      Commands.Ready.ready_mono_cmds t _ _ scope sF.1 rT, rF⟩
  | .ifThen condition t, st, st1, scope, h => by
    unfold Command.traverseAndAnalyze at h
    unfold Command.Ready
    obtain ⟨_, s1, h1, h2⟩ := Sem.andThen_ok h
    obtain ⟨e1, rc⟩ := ConditionNode.traverseAndAnalyze_ok_cond h1
    subst e1
    obtain ⟨sT, rT⟩ := Commands.traverseAndAnalyze_ok_cmds t _ _ scope h2
    exact ⟨sT, ConditionNode.Ready.ready_mono_cond sT.1 rc, rT⟩
  | .whileDo condition t, st, st1, scope, h => by
    unfold Command.traverseAndAnalyze at h
    unfold Command.Ready
    obtain ⟨_, s1, h1, h2⟩ := Sem.andThen_ok h
    obtain ⟨e1, rc⟩ := ConditionNode.traverseAndAnalyze_ok_cond h1
    subst e1
    obtain ⟨sT, rT⟩ := Commands.traverseAndAnalyze_ok_cmds t _ _ scope h2
    exact ⟨sT, ConditionNode.Ready.ready_mono_cond sT.1 rc, rT⟩
  | .repeatUntil t condition, st, st1, scope, h => by
    unfold Command.traverseAndAnalyze at h
    unfold Command.Ready
    obtain ⟨_, s1, h1, h2⟩ := Sem.andThen_ok h
    obtain ⟨sT, rT⟩ := Commands.traverseAndAnalyze_ok_cmds t _ _ scope h1
    obtain ⟨e1, rc⟩ := ConditionNode.traverseAndAnalyze_ok_cond h2
    subst e1
    exact ⟨sT, rT, rc⟩
  | .forTo pidentifier fromvalue tovalue t, st, st1, scope, h => by
    unfold Command.traverseAndAnalyze at h
    unfold Command.Ready
    exact for_ok (fun sa sb hh => Commands.traverseAndAnalyze_ok_cmds t sa sb scope hh) h
  | .forDownTo pidentifier fromvalue tovalue t, st, st1, scope, h => by
    unfold Command.traverseAndAnalyze at h
    unfold Command.Ready
    exact for_ok (fun sa sb hh => Commands.traverseAndAnalyze_ok_cmds t sa sb scope hh) h
  | .procCall _ _, _, _, _, h => by
    unfold Command.traverseAndAnalyze at h
    exact procCallAnalyze_ok h
  | .read _, _, _, _, h => by
    unfold Command.traverseAndAnalyze at h
    unfold Command.Ready
    exact readAnalyze_ok h
  | .write _, _, _, _, h => by
    unfold Command.traverseAndAnalyze at h
    unfold Command.Ready
    exact writeAnalyze_ok h
theorem Commands.traverseAndAnalyze_ok_cmds : ∀ (c : Commands) (st st1 : SymbolTable) (scope : String),
    c.traverseAndAnalyze st scope = .ok () st1 → VarStep st st1 ∧ c.Ready st1 scope
  | .nil, _, _, _, h => by
    unfold Commands.traverseAndAnalyze at h
    unfold Commands.Ready
    cases h
    exact ⟨VarStep.step_refl _, trivial⟩
  | .cons c rest, st, st1, scope, h => by
    unfold Commands.traverseAndAnalyze at h
    unfold Commands.Ready
    obtain ⟨_, s1, h1, h2⟩ := Sem.andThen_ok h
    obtain ⟨sC, rC⟩ := Command.traverseAndAnalyze_ok_cmd c _ _ scope h1
    obtain ⟨sR, rR⟩ := Commands.traverseAndAnalyze_ok_cmds rest _ _ scope h2
    exact ⟨sC.step_trans sR, Command.Ready.ready_mono_cmd c _ _ scope sR.1 rC, rR⟩
end

theorem declarationsAnalyze_ok : ∀ (ds : List DeclarationNode) (st st1 : SymbolTable)
    (scope : String), declarationsAnalyze ds st scope = .ok () st1 → VarStep st st1
  | [], _, _, _, h => by
    cases h
    exact VarStep.step_refl _
  | d :: rest, st, st1, scope, h => by
    have h0 : (d.traverseAndAnalyze st scope).andThen
        (fun _ st2 => declarationsAnalyze rest st2 scope) = .ok () st1 := h
    obtain ⟨_, sa, h1, h2⟩ := Sem.andThen_ok h0
    have s1 : VarStep st sa := by
      unfold DeclarationNode.traverseAndAnalyze at h1
      split at h1
      · exact VarStep.addArray h1
      · exact VarStep.addVariable h1
    exact s1.step_trans (declarationsAnalyze_ok rest sa st1 scope h2)

theorem ArgsdeclNode.traverseAndAnalyze_ok_argsdecl {d : ArgsdeclNode} {st st1 : SymbolTable}
    {scope : String} (h : d.traverseAndAnalyze st scope = .ok () st1) : Analysed st st1 := by
  unfold ArgsdeclNode.traverseAndAnalyze at h
  split at h
  · obtain ⟨_, sa, h1, h2⟩ := Sem.andThen_ok h
    obtain ⟨_, sb, h3, h4⟩ := Sem.andThen_ok h2
    refine (Analysed.addProcedureParam h1).analysed_trans ((VarStep.addArray h3).analysed.analysed_trans ?_)
    split at h4
    · cases h4
    · cases h4
      exact (VarStep.step_putArray _ _ _ _).analysed
  · obtain ⟨_, sa, h1, h2⟩ := Sem.andThen_ok h
    obtain ⟨_, sb, h3, h4⟩ := Sem.andThen_ok h2
    refine (Analysed.addProcedureParam h1).analysed_trans ((VarStep.addVariableV h3).analysed.analysed_trans ?_)
    split at h4
    · cases h4
    · cases h4
      exact (VarStep.putVariable _ _ _ _).analysed

theorem argsdeclsAnalyze_ok : ∀ (ds : List ArgsdeclNode) (st st1 : SymbolTable)
    (scope : String), argsdeclsAnalyze ds st scope = .ok () st1 → Analysed st st1
  | [], _, _, _, h => by
    cases h
    exact Analysed.analysed_refl _
  | d :: rest, st, st1, scope, h => by
    have h0 : (d.traverseAndAnalyze st scope).andThen
        (fun _ st2 => argsdeclsAnalyze rest st2 scope) = .ok () st1 := h
    obtain ⟨_, sa, h1, h2⟩ := Sem.andThen_ok h0
    exact (ArgsdeclNode.traverseAndAnalyze_ok_argsdecl h1).analysed_trans (argsdeclsAnalyze_ok rest sa st1 scope h2)

theorem procedureExists_keeps {st st1 : SymbolTable} {name scope : String} (hk : Keeps st st1)
    (h : st.procedureExists name scope = true) : st1.procedureExists name scope = true := by
  unfold SymbolTable.procedureExists at h ⊢
  cases hm : mapFind (mkKey name scope) st.procedures with
  | none => rw [hm] at h; cases h
  | some q =>
    obtain ⟨p1, hp1, _⟩ := hk.procedures _ q hm
    rw [hp1]
    rfl

mutual
theorem ProcTree.traverseAndAnalyze_ok_proc : ∀ (t : ProcTree) (st st1 : SymbolTable)
    (scope : String), t.traverseAndAnalyze st scope = .ok () st1 →
    Analysed st st1 ∧ t.Ready st1 scope
  | .proceduresNode l, st, st1, scope, h => by
    unfold ProcTree.traverseAndAnalyze at h
    unfold ProcTree.Ready
    exact ProcList.traverseAndAnalyze_ok_procs l st st1 scope h
  | .procedureNode o head decls cmds, st, st1, scope, h => by
    unfold ProcTree.traverseAndAnalyze at h
    unfold ProcTree.Ready
    obtain ⟨_, s1, h1, h2⟩ := Sem.andThen_ok h
    obtain ⟨_, s2, h3, h4⟩ := Sem.andThen_ok h2
    obtain ⟨_, s3, h5, h6⟩ := Sem.andThen_ok h4
    obtain ⟨_, s4, h7, h8⟩ := Sem.andThen_ok h6
    obtain ⟨a1, he⟩ := Analysed.addProcedure h1
    obtain ⟨a2, rO⟩ := OptProcTree.traverseAndAnalyze_ok_opt o _ _ scope h3
    have a3 := argsdeclsAnalyze_ok _ _ _ _ h5
    have a4 := (declarationsAnalyze_ok _ _ _ _ h7).analysed
    obtain ⟨sC, rC⟩ := Commands.traverseAndAnalyze_ok_cmds cmds _ _ _ h8
    have a5 := sC.analysed
    have k25 := a3.1.keeps_trans (a4.1.keeps_trans a5.1)
    exact ⟨a1.analysed_trans (a2.analysed_trans (a3.analysed_trans (a4.analysed_trans a5))),
      OptProcTree.Ready.ready_mono_opt o _ _ scope k25 rO,
      procedureExists_keeps (a2.1.keeps_trans k25) he, rC⟩
theorem ProcList.traverseAndAnalyze_ok_procs : ∀ (l : ProcList) (st st1 : SymbolTable)
    (scope : String), l.traverseAndAnalyze st scope = .ok () st1 →
    Analysed st st1 ∧ l.Ready st1 scope
  | .nil, _, _, _, h => by
    unfold ProcList.traverseAndAnalyze at h
    unfold ProcList.Ready
    cases h
    exact ⟨Analysed.analysed_refl _, trivial⟩
  | .cons t rest, st, st1, scope, h => by
    unfold ProcList.traverseAndAnalyze at h
    unfold ProcList.Ready
    obtain ⟨_, s1, h1, h2⟩ := Sem.andThen_ok h
    obtain ⟨aT, rT⟩ := ProcTree.traverseAndAnalyze_ok_proc t _ _ scope h1
    obtain ⟨aR, rR⟩ := ProcList.traverseAndAnalyze_ok_procs rest _ _ scope h2
    exact ⟨aT.analysed_trans aR, ProcTree.Ready.ready_mono_proc t _ _ scope aR.1 rT, rR⟩
theorem OptProcTree.traverseAndAnalyze_ok_opt : ∀ (o : OptProcTree) (st st1 : SymbolTable)
    (scope : String), o.traverseAndAnalyze st scope = .ok () st1 →
    Analysed st st1 ∧ o.Ready st1 scope
  | .null, _, _, _, h => by
    unfold OptProcTree.traverseAndAnalyze at h
    unfold OptProcTree.Ready
    cases h
    exact ⟨Analysed.analysed_refl _, trivial⟩
  | .node t, st, st1, scope, h => by
    unfold OptProcTree.traverseAndAnalyze at h
    unfold OptProcTree.Ready
    exact ProcTree.traverseAndAnalyze_ok_proc t st st1 scope h
end

theorem ProgramNode.traverseAndAnalyze_ok_prog {p : ProgramNode} {st st1 : SymbolTable}
    (h : p.traverseAndAnalyze st = .ok () st1) : Analysed st st1 ∧ p.Ready st1 := by
  unfold ProgramNode.traverseAndAnalyze at h
  obtain ⟨_, s1, h1, h2⟩ := Sem.andThen_ok h
  unfold MainNode.traverseAndAnalyze at h2
  obtain ⟨_, s2, h3, h4⟩ := Sem.andThen_ok h2
  obtain ⟨a1, rP⟩ := OptProcTree.traverseAndAnalyze_ok_opt _ _ _ _ h1
  have a2 := (declarationsAnalyze_ok _ _ _ _ h3).analysed
  obtain ⟨sC, rC⟩ := Commands.traverseAndAnalyze_ok_cmds _ _ _ _ h4
  exact ⟨a1.analysed_trans (a2.analysed_trans sC.analysed),
    OptProcTree.Ready.ready_mono_opt _ _ _ _ (a2.1.keeps_trans sC.1) rP, rC⟩

theorem NoLabels.new : NoLabels SymbolTable.new := fun _ _ h => by cases h

theorem NoLabels.labelsOK {st : SymbolTable} (h : NoLabels st) (len : Int) :
    LabelsOK st.procedures len := fun key p j hp hj => by
  rw [h key p hp] at hj
  cases hj
/-! ## The layout of the emitted program -/

theorem ProgramNode.generateCode_null {p : ProgramNode} {st : SymbolTable}
    {cg3 : CodeGenerator} {st3 : SymbolTable} (hp : p.procedures = .null) (hl : NoLabels st)
    (h : p.generateCode CodeGenerator.new st = .ok (cg3, st3)) :
    ∃ cg2, p.main.commands.generateCode CodeGenerator.new st "MAIN" = .ok (cg2, st3) ∧
      Appends noAddress 0 CodeGenerator.new cg2 ∧ cg3 = cg2.emit "HALT" 0 := by
  unfold ProgramNode.generateCode MainNode.generateCode at h
  simp only [hp] at h
  cases hm : p.main.commands.generateCode CodeGenerator.new st "MAIN" with
  | error e => simp [hm] at h
  | ok r =>
    obtain ⟨cg2, st2⟩ := r
    simp only [hm, Except.ok.injEq, Prod.mk.injEq] at h
    obtain ⟨h1, h2⟩ := h
    subst h2
    exact ⟨cg2, rfl, (Commands.generateCode_framed_cmds _ _ _ _ _ _ hm).2 rfl (hl.labelsOK _), h1.symm⟩

theorem ProgramNode.generateCode_node {p : ProgramNode} {procedures : ProcTree}
    {st : SymbolTable} {cg3 : CodeGenerator} {st3 : SymbolTable}
    (hp : p.procedures = .node procedures) (hl : NoLabels st)
    (h : p.generateCode CodeGenerator.new st = .ok (cg3, st3)) :
    ∃ cg1 st1 cg2,
      procedures.generateCode (CodeGenerator.new.emit "JUMP" 0) st "GLOBAL" = .ok (cg1, st1) ∧
      p.main.commands.generateCode cg1 st1 "MAIN" = .ok (cg2, st3) ∧
      Appends noAddress 0 (CodeGenerator.new.emit "JUMP" 0) cg1 ∧
      Appends noAddress 0 cg1 cg2 ∧
      cg3 = (cg2.updateCommand 0 "JUMP" cg1.generatedCode.length).emit "HALT" 0 := by
  unfold ProgramNode.generateCode MainNode.generateCode at h
  simp only [hp] at h
  cases hg : procedures.generateCode (CodeGenerator.new.emit "JUMP" 0) st "GLOBAL" with
  | error e => simp [hg] at h
  | ok r =>
    obtain ⟨cg1, st1⟩ := r
    simp only [hg] at h
    cases hm : p.main.commands.generateCode cg1 st1 "MAIN" with
    | error e => simp [hm] at h
    | ok r2 =>
      obtain ⟨cg2, st2⟩ := r2
      simp only [hm, Except.ok.injEq, Prod.mk.injEq] at h
      obtain ⟨h1, h2⟩ := h
      subst h2
      have hwf0 : (CodeGenerator.new.emit "JUMP" 0).WF := rfl
      obtain ⟨A1, L1⟩ := (ProcTree.generateCode_framed_proc _ _ _ _ _ _ hg).2 hwf0 (hl.labelsOK _)
      have A2 := (Commands.generateCode_framed_cmds _ _ _ _ _ _ hm).2 A1.wf L1
      have h0 : cg2.generatedCode[0]? = some ⟨"JUMP", 0⟩ := by
        have hlen : 0 < cg1.generatedCode.length :=
          Nat.lt_of_lt_of_le (show 0 < (CodeGenerator.new.emit "JUMP" 0).generatedCode.length
            from Nat.one_pos) A1.le
        rw [A2.old 0 hlen, A1.old 0 Nat.one_pos]
        rfl
      have hc := getCommand_of_getElem? cg2 0 _ h0
      have hc0 : cg2.getCommand 0 = ⟨"JUMP", 0⟩ := hc
      rw [hc0, if_pos rfl, getCurrentLine_of_wf cg1 A1.wf] at h1
      exact ⟨cg1, st1, cg2, rfl, hm, A1, A2, h1.symm⟩

theorem jumps_inside_of_appends {cg : CodeGenerator}
    (h : Appends noAddress 0 CodeGenerator.new cg) (i : Nat) (c : command)
    (hc : (cg.emit "HALT" 0).generatedCode[i]? = some c) (hj : c.isJump = true) :
    0 ≤ (i : Int) + c.arg ∧ (i : Int) + c.arg < (cg.emit "HALT" 0).generatedCode.length := by
  simp only [emit_generatedCode, List.length_append, List.length_singleton] at hc ⊢
  by_cases hlt : i < cg.generatedCode.length
  · rw [List.getElem?_append_left hlt] at hc
    have := h.good i c (Nat.zero_le _) (fun hf => hf) hc hj
    refine ⟨this.1, ?_⟩
    have h2 := this.2
    push_cast
    omega
  · rw [List.getElem?_append_right (by omega)] at hc
    have hi : i - cg.generatedCode.length = 0 := by
      by_contra hne
      rw [List.getElem?_eq_none (by simp; omega)] at hc
      cases hc
    rw [hi] at hc
    simp only [List.getElem?_cons_zero, Option.some.injEq] at hc
    subst hc
    exact absurd hj (by decide)

theorem patched_program_appends {cg1 cg2 : CodeGenerator}
    (A1 : Appends noAddress 0 (CodeGenerator.new.emit "JUMP" 0) cg1)
    (A2 : Appends noAddress 0 cg1 cg2) :
    Appends noAddress 0 CodeGenerator.new
      (cg2.updateCommand 0 "JUMP" cg1.generatedCode.length) := by
  have A0 : Appends (fun i => (i : Int) = 0) 0 CodeGenerator.new
      (CodeGenerator.new.emit "JUMP" 0) :=
    (Appends.appends_refl _ 0 CodeGenerator.new rfl).emit_same "JUMP" 0 (Or.inl rfl)
  have A := (A0.appends_trans A1).appends_trans A2
  refine A.patch_clear 0 "JUMP" _ (le_refl _) ?_
  intro _
  have := A2.le
  simp only [Int.toNat_zero, Nat.cast_zero, zero_add, add_zero]
  omega

theorem updateCommand_zero_cons (cg : CodeGenerator) (c : command) (rest : List command)
    (code : String) (arg : Int) (h : cg.generatedCode = c :: rest) :
    (cg.updateCommand 0 code arg).generatedCode = ⟨code, arg⟩ :: rest := by
  unfold CodeGenerator.updateCommand
  have hne : ¬ ((0 : Int) < 0 ∨ (0 : Int) ≥ cg.generatedCode.length) := by
    rw [h]
    simp
  rw [if_neg hne]
  simp [h]

theorem compile_some {p : ProgramNode} {code : List command} (h : compile p = some code) :
    ∃ st cg3 st3, p.traverseAndAnalyze SymbolTable.new = .ok () st ∧ NoLabels st ∧
      p.Ready st ∧ p.generateCode CodeGenerator.new st = .ok (cg3, st3) ∧
      cg3.generatedCode = code := by
  unfold compile at h
  cases ha : p.traverseAndAnalyze SymbolTable.new with
  | thrown msg st => simp [ha] at h
  | undefined => simp [ha] at h
  | ok u st =>
    simp only [ha] at h
    cases hg : p.generateCode CodeGenerator.new st with
    | error e => simp [hg] at h
    | ok r =>
      obtain ⟨cg3, st3⟩ := r
      simp only [hg, Option.some.injEq] at h
      obtain ⟨a, rdy⟩ := ProgramNode.traverseAndAnalyze_ok_prog ha
      exact ⟨st, cg3, st3, rfl, a.2 NoLabels.new, rdy, hg, h⟩

/-- The jumps of a compiled program stay inside it. In the code the compiler
emits for a program, when the emission pass produces code at all, every
`JUMP`, `JZERO`, `JPOS` and `JNEG`, at address `i` with argument `d`, has its
target `i + d` in `[0, instruction count)`. -/
theorem jump_targets_inside_program (p : ProgramNode) (code : List command)
    (h : compile p = some code) (i : Nat) (c : command) (hc : code[i]? = some c)
    (hj : c.isJump = true) :
    0 ≤ (i : Int) + c.arg ∧ (i : Int) + c.arg < code.length := by
  obtain ⟨st, cg3, st3, _, hl, _, hg, he⟩ := compile_some h
  subst he
  cases hp : p.procedures with
  | null =>
    obtain ⟨cg2, _, A, e⟩ := ProgramNode.generateCode_null hp hl hg
    subst e
    exact jumps_inside_of_appends A i c hc hj
  | node procedures =>
    obtain ⟨cg1, st1, cg2, _, _, A1, A2, e⟩ := ProgramNode.generateCode_node hp hl hg
    subst e
    exact jumps_inside_of_appends (patched_program_appends A1 A2) i c hc hj

/-- The jumps of the program with the procedure `p(a, T t)`: the backward
`JUMP -60` of the call at address 61 lands on address 1. -/
theorem jump_targets_inside_program_witness :
    0 ≤ ((61 : Nat) : Int) + (⟨"JUMP", -60⟩ : command).arg ∧
      ((61 : Nat) : Int) + (⟨"JUMP", -60⟩ : command).arg < squareCode.length :=
  jump_targets_inside_program squareProgram squareCode (by decide!) 61 ⟨"JUMP", -60⟩
    (by decide) (by decide)

/-- C19. In the code the compiler emits for a program, the last instruction is
`HALT`. With a procedures node, the code is `JUMP d`, then the instructions
emitted for the procedures, then those emitted for the main body, then `HALT`,
where `d` is the address of the first instruction after the procedures: the main
body starts at `d` (where `HALT` stands when the main body is empty) and the
procedure bodies occupy the addresses from 1 to `d - 1`. Without a procedures
node the code is the main body, starting at address 0, then `HALT`. -/
theorem program_layout (p : ProgramNode) (code : List command) (h : compile p = some code) :
    code.getLast? = some ⟨"HALT", 0⟩ ∧
    (∀ procedures, p.procedures = .node procedures →
      ∃ st cg1 st1 cg2 st2 procCode mainCode,
        p.traverseAndAnalyze SymbolTable.new = .ok () st ∧
        procedures.generateCode (CodeGenerator.new.emit "JUMP" 0) st "GLOBAL" = .ok (cg1, st1) ∧
        cg1.generatedCode = ⟨"JUMP", 0⟩ :: procCode ∧
        p.main.generateCode cg1 st1 "MAIN" = .ok (cg2, st2) ∧
        cg2.generatedCode = ⟨"JUMP", 0⟩ :: (procCode ++ mainCode) ∧
        code = ⟨"JUMP", ((1 + procCode.length : Nat) : Int)⟩ ::
          (procCode ++ mainCode ++ [⟨"HALT", 0⟩])) ∧
    (p.procedures = .null →
      ∃ st cg2 st2,
        p.traverseAndAnalyze SymbolTable.new = .ok () st ∧
        p.main.generateCode CodeGenerator.new st "MAIN" = .ok (cg2, st2) ∧
        code = cg2.generatedCode ++ [⟨"HALT", 0⟩]) := by
  obtain ⟨st, cg3, st3, ha, hl, _, hg, he⟩ := compile_some h
  subst he
  refine ⟨?_, ?_, ?_⟩
  · cases hp : p.procedures with
    | null =>
      obtain ⟨cg2, _, _, e⟩ := ProgramNode.generateCode_null hp hl hg
      subst e
      simp
    | node procedures =>
      obtain ⟨cg1, st1, cg2, _, _, _, _, e⟩ := ProgramNode.generateCode_node hp hl hg
      subst e
      simp
  · intro procedures hp
    obtain ⟨cg1, st1, cg2, h1, h2, A1, A2, e⟩ := ProgramNode.generateCode_node hp hl hg
    subst e
    obtain ⟨procCode, e1⟩ := A1.exists_append
    obtain ⟨mainCode, e2⟩ := A2.exists_append
    have e1c : cg1.generatedCode = ⟨"JUMP", 0⟩ :: procCode := e1
    have e2c : cg2.generatedCode = ⟨"JUMP", 0⟩ :: (procCode ++ mainCode) := by
      rw [e2, e1c]
      rfl
    refine ⟨st, cg1, st1, cg2, st3, procCode, mainCode, ha, h1, e1c, h2, e2c, ?_⟩
    rw [emit_generatedCode, updateCommand_zero_cons cg2 _ _ _ _ e2c, e1c]
    simp only [List.length_cons, List.cons_append, List.append_assoc]
    congr 2
    push_cast
    omega
  · intro hp
    obtain ⟨cg2, h2, _, e⟩ := ProgramNode.generateCode_null hp hl hg
    subst e
    exact ⟨st, cg2, st3, ha, h2, rfl⟩

/-- C19 on the program with the procedure `p(a, T t)`: the emitted code ends
with `HALT`. -/
theorem program_layout_witness : squareCode.getLast? = some ⟨"HALT", 0⟩ :=
  (program_layout squareProgram squareCode (by decide!)).1
/-! ## The call and return sequences -/

theorem NoLabels.of_all {st : SymbolTable}
    (h : st.procedures.all (fun e => e.2.jumpLabel.isNone) = true) : NoLabels st := by
  intro key p hp
  have hm := mapFind_some_mem key p st.procedures hp
  have := List.all_eq_true.mp h _ hm
  cases hj : p.jumpLabel with
  | none => rfl
  | some j => simp [hj] at this

/-- C20. Let a procedure be emitted, and let it then be called at a place where
the table still holds the entry its emission left. The code of the procedure
is, after the code `before` that stands when the procedures nested in its node
have been emitted, the code `body` that the emission of its own commands
appends, and then `RTRN c`, where `c` is the cell of its return variable; its
commands are emitted on a table that records `before.length` as its jump
label, (the entry of the procedure with `before.length` written into it), so the
recorded label is the address of the first instruction of the callee's own
commands, and the entry keeps that label. The code of the call
contains, in a row, `SET r; STORE c; JUMP d` for the same cell `c`, where `r` is
the address right after the `JUMP` and the address of the `JUMP` plus `d` is
the recorded jump label. -/
theorem call_and_return_sequence (procedures : OptProcTree) (proc_head : ProcHeadNode)
    (declarations : List DeclarationNode) (commands : Commands)
    (cgP : CodeGenerator) (stP : SymbolTable) (cgP1 : CodeGenerator) (stP1 : SymbolTable)
    (args : List String) (cg : CodeGenerator) (st : SymbolTable) (scope : String)
    (cg1 : CodeGenerator) (st1 : SymbolTable)
    (hwfP : cgP.WF) (hlabP : LabelsOK stP.procedures cgP.generatedCode.length)
    (hdef : ProcTree.generateCode (.procedureNode procedures proc_head declarations commands)
      cgP stP "GLOBAL" = .ok (cgP1, stP1))
    (hentry : st.getProcedure proc_head.pidentifier "GLOBAL" =
      stP1.getProcedure proc_head.pidentifier "GLOBAL")
    (hwf : cg.WF)
    (hcall : Command.generateCode (.procCall proc_head.pidentifier args) cg st scope =
      .ok (cg1, st1)) :
    ∃ (proc : Procedure) (before body pre post : List command)
      (cgN : CodeGenerator) (stN stL : SymbolTable) (cgB : CodeGenerator) (stB : SymbolTable),
      procedures.generateCode cgP stP "GLOBAL" = .ok (cgN, stN) ∧
      cgN.generatedCode = before ∧
      commands.generateCode cgN stL proc_head.pidentifier = .ok (cgB, stB) ∧
      cgB.generatedCode = before ++ body ∧
      (∃ p0, stN.getProcedure proc_head.pidentifier "GLOBAL" = some p0 ∧
        stL = stN.putProcedure proc_head.pidentifier "GLOBAL"
          { p0 with jumpLabel := some (before.length : Int) }) ∧
      stP1.getProcedure proc_head.pidentifier "GLOBAL" = some proc ∧
      proc.jumpLabel = some (before.length : Int) ∧
      cgP1.generatedCode =
        before ++ body ++ [⟨"RTRN", proc.returnVariable.memoryPosition⟩] ∧
      cg1.generatedCode = cg.generatedCode ++ pre ++
        [⟨"SET", ((cg.generatedCode.length + pre.length + 3 : Nat) : Int)⟩,
         ⟨"STORE", proc.returnVariable.memoryPosition⟩,
         ⟨"JUMP", (before.length : Int) -
            ((cg.generatedCode.length + pre.length + 2 : Nat) : Int)⟩] ++ post := by
  simp only [ProcTree.generateCode] at hdef
  split at hdef
  · cases hdef
  · rename_i cgN stN hp
    have fP := OptProcTree.generateCode_framed_opt procedures _ _ _ _ _ hp
    split at hdef
    · cases hdef
    · rename_i p hget
      split at hdef
      · cases hdef
      · rename_i cg3 st3 hb
        have fC := Commands.generateCode_framed_cmds commands _ _ _ _ _ hb
        split at hdef
        · cases hdef
        · rename_i p3 hget3
          simp only [Except.ok.injEq, Prod.mk.injEq] at hdef
          obtain ⟨e1, e2⟩ := hdef
          subst e2
          obtain ⟨A1, hl1⟩ := fP.2 hwfP hlabP
          have hline := A1.line
          have hl2 := LabelsOK.labels_putLabel stN proc_head.pidentifier "GLOBAL" p
            cgN.getCurrentLine (by omega) (by rw [hline]; exact hl1)
          rw [hline] at hl2 fC
          have c := fC.2 A1.wf hl2
          obtain ⟨body, hbody⟩ := c.exists_append
          have hp3 : p3 = { p with jumpLabel := some (cgN.generatedCode.length : Int) } := by
            unfold SymbolTable.getProcedure at hget3
            rw [fC.1.procedures] at hget3
            unfold SymbolTable.putProcedure at hget3
            simp only at hget3
            rw [mapFind_mapSet_same] at hget3
            cases hget3
            rfl
          have hcall2 : procCallGenerate proc_head.pidentifier args cg st scope =
              .ok (cg1, st1) := by
            simpa only [Command.generateCode] using hcall
          obtain ⟨proc, label, pre, post, hq, hj, _, _, hc⟩ :=
            procCallGenerate_code _ _ _ _ _ _ _ hcall2
          have hq3 : st3.getProcedure proc_head.pidentifier "GLOBAL" = some p3 := by
            unfold SymbolTable.getProcedure
            exact hget3
          rw [hentry, hq3] at hq
          cases hq
          have hlab : label = (cgN.generatedCode.length : Int) := by
            rw [hp3] at hj
            simp only [Option.some.injEq] at hj
            exact hj.symm
          subst hlab
          have hne : ((cgN.generatedCode.length : Nat) : Int) ≠ -1 := by omega
          rw [if_pos hne, getCurrentLine_of_wf cg hwf] at hc
          refine ⟨p3, cgN.generatedCode, body, pre, post, cgN, stN, _, cg3, st3, hp, rfl, hb,
            hbody, ?_, hq3, hj, ?_, ?_⟩
          · exact ⟨p, hget, by rw [hline]⟩
          · rw [← e1, emit_generatedCode, hbody]
          · rw [hc, emitAll_generatedCode]
            simp only [List.append_assoc, List.cons_append, List.nil_append]
            push_cast
            rfl

/-- C20 on the program with the procedure `p(a, T t)`, whose return cell is 11
and whose body starts at address 1: the call in `MAIN`, emitted from address 54
on, holds `SET 62; STORE 11; JUMP -60` at addresses 59 to 61. -/
theorem call_and_return_sequence_witness :
    ∃ (proc : Procedure) (before body pre post : List command)
      (cgN : CodeGenerator) (stN stL : SymbolTable) (cgB : CodeGenerator) (stB : SymbolTable),
      OptProcTree.generateCode .null (CodeGenerator.new.emit "JUMP" 0) squareTable "GLOBAL" =
        .ok (cgN, stN) ∧
      cgN.generatedCode = before ∧
      squareBody.generateCode cgN stL "p" = .ok (cgB, stB) ∧
      cgB.generatedCode = before ++ body ∧
      (∃ p0, stN.getProcedure "p" "GLOBAL" = some p0 ∧
        stL = stN.putProcedure "p" "GLOBAL"
          { p0 with jumpLabel := some (before.length : Int) }) ∧
      squareProcEmitted.2.getProcedure "p" "GLOBAL" = some proc ∧
      proc.jumpLabel = some (before.length : Int) ∧
      squareProcEmitted.1.generatedCode =
        before ++ body ++ [⟨"RTRN", proc.returnVariable.memoryPosition⟩] ∧
      squareCallEmitted.1.generatedCode = squareProcEmitted.1.generatedCode ++ pre ++
        [⟨"SET", ((squareProcEmitted.1.generatedCode.length + pre.length + 3 : Nat) : Int)⟩,
         ⟨"STORE", proc.returnVariable.memoryPosition⟩,
         ⟨"JUMP", (before.length : Int) -
            ((squareProcEmitted.1.generatedCode.length + pre.length + 2 : Nat) : Int)⟩] ++
        post :=
  call_and_return_sequence .null ⟨"p", [⟨"a", false⟩, ⟨"t", true⟩]⟩ [] squareBody
    (CodeGenerator.new.emit "JUMP" 0) squareTable squareProcEmitted.1 squareProcEmitted.2
    ["x", "arr"] squareProcEmitted.1 squareProcEmitted.2 "MAIN" squareCallEmitted.1
    squareCallEmitted.2 rfl (NoLabels.labelsOK (NoLabels.of_all (by decide!)) _) (by decide!)
    rfl (by unfold CodeGenerator.WF; decide!) (by decide!)
/-! ## Emission on a ready table: no failed lookup -/

theorem SameSymbols.symbols_keeps {st st1 : SymbolTable} (h : SameSymbols st st1) : Keeps st st1 :=
  ⟨fun key hk => by rw [h.vars]; exact hk, fun key hk => by rw [h.arrays key]; exact hk,
    fun key p hp => ⟨p, by rw [h.procedures]; exact hp, le_refl _⟩⟩

theorem SameEntities.entities_keeps {st st1 : SymbolTable} (h : SameEntities st st1) : Keeps st st1 :=
  ⟨fun key hk => by rw [h.vars]; exact hk, fun key hk => by rw [h.arrays key]; exact hk,
    fun key p hp => by
      have h1 := h.procedures key
      rw [hp] at h1
      cases hm : mapFind key st1.procedures with
      | none => rw [hm] at h1; cases h1
      | some p1 =>
        rw [hm] at h1
        simp only [Option.map_some', Option.some.injEq] at h1
        have hpar := congrArg Procedure.params h1
        exact ⟨p1, rfl, Nat.le_of_eq (congrArg List.length hpar.symm)⟩⟩

theorem getVariable_of_exists {st : SymbolTable} {name scope : String}
    (h : st.variableExists name scope = true) : ∃ v, st.getVariable name scope = some v :=
  Option.isSome_iff_exists.mp h

theorem getArray_of_exists {st : SymbolTable} {name scope : String}
    (h : st.arrayExists name scope = true) : ∃ a, st.getArray name scope = some a :=
  Option.isSome_iff_exists.mp h

theorem IdentifierNode.getMemoryPosition_ok {n : IdentifierNode} {st : SymbolTable}
    {scope : String} (h : n.Ready st scope) : ∃ pos, n.getMemoryPosition st scope = .ok pos := by
  revert h
  unfold IdentifierNode.Ready IdentifierNode.getMemoryPosition
  cases n.identifierType
  · intro h
    obtain ⟨v, hv⟩ := getVariable_of_exists h
    simp only [hv]
    exact ⟨_, rfl⟩
  · intro _
    exact ⟨_, rfl⟩
  · intro h
    obtain ⟨a, ha⟩ := getArray_of_exists h
    simp only [ha]
    exact ⟨_, rfl⟩

theorem IdentifierNode.loadCode_ok {n : IdentifierNode} {st : SymbolTable}
    {scope : String} (h : n.Ready st scope) : ∃ code, n.loadCode st scope = .ok code := by
  revert h
  unfold IdentifierNode.Ready IdentifierNode.loadCode
  cases n.identifierType
  · intro h
    obtain ⟨v, hv⟩ := getVariable_of_exists h
    simp only [hv]
    exact ⟨_, rfl⟩
  · intro h
    obtain ⟨a, ha⟩ := getArray_of_exists h.1
    obtain ⟨v, hv⟩ := getVariable_of_exists h.2
    simp only [ha, hv]
    split <;> exact ⟨_, rfl⟩
  · intro h
    obtain ⟨a, ha⟩ := getArray_of_exists h
    simp only [ha]
    split <;> exact ⟨_, rfl⟩

theorem IdentifierNode.generateCode_ok_id {n : IdentifierNode} {st : SymbolTable}
    {scope : String} (cg : CodeGenerator) (h : n.Ready st scope) :
    ∃ cg1, n.generateCode cg st scope = .ok cg1 := by
  obtain ⟨code, hc⟩ := IdentifierNode.loadCode_ok h
  unfold IdentifierNode.generateCode
  rw [hc]
  exact ⟨_, rfl⟩

theorem ValueNode.generateCode_ok_value {v : ValueNode} {st : SymbolTable}
    {scope : String} (cg : CodeGenerator) (h : v.Ready st scope) :
    ∃ cg1, v.generateCode cg st scope = .ok cg1 := by
  cases v with
  | number _ => exact ⟨_, rfl⟩
  | identifier n => exact IdentifierNode.generateCode_ok_id cg h

theorem stageOperand_ok {n : IdentifierNode} {st : SymbolTable} {scope : String}
    (pos cell : Int) (cg : CodeGenerator) (h : n.Ready st scope) :
    ∃ r, stageOperand n pos cell cg st scope = .ok r := by
  unfold stageOperand
  split
  · obtain ⟨cg1, hc⟩ := IdentifierNode.generateCode_ok_id cg h
    rw [hc]
    exact ⟨_, rfl⟩
  · exact ⟨_, rfl⟩

theorem doublings_total : ∀ (fuel : Nat) (v : Int), v ≠ 0 → v.natAbs ≤ fuel + 1 →
    ∃ ds, doublings fuel v = some ds := by
  intro fuel
  induction fuel with
  | zero =>
    intro v h0 hle
    unfold doublings
    have : ¬ (v ≠ -1 ∧ v ≠ 1) := by omega
    rw [if_neg this]
    exact ⟨_, rfl⟩
  | succ n ih =>
    intro v h0 hle
    unfold doublings
    by_cases hv : v ≠ -1 ∧ v ≠ 1
    · rw [if_pos hv]
      have h2 : (Int.tdiv v 2).natAbs = v.natAbs / 2 := Int.natAbs_tdiv v 2
      have h3 : Int.tdiv v 2 ≠ 0 := by
        intro hz
        rw [hz] at h2
        have : 2 ≤ v.natAbs := by omega
        have : 1 ≤ v.natAbs / 2 := by omega
        simp at h2
        omega
      obtain ⟨ds, hds⟩ := ih (Int.tdiv v 2) h3 (by rw [h2]; omega)
      rw [hds]
      exact ⟨_, rfl⟩
    · rw [if_neg hv]
      exact ⟨_, rfl⟩

theorem arithIdLit_ok (op : String) (l v : Int) (flag : Bool) :
    ∃ t, arithIdLit op l v flag = .ok t := by
  unfold arithIdLit
  by_cases h1 : op = "+"
  · rw [if_pos h1]
    exact ⟨_, rfl⟩
  rw [if_neg h1]
  by_cases h2 : op = "-"
  · rw [if_pos h2]
    exact ⟨_, rfl⟩
  rw [if_neg h2]
  by_cases h3 : op = "*"
  · rw [if_pos h3]
    by_cases h0 : v = 0
    · rw [if_pos h0]
      exact ⟨_, rfl⟩
    rw [if_neg h0]
    by_cases hm : Int.tmod v 2 = 0
    · rw [if_pos hm]
      obtain ⟨ds, hds⟩ := doublings_total v.natAbs v h0 (Nat.le_succ _)
      rw [hds]
      exact ⟨_, rfl⟩
    · rw [if_neg hm]
      exact ⟨_, rfl⟩
  rw [if_neg h3]
  by_cases h4 : op = "/"
  · rw [if_pos h4]
    repeat' split
    all_goals exact ⟨_, rfl⟩
  rw [if_neg h4]
  by_cases h5 : op = "%"
  · rw [if_pos h5]
    split <;> exact ⟨_, rfl⟩
  rw [if_neg h5]
  exact ⟨_, rfl⟩

theorem arithLitId_ok (op : String) (v r : Int) (flag : Bool) :
    ∃ t, arithLitId op v r flag = .ok t := by
  unfold arithLitId
  by_cases h1 : op = "+"
  · rw [if_pos h1]
    exact ⟨_, rfl⟩
  rw [if_neg h1]
  by_cases h2 : op = "-"
  · rw [if_pos h2]
    exact ⟨_, rfl⟩
  rw [if_neg h2]
  by_cases h3 : op = "*"
  · rw [if_pos h3]
    by_cases h0 : v = 0
    · rw [if_pos h0]
      exact ⟨_, rfl⟩
    rw [if_neg h0]
    by_cases hm : Int.tmod v 2 = 0
    · rw [if_pos hm]
      obtain ⟨ds, hds⟩ := doublings_total v.natAbs v h0 (Nat.le_succ _)
      rw [hds]
      exact ⟨_, rfl⟩
    · rw [if_neg hm]
      exact ⟨_, rfl⟩
  rw [if_neg h3]
  by_cases h4 : op = "/"
  · rw [if_pos h4]
    repeat' split
    all_goals exact ⟨_, rfl⟩
  rw [if_neg h4]
  by_cases h5 : op = "%"
  · rw [if_pos h5]
    split <;> exact ⟨_, rfl⟩
  rw [if_neg h5]
  exact ⟨_, rfl⟩

theorem NoFailedLookup.of_ok {α : Type} {r : Except GenError α} (h : ∃ a, r = .ok a) :
    NoFailedLookup r := by
  obtain ⟨a, ha⟩ := h
  intro err herr
  rw [ha] at herr
  cases herr

theorem arithLitLit_nofail (op : String) (a b : Int) : NoFailedLookup (arithLitLit op a b) := by
  intro err herr
  unfold arithLitLit at herr
  repeat' split at herr
  all_goals cases herr
  all_goals exact Or.inr rfl

theorem ExpressionNode.generateCode_nofail_node {e : ExpressionNode} {st : SymbolTable}
    {scope : String} (cg : CodeGenerator)
    (h : e.leftValue.Ready st scope ∧ e.rightValue.Ready st scope) :
    NoFailedLookup (e.generateCode cg st scope) := by
  obtain ⟨hl, hr⟩ := h
  unfold ExpressionNode.generateCode
  cases hlv : e.leftValue with
  | number lv =>
    cases hrv : e.rightValue with
    | number rv =>
      intro err herr
      simp only at herr
      cases ht : arithLitLit e.op lv rv with
      | error e1 =>
        rw [ht] at herr
        cases herr
        exact arithLitLit_nofail _ _ _ _ ht
      | ok code =>
        rw [ht] at herr
        cases herr
    | identifier rightId =>
      rw [hrv] at hr
      obtain ⟨r0, h1⟩ := IdentifierNode.getMemoryPosition_ok hr
      obtain ⟨s, h2⟩ := stageOperand_ok r0 7 cg hr
      obtain ⟨t, h3⟩ := arithLitId_ok e.op lv s.2 st.one
      obtain ⟨cg1, r⟩ := s
      refine NoFailedLookup.of_ok ?_
      simp only [h1, h2, h3]
      exact ⟨_, rfl⟩
  | identifier leftId =>
    rw [hlv] at hl
    obtain ⟨l0, h1⟩ := IdentifierNode.getMemoryPosition_ok hl
    cases hrv : e.rightValue with
    | number rv =>
      obtain ⟨s, h2⟩ := stageOperand_ok l0 6 cg hl
      obtain ⟨t, h3⟩ := arithIdLit_ok e.op s.2 rv st.one
      obtain ⟨cg1, l⟩ := s
      refine NoFailedLookup.of_ok ?_
      simp only [h1, h2, h3]
      exact ⟨_, rfl⟩
    | identifier rightId =>
      rw [hrv] at hr
      obtain ⟨r0, h1r⟩ := IdentifierNode.getMemoryPosition_ok hr
      obtain ⟨s, h2⟩ := stageOperand_ok l0 6 cg hl
      obtain ⟨cg1, l⟩ := s
      obtain ⟨s2, h3⟩ := stageOperand_ok r0 7 cg1 hr
      obtain ⟨cg2, r⟩ := s2
      refine NoFailedLookup.of_ok ?_
      simp only [h1, h1r, h2, h3]
      exact ⟨_, rfl⟩

theorem Expression.generateCode_nofail_expr {x : Expression} {st : SymbolTable}
    {scope : String} (cg : CodeGenerator) (h : x.Ready st scope) :
    NoFailedLookup (x.generateCode cg st scope) := by
  cases x with
  | value v =>
    obtain ⟨cg1, hc⟩ := ValueNode.generateCode_ok_value cg h
    refine NoFailedLookup.of_ok ?_
    unfold Expression.generateCode
    simp only [hc]
    exact ⟨_, rfl⟩
  | binary e => exact ExpressionNode.generateCode_nofail_node cg h

theorem subRight_ok {n : IdentifierNode} {st : SymbolTable} {scope : String}
    (cg : CodeGenerator) (h : n.Ready st scope) : ∃ cg1, subRight n cg st scope = .ok cg1 := by
  unfold subRight
  split
  · obtain ⟨cg1, hc⟩ := IdentifierNode.generateCode_ok_id (cg.emit "STORE" 6) h
    rw [hc]
    exact ⟨_, rfl⟩
  · obtain ⟨pos, hc⟩ := IdentifierNode.getMemoryPosition_ok h
    rw [hc]
    exact ⟨_, rfl⟩

theorem ConditionNode.generateCode_ok_cond {c : ConditionNode} {st : SymbolTable}
    {scope : String} (cg : CodeGenerator) (h : c.Ready st scope) :
    ∃ cg1, c.generateCode cg st scope = .ok cg1 := by
  obtain ⟨hl, hr⟩ := h
  unfold ConditionNode.generateCode
  cases hlv : c.leftValue with
  | number lv =>
    cases hrv : c.rightValue with
    | number rv => exact ⟨_, rfl⟩
    | identifier rightId =>
      rw [hrv] at hr
      obtain ⟨cg1, h1⟩ := subRight_ok (cg.emit "SET" lv) hr
      simp only [h1]
      exact ⟨_, rfl⟩
  | identifier leftId =>
    rw [hlv] at hl
    cases hrv : c.rightValue with
    | number rv =>
      simp only
      split
      · obtain ⟨cg1, h1⟩ := IdentifierNode.generateCode_ok_id cg hl
        rw [h1]
        exact ⟨_, rfl⟩
      · obtain ⟨cg1, h1⟩ := IdentifierNode.generateCode_ok_id ((cg.emit "SET" rv).emit "STORE" 1) hl
        rw [h1]
        exact ⟨_, rfl⟩
    | identifier rightId =>
      rw [hrv] at hr
      obtain ⟨cg1, h1⟩ := IdentifierNode.generateCode_ok_id cg hl
      obtain ⟨cg2, h2⟩ := subRight_ok cg1 hr
      simp only [h1, h2]
      exact ⟨_, rfl⟩
/-! ### Commands on a ready table -/

theorem assignmentGenerate_nofail {identifier : IdentifierNode} {expression : Expression}
    {st : SymbolTable} {scope : String} (cg : CodeGenerator)
    (hi : identifier.Ready st scope) (he : expression.Ready st scope) :
    NoFailedLookup (assignmentGenerate identifier expression cg st scope) := by
  have hpos : ∀ cg0 cg1 st1, expression.generateCode cg0 st scope = .ok (cg1, st1) →
      ∃ pos, identifier.getMemoryPosition st1 scope = .ok pos := fun cg0 cg1 st1 hx =>
    IdentifierNode.getMemoryPosition_ok
      (IdentifierNode.Ready.ready_mono_id (Expression.generateCode_same_expr _ _ _ _ _ _ hx).symbols_keeps hi)
  have direct : ∀ cg0, NoFailedLookup
      (match expression.generateCode cg0 st scope with
        | .error err => .error err
        | .ok (cg1, st1) =>
          (identifier.getMemoryPosition st1 scope).map fun pos => (cg1.emit "STORE" pos, st1)) := by
    intro cg0 err herr
    cases hx : expression.generateCode cg0 st scope with
    | error e1 =>
      rw [hx] at herr
      cases herr
      exact Expression.generateCode_nofail_expr cg0 he _ hx
    | ok r =>
      obtain ⟨cg1, st1⟩ := r
      obtain ⟨pos, hp⟩ := hpos _ _ _ hx
      rw [hx] at herr
      simp only [hp] at herr
      cases herr
  have indirect : ∀ cg0, NoFailedLookup
      ((expression.generateCode cg0 st scope).map fun r => (r.1.emit "STOREI" 8, r.2)) := by
    intro cg0 err herr
    cases hx : expression.generateCode cg0 st scope with
    | error e1 =>
      rw [hx] at herr
      cases herr
      exact Expression.generateCode_nofail_expr cg0 he _ hx
    | ok r =>
      rw [hx] at herr
      cases herr
  revert hi
  unfold assignmentGenerate IdentifierNode.Ready
  cases identifier.identifierType
  · intro _
    exact direct cg
  · intro hi
    obtain ⟨a, ha⟩ := getArray_of_exists hi.1
    obtain ⟨v, hv⟩ := getVariable_of_exists hi.2
    simp only [ha, hv]
    exact indirect _
  · intro hi
    obtain ⟨a, ha⟩ := getArray_of_exists hi
    simp only [ha]
    split
    · exact direct cg
    · exact indirect _

theorem readGenerate_ok {identifier : IdentifierNode} {st : SymbolTable} {scope : String}
    (cg : CodeGenerator) (hi : identifier.Ready st scope) :
    ∃ cg1, readGenerate identifier cg st scope = .ok cg1 := by
  obtain ⟨pos, hp⟩ := IdentifierNode.getMemoryPosition_ok hi
  obtain ⟨cgl, hg⟩ := IdentifierNode.generateCode_ok_id cg hi
  revert hi
  unfold readGenerate IdentifierNode.Ready
  cases identifier.identifierType
  · intro _
    rw [hp]
    exact ⟨_, rfl⟩
  · intro hi
    obtain ⟨a, ha⟩ := getArray_of_exists hi.1
    obtain ⟨v, hv⟩ := getVariable_of_exists hi.2
    simp only [ha, hv, hg]
    split <;> exact ⟨_, rfl⟩
  · intro hi
    obtain ⟨a, ha⟩ := getArray_of_exists hi
    simp only [ha, hp]
    split <;> exact ⟨_, rfl⟩

theorem writeGenerate_ok {value : ValueNode} {st : SymbolTable} {scope : String}
    (cg : CodeGenerator) (hv : value.Ready st scope) :
    ∃ cg1, writeGenerate value cg st scope = .ok cg1 := by
  cases value with
  | number _ => exact ⟨_, rfl⟩
  | identifier n =>
    have hi : n.Ready st scope := hv
    obtain ⟨pos, hp⟩ := IdentifierNode.getMemoryPosition_ok hi
    obtain ⟨cgl, hg⟩ := IdentifierNode.generateCode_ok_id cg hi
    revert hi
    simp only [writeGenerate]
    unfold IdentifierNode.Ready
    cases n.identifierType
    · intro _
      simp only [hp]
      exact ⟨_, rfl⟩
    · intro _
      simp only [hg]
      exact ⟨_, rfl⟩
    · intro hi
      obtain ⟨a, ha⟩ := getArray_of_exists hi
      simp only [ha, hp, hg]
      split <;> exact ⟨_, rfl⟩

theorem marshalArg_ok (pidentifier scope : String) (paramsString : List String) (arg : String)
    (i : Nat) (cg : CodeGenerator) (st : SymbolTable) (hi : i < paramsString.length) :
    ∃ r, marshalArg pidentifier scope paramsString arg i cg st = .ok r := by
  have hp : paramsString[i]? = some paramsString[i] := List.getElem?_eq_getElem hi
  unfold marshalArg
  simp only [hp]
  repeat' split
  all_goals exact ⟨_, rfl⟩

theorem marshalArgs_ok (pidentifier scope : String) (paramsString : List String) :
    ∀ (args : List String) (i : Nat) (cg : CodeGenerator) (st : SymbolTable),
      i + args.length ≤ paramsString.length →
      ∃ r, marshalArgs pidentifier scope paramsString args i cg st = .ok r
  | [], _, _, _, _ => ⟨_, rfl⟩
  | arg :: rest, i, cg, st, h => by
    simp only [List.length_cons] at h
    obtain ⟨r, hr⟩ := marshalArg_ok pidentifier scope paramsString arg i cg st (by omega)
    obtain ⟨cg1, st1⟩ := r
    unfold marshalArgs
    rw [hr]
    exact marshalArgs_ok pidentifier scope paramsString rest (i + 1) cg1 st1 (by omega)

theorem copyOutArgs_ok (pidentifier scope : String) (paramsString : List String)
    (st : SymbolTable) : ∀ (args : List String) (i : Nat) (cg : CodeGenerator),
      i + args.length ≤ paramsString.length →
      ∃ cg1, copyOutArgs pidentifier scope paramsString st args i cg = .ok cg1
  | [], _, _, _ => ⟨_, rfl⟩
  | arg :: rest, i, cg, h => by
    simp only [List.length_cons] at h
    have hp : paramsString[i]? = some paramsString[i] := List.getElem?_eq_getElem (by omega)
    unfold copyOutArgs
    simp only [hp]
    repeat' split
    all_goals exact copyOutArgs_ok pidentifier scope paramsString st rest (i + 1) _ (by omega)

theorem procCallGenerate_nofail {pidentifier : String} {args : List String}
    {st : SymbolTable} {scope : String} (cg : CodeGenerator)
    (h : (Command.procCall pidentifier args).Ready st scope) :
    NoFailedLookup (procCallGenerate pidentifier args cg st scope) := by
  unfold Command.Ready at h
  obtain ⟨p, hp, hl⟩ := h
  have hlen : 0 + args.length ≤ (p.params.map Param.name).length := by
    rw [List.length_map]
    omega
  obtain ⟨r, hm⟩ := marshalArgs_ok pidentifier scope (p.params.map Param.name) args 0 cg st hlen
  obtain ⟨cg1, st1⟩ := r
  have hp1 : st1.getProcedure pidentifier "GLOBAL" = some p := by
    unfold SymbolTable.getProcedure at hp ⊢
    rw [(marshalArgs_same _ _ _ _ _ _ _ _ _ hm).procedures]
    exact hp
  obtain ⟨cg4, hc⟩ := copyOutArgs_ok pidentifier scope (p.params.map Param.name) st1 args 0
    (if p.jumpLabel.getD 0 ≠ -1 then
      ((cg1.emit "SET" (cg1.getCurrentLine + 3)).emit "STORE"
        p.returnVariable.memoryPosition).emit "JUMP"
        (p.jumpLabel.getD 0 - ((cg1.emit "SET" (cg1.getCurrentLine + 3)).emit "STORE"
          p.returnVariable.memoryPosition).getCurrentLine)
     else (cg1.emit "SET" (cg1.getCurrentLine + 3)).emit "STORE"
        p.returnVariable.memoryPosition) hlen
  intro err herr
  unfold procCallGenerate at herr
  simp only [hp, hm, hp1] at herr
  cases hj : p.jumpLabel with
  | none =>
    rw [hj] at herr
    cases herr
    exact Or.inl rfl
  | some label =>
    rw [hj] at hc
    simp only [Option.getD_some] at hc
    rw [hj] at herr
    simp only [hc] at herr
    cases herr
/-! ### Control structures on a ready table -/

theorem Commands.generateCode_keeps {c : Commands} {cg : CodeGenerator} {st : SymbolTable}
    {scope : String} {cg1 : CodeGenerator} {st1 : SymbolTable}
    (h : c.generateCode cg st scope = .ok (cg1, st1)) : Keeps st st1 :=
  (Commands.generateCode_framed_cmds _ _ _ _ _ _ h).1.symbols_keeps

theorem ifElse_nofail (condition : ConditionNode) (T F : Commands) (cg : CodeGenerator)
    (st : SymbolTable) (scope : String) (hc : condition.Ready st scope)
    (hT : ∀ cg1 st1, Keeps st st1 → NoFailedLookup (T.generateCode cg1 st1 scope))
    (hF : ∀ cg1 st1, Keeps st st1 → NoFailedLookup (F.generateCode cg1 st1 scope)) :
    NoFailedLookup (Command.generateCode (.ifElse condition T F) cg st scope) := by
  intro err herr
  simp only [Command.generateCode] at herr
  obtain ⟨cgc, hcg⟩ := ConditionNode.generateCode_ok_cond cg hc
  rw [hcg] at herr
  simp only at herr
  by_cases h1 : (cgc.getCommand (cgc.getCurrentLine - 1)).arg = 1
  · rw [if_pos h1] at herr
    split at herr
    · rename_i e hfirst
      cases herr
      split at hfirst
      · rename_i e2 he
        cases hfirst
        exact hF _ _ (Keeps.keeps_refl _) _ he
      · rename_i cg2 st2 hf
        split at hfirst
        · rename_i e2 he
          cases hfirst
          exact hT _ _ (Commands.generateCode_keeps hf) _ he
        · cases hfirst
    · rename_i cg5 st5 cond5 hfirst
      have hk5 : Keeps st st5 := by
        split at hfirst
        · cases hfirst
        · rename_i cg2 st2 hf
          split at hfirst
          · cases hfirst
          · rename_i cg4 st4 ht
            simp only [Except.ok.injEq, Prod.mk.injEq] at hfirst
            rw [← hfirst.2.1]
            exact (Commands.generateCode_keeps hf).keeps_trans (Commands.generateCode_keeps ht)
      split at herr
      · split at herr
        · rename_i e he
          cases herr
          exact hT _ _ hk5 _ he
        · rename_i cg6 st6 ht2
          split at herr
          · rename_i e he
            cases herr
            exact hF _ _ (hk5.keeps_trans (Commands.generateCode_keeps ht2)) _ he
          · cases herr
      · cases herr
  · rw [if_neg h1] at herr
    simp only at herr
    split at herr
    · split at herr
      · rename_i e he
        cases herr
        exact hT _ _ (Keeps.keeps_refl _) _ he
      · rename_i cg6 st6 ht2
        split at herr
        · rename_i e he
          cases herr
          exact hF _ _ (Commands.generateCode_keeps ht2) _ he
        · cases herr
    · cases herr

theorem ifThen_nofail (condition : ConditionNode) (T : Commands) (cg : CodeGenerator)
    (st : SymbolTable) (scope : String) (hc : condition.Ready st scope)
    (hT : ∀ cg1 st1, Keeps st st1 → NoFailedLookup (T.generateCode cg1 st1 scope)) :
    NoFailedLookup (Command.generateCode (.ifThen condition T) cg st scope) := by
  intro err herr
  simp only [Command.generateCode] at herr
  obtain ⟨cgc, hcg⟩ := ConditionNode.generateCode_ok_cond cg hc
  rw [hcg] at herr
  simp only at herr
  by_cases h1 : (cgc.getCommand (cgc.getCurrentLine - 1)).arg = 1
  · rw [if_pos h1] at herr
    cases ht : T.generateCode (cgc.emit "JUMP" 0) st scope with
    | error e =>
      rw [ht] at herr
      cases herr
      exact hT _ _ (Keeps.keeps_refl _) _ ht
    | ok r =>
      obtain ⟨cg3, st3⟩ := r
      rw [ht] at herr
      simp only at herr
      split at herr
      · split at herr
        · rename_i e he
          cases herr
          exact hT _ _ (Commands.generateCode_keeps ht) _ he
        · cases herr
      · cases herr
  · rw [if_neg h1] at herr
    simp only at herr
    split at herr
    · split at herr
      · rename_i e he
        cases herr
        exact hT _ _ (Keeps.keeps_refl _) _ he
      · cases herr
    · cases herr

theorem whileDo_nofail (condition : ConditionNode) (T : Commands) (cg : CodeGenerator)
    (st : SymbolTable) (scope : String) (hc : condition.Ready st scope)
    (hT : ∀ cg1 st1, Keeps st st1 → NoFailedLookup (T.generateCode cg1 st1 scope)) :
    NoFailedLookup (Command.generateCode (.whileDo condition T) cg st scope) := by
  intro err herr
  simp only [Command.generateCode] at herr
  obtain ⟨cgc, hcg⟩ := ConditionNode.generateCode_ok_cond cg hc
  rw [hcg] at herr
  simp only at herr
  by_cases h1 : (cgc.getCommand (cgc.getCurrentLine - 1)).arg = 1
  · have h2 : ¬ (cgc.getCommand (cgc.getCurrentLine - 1)).arg = 2 := by
      rw [h1]; decide
    rw [if_pos h1] at herr
    split at herr
    · rename_i e hfirst
      cases herr
      split at hfirst
      · rename_i e2 he
        cases hfirst
        exact hT _ _ (Keeps.keeps_refl _) _ he
      · cases hfirst
    · rw [if_neg h2] at herr
      cases herr
  · rw [if_neg h1] at herr
    simp only at herr
    split at herr
    · split at herr
      · rename_i e he
        cases herr
        exact hT _ _ (Keeps.keeps_refl _) _ he
      · cases herr
    · cases herr

theorem repeatUntil_nofail (condition : ConditionNode) (T : Commands) (cg : CodeGenerator)
    (st : SymbolTable) (scope : String) (hc : condition.Ready st scope)
    (hT : ∀ cg1 st1, Keeps st st1 → NoFailedLookup (T.generateCode cg1 st1 scope)) :
    NoFailedLookup (Command.generateCode (.repeatUntil T condition) cg st scope) := by
  intro err herr
  simp only [Command.generateCode] at herr
  cases hb : T.generateCode cg st scope with
  | error e =>
    rw [hb] at herr
    cases herr
    exact hT _ _ (Keeps.keeps_refl _) _ hb
  | ok r =>
    obtain ⟨cgA, stA⟩ := r
    rw [hb] at herr
    simp only at herr
    obtain ⟨cgc, hcg⟩ := ConditionNode.generateCode_ok_cond cgA
      (ConditionNode.Ready.ready_mono_cond (Commands.generateCode_keeps hb) hc)
    rw [hcg] at herr
    cases herr

theorem forTo_nofail (pidentifier : String) (fromvalue tovalue : ValueNode) (T : Commands)
    (cg : CodeGenerator) (st : SymbolTable) (scope : String)
    (hv : st.variableExists pidentifier scope = true) (hf : fromvalue.Ready st scope)
    (ht : tovalue.Ready st scope)
    (hT : ∀ cg1 st1, Keeps st st1 → NoFailedLookup (T.generateCode cg1 st1 scope)) :
    NoFailedLookup (Command.generateCode (.forTo pidentifier fromvalue tovalue T) cg st scope) := by
  intro err herr
  simp only [Command.generateCode] at herr
  obtain ⟨iterator, hit⟩ := getVariable_of_exists hv
  rw [hit] at herr
  simp only at herr
  obtain ⟨cgt, hgt⟩ := ValueNode.generateCode_ok_value
    (if (!st.one) = true then (cg.emit "SET" 1).emit "STORE" 10 else cg) ht
  rw [hgt] at herr
  simp only at herr
  obtain ⟨cgf, hgf⟩ := ValueNode.generateCode_ok_value ((cgt.emit "ADD" 10).emit "STORE" 9) hf
  rw [hgf] at herr
  simp only at herr
  split at herr
  · rename_i e he
    cases herr
    exact hT _ _ (Keeps.keeps_refl _) _ he
  · cases herr

theorem forDownTo_nofail (pidentifier : String) (fromvalue tovalue : ValueNode) (T : Commands)
    (cg : CodeGenerator) (st : SymbolTable) (scope : String)
    (hv : st.variableExists pidentifier scope = true) (hf : fromvalue.Ready st scope)
    (ht : tovalue.Ready st scope)
    (hT : ∀ cg1 st1, Keeps st st1 → NoFailedLookup (T.generateCode cg1 st1 scope)) :
    NoFailedLookup
      (Command.generateCode (.forDownTo pidentifier fromvalue tovalue T) cg st scope) := by
  intro err herr
  simp only [Command.generateCode] at herr
  obtain ⟨iterator, hit⟩ := getVariable_of_exists hv
  obtain ⟨cgt, hgt⟩ := ValueNode.generateCode_ok_value
    (if (!st.one) = true then (cg.emit "SET" 1).emit "STORE" 10 else cg) ht
  rw [hgt] at herr
  simp only at herr
  obtain ⟨cgf, hgf⟩ := ValueNode.generateCode_ok_value ((cgt.emit "SUB" 10).emit "STORE" 9) hf
  rw [hgf] at herr
  simp only at herr
  rw [hit] at herr
  simp only at herr
  split at herr
  · rename_i e he
    cases herr
    exact hT _ _ (Keeps.keeps_refl _) _ he
  · rename_i cg5 st5 hb
    have hv5 : st5.variableExists pidentifier scope = true :=
      (Commands.generateCode_keeps hb).vars _ hv
    obtain ⟨it5, hit5⟩ := getVariable_of_exists hv5
    rw [hit5] at herr
    cases herr

mutual
theorem Command.generateCode_nofail_cmd : ∀ (c : Command) (cg : CodeGenerator) (st : SymbolTable)
    (scope : String), c.Ready st scope → NoFailedLookup (c.generateCode cg st scope)
  | .assignment identifier expression, cg, st, scope, h => by
    unfold Command.Ready at h
    intro err herr
    simp only [Command.generateCode] at herr
    exact assignmentGenerate_nofail cg h.1 h.2 err herr
  | .ifElse condition T F, cg, st, scope, h => by
    unfold Command.Ready at h
    exact ifElse_nofail condition T F cg st scope h.1
      (fun cg1 st1 hk => Commands.generateCode_nofail_cmds T cg1 st1 scope
        (Commands.Ready.ready_mono_cmds T _ _ scope hk h.2.1))
      (fun cg1 st1 hk => Commands.generateCode_nofail_cmds F cg1 st1 scope
        (Commands.Ready.ready_mono_cmds F _ _ scope hk h.2.2))
  | .ifThen condition T, cg, st, scope, h => by
    unfold Command.Ready at h
    exact ifThen_nofail condition T cg st scope h.1
      (fun cg1 st1 hk => Commands.generateCode_nofail_cmds T cg1 st1 scope
        (Commands.Ready.ready_mono_cmds T _ _ scope hk h.2))
  | .whileDo condition T, cg, st, scope, h => by
    unfold Command.Ready at h
    exact whileDo_nofail condition T cg st scope h.1
      (fun cg1 st1 hk => Commands.generateCode_nofail_cmds T cg1 st1 scope
        (Commands.Ready.ready_mono_cmds T _ _ scope hk h.2))
  | .repeatUntil T condition, cg, st, scope, h => by
    unfold Command.Ready at h
    exact repeatUntil_nofail condition T cg st scope h.2
      (fun cg1 st1 hk => Commands.generateCode_nofail_cmds T cg1 st1 scope
        (Commands.Ready.ready_mono_cmds T _ _ scope hk h.1))
  | .forTo pidentifier fromvalue tovalue T, cg, st, scope, h => by
    unfold Command.Ready at h
    exact forTo_nofail pidentifier fromvalue tovalue T cg st scope h.1 h.2.1 h.2.2.1
      (fun cg1 st1 hk => Commands.generateCode_nofail_cmds T cg1 st1 scope
        (Commands.Ready.ready_mono_cmds T _ _ scope hk h.2.2.2))
  | .forDownTo pidentifier fromvalue tovalue T, cg, st, scope, h => by
    unfold Command.Ready at h
    exact forDownTo_nofail pidentifier fromvalue tovalue T cg st scope h.1 h.2.1 h.2.2.1
      (fun cg1 st1 hk => Commands.generateCode_nofail_cmds T cg1 st1 scope
        (Commands.Ready.ready_mono_cmds T _ _ scope hk h.2.2.2))
  | .procCall pidentifier args, cg, st, scope, h => by
    intro err herr
    simp only [Command.generateCode] at herr
    exact procCallGenerate_nofail cg h err herr
  | .read identifier, cg, st, scope, h => by
    unfold Command.Ready at h
    obtain ⟨r, hr⟩ := readGenerate_ok cg h
    intro err herr
    simp only [Command.generateCode, hr] at herr
    cases herr
  | .write value, cg, st, scope, h => by
    unfold Command.Ready at h
    obtain ⟨r, hr⟩ := writeGenerate_ok cg h
    intro err herr
    simp only [Command.generateCode, hr] at herr
    cases herr
theorem Commands.generateCode_nofail_cmds : ∀ (cs : Commands) (cg : CodeGenerator)
    (st : SymbolTable) (scope : String), cs.Ready st scope →
    NoFailedLookup (cs.generateCode cg st scope)
  | .nil, cg, st, scope, _ => by
    intro err herr
    simp only [Commands.generateCode] at herr
    cases herr
  | .cons c rest, cg, st, scope, h => by
    unfold Commands.Ready at h
    intro err herr
    simp only [Commands.generateCode] at herr
    cases hc : c.generateCode cg st scope with
    | error e =>
      rw [hc] at herr
      cases herr
      exact Command.generateCode_nofail_cmd c cg st scope h.1 _ hc
    | ok r =>
      obtain ⟨cg2, st2⟩ := r
      rw [hc] at herr
      simp only at herr
      exact Commands.generateCode_nofail_cmds rest cg2 st2 scope
        (Commands.Ready.ready_mono_cmds rest _ _ scope
          (Command.generateCode_framed_cmd c _ _ _ _ _ hc).1.symbols_keeps h.2) _ herr
end

mutual
theorem ProcTree.generateCode_nofail_proc : ∀ (t : ProcTree) (cg : CodeGenerator) (st : SymbolTable)
    (scope : String), t.Ready st scope → NoFailedLookup (t.generateCode cg st scope)
  | .proceduresNode l, cg, st, scope, h => by
    unfold ProcTree.Ready at h
    intro err herr
    simp only [ProcTree.generateCode] at herr
    exact ProcList.generateCode_nofail_procs l cg st scope h _ herr
  | .procedureNode o head decls cmds, cg, st, scope, h => by
    unfold ProcTree.Ready at h
    obtain ⟨hO, hE, hC⟩ := h
    intro err herr
    simp only [ProcTree.generateCode] at herr
    cases ho : o.generateCode cg st scope with
    | error e =>
      rw [ho] at herr
      cases herr
      exact OptProcTree.generateCode_nofail_opt o cg st scope hO _ ho
    | ok r =>
      obtain ⟨cg1, st1⟩ := r
      rw [ho] at herr
      simp only at herr
      have k1 := (OptProcTree.generateCode_framed_opt o _ _ _ _ _ ho).1.entities_keeps
      obtain ⟨p, hp⟩ := Option.isSome_iff_exists.mp (procedureExists_keeps k1 hE)
      have hp1 : st1.getProcedure head.pidentifier scope = some p := hp
      rw [hp1] at herr
      simp only at herr
      have k2 := (SameEntities.entities_putLabel st1 head.pidentifier scope p
        (some cg1.getCurrentLine) hp1).entities_keeps
      cases hb : cmds.generateCode cg1
          (st1.putProcedure head.pidentifier scope { p with jumpLabel := some cg1.getCurrentLine })
          head.pidentifier with
      | error e =>
        rw [hb] at herr
        cases herr
        exact Commands.generateCode_nofail_cmds cmds _ _ _
          (Commands.Ready.ready_mono_cmds cmds _ _ _ (k1.keeps_trans k2) hC) _ hb
      | ok r3 =>
        obtain ⟨cg3, st3⟩ := r3
        rw [hb] at herr
        simp only at herr
        have k3 := Commands.generateCode_keeps hb
        obtain ⟨p3, hp3⟩ := Option.isSome_iff_exists.mp
          (procedureExists_keeps ((k1.keeps_trans k2).keeps_trans k3) hE)
        have hp3b : st3.getProcedure head.pidentifier scope = some p3 := hp3
        rw [hp3b] at herr
        cases herr
theorem ProcList.generateCode_nofail_procs : ∀ (l : ProcList) (cg : CodeGenerator) (st : SymbolTable)
    (scope : String), l.Ready st scope → NoFailedLookup (l.generateCode cg st scope)
  | .nil, cg, st, scope, _ => by
    intro err herr
    simp only [ProcList.generateCode] at herr
    cases herr
  | .cons t rest, cg, st, scope, h => by
    unfold ProcList.Ready at h
    intro err herr
    simp only [ProcList.generateCode] at herr
    cases ht : t.generateCode cg st scope with
    | error e =>
      rw [ht] at herr
      cases herr
      exact ProcTree.generateCode_nofail_proc t cg st scope h.1 _ ht
    | ok r =>
      obtain ⟨cg1, st1⟩ := r
      rw [ht] at herr
      simp only at herr
      exact ProcList.generateCode_nofail_procs rest cg1 st1 scope
        (ProcList.Ready.ready_mono_procs rest _ _ scope
          (ProcTree.generateCode_framed_proc t _ _ _ _ _ ht).1.entities_keeps h.2) _ herr
theorem OptProcTree.generateCode_nofail_opt : ∀ (o : OptProcTree) (cg : CodeGenerator)
    (st : SymbolTable) (scope : String), o.Ready st scope →
    NoFailedLookup (o.generateCode cg st scope)
  | .null, cg, st, scope, _ => by
    intro err herr
    simp only [OptProcTree.generateCode] at herr
    cases herr
  | .node t, cg, st, scope, h => by
    unfold OptProcTree.Ready at h
    intro err herr
    simp only [OptProcTree.generateCode] at herr
    exact ProcTree.generateCode_nofail_proc t cg st scope h _ herr
end

theorem ProgramNode.generateCode_nofail_prog (p : ProgramNode) (cg : CodeGenerator)
    (st : SymbolTable) (h : p.Ready st) : NoFailedLookup (p.generateCode cg st) := by
  obtain ⟨hP, hM⟩ := h
  intro err herr
  unfold ProgramNode.generateCode MainNode.generateCode at herr
  simp only at herr
  split at herr
  · rename_i e hstart
    cases herr
    split at hstart
    · cases hstart
    · rename_i procedures hpr
      rw [hpr] at hP
      exact ProcTree.generateCode_nofail_proc procedures _ _ _ hP _ hstart
  · rename_i cg1 st1 hstart
    have k1 : Keeps st st1 := by
      split at hstart
      · simp only [Except.ok.injEq, Prod.mk.injEq] at hstart
        rw [← hstart.2]
        exact Keeps.keeps_refl _
      · exact (ProcTree.generateCode_framed_proc _ _ _ _ _ _ hstart).1.entities_keeps
    split at herr
    · rename_i e he
      cases herr
      exact Commands.generateCode_nofail_cmds _ _ _ _ (Commands.Ready.ready_mono_cmds _ _ _ _ k1 hM) _ he
    · cases herr
/-- The emission pass on the table of an accepted program makes no failed
lookup. When the semantic pass accepts a program, the emission pass on the
table it leaves never dereferences a failed lookup: no `getVariable`, `getArray`
or `getProcedure` result it uses is null, and no formal-parameter position it
indexes at a call site is past the end. (Its irregular outcomes are the read of
a jump label that was never set and the trap of a division of two literals.) -/
theorem emission_without_failed_lookup (p : ProgramNode) (st0 st : SymbolTable)
    (cg : CodeGenerator) (h : p.traverseAndAnalyze st0 = .ok () st) :
    p.generateCode cg st ≠ .error .nullDereference ∧
      p.generateCode cg st ≠ .error .outOfRange := by
  have hn := ProgramNode.generateCode_nofail_prog p cg st (ProgramNode.traverseAndAnalyze_ok_prog h).2
  exact ⟨fun he => (hn _ he).elim (fun e => GenError.noConfusion e)
      (fun e => GenError.noConfusion e),
    fun he => (hn _ he).elim (fun e => GenError.noConfusion e)
      (fun e => GenError.noConfusion e)⟩

/-- No failed lookup in the emission of the program with the procedure
`p(a, T t)`. -/
theorem emission_without_failed_lookup_witness :
    squareProgram.generateCode CodeGenerator.new squareTable ≠ .error .nullDereference ∧
      squareProgram.generateCode CodeGenerator.new squareTable ≠ .error .outOfRange :=
  emission_without_failed_lookup squareProgram SymbolTable.new squareTable CodeGenerator.new
    (by decide!)
/-! ## The initialisation guard: the trace of the semantic pass -/

theorem Flagged.keep {st st1 : SymbolTable} {tr tr1 : List Event} (h : Flagged st tr)
    (hv : st1.vars = st.vars) (hs : ∀ e ∈ tr, e ∈ tr1) : Flagged st1 tr1 := by
  intro key v hm hf
  rw [hv] at hm
  obtain ⟨e, he, hk⟩ := h key v hm hf
  exact ⟨e, hs e he, hk⟩

theorem Flagged.set {st st1 : SymbolTable} {tr tr1 : List Event} {key : String} {v : Variable}
    (h : Flagged st tr) (hv : st1.vars = mapSet key v st.vars) (hs : ∀ e ∈ tr, e ∈ tr1)
    (he : (v.isInitialized = true ∨ v.isArgument = true) →
      ∃ e ∈ tr1, e.kind ≠ .use ∧ mkKey e.name e.scope = key) : Flagged st1 tr1 := by
  intro key1 v1 hm hf
  rw [hv] at hm
  by_cases hk : key1 = key
  · subst hk
    rw [mapFind_mapSet_same] at hm
    cases hm
    exact he hf
  · rw [mapFind_mapSet_ne _ _ _ _ hk] at hm
    obtain ⟨e, hin, hke⟩ := h key1 v1 hm hf
    exact ⟨e, hs e hin, hke⟩

theorem Sound.sound_append {tr ev : List Event} (h : Sound tr)
    (hev : ∀ (i : Nat) (name scope : String), ev[i]? = some ⟨.use, name, scope⟩ →
      ∃ (j : Nat) (e : Event), j < tr.length + i ∧ (tr ++ ev)[j]? = some e ∧ e.kind ≠ .use ∧
        mkKey e.name e.scope = mkKey name scope) : Sound (tr ++ ev) := by
  intro i name scope hi
  by_cases hlt : i < tr.length
  · rw [List.getElem?_append_left hlt] at hi
    obtain ⟨j, e, hj, hje, hk⟩ := h i name scope hi
    exact ⟨j, e, hj, by rw [List.getElem?_append_left (by omega)]; exact hje, hk⟩
  · rw [List.getElem?_append_right (by omega)] at hi
    obtain ⟨j, e, hj, hje, hk⟩ := hev _ name scope hi
    exact ⟨j, e, by omega, hje, hk⟩

theorem Sound.append_nouse {tr ev : List Event} (h : Sound tr)
    (hev : ∀ e ∈ ev, e.kind ≠ .use) : Sound (tr ++ ev) :=
  h.sound_append fun _ _ _ hi => absurd rfl (hev _ (List.getElem?_mem hi))

theorem Sound.append_use {tr : List Event} {name scope : String} (h : Sound tr)
    (he : ∃ e ∈ tr, e.kind ≠ .use ∧ mkKey e.name e.scope = mkKey name scope) :
    Sound (tr ++ [⟨.use, name, scope⟩]) := by
  refine h.sound_append fun i n s hi => ?_
  obtain ⟨e, hin, hk, hkey⟩ := he
  obtain ⟨j, hj, hje⟩ := List.getElem_of_mem hin
  have hi0 : i = 0 := by
    by_contra hne
    rw [List.getElem?_eq_none (by simp; omega)] at hi
    cases hi
  subst hi0
  simp only [List.getElem?_cons_zero, Option.some.injEq, Event.mk.injEq, true_and] at hi
  refine ⟨j, e, by omega, ?_, hk, by rw [hkey, hi.1, hi.2]⟩
  rw [List.getElem?_append_left hj, List.getElem?_eq_getElem hj, hje]

theorem Traced.traced_same {st st1 : SymbolTable} {tr : List Event} (h : Traced st tr)
    (hv : st1.vars = st.vars) : Traced st1 tr :=
  ⟨h.1.keep hv fun _ he => he, h.2⟩

theorem Traced.nouse_keep {st st1 : SymbolTable} {tr : List Event} (h : Traced st tr)
    (ev : List Event) (hv : st1.vars = st.vars) (hev : ∀ e ∈ ev, e.kind ≠ .use) :
    Traced st1 (tr ++ ev) :=
  ⟨h.1.keep hv fun _ he => List.mem_append_left _ he, h.2.append_nouse hev⟩

theorem Traced.nouse_set {st st1 : SymbolTable} {tr : List Event} {key : String} {v : Variable}
    (h : Traced st tr) (ev : List Event) (hv : st1.vars = mapSet key v st.vars)
    (hev : ∀ e ∈ ev, e.kind ≠ .use)
    (he : (v.isInitialized = true ∨ v.isArgument = true) →
      ∃ e ∈ tr ++ ev, e.kind ≠ .use ∧ mkKey e.name e.scope = key) : Traced st1 (tr ++ ev) :=
  ⟨h.1.set hv (fun _ hin => List.mem_append_left _ hin) he, h.2.append_nouse hev⟩

theorem Traced.use {st st1 : SymbolTable} {tr : List Event} {name scope : String}
    (h : Traced st tr) (hv : st1.vars = st.vars)
    (he : ∃ e ∈ tr, e.kind ≠ .use ∧ mkKey e.name e.scope = mkKey name scope) :
    Traced st1 (tr ++ [⟨.use, name, scope⟩]) :=
  ⟨h.1.keep hv fun _ hin => List.mem_append_left _ hin, h.2.append_use he⟩

theorem singleton_nouse (kind : EventKind) (hk : kind ≠ .use) (name scope : String) :
    ∀ e ∈ [(⟨kind, name, scope⟩ : Event)], e.kind ≠ .use := by
  intro e he
  rw [List.mem_singleton.mp he]
  exact hk

theorem writeAnalyze_same {value : ValueNode} {st st1 : SymbolTable} {scope : String}
    (h : writeAnalyze value st scope = .ok () st1) : st1 = st := by
  cases value with
  | number _ =>
    cases h
    rfl
  | identifier n =>
    have h0 : (n.traverseAndAnalyze st scope).andThen
        (fun _ st2 => (ValueNode.identifier n).traverseAndAnalyze st2 scope) = .ok () st1 := h
    obtain ⟨_, sa, h1, h2⟩ := Sem.andThen_ok h0
    obtain ⟨e1, _⟩ := IdentifierNode.traverseAndAnalyze_ok_id h1
    subst e1
    exact (ValueNode.traverseAndAnalyze_ok_value h2).1

theorem Traced.event {st : SymbolTable} {tr : List Event} (h : Traced st tr)
    (kind : EventKind) (hk : kind ≠ .use) (name scope : String) (v : Variable) :
    Traced (st.putVariable name scope v) (tr ++ [⟨kind, name, scope⟩]) :=
  h.nouse_set [⟨kind, name, scope⟩] rfl (singleton_nouse kind hk name scope)
    (fun _ => ⟨⟨kind, name, scope⟩, by simp, hk, rfl⟩)

theorem written_nouse (n : IdentifierNode) (kind : EventKind) (hk : kind ≠ .use)
    (scope : String) : ∀ e ∈ n.written kind scope, e.kind ≠ .use := by
  intro e he
  unfold IdentifierNode.written at he
  split at he
  · rw [List.mem_singleton.mp he]
    exact hk
  · cases he

theorem written_of_not_simple (n : IdentifierNode) (kind : EventKind) (scope : String)
    (h : n.identifierType ≠ .SIMPLE) : n.written kind scope = [] := by
  unfold IdentifierNode.written
  rw [if_neg h]

theorem written_of_simple (n : IdentifierNode) (kind : EventKind) (scope : String)
    (h : n.identifierType = .SIMPLE) : n.written kind scope = [⟨kind, n.pidentifier, scope⟩] := by
  unfold IdentifierNode.written
  rw [if_pos h]

/-! ### The leaves -/

theorem IdentifierNode.isInitialized_vars (n : IdentifierNode) (st : SymbolTable)
    (scope : String) : (n.isInitialized st scope).2.vars = st.vars := by
  unfold IdentifierNode.isInitialized
  repeat' split
  all_goals rfl

theorem ValueNode.isVariableInitialized_vars (v : ValueNode) (st : SymbolTable)
    (scope : String) : (v.isVariableInitialized st scope).2.vars = st.vars := by
  cases v with
  | number _ => rfl
  | identifier n => exact IdentifierNode.isInitialized_vars n st scope

theorem IdentifierNode.isInitialized_flag {n : IdentifierNode} {st : SymbolTable}
    {scope : String} {v : Variable} (hs : n.identifierType = .SIMPLE)
    (hv : st.getVariable n.pidentifier scope = some v)
    (h : (n.isInitialized st scope).1 = true) :
    v.isInitialized = true ∨ v.isArgument = true := by
  unfold IdentifierNode.isInitialized at h
  rw [hs] at h
  simp only [hv] at h
  by_cases ha : v.isArgument = true
  · exact Or.inr ha
  · rw [if_neg ha] at h
    exact Or.inl h

theorem ValueNode.uses_traced {v : ValueNode} {st : SymbolTable} {scope : String}
    {tr : List Event} (hr : v.Ready st scope)
    (hi : (v.isVariableInitialized st scope).1 = true) (h : Traced st tr) :
    Traced (v.isVariableInitialized st scope).2 (tr ++ v.uses scope) := by
  have hvars := ValueNode.isVariableInitialized_vars v st scope
  cases v with
  | number _ =>
    unfold ValueNode.uses
    rw [List.append_nil]
    exact h.traced_same hvars
  | identifier n =>
    simp only [ValueNode.uses]
    by_cases hs : n.identifierType = .SIMPLE
    · rw [if_pos hs]
      have hr1 : n.Ready st scope := hr
      unfold IdentifierNode.Ready at hr1
      rw [hs] at hr1
      obtain ⟨w, hw⟩ := getVariable_of_exists hr1
      exact h.use hvars (h.1 _ w hw (IdentifierNode.isInitialized_flag hs hw hi))
    · rw [if_neg hs, List.append_nil]
      exact h.traced_same hvars

theorem ExpressionNode.isVariablesInitialized_traced {e : ExpressionNode} {st st1 : SymbolTable}
    {scope : String} {b : Bool} {tr : List Event}
    (hl : e.leftValue.Ready st scope) (hr : e.rightValue.Ready st scope)
    (hx : e.isVariablesInitialized st scope = .ok b st1) (h : Traced st tr) :
    Traced st1 (tr ++ (e.leftValue.uses scope ++ e.rightValue.uses scope)) := by
  unfold ExpressionNode.isVariablesInitialized at hx
  simp only at hx
  by_cases h1 : (e.leftValue.isVariableInitialized st scope).1 = true
  · by_cases h2 : (e.rightValue.isVariableInitialized
        (e.leftValue.isVariableInitialized st scope).2 scope).1 = true
    · simp only [h1, h2] at hx
      simp only [Bool.not_true, Bool.false_eq_true, if_false, Sem.ok.injEq] at hx
      rw [← hx.2, ← List.append_assoc]
      exact ValueNode.uses_traced
        (ValueNode.Ready.ready_mono_value (ValueNode.isVariableInitialized_step _ _ _).1 hr) h2
        (ValueNode.uses_traced hl h1 h)
    · simp [h1, h2] at hx
  · simp [h1] at hx

theorem IdentifierNode.setInitialized_traced {n : IdentifierNode} {st st1 : SymbolTable}
    {scope : String} {tr : List Event} (hx : n.setInitialized st scope = some st1)
    (h : Traced st tr) : Traced st1 (tr ++ n.written .assigned scope) := by
  unfold IdentifierNode.setInitialized at hx
  cases hs : n.identifierType with
  | SIMPLE =>
    rw [hs] at hx
    rw [written_of_simple n _ _ hs]
    simp only at hx
    split at hx
    · cases hx
      exact h.event .assigned (by decide) _ _ _
    · cases hx
  | INDEXED_ID =>
    rw [hs] at hx
    rw [written_of_not_simple n _ _ (by rw [hs]; decide), List.append_nil]
    simp only at hx
    split at hx
    · cases hx
      exact h
    · cases hx
  | INDEXED_NUM =>
    rw [hs] at hx
    rw [written_of_not_simple n _ _ (by rw [hs]; decide), List.append_nil]
    simp only at hx
    split at hx
    · split at hx
      · cases hx
        exact h
      · cases hx
        exact h.traced_same rfl
    · cases hx
      exact h

theorem assignmentAnalyze_traced {identifier : IdentifierNode} {expression : Expression}
    {st st1 : SymbolTable} {scope : String} {tr : List Event}
    (hx : assignmentAnalyze identifier expression st scope = .ok () st1) (h : Traced st tr) :
    Traced st1 (tr ++ (expression.uses scope ++ identifier.written .assigned scope)) := by
  unfold assignmentAnalyze at hx
  split at hx
  · cases hx
  · obtain ⟨_, sa, h1, h2⟩ := Sem.andThen_ok hx
    obtain ⟨e1, _⟩ := IdentifierNode.traverseAndAnalyze_ok_id h1
    subst e1
    obtain ⟨_, sb, h3, h4⟩ := Sem.andThen_ok h2
    obtain ⟨e2, r2⟩ := Expression.traverseAndAnalyze_ok_expr h3
    subst e2
    rw [← List.append_assoc]
    cases expression with
    | binary exprNode =>
      simp only at h4
      obtain ⟨ok, sc, h5, h6⟩ := Sem.andThen_ok h4
      have t1 := ExpressionNode.isVariablesInitialized_traced r2.1 r2.2 h5 h
      split at h6
      · split at h6
        · cases h6
          rename_i hset
          exact IdentifierNode.setInitialized_traced hset t1
        · cases h6
      · cases h6
        exact t1.nouse_keep _ rfl (written_nouse _ _ (by decide) _)
    | value exprNode2 =>
      simp only at h4
      have t1 : Traced (exprNode2.isVariableInitialized sb scope).2
          (tr ++ (Expression.value exprNode2).uses scope) := by
        unfold Expression.uses
        rw [List.append_nil]
        exact h.traced_same (ValueNode.isVariableInitialized_vars _ _ _)
      split at h4
      · split at h4
        · cases h4
          rename_i hset
          exact IdentifierNode.setInitialized_traced hset t1
        · cases h4
      · cases h4
        exact t1.nouse_keep _ rfl (written_nouse _ _ (by decide) _)

theorem readAnalyze_traced {identifier : IdentifierNode} {st st1 : SymbolTable}
    {scope : String} {tr : List Event} (hx : readAnalyze identifier st scope = .ok () st1)
    (h : Traced st tr) : Traced st1 (tr ++ identifier.written .read scope) := by
  unfold readAnalyze at hx
  obtain ⟨_, sa, h1, h2⟩ := Sem.andThen_ok hx
  obtain ⟨e1, _⟩ := IdentifierNode.traverseAndAnalyze_ok_id h2
  subst e1
  cases hs : identifier.identifierType with
  | SIMPLE =>
    rw [hs] at h1
    rw [written_of_simple _ _ _ hs]
    simp only at h1
    split at h1
    · cases h1
    · split at h1
      · cases h1
      · cases h1
        exact h.event .read (by decide) _ _ _
  | INDEXED_ID =>
    rw [hs] at h1
    rw [written_of_not_simple _ _ _ (by rw [hs]; decide), List.append_nil]
    cases h1
    exact h
  | INDEXED_NUM =>
    rw [hs] at h1
    rw [written_of_not_simple _ _ _ (by rw [hs]; decide), List.append_nil]
    simp only at h1
    split at h1
    · cases h1
    · split at h1
      · cases h1
      · cases h1
        exact h.traced_same rfl

theorem argAnalyze_traced {pidentifier : String} {st st1 : SymbolTable} {scope : String}
    {tr : List Event} (hx : argAnalyze pidentifier st scope = .ok () st1) (h : Traced st tr) :
    Traced st1 (tr ++ [⟨.argument, pidentifier, scope⟩]) := by
  unfold argAnalyze at hx
  split at hx
  · split at hx
    · cases hx
    · cases hx
      exact h.nouse_keep _ rfl (singleton_nouse _ (by decide) _ _)
  · cases hx
    exact h.event .argument (by decide) _ _ _

theorem argsAnalyze_traced : ∀ (args : List String) (st st1 : SymbolTable) (scope : String)
    (tr : List Event), argsAnalyze args st scope = .ok () st1 → Traced st tr →
    Traced st1 (tr ++ args.map fun a => ⟨.argument, a, scope⟩)
  | [], st, st1, _, tr, hx, h => by
    cases hx
    rw [List.map_nil, List.append_nil]
    exact h
  | a :: rest, st, st1, scope, tr, hx, h => by
    have h0 : (argAnalyze a st scope).andThen (fun _ st2 => argsAnalyze rest st2 scope) =
      .ok () st1 := hx
    obtain ⟨_, sa, h1, h2⟩ := Sem.andThen_ok h0
    have t := argsAnalyze_traced rest sa st1 scope _ h2 (argAnalyze_traced h1 h)
    rw [List.append_assoc] at t
    exact t

theorem forEnter_traced {pidentifier : String} {st st1 : SymbolTable} {scope : String}
    {tr : List Event} (hx : forEnter pidentifier st scope = .ok () st1) (h : Traced st tr) :
    Traced st1 (tr ++ [⟨.iterator, pidentifier, scope⟩]) := by
  unfold forEnter at hx
  obtain ⟨_, sa, h1, h2⟩ := Sem.andThen_ok hx
  have t1 : Traced sa tr := by
    split at h1
    · unfold SymbolTable.addVariable at h1
      split at h1
      · cases h1
      · cases h1
        exact ⟨h.1.set rfl (fun _ he => he) (fun hf => by simp at hf), h.2⟩
    · cases h1
      exact h
  split at h2
  · cases h2
  · cases h2
    exact (t1.event .iterator (by decide) _ _ _).traced_same rfl

theorem for_traced {pidentifier : String} {fromvalue tovalue : ValueNode} {commands : Commands}
    {st st1 : SymbolTable} {scope : String} {tr : List Event}
    (ih : ∀ sa sb tr1, commands.traverseAndAnalyze sa scope = .ok () sb → Traced sa tr1 →
      Traced sb (tr1 ++ commands.events scope))
    (hx : ((forEnter pidentifier st scope).andThen fun _ s1 =>
      (fromvalue.traverseAndAnalyze s1 scope).andThen fun _ s2 =>
      (tovalue.traverseAndAnalyze s2 scope).andThen fun _ s3 =>
      (commands.traverseAndAnalyze s3 scope).andThen fun _ s4 =>
        .ok () { s4 with iterator := "" }) = .ok () st1) (h : Traced st tr) :
    Traced st1 (tr ++ ⟨.iterator, pidentifier, scope⟩ :: commands.events scope) := by
  obtain ⟨_, s1, h1, h2⟩ := Sem.andThen_ok hx
  obtain ⟨_, s2, h3, h4⟩ := Sem.andThen_ok h2
  obtain ⟨_, s3, h5, h6⟩ := Sem.andThen_ok h4
  obtain ⟨_, s4, h7, h8⟩ := Sem.andThen_ok h6
  cases h8
  obtain ⟨e1, _⟩ := ValueNode.traverseAndAnalyze_ok_value h3
  subst e1
  obtain ⟨e2, _⟩ := ValueNode.traverseAndAnalyze_ok_value h5
  subst e2
  have t := ih _ _ _ h7 (forEnter_traced h1 h)
  rw [List.append_assoc] at t
  exact t.traced_same rfl

mutual
theorem Command.traverseAndAnalyze_traced_cmd : ∀ (c : Command) (st st1 : SymbolTable)
    (scope : String) (tr : List Event), c.traverseAndAnalyze st scope = .ok () st1 →
    Traced st tr → Traced st1 (tr ++ c.events scope)
  | .assignment _ _, _, _, _, _, hx, h => by
    unfold Command.traverseAndAnalyze at hx
    unfold Command.events
    exact assignmentAnalyze_traced hx h
  | .ifElse condition t f, st, st1, scope, tr, hx, h => by
    unfold Command.traverseAndAnalyze at hx
    unfold Command.events
    obtain ⟨_, s1, h1, h2⟩ := Sem.andThen_ok hx
    obtain ⟨_, s2, h3, h4⟩ := Sem.andThen_ok h2
    obtain ⟨e1, _⟩ := ConditionNode.traverseAndAnalyze_ok_cond h1
    subst e1
    rw [← List.append_assoc]
    exact Commands.traverseAndAnalyze_traced_cmds f _ _ scope _ h4
      (Commands.traverseAndAnalyze_traced_cmds t _ _ scope _ h3 h)
  | .ifThen condition t, st, st1, scope, tr, hx, h => by
    unfold Command.traverseAndAnalyze at hx
    unfold Command.events
    obtain ⟨_, s1, h1, h2⟩ := Sem.andThen_ok hx
    obtain ⟨e1, _⟩ := ConditionNode.traverseAndAnalyze_ok_cond h1
    subst e1
    exact Commands.traverseAndAnalyze_traced_cmds t _ _ scope _ h2 h
  | .whileDo condition t, st, st1, scope, tr, hx, h => by
    unfold Command.traverseAndAnalyze at hx
    unfold Command.events
    obtain ⟨_, s1, h1, h2⟩ := Sem.andThen_ok hx
    obtain ⟨e1, _⟩ := ConditionNode.traverseAndAnalyze_ok_cond h1
    subst e1
    exact Commands.traverseAndAnalyze_traced_cmds t _ _ scope _ h2 h
  | .repeatUntil t condition, st, st1, scope, tr, hx, h => by
    unfold Command.traverseAndAnalyze at hx
    unfold Command.events
    obtain ⟨_, s1, h1, h2⟩ := Sem.andThen_ok hx
    obtain ⟨e1, _⟩ := ConditionNode.traverseAndAnalyze_ok_cond h2
    subst e1
    exact Commands.traverseAndAnalyze_traced_cmds t _ _ scope _ h1 h
  | .forTo pidentifier fromvalue tovalue t, st, st1, scope, tr, hx, h => by
    unfold Command.traverseAndAnalyze at hx
    unfold Command.events
    exact for_traced (fun sa sb tr1 hh ht =>
      Commands.traverseAndAnalyze_traced_cmds t sa sb scope tr1 hh ht) hx h
  | .forDownTo pidentifier fromvalue tovalue t, st, st1, scope, tr, hx, h => by
    unfold Command.traverseAndAnalyze at hx
    unfold Command.events
    exact for_traced (fun sa sb tr1 hh ht =>
      Commands.traverseAndAnalyze_traced_cmds t sa sb scope tr1 hh ht) hx h
  | .procCall pidentifier args, st, st1, scope, tr, hx, h => by
    unfold Command.traverseAndAnalyze at hx
    unfold Command.events
    unfold procCallAnalyze at hx
    split at hx
    · cases hx
    · split at hx
      · cases hx
      · exact argsAnalyze_traced args _ _ scope _ hx h
  | .read _, _, _, _, _, hx, h => by
    unfold Command.traverseAndAnalyze at hx
    unfold Command.events
    exact readAnalyze_traced hx h
  | .write _, _, _, _, _, hx, h => by
    unfold Command.traverseAndAnalyze at hx
    unfold Command.events
    rw [List.append_nil]
    exact h.traced_same (by rw [writeAnalyze_same hx])
theorem Commands.traverseAndAnalyze_traced_cmds : ∀ (c : Commands) (st st1 : SymbolTable)
    (scope : String) (tr : List Event), c.traverseAndAnalyze st scope = .ok () st1 →
    Traced st tr → Traced st1 (tr ++ c.events scope)
  | .nil, _, _, _, _, hx, h => by
    unfold Commands.traverseAndAnalyze at hx
    unfold Commands.events
    cases hx
    rw [List.append_nil]
    exact h
  | .cons c rest, st, st1, scope, tr, hx, h => by
    unfold Commands.traverseAndAnalyze at hx
    unfold Commands.events
    obtain ⟨_, s1, h1, h2⟩ := Sem.andThen_ok hx
    rw [← List.append_assoc]
    exact Commands.traverseAndAnalyze_traced_cmds rest _ _ scope _ h2
      (Command.traverseAndAnalyze_traced_cmd c _ _ scope _ h1 h)
end
/-! ### Declarations, procedures, program -/

theorem addArray_vars {st st1 : SymbolTable} {name scope : String} {lo hi : Int}
    (h : st.addArray name scope lo hi = .ok () st1) : st1.vars = st.vars := by
  unfold SymbolTable.addArray at h
  split at h
  · cases h
  · cases h
    rfl

theorem addProcedure_vars {st st1 : SymbolTable} {name scope : String} {params : List Param}
    (h : st.addProcedure name scope params = .ok () st1) : st1.vars = st.vars := by
  unfold SymbolTable.addProcedure at h
  split at h
  · cases h
  · cases h
    rfl

theorem addProcedureParam_vars {st st1 : SymbolTable} {name scope : String} {param : Param}
    (h : st.addProcedureParam name scope param = .ok () st1) : st1.vars = st.vars := by
  unfold SymbolTable.addProcedureParam at h
  simp only at h
  split at h
  · cases h
  · cases h
    rfl

theorem declarationsAnalyze_traced : ∀ (ds : List DeclarationNode) (st st1 : SymbolTable)
    (scope : String) (tr : List Event), declarationsAnalyze ds st scope = .ok () st1 →
    Traced st tr → Traced st1 tr
  | [], _, _, _, _, hx, h => by
    cases hx
    exact h
  | d :: rest, st, st1, scope, tr, hx, h => by
    have h0 : (d.traverseAndAnalyze st scope).andThen
        (fun _ st2 => declarationsAnalyze rest st2 scope) = .ok () st1 := hx
    obtain ⟨_, sa, h1, h2⟩ := Sem.andThen_ok h0
    have t1 : Traced sa tr := by
      unfold DeclarationNode.traverseAndAnalyze at h1
      split at h1
      · exact h.traced_same (addArray_vars h1)
      · unfold SymbolTable.addVariable at h1
        split at h1
        · cases h1
        · cases h1
          exact ⟨h.1.set rfl (fun _ he => he) (fun hf => by simp at hf), h.2⟩
    exact declarationsAnalyze_traced rest sa st1 scope tr h2 t1

theorem ArgsdeclNode.traverseAndAnalyze_traced_argsdecl {d : ArgsdeclNode} {st st1 : SymbolTable}
    {scope : String} {tr : List Event} (hx : d.traverseAndAnalyze st scope = .ok () st1)
    (h : Traced st tr) : Traced st1 (tr ++ d.events scope) := by
  unfold ArgsdeclNode.traverseAndAnalyze at hx
  unfold ArgsdeclNode.events
  by_cases ha : d.isArray = true
  · rw [if_pos ha] at hx
    rw [if_pos ha, List.append_nil]
    obtain ⟨_, sa, h1, h2⟩ := Sem.andThen_ok hx
    obtain ⟨_, sb, h3, h4⟩ := Sem.andThen_ok h2
    have t2 := (h.traced_same (addProcedureParam_vars h1)).traced_same (addArray_vars h3)
    split at h4
    · cases h4
    · cases h4
      exact t2.traced_same rfl
  · rw [if_neg ha] at hx
    rw [if_neg ha]
    obtain ⟨_, sa, h1, h2⟩ := Sem.andThen_ok hx
    obtain ⟨_, sb, h3, h4⟩ := Sem.andThen_ok h2
    have t1 := h.traced_same (addProcedureParam_vars h1)
    have t2 : Traced sb (tr ++ [⟨.formal, d.pidentifier, scope⟩]) := by
      unfold SymbolTable.addVariableV at h3
      split at h3
      · cases h3
      · cases h3
        exact t1.nouse_set _ rfl (singleton_nouse _ (by decide) _ _)
          (fun _ => ⟨⟨.formal, d.pidentifier, scope⟩, by simp, fun hc => EventKind.noConfusion hc,
            rfl⟩)
    split at h4
    · cases h4
    · cases h4
      exact ⟨t2.1.set rfl (fun _ he => he)
        (fun _ => ⟨⟨.formal, d.pidentifier, scope⟩, by simp, fun hc => EventKind.noConfusion hc,
            rfl⟩), t2.2⟩

theorem argsdeclsAnalyze_traced : ∀ (ds : List ArgsdeclNode) (st st1 : SymbolTable)
    (scope : String) (tr : List Event), argsdeclsAnalyze ds st scope = .ok () st1 →
    Traced st tr → Traced st1 (tr ++ argsdeclsEvents ds scope)
  | [], _, _, _, _, hx, h => by
    cases hx
    unfold argsdeclsEvents
    rw [List.append_nil]
    exact h
  | d :: rest, st, st1, scope, tr, hx, h => by
    have h0 : (d.traverseAndAnalyze st scope).andThen
        (fun _ st2 => argsdeclsAnalyze rest st2 scope) = .ok () st1 := hx
    obtain ⟨_, sa, h1, h2⟩ := Sem.andThen_ok h0
    unfold argsdeclsEvents
    rw [← List.append_assoc]
    exact argsdeclsAnalyze_traced rest sa st1 scope _ h2
      (ArgsdeclNode.traverseAndAnalyze_traced_argsdecl h1 h)

mutual
theorem ProcTree.traverseAndAnalyze_traced_proc : ∀ (t : ProcTree) (st st1 : SymbolTable)
    (scope : String) (tr : List Event), t.traverseAndAnalyze st scope = .ok () st1 →
    Traced st tr → Traced st1 (tr ++ t.events)
  | .proceduresNode l, st, st1, scope, tr, hx, h => by
    unfold ProcTree.traverseAndAnalyze at hx
    unfold ProcTree.events
    exact ProcList.traverseAndAnalyze_traced_procs l st st1 scope tr hx h
  | .procedureNode o head decls cmds, st, st1, scope, tr, hx, h => by
    unfold ProcTree.traverseAndAnalyze at hx
    unfold ProcTree.events
    obtain ⟨_, s1, h1, h2⟩ := Sem.andThen_ok hx
    obtain ⟨_, s2, h3, h4⟩ := Sem.andThen_ok h2
    obtain ⟨_, s3, h5, h6⟩ := Sem.andThen_ok h4
    obtain ⟨_, s4, h7, h8⟩ := Sem.andThen_ok h6
    have t1 := h.traced_same (addProcedure_vars h1)
    have t2 := OptProcTree.traverseAndAnalyze_traced_opt o _ _ scope _ h3 t1
    have t3 := argsdeclsAnalyze_traced _ _ _ _ _ h5 t2
    have t4 := declarationsAnalyze_traced _ _ _ _ _ h7 t3
    have t5 := Commands.traverseAndAnalyze_traced_cmds cmds _ _ _ _ h8 t4
    rw [← List.append_assoc, ← List.append_assoc]
    exact t5
theorem ProcList.traverseAndAnalyze_traced_procs : ∀ (l : ProcList) (st st1 : SymbolTable)
    (scope : String) (tr : List Event), l.traverseAndAnalyze st scope = .ok () st1 →
    Traced st tr → Traced st1 (tr ++ l.events)
  | .nil, _, _, _, _, hx, h => by
    unfold ProcList.traverseAndAnalyze at hx
    unfold ProcList.events
    cases hx
    rw [List.append_nil]
    exact h
  | .cons t rest, st, st1, scope, tr, hx, h => by
    unfold ProcList.traverseAndAnalyze at hx
    unfold ProcList.events
    obtain ⟨_, s1, h1, h2⟩ := Sem.andThen_ok hx
    rw [← List.append_assoc]
    exact ProcList.traverseAndAnalyze_traced_procs rest _ _ scope _ h2
      (ProcTree.traverseAndAnalyze_traced_proc t _ _ scope _ h1 h)
theorem OptProcTree.traverseAndAnalyze_traced_opt : ∀ (o : OptProcTree) (st st1 : SymbolTable)
    (scope : String) (tr : List Event), o.traverseAndAnalyze st scope = .ok () st1 →
    Traced st tr → Traced st1 (tr ++ o.events)
  | .null, _, _, _, _, hx, h => by
    unfold OptProcTree.traverseAndAnalyze at hx
    unfold OptProcTree.events
    cases hx
    rw [List.append_nil]
    exact h
  | .node t, st, st1, scope, tr, hx, h => by
    unfold OptProcTree.traverseAndAnalyze at hx
    unfold OptProcTree.events
    exact ProcTree.traverseAndAnalyze_traced_proc t st st1 scope tr hx h
end

theorem ProgramNode.traverseAndAnalyze_traced_prog {p : ProgramNode} {st : SymbolTable}
    (h : p.traverseAndAnalyze SymbolTable.new = .ok () st) : Traced st p.events := by
  unfold ProgramNode.traverseAndAnalyze at h
  obtain ⟨_, s1, h1, h2⟩ := Sem.andThen_ok h
  unfold MainNode.traverseAndAnalyze at h2
  obtain ⟨_, s2, h3, h4⟩ := Sem.andThen_ok h2
  have t0 : Traced SymbolTable.new [] :=
    ⟨fun _ _ hm => Option.noConfusion hm, fun _ _ _ hi => Option.noConfusion hi⟩
  have t1 := OptProcTree.traverseAndAnalyze_traced_opt _ _ _ _ _ h1 t0
  rw [List.nil_append] at t1
  have t2 := declarationsAnalyze_traced _ _ _ _ _ h3 t1
  exact Commands.traverseAndAnalyze_traced_cmds _ _ _ _ _ h4 t2

/-- C11. Let the semantic pass accept a program whose identifiers contain no
`:`. List, in the order the pass meets them, the scalar formal parameter
declarations, the simple variables that are targets of an assignment or of a
`READ`, the for-loop iterators, the actual arguments of calls, and the simple
variables that are operands of a binary arithmetic right-hand side, each with
the scope it occurs in. Then every such arithmetic operand is preceded in the
list by a formal declaration, an assignment, a `READ`, an iterator or an
argument with the same name in the same scope. When the check of the operands
of an arithmetic right-hand side does not pass, it throws the error
`Variable is not initialized`. -/
theorem arithmetic_operands_initialised (p : ProgramNode) (st : SymbolTable)
    (h : p.traverseAndAnalyze SymbolTable.new = .ok () st)
    (hnames : ∀ e ∈ p.events, ':' ∉ e.name.data)
    (i : Nat) (name scope : String) (hi : p.events[i]? = some ⟨.use, name, scope⟩) :
    (∃ (j : Nat) (e : Event), j < i ∧ p.events[j]? = some e ∧ e.kind ≠ .use ∧
      e.name = name ∧ e.scope = scope) ∧
    (∀ (x : ExpressionNode) (s : SymbolTable) (sc : String),
      (x.isVariablesInitialized s sc).returns = false →
      ∃ s1, x.isVariablesInitialized s sc =
        .thrown ("Error: Variable is not initialized in scope " ++ sc) s1) := by
  constructor
  · obtain ⟨j, e, hj, hje, hk, hkey⟩ := (ProgramNode.traverseAndAnalyze_traced_prog h).2 i name scope hi
    have h1 := hnames e (List.getElem?_mem hje)
    have h2 := hnames _ (List.getElem?_mem hi)
    obtain ⟨en, es⟩ := mkKey_injective _ _ _ _ h1 h2 hkey
    exact ⟨j, e, hj, hje, hk, en, es⟩
  · intro x s sc hx
    unfold ExpressionNode.isVariablesInitialized at hx ⊢
    simp only at hx ⊢
    split
    · exact ⟨_, rfl⟩
    · rename_i h1
      rw [if_neg h1] at hx
      split
      · exact ⟨_, rfl⟩
      · rename_i h2
        rw [if_neg h2] at hx
        cases hx

/-- C11 on `READ a; b := a + 1; WRITE b`: the arithmetic use of `a` comes
after the `READ` into `a`. -/
theorem arithmetic_operands_initialised_witness :
    (∃ (j : Nat) (e : Event), j < 1 ∧ incrementProgram.events[j]? = some e ∧ e.kind ≠ .use ∧
      e.name = "a" ∧ e.scope = "MAIN") ∧
    (∀ (x : ExpressionNode) (s : SymbolTable) (sc : String),
      (x.isVariablesInitialized s sc).returns = false →
      ∃ s1, x.isVariablesInitialized s sc =
        .thrown ("Error: Variable is not initialized in scope " ++ sc) s1) :=
  arithmetic_operands_initialised incrementProgram incrementTable (by decide!) (by decide!) 1
    "a" "MAIN" (by decide!)

/-! ## The layout of the control structures -/

theorem step_at (prog : List command) (e : Nat) (c : command) (h : prog[e]? = some c)
    (s : VM) (hs : s.pc = (e : Int)) (hh : s.halted = false) :
    VM.step prog s = VM.execute c s := by
  unfold VM.step
  have h0 : ¬ s.pc < 0 := by omega
  have he : s.pc.toNat = e := by omega
  rw [hh, if_neg (by decide), if_neg h0, he, h]

theorem jump_step (prog : List command) (e : Nat) (d : Int) (h : prog[e]? = some ⟨"JUMP", d⟩)
    (s : VM) (hs : s.pc = (e : Int)) (hh : s.halted = false) :
    VM.step prog s = { s with pc := (e : Int) + d } := by
  rw [step_at prog e _ h s hs hh, ← hs]
  rfl

/-- The branch of a condition over one of the six comparison operators: its
opcode and displacement depend on the operator alone, the displacement is 1 or
2, and executed with the difference in the accumulator it is taken exactly
when the comparison holds, for displacement 1, and exactly when it fails, for
displacement 2. -/
theorem conditionBranch_decides (op : String) (hop : op ∈ comparisonOps) :
    ∃ (bcode : String) (a : Int), (∀ cg, conditionBranch op cg = cg.emit bcode a) ∧
      (a = 1 ∨ a = 2) ∧
      ∀ (x : Int) (s : VM), VM.execute ⟨bcode, x⟩ s =
        { s with pc := if comparisonHolds op (s.mem 0) = decide (a = 1) then s.pc + x
                       else s.pc + 1 } := by
  simp only [comparisonOps, List.mem_cons, List.mem_singleton, List.not_mem_nil, or_false] at hop
  rcases hop with rfl | rfl | rfl | rfl | rfl | rfl
  · refine ⟨"JZERO", 1, fun cg => rfl, Or.inl rfl, fun x s => ?_⟩
    simp [VM.execute, comparisonHolds]
  · refine ⟨"JZERO", 2, fun cg => rfl, Or.inr rfl, fun x s => ?_⟩
    simp [VM.execute, comparisonHolds]
  · refine ⟨"JNEG", 1, fun cg => rfl, Or.inl rfl, fun x s => ?_⟩
    simp [VM.execute, comparisonHolds]
  · refine ⟨"JPOS", 1, fun cg => rfl, Or.inl rfl, fun x s => ?_⟩
    simp [VM.execute, comparisonHolds]
  · refine ⟨"JPOS", 2, fun cg => rfl, Or.inr rfl, fun x s => ?_⟩
    simp [VM.execute, comparisonHolds]
  · refine ⟨"JNEG", 2, fun cg => rfl, Or.inr rfl, fun x s => ?_⟩
    simp [VM.execute, comparisonHolds]

/-- The code of a condition is a run of instructions followed by the branch of
its operator. -/
theorem ConditionNode.generateCode_branch (c : ConditionNode) (cg : CodeGenerator)
    (st : SymbolTable) (scope : String) (cg1 : CodeGenerator)
    (h : c.generateCode cg st scope = .ok cg1) :
    ∃ pre, cg1 = conditionBranch c.op (cg.emitAll pre) := by
  obtain ⟨left, op, right⟩ := c
  cases left with
  | identifier leftId =>
    cases right with
    | identifier rightId =>
      simp only [ConditionNode.generateCode] at h
      cases hl : leftId.generateCode cg st scope with
      | error err => rw [hl] at h; cases h
      | ok cga =>
        rw [hl] at h
        simp only at h
        obtain ⟨cgb, hb, he⟩ := except_map_ok _ _ _ h
        obtain ⟨c1, hc1, _, _⟩ := leftId.generateCode_plain_id _ _ _ _ hl
        obtain ⟨c2, hc2, _, _⟩ := subRight_plain _ _ _ _ _ hb
        refine ⟨c1 ++ c2, ?_⟩
        rw [← he, hc2, hc1, emitAll_append]
    | number rightValue =>
      simp only [ConditionNode.generateCode] at h
      by_cases hz : rightValue = 0
      · rw [if_pos hz] at h
        obtain ⟨cga, ha, he⟩ := except_map_ok _ _ _ h
        obtain ⟨c1, hc1, _, _⟩ := leftId.generateCode_plain_id _ _ _ _ ha
        refine ⟨c1, ?_⟩
        rw [← he, hc1]
      · rw [if_neg hz] at h
        obtain ⟨cga, ha, he⟩ := except_map_ok _ _ _ h
        obtain ⟨c1, hc1, _, _⟩ := leftId.generateCode_plain_id _ _ _ _ ha
        refine ⟨([⟨"SET", rightValue⟩, ⟨"STORE", 1⟩] ++ c1) ++ [⟨"SUB", 1⟩], ?_⟩
        rw [← he, hc1, emitAll_emit]
        rfl
  | number leftValue =>
    cases right with
    | identifier rightId =>
      simp only [ConditionNode.generateCode] at h
      obtain ⟨cga, ha, he⟩ := except_map_ok _ _ _ h
      obtain ⟨c2, hc2, _, _⟩ := subRight_plain _ _ _ _ _ ha
      refine ⟨⟨"SET", leftValue⟩ :: c2, ?_⟩
      rw [← he, hc2]
      rfl
    | number rightValue =>
      simp only [ConditionNode.generateCode, Except.ok.injEq] at h
      refine ⟨[⟨"SET", leftValue - rightValue⟩], ?_⟩
      rw [← h]
      rfl

/-- The last instruction of the code of a condition over one of the six
comparison operators is the branch of the operator. -/
theorem ConditionNode.generateCode_decides (c : ConditionNode) (cg : CodeGenerator)
    (st : SymbolTable) (scope : String) (cgc : CodeGenerator)
    (h : c.generateCode cg st scope = .ok cgc) (hwf : cg.WF) (hop : c.op ∈ comparisonOps) :
    ∃ (bcode : String) (a : Int),
      cgc.getCommand (cgc.getCurrentLine - 1) = ⟨bcode, a⟩ ∧ (a = 1 ∨ a = 2) ∧
      ∀ (x : Int) (s : VM), VM.execute ⟨bcode, x⟩ s =
        { s with pc := if comparisonHolds c.op (s.mem 0) = decide (a = 1) then s.pc + x
                       else s.pc + 1 } := by
  obtain ⟨pre, hpre⟩ := c.generateCode_branch cg st scope cgc h
  obtain ⟨bcode, a, hb, ha, hx⟩ := conditionBranch_decides c.op hop
  refine ⟨bcode, a, ?_, ha, hx⟩
  rw [hpre, hb, emitAll_emit]
  exact getCommand_emitAll_last cg hwf pre ⟨bcode, a⟩

theorem emit_getElem?_old (cg : CodeGenerator) (code : String) (arg : Int) (i : Nat)
    (hi : i < cg.generatedCode.length) :
    (cg.emit code arg).generatedCode[i]? = cg.generatedCode[i]? := by
  rw [emit_generatedCode, List.getElem?_append_left hi]

theorem emit_getElem?_new (cg : CodeGenerator) (code : String) (arg : Int) :
    (cg.emit code arg).generatedCode[cg.generatedCode.length]? = some ⟨code, arg⟩ := by
  rw [emit_generatedCode, List.getElem?_append_right (Nat.le_refl _)]
  simp

theorem emit_wf (cg : CodeGenerator) (code : String) (arg : Int) (h : cg.WF) :
    (cg.emit code arg).WF := by
  unfold CodeGenerator.WF at h ⊢
  simp [h]

theorem updateCommand_wf (cg : CodeGenerator) (j : Int) (code : String) (arg : Int)
    (h : cg.WF) : (cg.updateCommand j code arg).WF := by
  unfold CodeGenerator.WF at h ⊢
  simp [h]

/-- The `JUMP 0` emitted before a block is still there after the block. -/
theorem block_jump_kept {cgX cgB : CodeGenerator} {st stA stB : SymbolTable} (Y : Commands)
    (scope : String) (hwf : cgX.WF) (hs : SameSymbols st stA)
    (hl : LabelsOK st.procedures cgX.generatedCode.length)
    (hY : Y.generateCode (cgX.emit "JUMP" 0) stA scope = .ok (cgB, stB)) :
    cgB.generatedCode[cgX.generatedCode.length]? = some ⟨"JUMP", 0⟩ := by
  have fY := Commands.generateCode_framed_cmds Y _ _ _ _ _ hY
  have b := fY.2 (emit_wf _ _ _ hwf) (hl.labels_same hs (by simp))
  rw [b.old _ (by simp)]
  exact emit_getElem?_new cgX "JUMP" 0

/-- The layout of an arm of `IfNode::generateCode` with `falsecommands`: the
branch at `j`, the block `X`, a `JUMP` at `jA`, the block `Y`. -/
theorem layout_else {cgc cgA cgB : CodeGenerator} {st stc stA stB : SymbolTable}
    (X Y : Commands) (scope : String) (j : Nat) (bcode : String) (prog : List command)
    (lo : Nat) (hwfc : cgc.WF) (hjc : cgc.generatedCode.length = j + 1)
    (hs : SameSymbols st stc)
    (hl : LabelsOK st.procedures cgc.generatedCode.length)
    (hX : X.generateCode cgc stc scope = .ok (cgA, stA))
    (hY : Y.generateCode
      ((cgA.updateCommand j bcode (cgA.getCurrentLine - j + 1)).emit "JUMP" 0) stA scope =
        .ok (cgB, stB))
    (hprog : AgreesOn prog
      (cgB.updateCommand cgA.getCurrentLine "JUMP"
        (cgB.getCurrentLine - cgA.getCurrentLine)).generatedCode lo cgB.generatedCode.length)
    (hlo : lo ≤ j) :
    j + 1 ≤ cgA.generatedCode.length ∧ cgA.generatedCode.length + 1 ≤ cgB.generatedCode.length ∧
    cgB.WF ∧ SameSymbols st stB ∧
    BlockAt X st scope prog (j + 1) cgA.generatedCode.length ∧
    BlockAt Y st scope prog (cgA.generatedCode.length + 1) cgB.generatedCode.length ∧
    prog[j]? = some ⟨bcode, (cgA.generatedCode.length : Int) - j + 1⟩ ∧
    ContinuesAt prog cgA.generatedCode.length cgB.generatedCode.length ∧
    ∀ i, lo ≤ i → i < j → prog[i]? = cgc.generatedCode[i]? := by
  have fX := Commands.generateCode_framed_cmds X _ _ _ _ _ hX
  have fY := Commands.generateCode_framed_cmds Y _ _ _ _ _ hY
  have a := fX.2 hwfc (hl.labels_same hs (Int.le_refl _))
  have hA := getCurrentLine_of_wf cgA a.wf
  have hleA := a.le
  have wf3 : ((cgA.updateCommand j bcode (cgA.getCurrentLine - j + 1)).emit "JUMP" 0).WF :=
    emit_wf _ _ _ (updateCommand_wf _ _ _ _ a.wf)
  have hlen3 : ((cgA.updateCommand j bcode (cgA.getCurrentLine - j + 1)).emit "JUMP"
      0).generatedCode.length = cgA.generatedCode.length + 1 := by simp
  have b := fY.2 wf3 (hl.labels_same (hs.symbols_trans fX.1) (by rw [hlen3]; push_cast; omega))
  have hB := getCurrentLine_of_wf cgB b.wf
  have hleB := b.le
  rw [hlen3] at hleB
  rw [hA, hB] at hprog
  have hfin : ∀ i, lo ≤ i → i < cgB.generatedCode.length →
      prog[i]? = if i = cgA.generatedCode.length then
        some ⟨"JUMP", (cgB.generatedCode.length : Int) - cgA.generatedCode.length⟩
      else cgB.generatedCode[i]? := by
    intro i h1 h2
    rw [hprog i h1 h2, updateCommand_getElem?]
    by_cases hi : i = cgA.generatedCode.length
    · rw [if_pos hi, if_pos ⟨by omega, h2⟩]
    · rw [if_neg hi, if_neg (fun hh => hi (by omega))]
  have hmid : ∀ i, i < cgA.generatedCode.length →
      cgB.generatedCode[i]? = if i = j then
        some ⟨bcode, (cgA.generatedCode.length : Int) - j + 1⟩
      else cgA.generatedCode[i]? := by
    intro i h1
    rw [b.old i (by rw [hlen3]; omega), emit_getElem?_old _ _ _ _ (by simpa using h1),
      updateCommand_getElem?, hA]
    by_cases hi : i = j
    · rw [if_pos hi, if_pos ⟨by omega, h1⟩]
    · rw [if_neg hi, if_neg (fun hh => hi (by omega))]
  refine ⟨by omega, hleB, b.wf, (hs.symbols_trans fX.1).symbols_trans fY.1, ?_, ?_, ?_, ?_, ?_⟩
  · refine ⟨cgc, stc, cgA, stA, hs, hwfc, hX, hjc, rfl, ?_⟩
    intro i h1 h2
    rw [hfin i (by omega) (by omega), if_neg (by omega), hmid i h2, if_neg (by omega)]
  · refine ⟨_, stA, cgB, stB, hs.symbols_trans fX.1, wf3, hY, hlen3, rfl, ?_⟩
    intro i h1 h2
    rw [hfin i (by omega) h2, if_neg (by omega)]
  · rw [hfin j hlo (by omega), if_neg (by omega), hmid j (by omega), if_pos rfl]
  · right
    intro s hs hh
    rw [jump_step prog _ _ (by rw [hfin _ (by omega) (by omega), if_pos rfl]) s hs hh]
    congr 1
    omega
  · intro i h1 h2
    rw [hfin i h1 (by omega), if_neg (by omega), hmid i (by omega), if_neg (by omega),
      a.old i (by omega)]

/-- The layout and the branch of `IfNode::generateCode` with `falsecommands`. -/
theorem ifElse_layout (c : ConditionNode) (T F : Commands) (cg : CodeGenerator)
    (st : SymbolTable) (scope : String) (cg1 : CodeGenerator) (st1 : SymbolTable)
    (prog : List command) (hwf : cg.WF)
    (hl : LabelsOK st.procedures cg.generatedCode.length) (hop : c.op ∈ comparisonOps)
    (h : (Command.ifElse c T F).generateCode cg st scope = .ok (cg1, st1))
    (hprog : AgreesOn prog cg1.generatedCode cg.generatedCode.length
      cg1.generatedCode.length) :
    ∃ (cgc : CodeGenerator) (thenStart thenEnd elseStart elseEnd : Nat),
      c.generateCode cg st scope = .ok cgc ∧
      cg.generatedCode.length < cgc.generatedCode.length ∧
      AgreesOn prog cgc.generatedCode cg.generatedCode.length (cgc.generatedCode.length - 1) ∧
      BlockAt T st scope prog thenStart thenEnd ∧
      BlockAt F st scope prog elseStart elseEnd ∧
      (∀ s : VM, s.pc = (cgc.generatedCode.length : Int) - 1 → s.halted = false →
        VM.step prog s =
          { s with pc := if comparisonHolds c.op (s.mem 0) then (thenStart : Int)
                         else (elseStart : Int) }) ∧
      ContinuesAt prog thenEnd cg1.generatedCode.length ∧
      ContinuesAt prog elseEnd cg1.generatedCode.length := by
  simp only [Command.generateCode] at h
  cases hc : c.generateCode cg st scope with
  | error err => rw [hc] at h; cases h
  | ok cgc =>
    rw [hc] at h
    simp only at h
    obtain ⟨bcode, a, hlast, ha, hexec⟩ := c.generateCode_decides cg st scope cgc hc hwf hop
    obtain ⟨hlt, hA, _⟩ := c.generateCode_appends cg st scope cgc hc hwf
    have hline := hA.line
    obtain ⟨j, hj⟩ : ∃ j : Nat, cgc.generatedCode.length = j + 1 := ⟨cgc.generatedCode.length - 1, by omega⟩
    have hjl : cgc.getCurrentLine - 1 = (j : Int) := by omega
    rw [hlast] at h
    simp only at h
    rw [hjl] at h
    have hlc : LabelsOK st.procedures cgc.generatedCode.length := hl.labels_mono (by omega)
    refine ⟨cgc, ?_⟩
    rcases ha with rfl | rfl
    · rw [if_pos rfl] at h
      cases hf : F.generateCode cgc st scope with
      | error err => rw [hf] at h; cases h
      | ok r =>
        obtain ⟨cg2, st2⟩ := r
        rw [hf] at h
        simp only at h
        cases ht : T.generateCode
            ((cg2.updateCommand j bcode (cg2.getCurrentLine - j + 1)).emit "JUMP" 0) st2 scope with
        | error err => rw [ht] at h; cases h
        | ok r =>
          obtain ⟨cg4, st4⟩ := r
          rw [ht] at h
          simp only at h
          have fF := Commands.generateCode_framed_cmds F _ _ _ _ _ hf
          have aF := fF.2 hA.wf hlc
          have hk := block_jump_kept T scope (updateCommand_wf _ _ _ _ aF.wf) fF.1
            (by rw [updateCommand_length]; exact hlc.labels_mono (by have := aF.le; omega)) ht
          rw [updateCommand_length] at hk
          have hk2 : cg4.getCommand cg2.getCurrentLine = ⟨"JUMP", 0⟩ := by
            rw [getCurrentLine_of_wf cg2 aF.wf]
            exact getCommand_of_getElem? cg4 _ _ hk
          rw [hk2] at h
          simp only at h
          rw [if_neg (by decide)] at h
          simp only [Except.ok.injEq, Prod.mk.injEq] at h
          obtain ⟨h1, h2⟩ := h
          subst h1
          rw [updateCommand_length] at hprog ⊢
          obtain ⟨l1, l2, _, _, bX, bY, hb, cA, hpre⟩ :=
            layout_else F T scope j bcode prog cg.generatedCode.length hA.wf hj
              (SameSymbols.symbols_refl st) hlc hf ht hprog (by omega)
          refine ⟨cg2.generatedCode.length + 1, cg4.generatedCode.length, j + 1,
            cg2.generatedCode.length, rfl, hlt, ?_, bY, bX, ?_, Or.inl rfl, cA⟩
          · intro i h1 h2
            exact hpre i h1 (by omega)
          · intro s hs hh
            rw [step_at prog j _ hb s (by omega) hh, hexec]
            have e1 : s.pc + ((cg2.generatedCode.length : Int) - j + 1) =
                ((cg2.generatedCode.length + 1 : Nat) : Int) := by push_cast; omega
            have e2 : s.pc + 1 = ((j + 1 : Nat) : Int) := by push_cast; omega
            rw [e1, e2]
            cases comparisonHolds c.op (s.mem 0) <;> rfl
    · rw [if_neg (by decide)] at h
      simp only at h
      rw [if_pos True.intro] at h
      cases ht : T.generateCode cgc st scope with
      | error err => rw [ht] at h; cases h
      | ok r =>
        obtain ⟨cg6, st6⟩ := r
        rw [ht] at h
        simp only at h
        cases hf : F.generateCode
            ((cg6.updateCommand j bcode (cg6.getCurrentLine - j + 1)).emit "JUMP" 0) st6 scope with
        | error err => rw [hf] at h; cases h
        | ok r =>
          obtain ⟨cg8, st8⟩ := r
          rw [hf] at h
          simp only at h
          have fT := Commands.generateCode_framed_cmds T _ _ _ _ _ ht
          have aT := fT.2 hA.wf hlc
          have hk := block_jump_kept F scope (updateCommand_wf _ _ _ _ aT.wf) fT.1
            (by rw [updateCommand_length]; exact hlc.labels_mono (by have := aT.le; omega)) hf
          rw [updateCommand_length] at hk
          have hk2 : cg8.getCommand cg6.getCurrentLine = ⟨"JUMP", 0⟩ := by
            rw [getCurrentLine_of_wf cg6 aT.wf]
            exact getCommand_of_getElem? cg8 _ _ hk
          rw [hk2] at h
          simp only [Except.ok.injEq, Prod.mk.injEq] at h
          obtain ⟨h1, h2⟩ := h
          subst h1
          rw [updateCommand_length] at hprog ⊢
          obtain ⟨l1, l2, _, _, bX, bY, hb, cA, hpre⟩ :=
            layout_else T F scope j bcode prog cg.generatedCode.length hA.wf hj
              (SameSymbols.symbols_refl st) hlc ht hf hprog (by omega)
          refine ⟨j + 1, cg6.generatedCode.length, cg6.generatedCode.length + 1,
            cg8.generatedCode.length, rfl, hlt, ?_, bX, bY, ?_, cA, Or.inl rfl⟩
          · intro i h1 h2
            exact hpre i h1 (by omega)
          · intro s hs hh
            rw [step_at prog j _ hb s (by omega) hh, hexec]
            have e1 : s.pc + ((cg6.generatedCode.length : Int) - j + 1) =
                ((cg6.generatedCode.length + 1 : Nat) : Int) := by push_cast; omega
            have e2 : s.pc + 1 = ((j + 1 : Nat) : Int) := by push_cast; omega
            rw [e1, e2]
            cases comparisonHolds c.op (s.mem 0) <;> rfl

/-- The layout and the branch of `IfNode::generateCode` without `falsecommands`. -/
theorem ifThen_layout (c : ConditionNode) (T : Commands) (cg : CodeGenerator)
    (st : SymbolTable) (scope : String) (cg1 : CodeGenerator) (st1 : SymbolTable)
    (prog : List command) (hwf : cg.WF)
    (hl : LabelsOK st.procedures cg.generatedCode.length) (hop : c.op ∈ comparisonOps)
    (h : (Command.ifThen c T).generateCode cg st scope = .ok (cg1, st1))
    (hprog : AgreesOn prog cg1.generatedCode cg.generatedCode.length
      cg1.generatedCode.length) :
    ∃ (cgc : CodeGenerator) (thenStart : Nat),
      c.generateCode cg st scope = .ok cgc ∧
      cg.generatedCode.length < cgc.generatedCode.length ∧
      AgreesOn prog cgc.generatedCode cg.generatedCode.length (cgc.generatedCode.length - 1) ∧
      BlockAt T st scope prog thenStart cg1.generatedCode.length ∧
      ∀ s : VM, s.pc = (cgc.generatedCode.length : Int) - 1 → s.halted = false →
        if comparisonHolds c.op (s.mem 0) then
          VM.step prog s = { s with pc := (thenStart : Int) }
        else
          VM.step prog s = { s with pc := (cg1.generatedCode.length : Int) } ∨
          VM.steps prog 2 s = { s with pc := (cg1.generatedCode.length : Int) } := by
  simp only [Command.generateCode] at h
  cases hc : c.generateCode cg st scope with
  | error err => rw [hc] at h; cases h
  | ok cgc =>
    rw [hc] at h
    simp only at h
    obtain ⟨bcode, a, hlast, ha, hexec⟩ := c.generateCode_decides cg st scope cgc hc hwf hop
    obtain ⟨hlt, hA, _⟩ := c.generateCode_appends cg st scope cgc hc hwf
    have hline := hA.line
    obtain ⟨j, hj⟩ : ∃ j : Nat, cgc.generatedCode.length = j + 1 :=
      ⟨cgc.generatedCode.length - 1, by omega⟩
    have hjl : cgc.getCurrentLine - 1 = (j : Int) := by omega
    have hjl2 : (cgc.emit "JUMP" 0).getCurrentLine - 1 = ((j + 1 : Nat) : Int) := by
      rw [getCurrentLine_of_wf _ (emit_wf _ _ _ hA.wf)]
      simp
      omega
    rw [hlast] at h
    simp only at h
    rw [hjl] at h
    have hlc : LabelsOK st.procedures cgc.generatedCode.length := hl.labels_mono (by omega)
    refine ⟨cgc, ?_⟩
    rcases ha with rfl | rfl
    · rw [if_pos rfl] at h
      cases ht : T.generateCode (cgc.emit "JUMP" 0) st scope with
      | error err => rw [ht] at h; cases h
      | ok r =>
        obtain ⟨cg3, st3⟩ := r
        rw [ht] at h
        simp only at h
        rw [hjl2] at h
        have fT := Commands.generateCode_framed_cmds T _ _ _ _ _ ht
        have wf2 := emit_wf cgc "JUMP" 0 hA.wf
        have aT := fT.2 wf2 (hlc.labels_mono (by simp))
        have hle3 := aT.le
        simp only [emit_generatedCode, List.length_append, List.length_singleton] at hle3
        have hk := block_jump_kept T scope hA.wf (SameSymbols.symbols_refl st) hlc ht
        rw [hj] at hk
        have hk2 : (cg3.updateCommand (j : Int) bcode (((j + 1 : Nat) : Int) - j + 1)).getCommand
            ((j + 1 : Nat) : Int) = ⟨"JUMP", 0⟩ := by
          apply getCommand_of_getElem?
          rw [updateCommand_getElem?, if_neg (fun hh => by omega)]
          exact hk
        rw [hk2] at h
        simp only at h
        rw [if_neg (by decide)] at h
        simp only [Except.ok.injEq, Prod.mk.injEq] at h
        obtain ⟨h1, h2⟩ := h
        subst h1
        simp only [updateCommand_length, getCurrentLine_updateCommand] at hprog ⊢
        rw [getCurrentLine_of_wf cg3 aT.wf] at hprog
        have hfin : ∀ i, cg.generatedCode.length ≤ i → i < cg3.generatedCode.length →
            prog[i]? = if i = j + 1 then
                some ⟨"JUMP", (cg3.generatedCode.length : Int) - ((j + 1 : Nat) : Int)⟩
              else if i = j then some ⟨bcode, ((j + 1 : Nat) : Int) - j + 1⟩
              else cg3.generatedCode[i]? := by
          intro i h1 h2
          rw [hprog i h1 h2, updateCommand_getElem?, updateCommand_length,
            updateCommand_getElem?]
          by_cases hi : i = j + 1
          · rw [if_pos hi, if_pos ⟨by omega, h2⟩]
          · rw [if_neg hi, if_neg (fun hh => hi (by omega))]
            by_cases hi2 : i = j
            · rw [if_pos hi2, if_pos ⟨by omega, h2⟩]
            · rw [if_neg hi2, if_neg (fun hh => hi2 (by omega))]
        have hb : prog[j]? = some ⟨bcode, ((j + 1 : Nat) : Int) - j + 1⟩ := by
          rw [hfin j (by omega) (by omega), if_neg (by omega), if_pos rfl]
        have hjmp : prog[j + 1]? =
            some ⟨"JUMP", (cg3.generatedCode.length : Int) - ((j + 1 : Nat) : Int)⟩ := by
          rw [hfin (j + 1) (by omega) (by omega), if_pos rfl]
        refine ⟨j + 2, trivial, hlt, ?_, ?_, ?_⟩
        · intro i h1 h2
          rw [hfin i h1 (by omega), if_neg (by omega), if_neg (by omega),
            aT.old i (by simp; omega), emit_getElem?_old _ _ _ _ (by omega)]
        · refine ⟨cgc.emit "JUMP" 0, st, cg3, st3, SameSymbols.symbols_refl st, wf2, ht,
            by simp; omega, rfl, ?_⟩
          intro i h1 h2
          rw [hfin i (by omega) h2, if_neg (by omega), if_neg (by omega)]
        · intro s hs hh
          have hstep : VM.step prog s =
              { s with pc := if comparisonHolds c.op (s.mem 0) = true then ((j + 2 : Nat) : Int)
                             else ((j + 1 : Nat) : Int) } := by
            rw [step_at prog j _ hb s (by omega) hh, hexec]
            have e1 : s.pc + (((j + 1 : Nat) : Int) - j + 1) = ((j + 2 : Nat) : Int) := by
              push_cast; omega
            have e2 : s.pc + 1 = ((j + 1 : Nat) : Int) := by push_cast; omega
            rw [e1, e2]
            cases comparisonHolds c.op (s.mem 0) <;> rfl
          cases hv : comparisonHolds c.op (s.mem 0) with
          | true =>
            rw [hv] at hstep
            simpa using hstep
          | false =>
            rw [hv] at hstep
            simp only [Bool.false_eq_true, if_false] at hstep ⊢
            right
            show VM.step prog (VM.step prog s) = _
            rw [hstep, jump_step prog (j + 1) _ hjmp { s with pc := ((j + 1 : Nat) : Int) } rfl hh]
            congr 1
            omega
    · rw [if_neg (by decide)] at h
      simp only at h
      rw [if_pos True.intro] at h
      cases ht : T.generateCode cgc st scope with
      | error err => rw [ht] at h; cases h
      | ok r =>
        obtain ⟨cg6, st6⟩ := r
        rw [ht] at h
        simp only [Except.ok.injEq, Prod.mk.injEq] at h
        obtain ⟨h1, h2⟩ := h
        subst h1
        have fT := Commands.generateCode_framed_cmds T _ _ _ _ _ ht
        have aT := fT.2 hA.wf hlc
        have hle6 := aT.le
        simp only [updateCommand_length] at hprog ⊢
        rw [getCurrentLine_of_wf cg6 aT.wf] at hprog
        have hfin : ∀ i, cg.generatedCode.length ≤ i → i < cg6.generatedCode.length →
            prog[i]? = if i = j then some ⟨bcode, (cg6.generatedCode.length : Int) - j⟩
              else cg6.generatedCode[i]? := by
          intro i h1 h2
          rw [hprog i h1 h2, updateCommand_getElem?]
          by_cases hi : i = j
          · rw [if_pos hi, if_pos ⟨by omega, h2⟩]
          · rw [if_neg hi, if_neg (fun hh => hi (by omega))]
        have hb : prog[j]? = some ⟨bcode, (cg6.generatedCode.length : Int) - j⟩ := by
          rw [hfin j (by omega) (by omega), if_pos rfl]
        refine ⟨j + 1, trivial, hlt, ?_, ?_, ?_⟩
        · intro i h1 h2
          rw [hfin i h1 (by omega), if_neg (by omega), aT.old i (by omega)]
        · refine ⟨cgc, st, cg6, st6, SameSymbols.symbols_refl st, hA.wf, ht, hj, rfl, ?_⟩
          intro i h1 h2
          rw [hfin i (by omega) h2, if_neg (by omega)]
        · intro s hs hh
          have hstep : VM.step prog s =
              { s with pc := if comparisonHolds c.op (s.mem 0) = true then ((j + 1 : Nat) : Int)
                             else (cg6.generatedCode.length : Int) } := by
            rw [step_at prog j _ hb s (by omega) hh, hexec]
            have e1 : s.pc + ((cg6.generatedCode.length : Int) - j) =
                (cg6.generatedCode.length : Int) := by omega
            have e2 : s.pc + 1 = ((j + 1 : Nat) : Int) := by push_cast; omega
            rw [e1, e2]
            cases comparisonHolds c.op (s.mem 0) <;> rfl
          cases hv : comparisonHolds c.op (s.mem 0) with
          | true =>
            rw [hv] at hstep
            simpa using hstep
          | false =>
            rw [hv] at hstep
            simp only [Bool.false_eq_true, if_false] at hstep ⊢
            left
            exact hstep

/-! ## The branch of an if statement and of a while loop -/

/-- C22. Let an if statement over the condition `c`, with `c` over one of the
six comparison operators, be emitted on a code generator in step whose table
holds valid labels, and let `prog` hold the emitted instructions at their
addresses. The condition's code starts at the old end of the code, its last
instruction is the branch, and the instructions before the branch are in `prog`
as emitted. With an else branch: the two blocks occupy
`[thenStart, thenEnd)` and `[elseStart, elseEnd)`, a running machine at the
branch with the difference `left - right` in the accumulator steps to
`thenStart` when the comparison holds and to `elseStart` when it does not, and
from the end of either block control continues at the first address after the
statement. Without an else branch: the block occupies `[thenStart, end)` where
`end` is the first address after the statement, and the machine at the branch
steps to `thenStart` when the comparison holds and otherwise reaches `end` in
one step or in two (through an unconditional `JUMP`), with nothing but the
program counter changed. -/
theorem if_branch_and_blocks (c : ConditionNode) (T : Commands) (cg : CodeGenerator)
    (st : SymbolTable) (scope : String) (hwf : cg.WF)
    (hl : LabelsOK st.procedures cg.generatedCode.length) (hop : c.op ∈ comparisonOps) :
    (∀ (F : Commands) (cg1 : CodeGenerator) (st1 : SymbolTable) (prog : List command),
      (Command.ifElse c T F).generateCode cg st scope = .ok (cg1, st1) →
      AgreesOn prog cg1.generatedCode cg.generatedCode.length cg1.generatedCode.length →
      ∃ (cgc : CodeGenerator) (thenStart thenEnd elseStart elseEnd : Nat),
        c.generateCode cg st scope = .ok cgc ∧
        cg.generatedCode.length < cgc.generatedCode.length ∧
        AgreesOn prog cgc.generatedCode cg.generatedCode.length
          (cgc.generatedCode.length - 1) ∧
        BlockAt T st scope prog thenStart thenEnd ∧
        BlockAt F st scope prog elseStart elseEnd ∧
        (∀ s : VM, s.pc = (cgc.generatedCode.length : Int) - 1 → s.halted = false →
          VM.step prog s =
            { s with pc := if comparisonHolds c.op (s.mem 0) then (thenStart : Int)
                           else (elseStart : Int) }) ∧
        ContinuesAt prog thenEnd cg1.generatedCode.length ∧
        ContinuesAt prog elseEnd cg1.generatedCode.length) ∧
    (∀ (cg1 : CodeGenerator) (st1 : SymbolTable) (prog : List command),
      (Command.ifThen c T).generateCode cg st scope = .ok (cg1, st1) →
      AgreesOn prog cg1.generatedCode cg.generatedCode.length cg1.generatedCode.length →
      ∃ (cgc : CodeGenerator) (thenStart : Nat),
        c.generateCode cg st scope = .ok cgc ∧
        cg.generatedCode.length < cgc.generatedCode.length ∧
        AgreesOn prog cgc.generatedCode cg.generatedCode.length
          (cgc.generatedCode.length - 1) ∧
        BlockAt T st scope prog thenStart cg1.generatedCode.length ∧
        ∀ s : VM, s.pc = (cgc.generatedCode.length : Int) - 1 → s.halted = false →
          if comparisonHolds c.op (s.mem 0) then
            VM.step prog s = { s with pc := (thenStart : Int) }
          else
            VM.step prog s = { s with pc := (cg1.generatedCode.length : Int) } ∨
            VM.steps prog 2 s = { s with pc := (cg1.generatedCode.length : Int) }) :=
  ⟨fun F cg1 st1 prog h hp => ifElse_layout c T F cg st scope cg1 st1 prog hwf hl hop h hp,
   fun cg1 st1 prog h hp => ifThen_layout c T cg st scope cg1 st1 prog hwf hl hop h hp⟩

set_option maxRecDepth 100000 in
/-- C22 on `IF x > 0 THEN WRITE 1; ELSE WRITE 0; ENDIF` and on
`IF x = 0 THEN WRITE 1; ENDIF`, each emitted alone under the table of
`compareCellProgram`: the emitted codes are
`LOAD 11; JPOS 4; SET 0; PUT 0; JUMP 3; SET 1; PUT 0` and
`LOAD 11; JZERO 2; JUMP 3; SET 1; PUT 0`, and the conclusions of C22 hold of
them. -/
theorem if_branch_and_blocks_witness :
    (∃ (cgc : CodeGenerator) (thenStart thenEnd elseStart elseEnd : Nat),
      ConditionNode.generateCode ⟨.identifier (simpleId "x"), ">", .number 0⟩
        CodeGenerator.new compareCellTable "MAIN" = .ok cgc ∧
      CodeGenerator.new.generatedCode.length < cgc.generatedCode.length ∧
      AgreesOn (emittedAlone signIfElse).1.generatedCode cgc.generatedCode
        CodeGenerator.new.generatedCode.length (cgc.generatedCode.length - 1) ∧
      BlockAt (.cons (.write (.number 1)) .nil) compareCellTable "MAIN"
        (emittedAlone signIfElse).1.generatedCode thenStart thenEnd ∧
      BlockAt (.cons (.write (.number 0)) .nil) compareCellTable "MAIN"
        (emittedAlone signIfElse).1.generatedCode elseStart elseEnd ∧
      (∀ s : VM, s.pc = (cgc.generatedCode.length : Int) - 1 → s.halted = false →
        VM.step (emittedAlone signIfElse).1.generatedCode s =
          { s with pc := if comparisonHolds ">" (s.mem 0) then (thenStart : Int)
                         else (elseStart : Int) }) ∧
      ContinuesAt (emittedAlone signIfElse).1.generatedCode thenEnd
        (emittedAlone signIfElse).1.generatedCode.length ∧
      ContinuesAt (emittedAlone signIfElse).1.generatedCode elseEnd
        (emittedAlone signIfElse).1.generatedCode.length) ∧
    (∃ (cgc : CodeGenerator) (thenStart : Nat),
      ConditionNode.generateCode ⟨.identifier (simpleId "x"), "=", .number 0⟩
        CodeGenerator.new compareCellTable "MAIN" = .ok cgc ∧
      CodeGenerator.new.generatedCode.length < cgc.generatedCode.length ∧
      AgreesOn (emittedAlone zeroIfThen).1.generatedCode cgc.generatedCode
        CodeGenerator.new.generatedCode.length (cgc.generatedCode.length - 1) ∧
      BlockAt (.cons (.write (.number 1)) .nil) compareCellTable "MAIN"
        (emittedAlone zeroIfThen).1.generatedCode thenStart
        (emittedAlone zeroIfThen).1.generatedCode.length ∧
      ∀ s : VM, s.pc = (cgc.generatedCode.length : Int) - 1 → s.halted = false →
        if comparisonHolds "=" (s.mem 0) then
          VM.step (emittedAlone zeroIfThen).1.generatedCode s = { s with pc := (thenStart : Int) }
        else
          VM.step (emittedAlone zeroIfThen).1.generatedCode s =
            { s with pc := ((emittedAlone zeroIfThen).1.generatedCode.length : Int) } ∨
          VM.steps (emittedAlone zeroIfThen).1.generatedCode 2 s =
            { s with pc := ((emittedAlone zeroIfThen).1.generatedCode.length : Int) }) :=
  ⟨(if_branch_and_blocks ⟨.identifier (simpleId "x"), ">", .number 0⟩
      (.cons (.write (.number 1)) .nil) CodeGenerator.new compareCellTable "MAIN" rfl
      (NoLabels.labelsOK (NoLabels.of_all (by decide!)) _) (by decide)).1
      (.cons (.write (.number 0)) .nil) (emittedAlone signIfElse).1 (emittedAlone signIfElse).2
      (emittedAlone signIfElse).1.generatedCode (by decide!) (fun _ _ _ => rfl),
   (if_branch_and_blocks ⟨.identifier (simpleId "x"), "=", .number 0⟩
      (.cons (.write (.number 1)) .nil) CodeGenerator.new compareCellTable "MAIN" rfl
      (NoLabels.labelsOK (NoLabels.of_all (by decide!)) _) (by decide)).2
      (emittedAlone zeroIfThen).1 (emittedAlone zeroIfThen).2
      (emittedAlone zeroIfThen).1.generatedCode (by decide!) (fun _ _ _ => rfl)⟩

/-- C23. Let the while loop `WHILE c DO body`, with `c` over one of the six
comparison operators, be emitted on a code generator in step whose table holds
valid labels, and let `prog` hold the emitted instructions at their addresses.
The condition's code starts at the old end of the code, its last instruction
is the branch, and the instructions before the branch are in `prog` as
emitted. The body occupies `[bodyStart, bodyEnd)`; the instruction at `bodyEnd`
is the last of the loop and is a `JUMP` whose target is the first instruction
of the condition, so a running machine at `bodyEnd` steps there. A running
machine at the branch with the difference `left - right` in the accumulator
goes in one step to `bodyStart` when the comparison holds, and otherwise, in
one step or in two (through an unconditional `JUMP`), to the address right
after the backward `JUMP`, with nothing but the program counter changed. -/
theorem while_branch_and_back_jump (c : ConditionNode) (body : Commands) (cg : CodeGenerator)
    (st : SymbolTable) (scope : String) (cg1 : CodeGenerator) (st1 : SymbolTable)
    (prog : List command) (hwf : cg.WF)
    (hl : LabelsOK st.procedures cg.generatedCode.length) (hop : c.op ∈ comparisonOps)
    (h : (Command.whileDo c body).generateCode cg st scope = .ok (cg1, st1))
    (hprog : AgreesOn prog cg1.generatedCode cg.generatedCode.length
      cg1.generatedCode.length) :
    ∃ (cgc : CodeGenerator) (bodyStart bodyEnd : Nat),
      c.generateCode cg st scope = .ok cgc ∧
      cg.generatedCode.length < cgc.generatedCode.length ∧
      AgreesOn prog cgc.generatedCode cg.generatedCode.length (cgc.generatedCode.length - 1) ∧
      BlockAt body st scope prog bodyStart bodyEnd ∧
      cg1.generatedCode.length = bodyEnd + 1 ∧
      (∃ d : Int, prog[bodyEnd]? = some ⟨"JUMP", d⟩ ∧
        (bodyEnd : Int) + d = cg.generatedCode.length) ∧
      (∀ s : VM, s.pc = (bodyEnd : Int) → s.halted = false →
        VM.step prog s = { s with pc := (cg.generatedCode.length : Int) }) ∧
      ∀ s : VM, s.pc = (cgc.generatedCode.length : Int) - 1 → s.halted = false →
        if comparisonHolds c.op (s.mem 0) then
          VM.step prog s = { s with pc := (bodyStart : Int) }
        else
          VM.step prog s = { s with pc := ((bodyEnd + 1 : Nat) : Int) } ∨
          VM.steps prog 2 s = { s with pc := ((bodyEnd + 1 : Nat) : Int) } := by
  simp only [Command.generateCode] at h
  cases hc : c.generateCode cg st scope with
  | error err => rw [hc] at h; cases h
  | ok cgc =>
    rw [hc] at h
    simp only at h
    obtain ⟨bcode, a, hlast, ha, hexec⟩ := c.generateCode_decides cg st scope cgc hc hwf hop
    obtain ⟨hlt, hA, _⟩ := c.generateCode_appends cg st scope cgc hc hwf
    have hline := hA.line
    obtain ⟨j, hj⟩ : ∃ j : Nat, cgc.generatedCode.length = j + 1 :=
      ⟨cgc.generatedCode.length - 1, by omega⟩
    have hjl : cgc.getCurrentLine - 1 = (j : Int) := by omega
    have hjl2 : cgc.getCurrentLine = ((j + 1 : Nat) : Int) := by omega
    rw [hlast] at h
    simp only at h
    rw [hjl, hjl2, getCurrentLine_of_wf cg hwf] at h
    have hlc : LabelsOK st.procedures cgc.generatedCode.length := hl.labels_mono (by omega)
    refine ⟨cgc, ?_⟩
    rcases ha with rfl | rfl
    · rw [if_pos rfl] at h
      cases hb : body.generateCode ((cgc.updateCommand (j : Int) bcode 2).emit "JUMP" 0) st
          scope with
      | error err => rw [hb] at h; cases h
      | ok r =>
        obtain ⟨cg3, st3⟩ := r
        rw [hb] at h
        simp only at h
        rw [if_neg (by decide)] at h
        simp only [Except.ok.injEq, Prod.mk.injEq] at h
        obtain ⟨h1, h2⟩ := h
        subst h1
        have fB := Commands.generateCode_framed_cmds body _ _ _ _ _ hb
        have wf2 : ((cgc.updateCommand (j : Int) bcode 2).emit "JUMP" 0).WF :=
          emit_wf _ _ _ (updateCommand_wf _ _ _ _ hA.wf)
        have hlen2 : ((cgc.updateCommand (j : Int) bcode 2).emit "JUMP" 0).generatedCode.length =
            j + 2 := by simp; omega
        have aB := fB.2 wf2 (hlc.labels_mono (by rw [hlen2]; push_cast; omega))
        have hle3 := aB.le
        rw [hlen2] at hle3
        have h3 := getCurrentLine_of_wf cg3 aB.wf
        rw [h3] at hprog
        simp only [updateCommand_length, emit_generatedCode, List.length_append,
          List.length_singleton] at hprog ⊢
        have hfin : ∀ i, cg.generatedCode.length ≤ i → i < cg3.generatedCode.length + 1 →
            prog[i]? = if i = j + 1 then
                some ⟨"JUMP", (cg3.generatedCode.length : Int) + 1 - ((j + 1 : Nat) : Int)⟩
              else if i = cg3.generatedCode.length then
                some ⟨"JUMP", (cg.generatedCode.length : Int) - cg3.generatedCode.length⟩
              else cg3.generatedCode[i]? := by
          intro i h1 h2
          rw [hprog i h1 h2, updateCommand_getElem?, emit_generatedCode]
          by_cases hi : i = j + 1
          · rw [if_pos hi, if_pos ⟨by omega, by simp; omega⟩]
          · rw [if_neg hi, if_neg (fun hh => hi (by omega))]
            by_cases hi2 : i = cg3.generatedCode.length
            · rw [if_pos hi2, hi2, List.getElem?_append_right (Nat.le_refl _)]
              simp
            · rw [if_neg hi2, List.getElem?_append_left (by omega)]
        have hmid : ∀ i, i < j + 1 →
            cg3.generatedCode[i]? = if i = j then some ⟨bcode, 2⟩ else cgc.generatedCode[i]? := by
          intro i h1
          rw [aB.old i (by rw [hlen2]; omega), emit_getElem?_old _ _ _ _ (by simp; omega),
            updateCommand_getElem?]
          by_cases hi : i = j
          · rw [if_pos hi, if_pos ⟨by omega, by omega⟩]
          · rw [if_neg hi, if_neg (fun hh => hi (by omega))]
        have hbr : prog[j]? = some ⟨bcode, 2⟩ := by
          rw [hfin j (by omega) (by omega), if_neg (by omega), if_neg (by omega),
            hmid j (by omega), if_pos rfl]
        have hjmp : prog[j + 1]? =
            some ⟨"JUMP", (cg3.generatedCode.length : Int) + 1 - ((j + 1 : Nat) : Int)⟩ := by
          rw [hfin (j + 1) (by omega) (by omega), if_pos rfl]
        have hback : prog[cg3.generatedCode.length]? =
            some ⟨"JUMP", (cg.generatedCode.length : Int) - cg3.generatedCode.length⟩ := by
          rw [hfin _ (by omega) (by omega), if_neg (by omega), if_pos rfl]
        refine ⟨j + 2, cg3.generatedCode.length, trivial, hlt, ?_, ?_,
          rfl, ⟨_, hback, by omega⟩, ?_, ?_⟩
        · intro i h1 h2
          rw [hfin i h1 (by omega), if_neg (by omega), if_neg (by omega), hmid i (by omega),
            if_neg (by omega)]
        · refine ⟨_, st, cg3, st3, SameSymbols.symbols_refl st, wf2, hb, hlen2, rfl, ?_⟩
          intro i h1 h2
          rw [hfin i (by omega) (by omega), if_neg (by omega), if_neg (by omega)]
        · intro s hs hh
          rw [jump_step prog _ _ hback s hs hh]
          congr 1
          omega
        · intro s hs hh
          have hstep : VM.step prog s =
              { s with pc := if comparisonHolds c.op (s.mem 0) = true then ((j + 2 : Nat) : Int)
                             else ((j + 1 : Nat) : Int) } := by
            rw [step_at prog j _ hbr s (by omega) hh, hexec]
            have e1 : s.pc + 2 = ((j + 2 : Nat) : Int) := by push_cast; omega
            have e2 : s.pc + 1 = ((j + 1 : Nat) : Int) := by push_cast; omega
            rw [e1, e2]
            cases comparisonHolds c.op (s.mem 0) <;> rfl
          cases hv : comparisonHolds c.op (s.mem 0) with
          | true =>
            rw [hv] at hstep
            simpa using hstep
          | false =>
            rw [hv] at hstep
            simp only [Bool.false_eq_true, if_false] at hstep ⊢
            right
            show VM.step prog (VM.step prog s) = _
            rw [hstep, jump_step prog (j + 1) _ hjmp { s with pc := ((j + 1 : Nat) : Int) } rfl hh]
            congr 1
            push_cast
            omega
    · rw [if_neg (by decide)] at h
      simp only at h
      rw [if_pos True.intro] at h
      cases hb : body.generateCode cgc st scope with
      | error err => rw [hb] at h; cases h
      | ok r =>
        obtain ⟨cg5, st5⟩ := r
        rw [hb] at h
        simp only [Except.ok.injEq, Prod.mk.injEq] at h
        obtain ⟨h1, h2⟩ := h
        subst h1
        have fB := Commands.generateCode_framed_cmds body _ _ _ _ _ hb
        have aB := fB.2 hA.wf hlc
        have hle5 := aB.le
        have h5 := getCurrentLine_of_wf cg5 aB.wf
        rw [h5] at hprog
        simp only [updateCommand_length, emit_generatedCode, List.length_append,
          List.length_singleton] at hprog ⊢
        have hfin : ∀ i, cg.generatedCode.length ≤ i → i < cg5.generatedCode.length + 1 →
            prog[i]? = if i = j then
                some ⟨bcode, (cg5.generatedCode.length : Int) + 1 - ((j + 1 : Nat) : Int) + 1⟩
              else if i = cg5.generatedCode.length then
                some ⟨"JUMP", (cg.generatedCode.length : Int) - cg5.generatedCode.length⟩
              else cg5.generatedCode[i]? := by
          intro i h1 h2
          rw [hprog i h1 h2, updateCommand_getElem?, emit_generatedCode]
          by_cases hi : i = j
          · rw [if_pos hi, if_pos ⟨by omega, by simp; omega⟩]
          · rw [if_neg hi, if_neg (fun hh => hi (by omega))]
            by_cases hi2 : i = cg5.generatedCode.length
            · rw [if_pos hi2, hi2, List.getElem?_append_right (Nat.le_refl _)]
              simp
            · rw [if_neg hi2, List.getElem?_append_left (by omega)]
        have hbr : prog[j]? =
            some ⟨bcode, (cg5.generatedCode.length : Int) + 1 - ((j + 1 : Nat) : Int) + 1⟩ := by
          rw [hfin j (by omega) (by omega), if_pos rfl]
        have hback : prog[cg5.generatedCode.length]? =
            some ⟨"JUMP", (cg.generatedCode.length : Int) - cg5.generatedCode.length⟩ := by
          rw [hfin _ (by omega) (by omega), if_neg (by omega), if_pos rfl]
        refine ⟨j + 1, cg5.generatedCode.length, trivial, hlt, ?_, ?_,
          rfl, ⟨_, hback, by omega⟩, ?_, ?_⟩
        · intro i h1 h2
          rw [hfin i h1 (by omega), if_neg (by omega), if_neg (by omega), aB.old i (by omega)]
        · refine ⟨cgc, st, cg5, st5, SameSymbols.symbols_refl st, hA.wf, hb, hj, rfl, ?_⟩
          intro i h1 h2
          rw [hfin i (by omega) (by omega), if_neg (by omega), if_neg (by omega)]
        · intro s hs hh
          rw [jump_step prog _ _ hback s hs hh]
          congr 1
          omega
        · intro s hs hh
          have hstep : VM.step prog s =
              { s with pc := if comparisonHolds c.op (s.mem 0) = true then ((j + 1 : Nat) : Int)
                             else ((cg5.generatedCode.length + 1 : Nat) : Int) } := by
            rw [step_at prog j _ hbr s (by omega) hh, hexec]
            have e1 : s.pc + ((cg5.generatedCode.length : Int) + 1 - ((j + 1 : Nat) : Int) + 1) =
                ((cg5.generatedCode.length + 1 : Nat) : Int) := by push_cast; omega
            have e2 : s.pc + 1 = ((j + 1 : Nat) : Int) := by push_cast; omega
            rw [e1, e2]
            cases comparisonHolds c.op (s.mem 0) <;> rfl
          cases hv : comparisonHolds c.op (s.mem 0) with
          | true =>
            rw [hv] at hstep
            simpa using hstep
          | false =>
            rw [hv] at hstep
            simp only [Bool.false_eq_true, if_false] at hstep ⊢
            left
            exact hstep

set_option maxRecDepth 100000 in
/-- C23 on `WHILE x > 0 DO x := x - 1; ENDWHILE`, emitted alone under the table
of `compareCellProgram`: the emitted code is `LOAD 11; JPOS 2; JUMP 7; SET 1;
STORE 1; LOAD 11; SUB 1; STORE 11; JUMP -8`, and the conclusions of C23 hold of
it. -/
theorem while_branch_and_back_jump_witness :
    ∃ (cgc : CodeGenerator) (bodyStart bodyEnd : Nat),
      ConditionNode.generateCode ⟨.identifier (simpleId "x"), ">", .number 0⟩
        CodeGenerator.new compareCellTable "MAIN" = .ok cgc ∧
      CodeGenerator.new.generatedCode.length < cgc.generatedCode.length ∧
      AgreesOn (emittedAlone countDownWhile).1.generatedCode cgc.generatedCode
        CodeGenerator.new.generatedCode.length (cgc.generatedCode.length - 1) ∧
      BlockAt (.cons (.assignment (simpleId "x")
          (.binary ⟨.identifier (simpleId "x"), "-", .number 1⟩)) .nil) compareCellTable "MAIN"
        (emittedAlone countDownWhile).1.generatedCode bodyStart bodyEnd ∧
      (emittedAlone countDownWhile).1.generatedCode.length = bodyEnd + 1 ∧
      (∃ d : Int, (emittedAlone countDownWhile).1.generatedCode[bodyEnd]? = some ⟨"JUMP", d⟩ ∧
        (bodyEnd : Int) + d = CodeGenerator.new.generatedCode.length) ∧
      (∀ s : VM, s.pc = (bodyEnd : Int) → s.halted = false →
        VM.step (emittedAlone countDownWhile).1.generatedCode s =
          { s with pc := (CodeGenerator.new.generatedCode.length : Int) }) ∧
      ∀ s : VM, s.pc = (cgc.generatedCode.length : Int) - 1 → s.halted = false →
        if comparisonHolds ">" (s.mem 0) then
          VM.step (emittedAlone countDownWhile).1.generatedCode s =
            { s with pc := (bodyStart : Int) }
        else
          VM.step (emittedAlone countDownWhile).1.generatedCode s =
            { s with pc := ((bodyEnd + 1 : Nat) : Int) } ∨
          VM.steps (emittedAlone countDownWhile).1.generatedCode 2 s =
            { s with pc := ((bodyEnd + 1 : Nat) : Int) } :=
  while_branch_and_back_jump ⟨.identifier (simpleId "x"), ">", .number 0⟩
    (.cons (.assignment (simpleId "x")
      (.binary ⟨.identifier (simpleId "x"), "-", .number 1⟩)) .nil)
    CodeGenerator.new compareCellTable "MAIN" (emittedAlone countDownWhile).1
    (emittedAlone countDownWhile).2 (emittedAlone countDownWhile).1.generatedCode rfl
    (NoLabels.labelsOK (NoLabels.of_all (by decide!)) _) (by decide) (by decide!)
    (fun _ _ _ => rfl)
/-! ## Runs of compiled programs: conditions, array cells, literals -/

set_option maxRecDepth 100000 in
/-- C21 on `x > t[i]` with `x = 3`, `i = 0`, `t[0] = 5` (cells 11, 12, 13;
every other cell 0): the code of the condition stores the left value in cell 6,
loads the right operand and subtracts indirectly through cell 6, so at the
branch the accumulator holds `t[i]` minus the content of the cell whose address
is the value of `x`, here 5 - 0 = 5, while `x - t[i]` is -2. The compiled
program `IF x > t[i] THEN WRITE 1 ELSE WRITE 0` writes 1. -/
theorem condition_indexed_right_operand :
    (ConditionNode.generateCode ⟨.identifier (simpleId "x"), ">", .identifier (cellBy "t" "i")⟩
        CodeGenerator.new compareCellTable "MAIN").toOption.map (fun cg => cg.generatedCode)
      = some [⟨"LOAD", 11⟩, ⟨"STORE", 6⟩, ⟨"SET", 13⟩, ⟨"ADD", 12⟩, ⟨"LOADI", 0⟩, ⟨"SUBI", 6⟩,
          ⟨"JPOS", 1⟩] ∧
    (VM.steps [⟨"LOAD", 11⟩, ⟨"STORE", 6⟩, ⟨"SET", 13⟩, ⟨"ADD", 12⟩, ⟨"LOADI", 0⟩, ⟨"SUBI", 6⟩,
        ⟨"JPOS", 1⟩] 6
      ⟨0, fun x => if x = 11 then 3 else if x = 13 then 5 else 0, [], [], false⟩).pc = 6 ∧
    (VM.steps [⟨"LOAD", 11⟩, ⟨"STORE", 6⟩, ⟨"SET", 13⟩, ⟨"ADD", 12⟩, ⟨"LOADI", 0⟩, ⟨"SUBI", 6⟩,
        ⟨"JPOS", 1⟩] 6
      ⟨0, fun x => if x = 11 then 3 else if x = 13 then 5 else 0, [], [], false⟩).mem 0 = 5 ∧
    runProgram compareCellProgram [] 30 = some [1] := by
  refine ⟨by decide!, by decide!, by decide!, by decide!⟩

set_option maxRecDepth 100000 in
/-- C24 on `t[5:7]` (cells 12 to 14) and `i = 5` (cell 11): the code of
`t[i] := 9` computes the address as `SET 12; ADD 11`, the base cell plus the
index without the lower bound, and stores 9 into cell 17, while the code of a
read of `t[i]` computes `SET 7; ADD 11` and loads cell 12. The compiled program
`i := 5; t[i] := 9; WRITE t[5]; WRITE t[i]` writes 0 and 0. -/
theorem indexed_store_ignores_lower_bound :
    (Command.generateCode (.assignment (cellBy "t" "i") (.value (.number 9)))
        CodeGenerator.new storeCellTable "MAIN").toOption.map (fun r => r.1.generatedCode)
      = some [⟨"SET", 12⟩, ⟨"ADD", 11⟩, ⟨"STORE", 8⟩, ⟨"SET", 9⟩, ⟨"STOREI", 8⟩] ∧
    (IdentifierNode.loadCode (cellBy "t" "i") storeCellTable "MAIN").toOption
      = some [⟨"SET", 7⟩, ⟨"ADD", 11⟩, ⟨"LOADI", 0⟩] ∧
    (VM.steps [⟨"SET", 12⟩, ⟨"ADD", 11⟩, ⟨"STORE", 8⟩, ⟨"SET", 9⟩, ⟨"STOREI", 8⟩] 5
      ⟨0, fun x => if x = 11 then 5 else 0, [], [], false⟩).mem 17 = 9 ∧
    (VM.steps [⟨"SET", 12⟩, ⟨"ADD", 11⟩, ⟨"STORE", 8⟩, ⟨"SET", 9⟩, ⟨"STOREI", 8⟩] 5
      ⟨0, fun x => if x = 11 then 5 else 0, [], [], false⟩).mem 12 = 0 ∧
    runProgram storeCellProgram [] 30 = some [0, 0] := by
  refine ⟨by decide!, by decide!, by decide!, by decide!, by decide!⟩

set_option maxRecDepth 100000 in
/-- C25. For `READ t[i]` on a non-argument array the emitted code loads the
value of `t[i]` (`LOADI 0`) and uses it as the address of the store: the program
`i := 1; READ t[i]; WRITE t[1]` on input 7 writes 0. For `READ t[0]` on an
argument array the emitted code is `GET` on the formal's own cell plus the index
(here `GET 12`, the cell holding the address of the actual), while a use of
`t[0]` loads through that cell: the program calling `p(a)` with the body
`READ t[0]` and then writing `a[0]` writes 0 on input 7. -/
theorem read_into_array_cell_misaddressed :
    (Command.generateCode (.read (cellBy "t" "i")) CodeGenerator.new compareCellTable
        "MAIN").toOption.map (fun r => r.1.generatedCode)
      = some [⟨"SET", 13⟩, ⟨"ADD", 12⟩, ⟨"LOADI", 0⟩, ⟨"STORE", 6⟩, ⟨"GET", 0⟩, ⟨"STOREI", 6⟩] ∧
    runProgram readCellProgram [7] 30 = some [0] ∧
    compile readFormalProgram = some [⟨"JUMP", 3⟩, ⟨"GET", 12⟩, ⟨"RTRN", 11⟩, ⟨"SET", 13⟩,
      ⟨"STORE", 12⟩, ⟨"SET", 8⟩, ⟨"STORE", 11⟩, ⟨"JUMP", -6⟩, ⟨"PUT", 13⟩, ⟨"HALT", 0⟩] ∧
    runProgram readFormalProgram [7] 30 = some [0] := by
  refine ⟨by decide!, by decide!, by decide!, by decide!⟩

set_option maxRecDepth 100000 in
/-- C26. For two equal literals the code emitted for `l + l` is `SUB 0`, which
leaves 0 in the accumulator: the test before the fold is `l - r == 0`, the one
of the subtraction. The compiled program `x := 3 + 3; WRITE x` writes 0; with
distinct literals the sum is folded (`3 + 4` writes 7). -/
theorem literal_sum_of_equal_literals :
    (∀ l : Int, arithLitLit "+" l l = .ok [⟨"SUB", 0⟩]) ∧
    (∀ (l : Int) (m : Int → Int) (code : List command), arithLitLit "+" l l = .ok code →
      (VM.steps code 1 ⟨0, m, [], [], false⟩).mem 0 = 0) ∧
    runProgram (foldProgram 3 "+" 3) [] 30 = some [0] ∧
    runProgram (foldProgram 3 "+" 4) [] 30 = some [7] := by
  have h : ∀ l : Int, arithLitLit "+" l l = .ok [⟨"SUB", 0⟩] := by
    intro l
    simp [arithLitLit, wrap64]
  refine ⟨h, ?_, by decide!, by decide!⟩
  intro l m code hc
  rw [h] at hc
  cases hc
  simp [VM.steps, VM.step, VM.execute, setCell]

set_option maxRecDepth 100000 in
/-- C27. For an even literal the emitted code loads the other operand and
doubles it once per halving of the literal down to 1 or -1: `x * 6` is
`LOAD x; ADD 0; ADD 0`, four times `x`, and the sign of the literal is dropped.
The compiled program `READ x; y := x * 6; WRITE y` writes 4 on input 1, with
`6 * x` likewise, and with `x * -2` it writes 2; `x * 4` is right. The
compile-time loop does end for every non-zero literal. -/
theorem even_literal_product_doubles :
    arithIdLit "*" 11 6 false = .ok ([⟨"LOAD", 11⟩, ⟨"ADD", 0⟩, ⟨"ADD", 0⟩], false) ∧
    runProgram (byLiteralProgram "*" 6) [1] 30 = some [4] ∧
    runProgram (literalByProgram 6 "*") [1] 30 = some [4] ∧
    runProgram (byLiteralProgram "*" (-2)) [1] 30 = some [2] ∧
    runProgram (byLiteralProgram "*" 4) [3] 30 = some [12] ∧
    (∀ k : Int, k ≠ 0 → ∃ ds, doublings k.natAbs k = some ds) := by
  refine ⟨by decide!, by decide!, by decide!, by decide!, by decide!, ?_⟩
  intro k hk
  exact doublings_total k.natAbs k hk (Nat.le_succ _)

set_option maxRecDepth 100000 in
/-- C28. With a negative odd literal the sign of the product is wrong: the
compiled program `READ x; y := x * -3; WRITE y` writes -6 on input -2 (the sign
tail of this template ends with `JUMP 2` where the one of `k * x` has
`JUMP 4`), and `READ x; y := -3 * x; WRITE y` writes 6 on input 2 and -6 on
input -2 (the literal is stored with its sign and the sign tail negates again).
With the literal 3 all four runs give the product. -/
theorem odd_literal_product_sign :
    runProgram (byLiteralProgram "*" (-3)) [-2] 100 = some [-6] ∧
    runProgram (literalByProgram (-3) "*") [2] 100 = some [6] ∧
    runProgram (literalByProgram (-3) "*") [-2] 100 = some [-6] ∧
    runProgram (byLiteralProgram "*" 3) [-2] 100 = some [-6] ∧
    runProgram (byLiteralProgram "*" 3) [2] 100 = some [6] ∧
    runProgram (literalByProgram 3 "*") [-2] 100 = some [-6] ∧
    runProgram (literalByProgram 3 "*") [2] 100 = some [6] := by
  refine ⟨by decide!, by decide!, by decide!, by decide!, by decide!, by decide!, by decide!⟩

set_option maxRecDepth 100000 in
/-- C29. For every non-zero literal divisor the code emitted for `l / r` is
`SET` of the truncated quotient: the test that guards the negated form,
`r < 0 && l > 0 && l / r > 0`, never holds. So `7 / -2` and `-7 / 2` give -3,
while the floored quotient is -4. (The one pair of literals set apart is the
least 64-bit integer divided by -1, whose quotient does not fit: there the
division traps and nothing is emitted.) -/
theorem literal_quotient_truncates :
    (∀ l r : Int, r ≠ 0 → ¬ (l = minInt64 ∧ r = -1) →
      arithLitLit "/" l r = .ok [⟨"SET", Int.tdiv l r⟩]) ∧
    Int.tdiv 7 (-2) = -3 ∧ Int.fdiv 7 (-2) = -4 ∧
    Int.tdiv (-7) 2 = -3 ∧ Int.fdiv (-7) 2 = -4 ∧
    runProgram (foldProgram 7 "/" (-2)) [] 30 = some [-3] ∧
    runProgram (foldProgram (-7) "/" 2) [] 30 = some [-3] ∧
    arithLitLit "/" minInt64 (-1) = .error .arithmeticTrap := by
  refine ⟨?_, by decide, by decide, by decide, by decide, by decide!, by decide!, by decide⟩
  intro l r hr htrap
  have hdead : ¬ (r < 0 ∧ l > 0 ∧ Int.tdiv l r > 0) := by
    rintro ⟨h1, h2, h3⟩
    have h4 : Int.tdiv l r ≤ 0 := by
      have h5 : Int.tdiv l (-(-r)) = -(Int.tdiv l (-r)) := Int.tdiv_neg l (-r)
      rw [neg_neg] at h5
      have h6 : 0 ≤ Int.tdiv l (-r) := Int.tdiv_nonneg (by omega) (by omega)
      omega
    omega
  simp [arithLitLit, hr, hdead, htrap]

set_option maxRecDepth 100000 in
/-- C30. With two variable operands and the divisor 0 the emitted code jumps
into the sign tail of the template and leaves what cell 3 held, up to sign:
the compiled program `READ a; READ b; c := a * a; x := a / b; WRITE x` writes
-9 on the input 3, 0 and 9 on the input -3, 0. The other shapes of a division
by zero leave 0. -/
theorem division_by_zero_variable :
    runProgram divideAfterProgram [3, 0] 100 = some [-9] ∧
    runProgram divideAfterProgram [-3, 0] 100 = some [9] ∧
    runProgram (byLiteralProgram "/" 0) [5] 30 = some [0] ∧
    runProgram (literalByProgram 5 "/") [0] 30 = some [0] ∧
    runProgram (foldProgram 5 "/" 0) [] 30 = some [0] := by
  refine ⟨by decide!, by decide!, by decide!, by decide!, by decide!⟩

/-! ## Short forms of the division, the modulus by zero, the constant one, `READ` into an array cell, nested loops -/

set_option maxRecDepth 100000 in
/-- C31. With a literal dividend the short forms are chosen by the value of the
dividend: `1 / x` is `LOAD x`, `2 / x` is `LOAD x; HALF`, `-1 / x` is
`LOAD x; SUB 0; SUB x` and `-2 / x` the same followed by `HALF`, the code that
the branch for a literal divisor emits for `x / 1`, `x / 2`, `x / -1` and
`x / -2`. So the compiled program `READ x; y := 1 / x; WRITE y` writes 5 on
input 5 and `y := 2 / x` writes 2, where the floored quotients are 0. The
general template truncates: `-7 / x` on input 5 writes -1, the floor is -2. -/
theorem literal_dividend_short_forms :
    arithLitId "/" 1 12 false = .ok ([⟨"LOAD", 12⟩], false) ∧
    arithLitId "/" 2 12 false = .ok ([⟨"LOAD", 12⟩, ⟨"HALF", 0⟩], false) ∧
    arithLitId "/" (-1) 12 false = .ok ([⟨"LOAD", 12⟩, ⟨"SUB", 0⟩, ⟨"SUB", 12⟩], false) ∧
    arithLitId "/" (-2) 12 false =
      .ok ([⟨"LOAD", 12⟩, ⟨"SUB", 0⟩, ⟨"SUB", 12⟩, ⟨"HALF", 0⟩], false) ∧
    arithIdLit "/" 12 1 false = .ok ([⟨"LOAD", 12⟩], false) ∧
    arithIdLit "/" 12 2 false = .ok ([⟨"LOAD", 12⟩, ⟨"HALF", 0⟩], false) ∧
    runProgram (literalByProgram 1 "/") [5] 30 = some [5] ∧ Int.fdiv 1 5 = 0 ∧
    runProgram (literalByProgram 2 "/") [5] 30 = some [2] ∧ Int.fdiv 2 5 = 0 ∧
    runProgram (literalByProgram (-1) "/") [5] 30 = some [-5] ∧ Int.fdiv (-1) 5 = -1 ∧
    runProgram (literalByProgram (-7) "/") [5] 200 = some [-1] ∧ Int.fdiv (-7) 5 = -2 ∧
    runProgram (literalByProgram 7 "/") [2] 200 = some [3] := by
  refine ⟨by decide!, by decide!, by decide!, by decide!, by decide!, by decide!, by decide!,
    by decide, by decide!, by decide, by decide!, by decide, by decide!, by decide, by decide!⟩

set_option maxRecDepth 100000 in
/-- C33. In the code of `r := a % b` the test of the divisor is `JZERO 43` at
the second instruction of a template of 43 instructions, and in the code of
`r := 7 % b` it is `JZERO 39` in a template of 39: the target is one past the
end of the template, which is past the `STORE` of the assignment. With `b = 0`
the run goes from the test straight to the instruction after the store, so `r`
keeps its value: the compiled programs `r := 5; r := a % b; WRITE r` on input
7, 0 and `r := 5; r := 7 % b; WRITE r` on input 0 write 5. -/
theorem modulus_by_zero_skips_store :
    (modIdId 11 12).length = 43 ∧ (modIdId 11 12)[1]? = some ⟨"JZERO", 43⟩ ∧
    (modLitId 7 11).length = 39 ∧ (modLitId 7 11)[1]? = some ⟨"JZERO", 39⟩ ∧
    ((compile modZeroProgram).getD [])[5]? = some ⟨"JZERO", 43⟩ ∧
    ((compile modZeroProgram).getD [])[47]? = some ⟨"STORE", 13⟩ ∧
    (VM.steps ((compile modZeroProgram).getD []) 5 (VM.init [7, 0])).pc = 5 ∧
    (VM.steps ((compile modZeroProgram).getD []) 6 (VM.init [7, 0])).pc = 48 ∧
    (VM.steps ((compile modZeroProgram).getD []) 6 (VM.init [7, 0])).mem 13 = 5 ∧
    runProgram modZeroProgram [7, 0] 30 = some [5] ∧
    runProgram modZeroProgram [7, 3] 200 = some [1] ∧
    ((compile literalModZeroProgram).getD [])[4]? = some ⟨"JZERO", 39⟩ ∧
    ((compile literalModZeroProgram).getD [])[42]? = some ⟨"STORE", 12⟩ ∧
    (VM.steps ((compile literalModZeroProgram).getD []) 5 (VM.init [0])).pc = 43 ∧
    runProgram literalModZeroProgram [0] 30 = some [5] := by
  refine ⟨by decide!, by decide!, by decide!, by decide!, by decide!, by decide!, by decide!,
    by decide!, by decide!, by decide!, by decide!, by decide!, by decide!, by decide!,
    by decide!⟩

set_option maxRecDepth 100000 in
/-- C34. In the code of `x := a * b; y := c * d` the first product emits
`SET 1; STORE 10` inside its template and the second emits `LOAD 10`. With
`a = 0` the first template jumps over its `SET 1; STORE 10`, so when the
`LOAD 10` of the second product (address 74) executes, at step 23 of the run on
input 0, 3, 4, 5, cell 10 holds 0; the program then writes 8 and not 20. With
`a = 2`, `b = 3` it writes 20. -/
theorem constant_one_skipped_at_run_time :
    ((compile twoProductsProgram).getD [])[74]? = some ⟨"LOAD", 10⟩ ∧
    (twoProductsRun [0, 3, 4, 5] 23).pc = 74 ∧
    (twoProductsRun [0, 3, 4, 5] 23).halted = false ∧
    (twoProductsRun [0, 3, 4, 5] 23).mem 10 = 0 ∧
    runProgram twoProductsProgram [0, 3, 4, 5] 100 = some [8] ∧
    runProgram twoProductsProgram [2, 0, 4, 5] 100 = some [8] ∧
    runProgram twoProductsProgram [2, 3, 4, 5] 200 = some [20] := by
  refine ⟨by decide!, by decide!, by decide!, by decide!, by decide!, by decide!, by decide!⟩

set_option maxRecDepth 100000 in
/-- C39. On the table of the declarations `x, t[0:2]` the semantic pass of
`READ t[1]` returns, leaves the initialisation entry of index 1 at `false`, and
sets the recorded address of index 1 to 1 (it was 13): the assignment in
`ReadNode::traverseAndAnalyze` goes to `memoryPositions[index]`. The semantic
pass of the program `READ t[1]; x := t[1] + 1; WRITE x` throws at the
assignment; that of `READ y; x := y + 1; WRITE x` returns. -/
theorem read_cell_marks_address_map :
    (declaredCellTable.getArray "t" "MAIN").map
        (fun a => (a.memoryPositions, a.isInitialized, a.startIndex, a.endIndex, a.isArgument)) =
      some ([(0, 12), (1, 13), (2, 14)], [(0, false), (1, false), (2, false)], 0, 2, false) ∧
    (readAnalyze (cellAt "t" 1) declaredCellTable "MAIN").returns = true ∧
    ((readAnalyze (cellAt "t" 1) declaredCellTable "MAIN").table.bind
        (fun st => st.getArray "t" "MAIN")).map (fun a => (a.memoryPositions, a.isInitialized)) =
      some ([(0, 12), (1, 1), (2, 14)], [(0, false), (1, false), (2, false)]) ∧
    (readThenUseProgram.traverseAndAnalyze SymbolTable.new).message =
      some "Error: Variable is not initialized in scope MAIN" ∧
    compile readThenUseProgram = none ∧
    (readThenUseSimple.traverseAndAnalyze SymbolTable.new).returns = true := by
  refine ⟨by decide!, by decide!, by decide!, by decide!, by decide!, by decide!⟩

set_option maxRecDepth 100000 in
/-- C40. Every for loop keeps its sentinel in cell 9. In the code of
`FOR i FROM 1 TO 3 DO FOR j FROM 1 TO 1 DO WRITE i; ENDFOR ENDFOR` the header
test of the outer loop (`SUB 9` at address 7) executes at step 7 with 4 in
cell 9 and at step 29 with 2 in cell 9, the sentinel of the inner loop; the
outer body runs once and the program writes 1, where the loop without the inner
one writes 1, 2, 3. -/
theorem nested_for_shares_sentinel :
    ((compile nestedForProgram).getD [])[7]? = some ⟨"SUB", 9⟩ ∧
    (nestedForRun 7).pc = 7 ∧ (nestedForRun 7).mem 9 = 4 ∧ (nestedForRun 7).mem 11 = 1 ∧
    (nestedForRun 29).pc = 7 ∧ (nestedForRun 29).mem 9 = 2 ∧ (nestedForRun 29).mem 11 = 2 ∧
    runProgram nestedForProgram [] 40 = some [1] ∧
    runProgram singleForProgram [] 40 = some [1, 2, 3] := by
  refine ⟨by decide!, by decide!, by decide!, by decide!, by decide!, by decide!, by decide!,
    by decide!, by decide!⟩

/-! ## The code generator: counter, `emit`, `updateCommand` -/

theorem built_wf (cg : CodeGenerator) (h : cg.Built) : cg.WF := by
  induction h with
  | fresh => rfl
  | emitted cg code arg _ ih => exact emit_wf cg code arg ih
  | updated cg line code arg _ ih => exact updateCommand_wf cg line code arg ih

/-- C36. For every code generator built by `emit` and `updateCommand` calls from
the constructor, `getCurrentLine` is the number of stored instructions.
`emit(op, arg)` appends `(op, arg)` behind the stored instructions, which keep
their place, and adds one to the line counter. `updateCommand(line, op, arg)`
with `line` below the instruction count replaces the instruction at index
`line`, leaves every other instruction and the counter as they are, and with
`line` at or above the count (or negative, which the unsigned parameter turns
into a value above it) leaves the code generator as it is. -/
theorem built_counter_and_updates (cg : CodeGenerator) (h : cg.Built) :
    cg.getCurrentLine = (cg.generatedCode.length : Int) ∧
    (∀ (code : String) (arg : Int),
      (cg.emit code arg).generatedCode = cg.generatedCode ++ [⟨code, arg⟩] ∧
      (cg.emit code arg).getCurrentLine = cg.getCurrentLine + 1) ∧
    (∀ (line : Nat) (code : String) (arg : Int), line < cg.generatedCode.length →
      (cg.updateCommand (line : Int) code arg).generatedCode =
        cg.generatedCode.set line ⟨code, arg⟩ ∧
      (cg.updateCommand (line : Int) code arg).generatedCode[line]? = some ⟨code, arg⟩ ∧
      (∀ i : Nat, i ≠ line →
        (cg.updateCommand (line : Int) code arg).generatedCode[i]? = cg.generatedCode[i]?) ∧
      (cg.updateCommand (line : Int) code arg).generatedCode.length =
        cg.generatedCode.length ∧
      (cg.updateCommand (line : Int) code arg).getCurrentLine = cg.getCurrentLine) ∧
    (∀ (line : Int) (code : String) (arg : Int),
      line < 0 ∨ (cg.generatedCode.length : Int) ≤ line →
      cg.updateCommand line code arg = cg) := by
  refine ⟨getCurrentLine_of_wf cg (built_wf cg h), fun code arg => ⟨rfl, ?_⟩, ?_, ?_⟩
  · unfold CodeGenerator.getCurrentLine
    simp
  · intro line code arg hlt
    have hne : ¬ ((line : Int) < 0 ∨ (line : Int) ≥ cg.generatedCode.length) := by omega
    refine ⟨?_, ?_, ?_, updateCommand_length _ _ _ _, getCurrentLine_updateCommand _ _ _ _⟩
    · unfold CodeGenerator.updateCommand
      rw [if_neg hne]
      simp
    · rw [updateCommand_getElem?, if_pos ⟨rfl, hlt⟩]
    · intro i hi
      rw [updateCommand_getElem?, if_neg (fun hh => hi (by omega))]
  · intro line code arg hout
    unfold CodeGenerator.updateCommand
    rw [if_pos (by omega)]

/-- C36 on the code generator built by `emit("SET", 1)`, `emit("JUMP", 0)` and
`updateCommand(1, "JUMP", 5)`: the counter is 2, the number of instructions. -/
theorem built_counter_and_updates_witness :
    (((CodeGenerator.new.emit "SET" 1).emit "JUMP" 0).updateCommand 1 "JUMP" 5).getCurrentLine =
      ((((CodeGenerator.new.emit "SET" 1).emit "JUMP" 0).updateCommand 1 "JUMP"
        5).generatedCode.length : Int) :=
  (built_counter_and_updates _
    (.updated _ 1 "JUMP" 5 (.emitted _ "JUMP" 0 (.emitted _ "SET" 1 .fresh)))).1

/-! ## Serialisation -/

theorem foldl_writeCommand (code : List command) :
    ∀ out : String, code.foldl writeCommand out = out ++ serialized code := by
  induction code with
  | nil => intro out; simp [serialized]
  | cons c rest ih =>
    intro out
    rw [List.foldl_cons, ih]
    have hw : writeCommand out c = out ++ c.line := by
      unfold writeCommand command.line
      by_cases h : c.code = "HALT" ∨ c.code = "HALF"
      · rw [if_pos h, if_pos h, String.append_assoc]
      · rw [if_neg h, if_neg h]
        simp only [String.append_assoc]
    rw [hw, serialized, String.append_assoc]

theorem ite_ne_newline (p : Prop) [Decidable p] (a b : Char) (ha : a ≠ '\n') (hb : b ≠ '\n') :
    (if p then a else b) ≠ '\n' := by
  by_cases h : p
  · rw [if_pos h]; exact ha
  · rw [if_neg h]; exact hb

theorem digitChar_ne_newline (d : Nat) : Nat.digitChar d ≠ '\n' := by
  unfold Nat.digitChar
  repeat (apply ite_ne_newline _ _ _ (by decide))
  decide

theorem toDigitsCore_no_newline (f : Nat) :
    ∀ (n : Nat) (ds : List Char), (∀ c ∈ ds, c ≠ '\n') →
      ∀ c ∈ Nat.toDigitsCore 10 f n ds, c ≠ '\n' := by
  induction f with
  | zero => intro n ds h; simpa [Nat.toDigitsCore] using h
  | succ f ih =>
    intro n ds h
    simp only [Nat.toDigitsCore]
    split
    · intro c hc
      rcases List.mem_cons.mp hc with rfl | hc
      · exact digitChar_ne_newline _
      · exact h c hc
    · apply ih
      intro c hc
      rcases List.mem_cons.mp hc with rfl | hc
      · exact digitChar_ne_newline _
      · exact h c hc

theorem nat_repr_no_newline (n : Nat) : ∀ c ∈ (Nat.repr n).data, c ≠ '\n' := by
  unfold Nat.repr Nat.toDigits
  simp only [List.asString]
  exact toDigitsCore_no_newline _ _ _ (fun c hc => by cases hc)

theorem int_toString_no_newline (n : Int) : ∀ c ∈ (toString n).data, c ≠ '\n' := by
  cases n with
  | ofNat m => exact nat_repr_no_newline m
  | negSucc m =>
    intro c hc
    have : toString (Int.negSucc m) = "-" ++ Nat.repr (m + 1) := rfl
    rw [this] at hc
    simp only [String.data_append, List.mem_append] at hc
    rcases hc with hc | hc
    · simp at hc
      subst hc
      decide
    · exact nat_repr_no_newline _ c hc

theorem newlines_append (a b : String) : newlines (a ++ b) = newlines a + newlines b := by
  unfold newlines
  rw [String.data_append, List.count_append]

theorem newlines_of_none (s : String) (h : ∀ c ∈ s.data, c ≠ '\n') : newlines s = 0 := by
  unfold newlines
  rw [List.count_eq_zero]
  intro hm
  exact h _ hm rfl

theorem newlines_line (c : command) (h : ∀ x ∈ c.code.data, x ≠ '\n') :
    newlines c.line = 1 := by
  unfold command.line
  rw [newlines_append]
  have h1 : newlines "\n" = 1 := by decide
  rw [h1]
  by_cases hc : c.code = "HALT" ∨ c.code = "HALF"
  · rw [if_pos hc, newlines_of_none _ h]
  · rw [if_neg hc, newlines_append, newlines_append, newlines_of_none _ h,
      newlines_of_none _ (int_toString_no_newline c.arg)]
    have h2 : newlines " " = 0 := by decide
    rw [h2]

/-- C37. For every instruction sequence, what `saveToFile` writes to the opened
file, and what `print` writes to the standard output, is the concatenation in
order of one line per instruction, where the line of an instruction is the
bare opcode for `HALT` and `HALF`, and the opcode, one space and the decimal
form of the argument for any other opcode, followed by a newline; when the file
cannot be opened nothing is written. When no opcode contains a newline, the
output has as many newlines as there are instructions. -/
theorem serialised_one_line_per_instruction (cg : CodeGenerator)
    (hops : ∀ c ∈ cg.generatedCode, ∀ x ∈ c.code.data, x ≠ '\n') :
    cg.saveToFile true = some (serialized cg.generatedCode) ∧
    cg.saveToFile false = none ∧
    cg.printed = serialized cg.generatedCode ∧
    (∀ (c : command) (rest : List command), serialized (c :: rest) = c.line ++ serialized rest) ∧
    (∀ c : command, c.code = "HALT" ∨ c.code = "HALF" → c.line = c.code ++ "\n") ∧
    (∀ c : command, ¬ (c.code = "HALT" ∨ c.code = "HALF") →
      c.line = c.code ++ " " ++ toString c.arg ++ "\n") ∧
    newlines (serialized cg.generatedCode) = cg.generatedCode.length := by
  have hf : cg.generatedCode.foldl writeCommand "" = serialized cg.generatedCode := by
    rw [foldl_writeCommand]
    simp
  refine ⟨?_, rfl, hf, fun _ _ => rfl, ?_, ?_, ?_⟩
  · unfold CodeGenerator.saveToFile
    rw [hf]
    rfl
  · intro c hc
    unfold command.line
    rw [if_pos hc]
  · intro c hc
    unfold command.line
    rw [if_neg hc]
  · generalize cg.generatedCode = code at hops
    induction code with
    | nil => rfl
    | cons c rest ih =>
      rw [serialized, newlines_append, newlines_line c (hops c (List.mem_cons_self _ _)),
        ih (fun d hd => hops d (List.mem_cons_of_mem _ hd)), List.length_cons]
      omega

/-- C37 on the instructions `SET -5; HALF; HALT`: the file holds
`SET -5`, `HALF` and `HALT` on three lines. -/
theorem serialised_one_line_per_instruction_witness :
    CodeGenerator.saveToFile ⟨[⟨"SET", -5⟩, ⟨"HALF", 0⟩, ⟨"HALT", 0⟩], 3, 0⟩ true =
      some (serialized [⟨"SET", -5⟩, ⟨"HALF", 0⟩, ⟨"HALT", 0⟩]) ∧
    serialized [⟨"SET", -5⟩, ⟨"HALF", 0⟩, ⟨"HALT", 0⟩] = "SET -5\nHALF\nHALT\n" ∧
    newlines (serialized [⟨"SET", -5⟩, ⟨"HALF", 0⟩, ⟨"HALT", 0⟩]) = 3 :=
  ⟨(serialised_one_line_per_instruction ⟨[⟨"SET", -5⟩, ⟨"HALF", 0⟩, ⟨"HALT", 0⟩], 3, 0⟩
      (by decide)).1,
    by decide,
    (serialised_one_line_per_instruction ⟨[⟨"SET", -5⟩, ⟨"HALF", 0⟩, ⟨"HALT", 0⟩], 3, 0⟩
      (by decide)).2.2.2.2.2.2⟩

/-! ## The remainder of two literals -/

theorem succ_mod_cases (m k : Nat) (hk : 0 < k) :
    ((m + 1) % k = 0 ∧ m % k + 1 = k) ∨ ((m + 1) % k = m % k + 1 ∧ m % k + 1 < k) := by
  have hlt := Nat.mod_lt m hk
  have hd := Nat.mod_add_div m k
  by_cases h : m % k + 1 = k
  · left
    refine ⟨?_, h⟩
    have e : m + 1 = k * (m / k + 1) := by
      rw [Nat.mul_add, Nat.mul_one]
      omega
    rw [e]
    exact Nat.mul_mod_right _ _
  · right
    have h2 : m % k + 1 < k := by omega
    refine ⟨?_, h2⟩
    have e : m + 1 = (m % k + 1) + k * (m / k) := by omega
    rw [e, Nat.add_mul_mod_self_left]
    exact Nat.mod_eq_of_lt h2

/-- The floored remainder from the truncating one: `r` is added when the
truncating remainder is not zero and its sign is not that of `r`. -/
theorem decide_ne_left (p q : Prop) [Decidable p] [Decidable q] (hp : p) (hq : ¬ q) :
    decide p ≠ decide q := by
  simp [hp, hq]

theorem decide_ne_right (p q : Prop) [Decidable p] [Decidable q] (hp : ¬ p) (hq : q) :
    decide p ≠ decide q := by
  simp [hp, hq]

theorem decide_same_true (p q : Prop) [Decidable p] [Decidable q] (hp : p) (hq : q) :
    ¬ (decide p ≠ decide q) := by
  simp [hp, hq]

theorem decide_same_false (p q : Prop) [Decidable p] [Decidable q] (hp : ¬ p) (hq : ¬ q) :
    ¬ (decide p ≠ decide q) := by
  simp [hp, hq]

theorem fmod_of_tmod (l r : Int) (hr : r ≠ 0) :
    Int.fmod l r =
      if Int.tmod l r ≠ 0 ∧ (decide (r < 0) ≠ decide (Int.tmod l r < 0)) then Int.tmod l r + r
      else Int.tmod l r := by
  rcases l with m | m <;> rcases r with n | n
  · have hf : Int.fmod (Int.ofNat m) (Int.ofNat n) = ((m % n : Nat) : Int) :=
      (Int.ofNat_fmod m n).symm
    have ht : Int.tmod (Int.ofNat m) (Int.ofNat n) = ((m % n : Nat) : Int) := rfl
    rw [hf, ht]
    generalize m % n = a
    have h1 : ¬ (Int.ofNat n < 0) := by
      have : (0 : Int) ≤ Int.ofNat n := Int.ofNat_nonneg n
      omega
    have h2 : ¬ ((a : Int) < 0) := by omega
    rw [if_neg (fun h => decide_same_false _ _ h1 h2 h.2)]
  · have ht : Int.tmod (Int.ofNat m) (Int.negSucc n) = ((m % (n + 1) : Nat) : Int) := rfl
    have hneg : Int.negSucc n < 0 := Int.negSucc_lt_zero n
    have hr2 : Int.negSucc n = -((n : Int) + 1) := Int.negSucc_eq n
    rw [ht]
    cases m with
    | zero =>
      have hf : Int.fmod (Int.ofNat 0) (Int.negSucc n) = 0 := rfl
      rw [hf, Nat.zero_mod, if_neg (fun h => h.1 rfl)]
      rfl
    | succ k =>
      have hf : Int.fmod (Int.ofNat (k + 1)) (Int.negSucc n) =
          Int.subNatNat (k % (n + 1)) n := rfl
      rw [hf, Int.subNatNat_eq_coe]
      rcases succ_mod_cases k (n + 1) (Nat.succ_pos n) with ⟨h1, h2⟩ | ⟨h1, h2⟩
      · rw [h1, if_neg (fun h => h.1 rfl)]
        generalize k % (n + 1) = a at h2
        omega
      · rw [h1]
        generalize k % (n + 1) = a at h2
        have h3 : ¬ (((a + 1 : Nat) : Int) < 0) := by omega
        have h4 : ((a + 1 : Nat) : Int) ≠ 0 := by omega
        rw [if_pos ⟨h4, decide_ne_left _ _ hneg h3⟩, hr2]
        omega
  · have ht : Int.tmod (Int.negSucc m) (Int.ofNat n) = -(((m + 1) % n : Nat) : Int) := rfl
    have hf : Int.fmod (Int.negSucc m) (Int.ofNat n) = Int.subNatNat n (m % n + 1) := rfl
    have hn : 0 < n := by
      rcases Nat.eq_zero_or_pos n with h | h
      · subst h
        exact absurd rfl hr
      · exact h
    have hpos : ¬ (Int.ofNat n < 0) := by
      have : (0 : Int) ≤ Int.ofNat n := Int.ofNat_nonneg n
      omega
    have hcoe : Int.ofNat n = (n : Int) := rfl
    rw [hf, ht, Int.subNatNat_eq_coe]
    rcases succ_mod_cases m n hn with ⟨h1, h2⟩ | ⟨h1, h2⟩
    · rw [h1, if_neg (fun h => h.1 rfl)]
      generalize m % n = a at h2
      omega
    · rw [h1]
      generalize m % n = a at h2
      have h3 : -(((a + 1 : Nat)) : Int) < 0 := by omega
      have h4 : -(((a + 1 : Nat)) : Int) ≠ 0 := by omega
      rw [if_pos ⟨h4, decide_ne_right _ _ hpos h3⟩, hcoe]
      omega
  · have ht : Int.tmod (Int.negSucc m) (Int.negSucc n) = -(((m + 1) % (n + 1) : Nat) : Int) :=
      rfl
    have hf : Int.fmod (Int.negSucc m) (Int.negSucc n) = -(((m + 1) % (n + 1) : Nat) : Int) :=
      rfl
    have hneg : Int.negSucc n < 0 := Int.negSucc_lt_zero n
    rw [hf, ht]
    generalize (m + 1) % (n + 1) = a
    rw [if_neg]
    rintro ⟨h1, h2⟩
    have h3 : -((a : Nat) : Int) < 0 := by omega
    exact decide_same_true _ _ hneg h3 h2

theorem fmod_sign (l r : Int) (hr : r < 0) : r < Int.fmod l r ∧ Int.fmod l r ≤ 0 := by
  have hne : r ≠ 0 := by omega
  rw [fmod_of_tmod l r hne]
  have h1 : Int.tmod l (-r) < -r := Int.tmod_lt_of_pos l (by omega)
  rw [Int.tmod_neg] at h1
  have h2 : Int.tmod (-l) (-r) < -r := Int.tmod_lt_of_pos (-l) (by omega)
  have e : Int.tmod (-l) r = -(Int.tmod l r) := by
    rw [Int.tmod_def, Int.tmod_def, Int.neg_tdiv]
    ring
  rw [Int.tmod_neg, e] at h2
  by_cases hc : Int.tmod l r ≠ 0 ∧ (decide (r < 0) ≠ decide (Int.tmod l r < 0))
  · rw [if_pos hc]
    have h3 : ¬ Int.tmod l r < 0 := fun h => decide_same_true _ _ hr h hc.2
    omega
  · rw [if_neg hc]
    by_cases h0 : Int.tmod l r = 0
    · omega
    · have h3 : Int.tmod l r < 0 := by
        by_contra h
        exact hc ⟨h0, decide_ne_left _ _ hr h⟩
      omega

set_option maxRecDepth 100000 in
/-- C32. With the least 64-bit integer as dividend and `-1` as divisor the
literal-literal branch computes `leftValue % rightValue`, the division traps and
nothing is emitted: the program `x := -9223372036854775808 % -1; WRITE x`
passes the semantic pass and is not compiled. The branch for an identifier
dividend emits `SUB 0` for the divisor `-1` without dividing. For every other
pair of literals `l`, `r` the code emitted for `l % r` is one instruction,
`SUB 0` when `r = 0` and otherwise `SET` of the truncating remainder, to which
`r` is added when that remainder is not zero and its sign is not that of `r`;
its run ends at the end of the code with 0 in the accumulator when `r = 0` and
with the floored remainder `l - r * floor(l / r)` otherwise, which is zero or
has the sign of `r`. -/
theorem literal_remainder_least_by_minus_one :
    arithLitLit "%" minInt64 (-1) = .error .arithmeticTrap ∧
    ((foldProgram minInt64 "%" (-1)).traverseAndAnalyze SymbolTable.new).returns = true ∧
    compile (foldProgram minInt64 "%" (-1)) = none ∧
    arithIdLit "%" 11 (-1) false = .ok ([⟨"SUB", 0⟩], false) ∧
    (compile (foldProgram minInt64 "%" (-2))).isSome = true ∧
    (∀ (l r : Int) (m : Int → Int) (inp out : List Int), ¬ (l = minInt64 ∧ r = -1) →
      ∃ code, arithLitLit "%" l r = .ok code ∧
        code =
          (if r = 0 then [⟨"SUB", 0⟩]
           else if Int.tmod l r ≠ 0 ∧ (decide (r < 0) ≠ decide (Int.tmod l r < 0)) then
             [⟨"SET", Int.tmod l r + r⟩]
           else [⟨"SET", Int.tmod l r⟩]) ∧
        (VM.steps code 1 ⟨0, m, inp, out, false⟩).pc = code.length ∧
        (VM.steps code 1 ⟨0, m, inp, out, false⟩).mem 0 =
          (if r = 0 then 0 else l - r * Int.fdiv l r) ∧
        (r ≠ 0 → l - r * Int.fdiv l r = 0 ∨ (0 < l - r * Int.fdiv l r ∧ 0 < r) ∨
          (l - r * Int.fdiv l r < 0 ∧ r < 0))) := by
  refine ⟨by decide, by decide!, by decide!, by decide!, by decide!, ?_⟩
  intro l r m inp out htrap
  have hcode : arithLitLit "%" l r = .ok
      (if r = 0 then [⟨"SUB", 0⟩]
       else if Int.tmod l r ≠ 0 ∧ (decide (r < 0) ≠ decide (Int.tmod l r < 0)) then
         [⟨"SET", Int.tmod l r + r⟩]
       else [⟨"SET", Int.tmod l r⟩]) := by
    by_cases hr : r = 0
    · simp [arithLitLit, hr]
    · by_cases hc : Int.tmod l r ≠ 0 ∧ (decide (r < 0) ≠ decide (Int.tmod l r < 0))
      · rw [if_neg hr, if_pos hc]
        unfold arithLitLit
        simp only [if_neg hr, if_neg htrap, if_pos hc]
        simp
      · rw [if_neg hr, if_neg hc]
        unfold arithLitLit
        simp only [if_neg hr, if_neg htrap, if_neg hc]
        simp
  refine ⟨_, hcode, rfl, ?_, ?_, ?_⟩
  · by_cases hr : r = 0
    · rw [if_pos hr]
      simp [VM.steps, VM.step, VM.execute]
    · rw [if_neg hr]
      by_cases hc : Int.tmod l r ≠ 0 ∧ (decide (r < 0) ≠ decide (Int.tmod l r < 0))
      · rw [if_pos hc]
        simp [VM.steps, VM.step, VM.execute]
      · rw [if_neg hc]
        simp [VM.steps, VM.step, VM.execute]
  · by_cases hr : r = 0
    · rw [if_pos hr, if_pos hr]
      simp [VM.steps, VM.step, VM.execute]
    · rw [if_neg hr, if_neg hr, ← Int.fmod_def, fmod_of_tmod l r hr]
      by_cases hc : Int.tmod l r ≠ 0 ∧ (decide (r < 0) ≠ decide (Int.tmod l r < 0))
      · rw [if_pos hc, if_pos hc]
        simp [VM.steps, VM.step, VM.execute]
      · rw [if_neg hc, if_neg hc]
        simp [VM.steps, VM.step, VM.execute]
  · intro hr
    rw [← Int.fmod_def]
    rcases lt_or_gt_of_ne hr with hneg | hpos
    · have h1 := fmod_sign l r hneg
      omega
    · have h1 := Int.fmod_nonneg' l hpos
      have h2 := Int.fmod_lt_of_pos l hpos
      omega

/-! ## Identifier divided by identifier, positive operands -/

theorem divIdId_length (l r : Int) (flag : Bool) :
    ((divIdId l r flag).length : Int) = 64 + oneOf flag := by
  cases flag <;> simp [divIdId, divLoop, oneOf]

theorem divIdId_prefix (l r : Int) (flag : Bool) (hl : 11 ≤ l) (hr : 11 ≤ r) (s : VM)
    (hpc : s.pc = 0) (hh : s.halted = false) (ha : 0 < s.mem l) (hb : 0 < s.mem r)
    (h10 : flag = true → s.mem 10 = 1) :
    ∃ n, (VM.steps (divIdId l r flag) n s).pc = 17 + oneOf flag ∧
      (VM.steps (divIdId l r flag) n s).halted = false ∧
      (VM.steps (divIdId l r flag) n s).input = s.input ∧
      (VM.steps (divIdId l r flag) n s).output = s.output ∧
      (VM.steps (divIdId l r flag) n s).mem 1 = s.mem r ∧
      (VM.steps (divIdId l r flag) n s).mem 2 = 1 ∧
      (VM.steps (divIdId l r flag) n s).mem 3 = 0 ∧
      (VM.steps (divIdId l r flag) n s).mem 4 = s.mem l ∧
      (VM.steps (divIdId l r flag) n s).mem 5 = s.mem r ∧
      ∀ x, 11 ≤ x → (VM.steps (divIdId l r flag) n s).mem x = s.mem x := by
  obtain ⟨pc, m, i, o, h⟩ := s
  simp only at hpc hh ha hb h10
  subst hpc hh
  have l0 : l ≠ 0 := by omega
  have l1 : l ≠ 1 := by omega
  have l5 : l ≠ 5 := by omega
  have r0 : r ≠ 0 := by omega
  have hb0 : m r ≠ 0 := by omega
  have ha0 : m l ≠ 0 := by omega
  have hx : ∀ x : Int, 11 ≤ x → x ≠ 0 ∧ x ≠ 1 ∧ x ≠ 2 ∧ x ≠ 3 ∧ x ≠ 4 ∧ x ≠ 5 ∧ x ≠ 10 := by
    intro x h11
    omega
  cases flag
  · refine ⟨14, ?_⟩
    simp [divIdId, divLoop, oneOf, VM.steps, VM.step, VM.execute, ha, hb, ha0, hb0,
      l0, l1, l5, r0]
    exact fun x h11 => by simp [hx x h11]
  · have h10b : m 10 = 1 := h10 rfl
    refine ⟨13, ?_⟩
    simp [divIdId, divLoop, oneOf, VM.steps, VM.step, VM.execute, ha, hb, ha0, hb0,
      l0, l1, l5, r0, h10b]
    exact fun x h11 => by simp [hx x h11]

theorem divIdId_double_exit (l r : Int) (flag : Bool) (s : VM)
    (hpc : s.pc = 17 + oneOf flag) (hh : s.halted = false) (hlt : s.mem 4 < s.mem 1) :
    ∃ n, (VM.steps (divIdId l r flag) n s).pc = 27 + oneOf flag ∧
      (VM.steps (divIdId l r flag) n s).halted = false ∧
      (VM.steps (divIdId l r flag) n s).input = s.input ∧
      (VM.steps (divIdId l r flag) n s).output = s.output ∧
      ∀ x, 1 ≤ x → (VM.steps (divIdId l r flag) n s).mem x = s.mem x := by
  obtain ⟨pc, m, i, o, h⟩ := s
  simp only at hpc hh hlt
  subst hpc hh
  have h1 : m 4 - m 1 < 0 := by omega
  refine ⟨3, ?_⟩
  cases flag <;>
    simp [divIdId, divLoop, oneOf, VM.steps, VM.step, VM.execute, h1] <;>
    exact fun x hx => by
      have e0 : x ≠ 0 := by omega
      simp [e0]

theorem divIdId_double_body (l r : Int) (flag : Bool) (s : VM)
    (hpc : s.pc = 17 + oneOf flag) (hh : s.halted = false) (hge : s.mem 1 ≤ s.mem 4) :
    ∃ n, (VM.steps (divIdId l r flag) n s).pc = 17 + oneOf flag ∧
      (VM.steps (divIdId l r flag) n s).halted = false ∧
      (VM.steps (divIdId l r flag) n s).input = s.input ∧
      (VM.steps (divIdId l r flag) n s).output = s.output ∧
      (VM.steps (divIdId l r flag) n s).mem 1 = s.mem 1 * 2 ∧
      (VM.steps (divIdId l r flag) n s).mem 2 = s.mem 2 * 2 ∧
      ∀ x, 3 ≤ x → (VM.steps (divIdId l r flag) n s).mem x = s.mem x := by
  obtain ⟨pc, m, i, o, h⟩ := s
  simp only at hpc hh hge
  subst hpc hh
  have h1 : ¬ m 4 - m 1 < 0 := by omega
  refine ⟨10, ?_⟩
  cases flag <;>
    simp [divIdId, divLoop, oneOf, VM.steps, VM.step, VM.execute, h1] <;>
    refine ⟨by ring, by ring, fun x hx => ?_⟩ <;>
    · have e0 : x ≠ 0 := by omega
      have e1 : x ≠ 1 := by omega
      have e2 : x ≠ 2 := by omega
      simp [e0, e1, e2]

theorem divIdId_double_loop (l r : Int) (flag : Bool) :
    ∀ (d : Nat) (s : VM), s.pc = 17 + oneOf flag → s.halted = false → 0 < s.mem 1 →
      s.mem 4 - s.mem 1 < d →
      ∃ n k, (VM.steps (divIdId l r flag) n s).pc = 27 + oneOf flag ∧
        (VM.steps (divIdId l r flag) n s).halted = false ∧
        (VM.steps (divIdId l r flag) n s).input = s.input ∧
        (VM.steps (divIdId l r flag) n s).output = s.output ∧
        (VM.steps (divIdId l r flag) n s).mem 1 = s.mem 1 * 2 ^ k ∧
        (VM.steps (divIdId l r flag) n s).mem 2 = s.mem 2 * 2 ^ k ∧
        s.mem 4 < s.mem 1 * 2 ^ k ∧
        ∀ x, 3 ≤ x → (VM.steps (divIdId l r flag) n s).mem x = s.mem x := by
  intro d
  induction d with
  | zero =>
    intro s hpc hh h1 hd
    obtain ⟨n, a1, a2, a3, a4, a5⟩ := divIdId_double_exit l r flag s hpc hh (by omega)
    exact ⟨n, 0, a1, a2, a3, a4, by rw [a5 1 (by omega)]; simp,
      by rw [a5 2 (by omega)]; simp, by simp; omega, fun x hx => a5 x (by omega)⟩
  | succ d ih =>
    intro s hpc hh h1 hd
    by_cases hlt : s.mem 4 < s.mem 1
    · obtain ⟨n, a1, a2, a3, a4, a5⟩ := divIdId_double_exit l r flag s hpc hh hlt
      exact ⟨n, 0, a1, a2, a3, a4, by rw [a5 1 (by omega)]; simp,
        by rw [a5 2 (by omega)]; simp, by simp; omega, fun x hx => a5 x (by omega)⟩
    · obtain ⟨n1, b1, b2, b3, b4, b5, b6, b7⟩ :=
        divIdId_double_body l r flag s hpc hh (by omega)
      obtain ⟨n2, k, c1, c2, c3, c4, c5, c6, c7, c8⟩ :=
        ih (VM.steps (divIdId l r flag) n1 s) b1 b2 (by rw [b5]; omega)
          (by rw [b5, b7 4 (by omega)]; push_cast at hd ⊢; omega)
      refine ⟨n1 + n2, k + 1, ?_⟩
      rw [VM.steps_add]
      refine ⟨c1, c2, c3.trans b3, c4.trans b4, ?_, ?_, ?_, ?_⟩
      · rw [c5, b5, pow_succ]
        ring
      · rw [c6, b6, pow_succ]
        ring
      · rw [b5, b7 4 (by omega)] at c7
        rw [pow_succ]
        have e : s.mem 1 * (2 ^ k * 2) = s.mem 1 * 2 * 2 ^ k := by ring
        rw [e]
        exact c7
      · intro x hx
        rw [c8 x hx, b7 x hx]

theorem divIdId_halve (l r : Int) (flag : Bool) (s : VM)
    (hpc : s.pc = 27 + oneOf flag) (hh : s.halted = false) :
    ∃ n, (VM.steps (divIdId l r flag) n s).pc = 33 + oneOf flag ∧
      (VM.steps (divIdId l r flag) n s).halted = false ∧
      (VM.steps (divIdId l r flag) n s).input = s.input ∧
      (VM.steps (divIdId l r flag) n s).output = s.output ∧
      (VM.steps (divIdId l r flag) n s).mem 1 = s.mem 1 / 2 ∧
      (VM.steps (divIdId l r flag) n s).mem 2 = s.mem 2 / 2 ∧
      ∀ x, 3 ≤ x → (VM.steps (divIdId l r flag) n s).mem x = s.mem x := by
  obtain ⟨pc, m, i, o, h⟩ := s
  simp only at hpc hh
  subst hpc hh
  refine ⟨6, ?_⟩
  cases flag <;>
    simp [divIdId, divLoop, oneOf, VM.steps, VM.step, VM.execute] <;>
    exact fun x hx => by
      have e0 : x ≠ 0 := by omega
      have e1 : x ≠ 1 := by omega
      have e2 : x ≠ 2 := by omega
      simp [e0, e1, e2]

theorem divIdId_sub_exit (l r : Int) (flag : Bool) (s : VM)
    (hpc : s.pc = 33 + oneOf flag) (hh : s.halted = false) (hlt : s.mem 4 < s.mem 5) :
    ∃ n, (VM.steps (divIdId l r flag) n s).pc = 52 + oneOf flag ∧
      (VM.steps (divIdId l r flag) n s).halted = false ∧
      (VM.steps (divIdId l r flag) n s).input = s.input ∧
      (VM.steps (divIdId l r flag) n s).output = s.output ∧
      ∀ x, 1 ≤ x → (VM.steps (divIdId l r flag) n s).mem x = s.mem x := by
  obtain ⟨pc, m, i, o, h⟩ := s
  simp only at hpc hh hlt
  subst hpc hh
  have h1 : m 4 - m 5 < 0 := by omega
  refine ⟨3, ?_⟩
  cases flag <;>
    simp [divIdId, divLoop, oneOf, VM.steps, VM.step, VM.execute, h1] <;>
    exact fun x hx => by
      have e0 : x ≠ 0 := by omega
      simp [e0]

theorem divIdId_sub_take (l r : Int) (flag : Bool) (s : VM)
    (hpc : s.pc = 33 + oneOf flag) (hh : s.halted = false) (h5 : s.mem 5 ≤ s.mem 4)
    (h1 : s.mem 1 ≤ s.mem 4) :
    ∃ n, (VM.steps (divIdId l r flag) n s).pc = 33 + oneOf flag ∧
      (VM.steps (divIdId l r flag) n s).halted = false ∧
      (VM.steps (divIdId l r flag) n s).input = s.input ∧
      (VM.steps (divIdId l r flag) n s).output = s.output ∧
      (VM.steps (divIdId l r flag) n s).mem 1 = s.mem 1 / 2 ∧
      (VM.steps (divIdId l r flag) n s).mem 2 = s.mem 2 / 2 ∧
      (VM.steps (divIdId l r flag) n s).mem 3 = s.mem 3 + s.mem 2 ∧
      (VM.steps (divIdId l r flag) n s).mem 4 = s.mem 4 - s.mem 1 ∧
      ∀ x, 5 ≤ x → (VM.steps (divIdId l r flag) n s).mem x = s.mem x := by
  obtain ⟨pc, m, i, o, h⟩ := s
  simp only at hpc hh h5 h1
  subst hpc hh
  have e5 : ¬ m 4 - m 5 < 0 := by omega
  have e1 : ¬ m 4 - m 1 < 0 := by omega
  refine ⟨19, ?_⟩
  cases flag <;>
    simp [divIdId, divLoop, oneOf, VM.steps, VM.step, VM.execute, e5, e1] <;>
    exact fun x hx => by
      have e0 : x ≠ 0 := by omega
      have e1 : x ≠ 1 := by omega
      have e2 : x ≠ 2 := by omega
      have e3 : x ≠ 3 := by omega
      have e4 : x ≠ 4 := by omega
      simp [e0, e1, e2, e3, e4]

theorem divIdId_sub_skip (l r : Int) (flag : Bool) (s : VM)
    (hpc : s.pc = 33 + oneOf flag) (hh : s.halted = false) (h5 : s.mem 5 ≤ s.mem 4)
    (h1 : s.mem 4 < s.mem 1) :
    ∃ n, (VM.steps (divIdId l r flag) n s).pc = 33 + oneOf flag ∧
      (VM.steps (divIdId l r flag) n s).halted = false ∧
      (VM.steps (divIdId l r flag) n s).input = s.input ∧
      (VM.steps (divIdId l r flag) n s).output = s.output ∧
      (VM.steps (divIdId l r flag) n s).mem 1 = s.mem 1 / 2 ∧
      (VM.steps (divIdId l r flag) n s).mem 2 = s.mem 2 / 2 ∧
      ∀ x, 3 ≤ x → (VM.steps (divIdId l r flag) n s).mem x = s.mem x := by
  obtain ⟨pc, m, i, o, h⟩ := s
  simp only at hpc hh h5 h1
  subst hpc hh
  have e5 : ¬ m 4 - m 5 < 0 := by omega
  have e1 : m 4 - m 1 < 0 := by omega
  refine ⟨13, ?_⟩
  cases flag <;>
    simp [divIdId, divLoop, oneOf, VM.steps, VM.step, VM.execute, e5, e1] <;>
    exact fun x hx => by
      have e0 : x ≠ 0 := by omega
      have e1 : x ≠ 1 := by omega
      have e2 : x ≠ 2 := by omega
      simp [e0, e1, e2]

theorem divIdId_tail (l r : Int) (flag : Bool) (hl : 11 ≤ l) (hr : 11 ≤ r) (s : VM)
    (hpc : s.pc = 52 + oneOf flag) (hh : s.halted = false) (ha : 0 < s.mem l)
    (hb : 0 < s.mem r) :
    ∃ n, (VM.steps (divIdId l r flag) n s).pc = 64 + oneOf flag ∧
      (VM.steps (divIdId l r flag) n s).halted = false ∧
      (VM.steps (divIdId l r flag) n s).input = s.input ∧
      (VM.steps (divIdId l r flag) n s).output = s.output ∧
      (VM.steps (divIdId l r flag) n s).mem 0 = s.mem 3 ∧
      ∀ x, 1 ≤ x → (VM.steps (divIdId l r flag) n s).mem x = s.mem x := by
  obtain ⟨pc, m, i, o, h⟩ := s
  simp only at hpc hh ha hb
  subst hpc hh
  have l0 : l ≠ 0 := by omega
  have r0 : r ≠ 0 := by omega
  refine ⟨5, ?_⟩
  cases flag <;>
    simp [divIdId, divLoop, oneOf, VM.steps, VM.step, VM.execute, ha, hb, l0, r0] <;>
    exact fun x hx => by
      have e0 : x ≠ 0 := by omega
      simp [e0]

theorem divIdId_sub_loop (l r : Int) (flag : Bool) :
    ∀ (j : Nat) (s : VM), s.pc = 33 + oneOf flag → s.halted = false → 0 < s.mem 5 →
      s.mem 1 = s.mem 5 * 2 ^ j → s.mem 2 = 2 ^ j → 0 ≤ s.mem 4 →
      s.mem 4 < s.mem 5 * 2 ^ (j + 1) →
      ∃ n, (VM.steps (divIdId l r flag) n s).pc = 52 + oneOf flag ∧
        (VM.steps (divIdId l r flag) n s).halted = false ∧
        (VM.steps (divIdId l r flag) n s).input = s.input ∧
        (VM.steps (divIdId l r flag) n s).output = s.output ∧
        (VM.steps (divIdId l r flag) n s).mem 3 = s.mem 3 + s.mem 4 / s.mem 5 ∧
        ∀ x, 11 ≤ x → (VM.steps (divIdId l r flag) n s).mem x = s.mem x := by
  intro j
  induction j with
  | zero =>
    intro s hpc hh hb h1 h2 h40 h4
    simp only [pow_zero, mul_one, zero_add, pow_one] at h1 h2 h4
    by_cases hlt : s.mem 4 < s.mem 5
    · obtain ⟨n, a1, a2, a3, a4, a5⟩ := divIdId_sub_exit l r flag s hpc hh hlt
      refine ⟨n, a1, a2, a3, a4, ?_, fun x hx => a5 x (by omega)⟩
      rw [a5 3 (by omega), Int.ediv_eq_zero_of_lt h40 hlt, add_zero]
    · obtain ⟨n1, b1, b2, b3, b4, b5, b6, b7, b8, b9⟩ :=
        divIdId_sub_take l r flag s hpc hh (by omega) (by omega)
      obtain ⟨n2, a1, a2, a3, a4, a5⟩ :=
        divIdId_sub_exit l r flag (VM.steps (divIdId l r flag) n1 s) b1 b2
          (by rw [b8, b9 5 (by omega)]; omega)
      refine ⟨n1 + n2, ?_⟩
      rw [VM.steps_add]
      refine ⟨a1, a2, a3.trans b3, a4.trans b4, ?_, ?_⟩
      · rw [a5 3 (by omega), b7, h2]
        have hq : s.mem 4 / s.mem 5 = 1 ∧ s.mem 4 % s.mem 5 = s.mem 4 - s.mem 5 :=
          (Int.ediv_emod_unique hb).mpr ⟨by ring, by omega, by omega⟩
        rw [hq.1]
      · intro x hx
        rw [a5 x (by omega), b9 x (by omega)]
  | succ j ih =>
    intro s hpc hh hb h1 h2 h40 h4
    have hhalf1 : s.mem 1 / 2 = s.mem 5 * 2 ^ j := by
      rw [h1, pow_succ, ← mul_assoc]
      exact Int.mul_ediv_cancel _ (by decide)
    have hhalf2 : s.mem 2 / 2 = 2 ^ j := by
      rw [h2, pow_succ]
      exact Int.mul_ediv_cancel _ (by decide)
    by_cases hlt : s.mem 4 < s.mem 5
    · obtain ⟨n, a1, a2, a3, a4, a5⟩ := divIdId_sub_exit l r flag s hpc hh hlt
      refine ⟨n, a1, a2, a3, a4, ?_, fun x hx => a5 x (by omega)⟩
      rw [a5 3 (by omega), Int.ediv_eq_zero_of_lt h40 hlt, add_zero]
    · by_cases hge : s.mem 1 ≤ s.mem 4
      · obtain ⟨n1, b1, b2, b3, b4, b5, b6, b7, b8, b9⟩ :=
          divIdId_sub_take l r flag s hpc hh (by omega) hge
        have hlim : s.mem 4 - s.mem 1 < s.mem 5 * 2 ^ (j + 1) := by
          rw [h1]
          have e : s.mem 5 * 2 ^ (j + 1 + 1) = s.mem 5 * 2 ^ (j + 1) + s.mem 5 * 2 ^ (j + 1) := by
            rw [pow_succ 2 (j + 1)]
            ring
          rw [e] at h4
          omega
        obtain ⟨n2, a1, a2, a3, a4, a5, a6⟩ :=
          ih (VM.steps (divIdId l r flag) n1 s) b1 b2 (by rw [b9 5 (by omega)]; exact hb)
            (by rw [b5, b9 5 (by omega)]; exact hhalf1) (by rw [b6]; exact hhalf2)
            (by rw [b8]; omega) (by rw [b8, b9 5 (by omega)]; exact hlim)
        refine ⟨n1 + n2, ?_⟩
        rw [VM.steps_add]
        refine ⟨a1, a2, a3.trans b3, a4.trans b4, ?_, ?_⟩
        · rw [a5, b7, b8, b9 5 (by omega), h2, h1]
          have hne : s.mem 5 ≠ 0 := by omega
          have e : s.mem 4 = (s.mem 4 - s.mem 5 * 2 ^ (j + 1)) + 2 ^ (j + 1) * s.mem 5 := by ring
          have hq : s.mem 4 / s.mem 5 =
              (s.mem 4 - s.mem 5 * 2 ^ (j + 1)) / s.mem 5 + 2 ^ (j + 1) := by
            conv_lhs => rw [e]
            exact Int.add_mul_ediv_right _ _ hne
          rw [hq]
          ring
        · intro x hx
          rw [a6 x hx, b9 x (by omega)]
      · obtain ⟨n1, b1, b2, b3, b4, b5, b6, b7⟩ :=
          divIdId_sub_skip l r flag s hpc hh (by omega) (by omega)
        obtain ⟨n2, a1, a2, a3, a4, a5, a6⟩ :=
          ih (VM.steps (divIdId l r flag) n1 s) b1 b2 (by rw [b7 5 (by omega)]; exact hb)
            (by rw [b5, b7 5 (by omega)]; exact hhalf1) (by rw [b6]; exact hhalf2)
            (by rw [b7 4 (by omega)]; exact h40)
            (by rw [b7 4 (by omega), b7 5 (by omega), ← h1]; omega)
        refine ⟨n1 + n2, ?_⟩
        rw [VM.steps_add]
        refine ⟨a1, a2, a3.trans b3, a4.trans b4, ?_, ?_⟩
        · rw [a5, b7 3 (by omega), b7 4 (by omega), b7 5 (by omega)]
        · intro x hx
          rw [a6 x hx, b7 x (by omega)]

theorem divIdId_runs (l r : Int) (flag : Bool) (hl : 11 ≤ l) (hr : 11 ≤ r) (s : VM)
    (hpc : s.pc = 0) (hh : s.halted = false) (ha : 0 < s.mem l) (hb : 0 < s.mem r)
    (h10 : flag = true → s.mem 10 = 1) :
    ∃ n, (VM.steps (divIdId l r flag) n s).pc = (divIdId l r flag).length ∧
      (VM.steps (divIdId l r flag) n s).halted = false ∧
      (VM.steps (divIdId l r flag) n s).input = s.input ∧
      (VM.steps (divIdId l r flag) n s).output = s.output ∧
      (VM.steps (divIdId l r flag) n s).mem 0 = s.mem l / s.mem r ∧
      ∀ x, 11 ≤ x → (VM.steps (divIdId l r flag) n s).mem x = s.mem x := by
  rw [divIdId_length]
  obtain ⟨n1, p1, p2, p3, p4, p5, p6, p7, p8, p9, p10⟩ :=
    divIdId_prefix l r flag hl hr s hpc hh ha hb h10
  obtain ⟨n2, k, q1, q2, q3, q4, q5, q6, q7, q8⟩ :=
    divIdId_double_loop l r flag (s.mem l - s.mem r + 1).toNat
      (VM.steps (divIdId l r flag) n1 s) p1 p2 (by rw [p5]; exact hb)
      (by rw [p8, p5]; omega)
  rw [p5] at q5 q7
  rw [p6] at q6
  rw [p8] at q7
  obtain ⟨n3, h1, h2, h3, h4, h5, h6, h7⟩ := divIdId_halve l r flag _ q1 q2
  have c4 : (VM.steps (divIdId l r flag) n3 (VM.steps (divIdId l r flag) n2
      (VM.steps (divIdId l r flag) n1 s))).mem 4 = s.mem l := by
    rw [h7 4 (by omega), q8 4 (by omega), p8]
  have c5 : (VM.steps (divIdId l r flag) n3 (VM.steps (divIdId l r flag) n2
      (VM.steps (divIdId l r flag) n1 s))).mem 5 = s.mem r := by
    rw [h7 5 (by omega), q8 5 (by omega), p9]
  have c3 : (VM.steps (divIdId l r flag) n3 (VM.steps (divIdId l r flag) n2
      (VM.steps (divIdId l r flag) n1 s))).mem 3 = 0 := by
    rw [h7 3 (by omega), q8 3 (by omega), p7]
  have cx : ∀ x, 11 ≤ x → (VM.steps (divIdId l r flag) n3 (VM.steps (divIdId l r flag) n2
      (VM.steps (divIdId l r flag) n1 s))).mem x = s.mem x := by
    intro x hx
    rw [h7 x (by omega), q8 x (by omega), p10 x hx]
  have hloop : ∃ n4, (VM.steps (divIdId l r flag) n4 (VM.steps (divIdId l r flag) n3
        (VM.steps (divIdId l r flag) n2 (VM.steps (divIdId l r flag) n1 s)))).pc =
          52 + oneOf flag ∧
      (VM.steps (divIdId l r flag) n4 (VM.steps (divIdId l r flag) n3
        (VM.steps (divIdId l r flag) n2 (VM.steps (divIdId l r flag) n1 s)))).halted = false ∧
      (VM.steps (divIdId l r flag) n4 (VM.steps (divIdId l r flag) n3
        (VM.steps (divIdId l r flag) n2 (VM.steps (divIdId l r flag) n1 s)))).input =
          s.input ∧
      (VM.steps (divIdId l r flag) n4 (VM.steps (divIdId l r flag) n3
        (VM.steps (divIdId l r flag) n2 (VM.steps (divIdId l r flag) n1 s)))).output =
          s.output ∧
      (VM.steps (divIdId l r flag) n4 (VM.steps (divIdId l r flag) n3
        (VM.steps (divIdId l r flag) n2 (VM.steps (divIdId l r flag) n1 s)))).mem 3 =
          s.mem l / s.mem r ∧
      ∀ x, 11 ≤ x → (VM.steps (divIdId l r flag) n4 (VM.steps (divIdId l r flag) n3
        (VM.steps (divIdId l r flag) n2 (VM.steps (divIdId l r flag) n1 s)))).mem x =
          s.mem x := by
    cases k with
    | zero =>
      simp only [pow_zero, mul_one] at q7
      obtain ⟨n4, a1, a2, a3, a4, a5⟩ :=
        divIdId_sub_exit l r flag _ h1 h2 (by rw [c4, c5]; exact q7)
      refine ⟨n4, a1, a2, ?_, ?_, ?_, fun x hx => by rw [a5 x (by omega), cx x hx]⟩
      · rw [a3, h3, q3, p3]
      · rw [a4, h4, q4, p4]
      · rw [a5 3 (by omega), c3, Int.ediv_eq_zero_of_lt (by omega) q7]
    | succ k =>
      have e1 : (s.mem r * 2 ^ (k + 1)) / 2 = s.mem r * 2 ^ k := by
        rw [pow_succ, ← mul_assoc]
        exact Int.mul_ediv_cancel _ (by decide)
      have e2 : ((1 : Int) * 2 ^ (k + 1)) / 2 = 2 ^ k := by
        rw [one_mul, pow_succ]
        exact Int.mul_ediv_cancel _ (by decide)
      obtain ⟨n4, a1, a2, a3, a4, a5, a6⟩ :=
        divIdId_sub_loop l r flag k _ h1 h2 (by rw [c5]; exact hb)
          (by rw [h5, q5, c5]; exact e1) (by rw [h6, q6]; exact e2) (by rw [c4]; omega)
          (by rw [c4, c5]; exact q7)
      refine ⟨n4, a1, a2, ?_, ?_, ?_, fun x hx => by rw [a6 x hx, cx x hx]⟩
      · rw [a3, h3, q3, p3]
      · rw [a4, h4, q4, p4]
      · rw [a5, c3, c4, c5, zero_add]
  obtain ⟨n4, t1, t2, t3, t4, t5, t6⟩ := hloop
  obtain ⟨n5, u1, u2, u3, u4, u5, u6⟩ :=
    divIdId_tail l r flag hl hr _ t1 t2 (by rw [t6 l hl]; exact ha) (by rw [t6 r hr]; exact hb)
  refine ⟨n1 + n2 + n3 + n4 + n5, ?_⟩
  rw [VM.steps_add, VM.steps_add, VM.steps_add, VM.steps_add]
  refine ⟨u1, u2, u3.trans t3, u4.trans t4, by rw [u5, t5], fun x hx => ?_⟩
  rw [u6 x (by omega), t6 x hx]

set_option maxRecDepth 100000 in
/-- C38. When the constant-one flag is set the template of `x / y` starts its
quotient bit from `LOAD 10`. In `x := a * b; y := c / d` the flag is set by the
product, whose `SET 1; STORE 10` is jumped over when `a = 0`, so the division
runs with 0 in cell 10: the compiled program writes 0 on input 0, 3, 7, 2 and
3 on input 2, 3, 7, 2. On the template alone: for `a = 7`, `b = 2` in cells 11
and 12 and 0 in cell 10 the run reaches the end of the template with 0 in the
accumulator, and the floored quotient of 7 by 2 is 3. -/
theorem div_positive_without_constant_one :
    (ExpressionNode.generateCode
        ⟨.identifier ⟨.SIMPLE, "a", 0, ""⟩, "/", .identifier ⟨.SIMPLE, "b", 0, ""⟩⟩
        CodeGenerator.new { tableThreeVars with one := true } "MAIN").toOption.map
          (fun r => r.1.generatedCode) = some (divIdId 11 12 true) ∧
    (divIdId 11 12 true)[13]? = some ⟨"LOAD", 10⟩ ∧
    (VM.steps (divIdId 11 12 true) 88 (machineWith 7 2 0)).pc = (divIdId 11 12 true).length ∧
    (VM.steps (divIdId 11 12 true) 88 (machineWith 7 2 0)).mem 0 = 0 ∧
    Int.fdiv 7 2 = 3 ∧
    runProgram quotientAfterProductProgram [0, 3, 7, 2] 300 = some [0] ∧
    runProgram quotientAfterProductProgram [2, 3, 7, 2] 300 = some [3] := by
  refine ⟨by decide!, by decide!, by decide!, by decide!, by decide, by decide!, by decide!⟩

/-- The division template on positive operands when cell 10 holds the constant.
For two simple variables (possibly the same one) whose cells, at 11 or above,
hold `a > 0` and `b > 0`, and for both variants of the template (constant-one
flag unset; or set, with cell 10 holding 1), the code
`ExpressionNode::generateCode` emits for their quotient is the division
template; run from its first instruction it reaches the end of the template,
not halted, with the floored quotient of `a` by `b` in the accumulator, and
every cell from 11 on, so the cells of both variables, holds what it held
before. -/
theorem div_identifiers_positive (st : SymbolTable) (scope : String) (nx ny : IdentifierNode)
    (vx vy : Variable) (hsx : nx.identifierType = .SIMPLE) (hsy : ny.identifierType = .SIMPLE)
    (hx : st.getVariable nx.pidentifier scope = some vx)
    (hy : st.getVariable ny.pidentifier scope = some vy)
    (hlx : 11 ≤ vx.memoryPosition) (hly : 11 ≤ vy.memoryPosition)
    (s : VM) (hpc : s.pc = 0) (hh : s.halted = false)
    (ha : 0 < s.mem vx.memoryPosition) (hb : 0 < s.mem vy.memoryPosition)
    (h10 : st.one = true → s.mem 10 = 1) :
    ∃ cg st1,
      ExpressionNode.generateCode ⟨.identifier nx, "/", .identifier ny⟩ CodeGenerator.new st scope
        = .ok (cg, st1) ∧
      cg.generatedCode = divIdId vx.memoryPosition vy.memoryPosition st.one ∧
      ∃ n, (VM.steps cg.generatedCode n s).pc = cg.generatedCode.length ∧
        (VM.steps cg.generatedCode n s).halted = false ∧
        (VM.steps cg.generatedCode n s).mem 0 =
          Int.fdiv (s.mem vx.memoryPosition) (s.mem vy.memoryPosition) ∧
        ∀ x, 11 ≤ x → (VM.steps cg.generatedCode n s).mem x = s.mem x := by
  refine ⟨CodeGenerator.new.emitAll (divIdId vx.memoryPosition vy.memoryPosition st.one),
    { st with one := true }, ?_, ?_, ?_⟩
  · simp [ExpressionNode.generateCode, IdentifierNode.getMemoryPosition, hsx, hsy, hx, hy,
      stageOperand, notTypeIsSimple, IdentifierType.toInt, arithIdId]
  · simp [emitAll_generatedCode, CodeGenerator.new]
  · simp only [emitAll_generatedCode, CodeGenerator.new, List.nil_append]
    obtain ⟨n, r1, r2, _, _, r5, r6⟩ :=
      divIdId_runs vx.memoryPosition vy.memoryPosition st.one hlx hly s hpc hh ha hb h10
    refine ⟨n, r1, r2, ?_, r6⟩
    rw [r5, Int.fdiv_eq_ediv _ (by omega)]

/-- The division template at `a / b` over the variables of cells 11 and 12
holding 7 and 2, flag unset, every other cell holding 9: the run ends with 3 in
the accumulator and 7 and 2 still in cells 11 and 12. -/
theorem div_identifiers_positive_witness :
    ∃ cg st1,
      ExpressionNode.generateCode
          ⟨.identifier ⟨.SIMPLE, "a", 0, ""⟩, "/", .identifier ⟨.SIMPLE, "b", 0, ""⟩⟩
          CodeGenerator.new tableThreeVars "MAIN" = .ok (cg, st1) ∧
      cg.generatedCode = divIdId 11 12 false ∧
      ∃ n, (VM.steps cg.generatedCode n (machineWith 7 2 9)).pc = cg.generatedCode.length ∧
        (VM.steps cg.generatedCode n (machineWith 7 2 9)).halted = false ∧
        (VM.steps cg.generatedCode n (machineWith 7 2 9)).mem 0 = Int.fdiv 7 2 ∧
        ∀ x, 11 ≤ x → (VM.steps cg.generatedCode n (machineWith 7 2 9)).mem x =
          (machineWith 7 2 9).mem x :=
  div_identifiers_positive tableThreeVars "MAIN" ⟨.SIMPLE, "a", 0, ""⟩ ⟨.SIMPLE, "b", 0, ""⟩
    ⟨"a", "MAIN", true, 11, false⟩ ⟨"b", "MAIN", true, 12, false⟩ rfl rfl rfl rfl
    (by decide) (by decide) (machineWith 7 2 9) rfl rfl (by decide) (by decide) (by decide)

/-! ## The per-index initialisation entries of the arrays -/

theorem ArraysKept.kept_refl (st : SymbolTable) : ArraysKept st st :=
  ⟨fun _ a h => ⟨a, h, rfl, rfl, rfl, id⟩, fun _ _ h h1 => by rw [h] at h1; cases h1⟩

theorem ArraysKept.kept_trans {st st1 st2 : SymbolTable} (h1 : ArraysKept st st1)
    (h2 : ArraysKept st1 st2) : ArraysKept st st2 := by
  refine ⟨fun key a h => ?_, fun key a2 h hf => ?_⟩
  · obtain ⟨a1, e1, b1, b2, b3, x⟩ := h1.old key a h
    obtain ⟨a2, e2, c1, c2, c3, y⟩ := h2.old key a1 e1
    exact ⟨a2, e2, c1.trans b1, c2.trans b2, c3.trans b3, fun q => y (x q)⟩
  · cases e1 : mapFind key st1.arrays with
    | none => exact h2.fresh key a2 e1 hf
    | some a1 =>
      obtain ⟨a3, e3, _, _, _, y⟩ := h2.old key a1 e1
      rw [hf] at e3
      cases e3
      exact y (h1.fresh key a1 h e1)

theorem ArraysKept.kept_of_arrays {st st1 : SymbolTable} (h : st1.arrays = st.arrays) :
    ArraysKept st st1 := by
  refine ⟨fun key a e => ⟨a, by rw [h]; exact e, rfl, rfl, rfl, id⟩, fun key a1 e e1 => ?_⟩
  rw [h, e] at e1
  cases e1

theorem ArraysKept.kept_exact {st st1 : SymbolTable} (h : ArraysKept st st1) (hx : ArraysExact st) :
    ArraysExact st1 := by
  intro key a1 e1
  cases e : mapFind key st.arrays with
  | none => exact h.fresh key a1 e e1
  | some a =>
    obtain ⟨a2, e2, _, _, _, y⟩ := h.old key a e
    rw [e1] at e2
    cases e2
    exact y (hx key a e)

theorem ArraysExact.exact_new : ArraysExact SymbolTable.new := fun _ _ h => by cases h

theorem ArraysKept.kept_putArray (st : SymbolTable) (name scope : String) (a a1 : Array)
    (h : st.getArray name scope = some a) (hs : a1.startIndex = a.startIndex)
    (he : a1.endIndex = a.endIndex) (hg : a1.isArgument = a.isArgument)
    (hx : a.Exact → a1.Exact) : ArraysKept st (st.putArray name scope a1) := by
  unfold SymbolTable.getArray at h
  refine ⟨fun key b e => ?_, fun key b e e1 => ?_⟩
  · by_cases hk : key = mkKey name scope
    · subst hk
      rw [h] at e
      cases e
      exact ⟨a1, mapFind_mapSet_same _ _ _, hs, he, hg, hx⟩
    · exact ⟨b, by
        unfold SymbolTable.putArray
        simp only
        rw [mapFind_mapSet_ne _ _ _ _ hk]
        exact e, rfl, rfl, rfl, id⟩
  · by_cases hk : key = mkKey name scope
    · subst hk
      rw [h] at e
      cases e
    · unfold SymbolTable.putArray at e1
      simp only at e1
      rw [mapFind_mapSet_ne _ _ _ _ hk, e] at e1
      cases e1

theorem Sem.Holds.kept_mono {α : Type} {st st1 : SymbolTable} {r : Sem α}
    (h : r.Holds (ArraysKept st1)) (h1 : ArraysKept st st1) : r.Holds (ArraysKept st) := by
  cases r with
  | ok a s => exact h1.kept_trans h
  | thrown msg s => exact h1.kept_trans h
  | undefined => trivial

theorem Sem.Holds.kept_andThen {α β : Type} {st : SymbolTable} {r : Sem α}
    {k : α → SymbolTable → Sem β} (h : r.Holds (ArraysKept st))
    (hk : ∀ a st1, r = .ok a st1 → (k a st1).Holds (ArraysKept st1)) :
    (r.andThen k).Holds (ArraysKept st) := by
  cases r with
  | ok a s => exact (hk a s rfl).kept_mono h
  | thrown msg s => exact h
  | undefined => trivial

theorem Sem.Holds.of_same {α : Type} {st : SymbolTable} {r : Sem α}
    (h : r.Holds (fun s => s = st)) : r.Holds (ArraysKept st) := by
  cases r with
  | ok a s =>
    have e : s = st := h
    rw [e]
    exact ArraysKept.kept_refl st
  | thrown msg s =>
    have e : s = st := h
    rw [e]
    exact ArraysKept.kept_refl st
  | undefined => trivial

theorem Sem.Holds.same_andThen {α β : Type} {st : SymbolTable} {r : Sem α}
    {k : α → SymbolTable → Sem β} (h : r.Holds (fun s => s = st))
    (hk : ∀ a, (k a st).Holds (fun s => s = st)) :
    (r.andThen k).Holds (fun s => s = st) := by
  cases r with
  | ok a s =>
    have e : s = st := h
    subst e
    exact hk a
  | thrown msg s => exact h
  | undefined => trivial

theorem Sem.Holds.same_ok {α : Type} {st st1 : SymbolTable} {r : Sem α} {a : α}
    (h : r.Holds (fun s => s = st)) (e : r = .ok a st1) : st1 = st := by
  subst e
  exact h

theorem IdentifierNode.traverseAndAnalyze_same_id (n : IdentifierNode) (st : SymbolTable)
    (scope : String) : (n.traverseAndAnalyze st scope).Holds (fun s => s = st) := by
  unfold IdentifierNode.traverseAndAnalyze
  repeat' split
  all_goals rfl

theorem IdentifierNode.traverseAndAnalyze_inBounds {n : IdentifierNode} {st st1 : SymbolTable}
    {scope : String} (h : n.traverseAndAnalyze st scope = .ok () st1) : n.InBounds st scope := by
  intro ht
  unfold IdentifierNode.traverseAndAnalyze at h
  rw [ht] at h
  simp only at h
  split at h
  · cases h
  · rename_i a ha
    refine ⟨a, ha, fun hf => ?_⟩
    rw [hf] at h
    simp only [Bool.not_false, if_true] at h
    split at h
    · cases h
    · rename_i hb
      omega

theorem ValueNode.traverseAndAnalyze_same_value (v : ValueNode) (st : SymbolTable) (scope : String) :
    (v.traverseAndAnalyze st scope).Holds (fun s => s = st) := by
  cases v with
  | identifier n => exact n.traverseAndAnalyze_same_id st scope
  | number x => rfl

theorem ExpressionNode.traverseAndAnalyze_same_node (e : ExpressionNode) (st : SymbolTable)
    (scope : String) : (e.traverseAndAnalyze st scope).Holds (fun s => s = st) :=
  Sem.Holds.same_andThen (e.leftValue.traverseAndAnalyze_same_value st scope)
    (fun _ => e.rightValue.traverseAndAnalyze_same_value st scope)

theorem ConditionNode.traverseAndAnalyze_same_cond (c : ConditionNode) (st : SymbolTable)
    (scope : String) : (c.traverseAndAnalyze st scope).Holds (fun s => s = st) :=
  Sem.Holds.same_andThen (c.leftValue.traverseAndAnalyze_same_value st scope)
    (fun _ => c.rightValue.traverseAndAnalyze_same_value st scope)

theorem Expression.traverseAndAnalyze_same_expr (x : Expression) (st : SymbolTable) (scope : String) :
    (x.traverseAndAnalyze st scope).Holds (fun s => s = st) := by
  cases x with
  | value v => exact v.traverseAndAnalyze_same_value st scope
  | binary e => exact e.traverseAndAnalyze_same_node st scope

theorem mapFind_mapSet_isSome_iff (i j : Int) (v : Bool) (m : List (Int × Bool)) :
    (mapFind i (mapSet j v m)).isSome = true ↔ (i = j ∨ (mapFind i m).isSome = true) := by
  by_cases h : i = j
  · subst h
    rw [mapFind_mapSet_same]
    simp
  · rw [mapFind_mapSet_ne _ _ _ _ h]
    simp [h]

theorem Array.Exact.exact_set {a : Array} (h : a.Exact) (j : Int) (v : Bool)
    (hj : a.startIndex ≤ j ∧ j ≤ a.endIndex) :
    Array.Exact { a with isInitialized := mapSet j v a.isInitialized } := by
  intro i
  unfold Array.Exact at h
  simp only
  rw [mapFind_mapSet_isSome_iff, h i]
  constructor
  · rintro (e | e)
    · subst e
      exact hj
    · exact e
  · intro e
    exact Or.inr e

theorem Array.Exact.exact_read {a : Array} (h : a.Exact) (j : Int)
    (hj : a.startIndex ≤ j ∧ j ≤ a.endIndex) :
    Array.Exact { a with isInitialized := (mapReadBool j a.isInitialized).2 } := by
  unfold mapReadBool
  split
  · exact h
  · exact h.exact_set j false hj

theorem IdentifierNode.isInitialized_kept (n : IdentifierNode) (st : SymbolTable)
    (scope : String) : ArraysKept st (n.isInitialized st scope).2 := by
  unfold IdentifierNode.isInitialized
  repeat' split
  all_goals first
    | exact ArraysKept.kept_refl st
    | skip
  rename_i a ha hg hb
  refine ArraysKept.kept_putArray st _ _ a _ ha rfl rfl rfl (fun hx => ?_)
  exact hx.exact_read n.index (by omega)

theorem ValueNode.isVariableInitialized_kept (v : ValueNode) (st : SymbolTable)
    (scope : String) : ArraysKept st (v.isVariableInitialized st scope).2 := by
  cases v with
  | identifier n => exact n.isInitialized_kept st scope
  | number x => exact ArraysKept.kept_refl st

theorem ExpressionNode.isVariablesInitialized_kept (e : ExpressionNode) (st : SymbolTable)
    (scope : String) : (e.isVariablesInitialized st scope).Holds (ArraysKept st) := by
  unfold ExpressionNode.isVariablesInitialized
  have h1 := e.leftValue.isVariableInitialized_kept st scope
  have h2 := e.rightValue.isVariableInitialized_kept
    (e.leftValue.isVariableInitialized st scope).2 scope
  simp only
  split
  · exact h1
  · split
    · exact h1.kept_trans h2
    · exact h1.kept_trans h2

theorem IdentifierNode.setInitialized_kept {n : IdentifierNode} {st0 st st1 : SymbolTable}
    {scope : String} (hb : n.InBounds st0 scope) (hk : ArraysKept st0 st)
    (h : n.setInitialized st scope = some st1) : ArraysKept st st1 := by
  unfold IdentifierNode.setInitialized at h
  split at h
  · split at h
    · cases h
      exact ArraysKept.kept_of_arrays rfl
    · cases h
  · split at h
    · cases h
      exact ArraysKept.kept_refl st
    · cases h
  · rename_i ht
    split at h
    · rename_i a ha
      split at h
      · cases h
        exact ArraysKept.kept_refl st
      · rename_i hg
        cases h
        obtain ⟨a0, e0, hin⟩ := hb ht
        obtain ⟨a1, e1, b1, b2, b3, _⟩ := hk.old _ a0 e0
        unfold SymbolTable.getArray at ha
        rw [ha] at e1
        cases e1
        have hf : a0.isArgument = false := by
          rw [← b3]
          simpa using hg
        have hi := hin hf
        refine ArraysKept.kept_putArray st _ _ a _ ha rfl rfl rfl (fun hx => ?_)
        exact hx.exact_set n.index true (by omega)
    · cases h
      exact ArraysKept.kept_refl st

theorem assignmentAnalyze_kept (identifier : IdentifierNode) (expression : Expression)
    (st : SymbolTable) (scope : String) :
    (assignmentAnalyze identifier expression st scope).Holds (ArraysKept st) := by
  unfold assignmentAnalyze
  split
  · exact ArraysKept.kept_refl st
  · refine Sem.Holds.kept_andThen (Sem.Holds.of_same (identifier.traverseAndAnalyze_same_id st scope))
      (fun _ st1 e1 => ?_)
    have hb := IdentifierNode.traverseAndAnalyze_inBounds e1
    have s1 := Sem.Holds.same_ok (identifier.traverseAndAnalyze_same_id st scope) e1
    subst s1
    refine Sem.Holds.kept_andThen (Sem.Holds.of_same (expression.traverseAndAnalyze_same_expr st1 scope))
      (fun _ st2 e2 => ?_)
    have s2 := Sem.Holds.same_ok (expression.traverseAndAnalyze_same_expr st1 scope) e2
    subst s2
    cases expression with
    | binary exprNode =>
      simp only
      refine Sem.Holds.kept_andThen (exprNode.isVariablesInitialized_kept st2 scope)
        (fun ok st3 e3 => ?_)
      have k3 : ArraysKept st2 st3 := by
        have := exprNode.isVariablesInitialized_kept st2 scope
        rw [e3] at this
        exact this
      split
      · split
        · rename_i st4 h4
          exact IdentifierNode.setInitialized_kept hb k3 h4
        · trivial
      · exact ArraysKept.kept_refl st3
    | value exprNode2 =>
      simp only
      have k3 := exprNode2.isVariableInitialized_kept st2 scope
      split
      · split
        · rename_i st4 h4
          exact k3.kept_trans (IdentifierNode.setInitialized_kept hb k3 h4)
        · trivial
      · exact k3

theorem readAnalyze_kept (identifier : IdentifierNode) (st : SymbolTable) (scope : String) :
    (readAnalyze identifier st scope).Holds (ArraysKept st) := by
  unfold readAnalyze
  refine Sem.Holds.kept_andThen ?_
    (fun _ st1 _ => Sem.Holds.of_same (identifier.traverseAndAnalyze_same_id st1 scope))
  repeat' split
  all_goals first
    | exact ArraysKept.kept_refl st
    | exact ArraysKept.kept_of_arrays rfl
    | skip
  rename_i a ha
  exact ArraysKept.kept_putArray st _ _ a _ ha rfl rfl rfl (fun hx => hx)

theorem writeAnalyze_kept (value : ValueNode) (st : SymbolTable) (scope : String) :
    (writeAnalyze value st scope).Holds (ArraysKept st) := by
  unfold writeAnalyze
  cases value with
  | identifier idNode =>
    simp only
    refine Sem.Holds.kept_andThen (Sem.Holds.of_same (idNode.traverseAndAnalyze_same_id st scope))
      (fun _ st1 _ => Sem.Holds.of_same (ValueNode.traverseAndAnalyze_same_value _ st1 scope))
  | number x => exact Sem.Holds.of_same (ValueNode.traverseAndAnalyze_same_value _ st scope)

theorem argAnalyze_kept (pidentifier : String) (st : SymbolTable) (scope : String) :
    (argAnalyze pidentifier st scope).Holds (ArraysKept st) := by
  unfold argAnalyze
  repeat' split
  all_goals first
    | exact ArraysKept.kept_refl st
    | exact ArraysKept.kept_of_arrays rfl

theorem argsAnalyze_kept : ∀ (args : List String) (st : SymbolTable) (scope : String),
    (argsAnalyze args st scope).Holds (ArraysKept st)
  | [], st, _ => ArraysKept.kept_refl st
  | a :: rest, st, scope => by
    unfold argsAnalyze
    exact Sem.Holds.kept_andThen (argAnalyze_kept a st scope)
      (fun _ st1 _ => argsAnalyze_kept rest st1 scope)

theorem procCallAnalyze_kept (pidentifier : String) (args : List String) (st : SymbolTable)
    (scope : String) : (procCallAnalyze pidentifier args st scope).Holds (ArraysKept st) := by
  unfold procCallAnalyze
  split
  · exact ArraysKept.kept_refl st
  · split
    · exact ArraysKept.kept_refl st
    · exact argsAnalyze_kept args st scope

theorem SymbolTable.addVariable_kept (st : SymbolTable) (name scope : String) :
    (st.addVariable name scope).Holds (ArraysKept st) := by
  unfold SymbolTable.addVariable
  simp only
  split
  · exact ArraysKept.kept_refl st
  · exact ArraysKept.kept_of_arrays rfl

theorem SymbolTable.addVariableV_kept (st : SymbolTable) (v : Variable) :
    (st.addVariableV v).Holds (ArraysKept st) := by
  unfold SymbolTable.addVariableV
  simp only
  split
  · exact ArraysKept.kept_refl st
  · exact ArraysKept.kept_of_arrays rfl

theorem SymbolTable.addProcedure_kept (st : SymbolTable) (name scope : String)
    (params : List Param) : (st.addProcedure name scope params).Holds (ArraysKept st) := by
  unfold SymbolTable.addProcedure
  simp only
  split
  · exact ArraysKept.kept_refl st
  · exact ArraysKept.kept_of_arrays rfl

theorem SymbolTable.addProcedureParam_kept (st : SymbolTable) (name scope : String)
    (param : Param) : (st.addProcedureParam name scope param).Holds (ArraysKept st) := by
  unfold SymbolTable.addProcedureParam
  simp only
  split
  · exact ArraysKept.kept_refl st
  · exact ArraysKept.kept_of_arrays rfl

theorem forEnter_kept (pidentifier : String) (st : SymbolTable) (scope : String) :
    (forEnter pidentifier st scope).Holds (ArraysKept st) := by
  unfold forEnter
  simp only
  refine Sem.Holds.kept_andThen ?_ (fun _ st1 _ => ?_)
  · split
    · exact st.addVariable_kept pidentifier scope
    · exact ArraysKept.kept_refl st
  · split
    · trivial
    · exact ArraysKept.kept_of_arrays rfl

mutual
theorem Command.traverseAndAnalyze_kept_cmd : ∀ (c : Command) (st : SymbolTable) (scope : String),
    (c.traverseAndAnalyze st scope).Holds (ArraysKept st)
  | .assignment identifier expression, st, scope => by
    simp only [Command.traverseAndAnalyze]
    exact assignmentAnalyze_kept identifier expression st scope
  | .ifElse condition truecommands falsecommands, st, scope => by
    simp only [Command.traverseAndAnalyze]
    exact Sem.Holds.kept_andThen (Sem.Holds.of_same (condition.traverseAndAnalyze_same_cond st scope))
      (fun _ st1 _ => Sem.Holds.kept_andThen (truecommands.traverseAndAnalyze_kept_cmds st1 scope)
        (fun _ st2 _ => falsecommands.traverseAndAnalyze_kept_cmds st2 scope))
  | .ifThen condition truecommands, st, scope => by
    simp only [Command.traverseAndAnalyze]
    exact Sem.Holds.kept_andThen (Sem.Holds.of_same (condition.traverseAndAnalyze_same_cond st scope))
      (fun _ st1 _ => truecommands.traverseAndAnalyze_kept_cmds st1 scope)
  | .whileDo condition commands, st, scope => by
    simp only [Command.traverseAndAnalyze]
    exact Sem.Holds.kept_andThen (Sem.Holds.of_same (condition.traverseAndAnalyze_same_cond st scope))
      (fun _ st1 _ => commands.traverseAndAnalyze_kept_cmds st1 scope)
  | .repeatUntil commands condition, st, scope => by
    simp only [Command.traverseAndAnalyze]
    exact Sem.Holds.kept_andThen (commands.traverseAndAnalyze_kept_cmds st scope)
      (fun _ st1 _ => Sem.Holds.of_same (condition.traverseAndAnalyze_same_cond st1 scope))
  | .forTo pidentifier fromvalue tovalue commands, st, scope => by
    simp only [Command.traverseAndAnalyze]
    exact Sem.Holds.kept_andThen (forEnter_kept pidentifier st scope)
      (fun _ st1 _ => Sem.Holds.kept_andThen
        (Sem.Holds.of_same (fromvalue.traverseAndAnalyze_same_value st1 scope))
        (fun _ st2 _ => Sem.Holds.kept_andThen
          (Sem.Holds.of_same (tovalue.traverseAndAnalyze_same_value st2 scope))
          (fun _ st3 _ => Sem.Holds.kept_andThen (commands.traverseAndAnalyze_kept_cmds st3 scope)
            (fun _ st4 _ => ArraysKept.kept_of_arrays rfl))))
  | .forDownTo pidentifier fromvalue downtovalue commands, st, scope => by
    simp only [Command.traverseAndAnalyze]
    exact Sem.Holds.kept_andThen (forEnter_kept pidentifier st scope)
      (fun _ st1 _ => Sem.Holds.kept_andThen
        (Sem.Holds.of_same (fromvalue.traverseAndAnalyze_same_value st1 scope))
        (fun _ st2 _ => Sem.Holds.kept_andThen
          (Sem.Holds.of_same (downtovalue.traverseAndAnalyze_same_value st2 scope))
          (fun _ st3 _ => Sem.Holds.kept_andThen (commands.traverseAndAnalyze_kept_cmds st3 scope)
            (fun _ st4 _ => ArraysKept.kept_of_arrays rfl))))
  | .procCall pidentifier args, st, scope => by
    simp only [Command.traverseAndAnalyze]
    exact procCallAnalyze_kept pidentifier args st scope
  | .read identifier, st, scope => by
    simp only [Command.traverseAndAnalyze]
    exact readAnalyze_kept identifier st scope
  | .write value, st, scope => by
    simp only [Command.traverseAndAnalyze]
    exact writeAnalyze_kept value st scope
theorem Commands.traverseAndAnalyze_kept_cmds : ∀ (c : Commands) (st : SymbolTable) (scope : String),
    (c.traverseAndAnalyze st scope).Holds (ArraysKept st)
  | .nil, st, _ => by
    simp only [Commands.traverseAndAnalyze]
    exact ArraysKept.kept_refl st
  | .cons command rest, st, scope => by
    simp only [Commands.traverseAndAnalyze]
    exact Sem.Holds.kept_andThen (command.traverseAndAnalyze_kept_cmd st scope)
      (fun _ st1 _ => rest.traverseAndAnalyze_kept_cmds st1 scope)
end

theorem mapFind_flagsFrom_isSome (b : Bool) (n : Nat) :
    ∀ (i j : Int), (mapFind j (flagsFrom i b n)).isSome = true ↔ (i ≤ j ∧ j < i + n) := by
  induction n with
  | zero =>
    intro i j
    simp only [flagsFrom, mapFind, Option.isSome_none, Bool.false_eq_true, false_iff]
    push_cast
    omega
  | succ n ih =>
    intro i j
    by_cases h : i = j
    · subst h
      simp only [flagsFrom, mapFind, if_true, Option.isSome_some, true_iff]
      push_cast
      omega
    · simp only [flagsFrom, mapFind, h, if_false]
      rw [ih (i + 1) j]
      push_cast
      omega

theorem SymbolTable.addArray_ok_spec {st st2 : SymbolTable} {name scope : String} {lo hi : Int}
    (h : st.addArray name scope lo hi = .ok () st2) :
    mapFind (mkKey name scope) st.arrays = none ∧
    ∃ a, st2.arrays = mapSet (mkKey name scope) a st.arrays ∧ a.startIndex = lo ∧
      a.endIndex = hi ∧ a.isInitialized = flagsFrom lo false (loopCount lo hi) := by
  unfold SymbolTable.addArray at h
  simp only at h
  split at h
  · cases h
  · rename_i hex
    injection h with _ hst
    have spec := addArrayLoop_spec false (loopCount lo hi) lo
      ⟨name, scope, [], [], lo, hi, 0, false⟩ st.currentMemoryPosition
      (by intro p hp; cases hp) (by intro p hp; cases hp)
    obtain ⟨_, _, k3, _, _, k6, k7, _, _⟩ := spec
    subst hst
    refine ⟨?_, _, rfl, k6, k7, ?_⟩
    · unfold SymbolTable.arrayExists at hex
      cases hm : mapFind (mkKey name scope) st.arrays with
      | none => rfl
      | some a => simp [hm] at hex
    · rw [k3]
      rfl

theorem flagsFrom_exact {a : Array} {b : Bool}
    (h : a.isInitialized = flagsFrom a.startIndex b (loopCount a.startIndex a.endIndex)) :
    a.Exact := by
  intro i
  rw [h, mapFind_flagsFrom_isSome]
  unfold loopCount
  omega

theorem ArraysKept.kept_fresh {st st1 : SymbolTable} (key : String)
    (hn : mapFind key st.arrays = none)
    (ho : ∀ k, k ≠ key → mapFind k st1.arrays = mapFind k st.arrays)
    (hx : ∀ a1, mapFind key st1.arrays = some a1 → a1.Exact) : ArraysKept st st1 := by
  refine ⟨fun k a e => ?_, fun k a1 e e1 => ?_⟩
  · have hk : k ≠ key := by
      intro hk
      subst hk
      rw [hn] at e
      cases e
    exact ⟨a, by rw [ho k hk]; exact e, rfl, rfl, rfl, id⟩
  · by_cases hk : k = key
    · subst hk
      exact hx a1 e1
    · rw [ho k hk, e] at e1
      cases e1

theorem SymbolTable.addArray_kept (st : SymbolTable) (name scope : String) (lo hi : Int) :
    (st.addArray name scope lo hi).Holds (ArraysKept st) := by
  cases h : st.addArray name scope lo hi with
  | undefined => trivial
  | thrown msg s =>
    unfold SymbolTable.addArray at h
    simp only at h
    split at h
    · injection h with _ hs
      subst hs
      exact ArraysKept.kept_refl st
    · cases h
  | ok u st2 =>
    obtain ⟨hn, a, ha, h1, h2, h3⟩ := SymbolTable.addArray_ok_spec h
    refine ArraysKept.kept_fresh (mkKey name scope) hn (fun k hk => ?_) (fun a1 e1 => ?_)
    · rw [ha, mapFind_mapSet_ne _ _ _ _ hk]
    · rw [ha, mapFind_mapSet_same] at e1
      cases e1
      exact flagsFrom_exact (by rw [h1, h2]; exact h3)

theorem DeclarationNode.traverseAndAnalyze_kept_decl (d : DeclarationNode) (st : SymbolTable)
    (scope : String) : (d.traverseAndAnalyze st scope).Holds (ArraysKept st) := by
  unfold DeclarationNode.traverseAndAnalyze
  split
  · exact st.addArray_kept _ _ _ _
  · exact st.addVariable_kept _ _

theorem declarationsAnalyze_kept : ∀ (ds : List DeclarationNode) (st : SymbolTable)
    (scope : String), (declarationsAnalyze ds st scope).Holds (ArraysKept st)
  | [], st, _ => ArraysKept.kept_refl st
  | d :: rest, st, scope => by
    unfold declarationsAnalyze
    exact Sem.Holds.kept_andThen (d.traverseAndAnalyze_kept_decl st scope)
      (fun _ st1 _ => declarationsAnalyze_kept rest st1 scope)

theorem ArgsdeclNode.traverseAndAnalyze_kept_argsdecl (d : ArgsdeclNode) (st : SymbolTable)
    (scope : String) : (d.traverseAndAnalyze st scope).Holds (ArraysKept st) := by
  unfold ArgsdeclNode.traverseAndAnalyze
  split
  · simp only
    refine Sem.Holds.kept_andThen (st.addProcedureParam_kept _ _ _) (fun _ st1 _ => ?_)
    cases h : st1.addArray d.pidentifier scope 0 0 with
    | undefined => trivial
    | thrown msg s =>
      have := st1.addArray_kept d.pidentifier scope 0 0
      rw [h] at this
      exact this
    | ok u st2 =>
      simp only [Sem.andThen]
      obtain ⟨hn, a, ha, h1, h2, h3⟩ := SymbolTable.addArray_ok_spec h
      have hget : st2.getArray d.pidentifier scope = some a := by
        unfold SymbolTable.getArray
        rw [ha, mapFind_mapSet_same]
      rw [hget]
      simp only
      refine ArraysKept.kept_fresh (mkKey d.pidentifier scope) hn (fun k hk => ?_)
        (fun a1 e1 => ?_)
      · unfold SymbolTable.putArray
        simp only
        rw [mapFind_mapSet_ne _ _ _ _ hk, ha, mapFind_mapSet_ne _ _ _ _ hk]
      · unfold SymbolTable.putArray at e1
        simp only at e1
        rw [mapFind_mapSet_same] at e1
        cases e1
        have hx : a.Exact := flagsFrom_exact (by rw [h1, h2]; exact h3)
        have := hx.exact_set 0 true (by omega)
        exact this
  · simp only
    refine Sem.Holds.kept_andThen (st.addProcedureParam_kept _ _ _) (fun _ st1 _ => ?_)
    refine Sem.Holds.kept_andThen (st1.addVariableV_kept _) (fun _ st2 _ => ?_)
    split
    · trivial
    · exact ArraysKept.kept_of_arrays rfl

theorem argsdeclsAnalyze_kept : ∀ (ds : List ArgsdeclNode) (st : SymbolTable) (scope : String),
    (argsdeclsAnalyze ds st scope).Holds (ArraysKept st)
  | [], st, _ => ArraysKept.kept_refl st
  | d :: rest, st, scope => by
    unfold argsdeclsAnalyze
    exact Sem.Holds.kept_andThen (d.traverseAndAnalyze_kept_argsdecl st scope)
      (fun _ st1 _ => argsdeclsAnalyze_kept rest st1 scope)

mutual
theorem ProcTree.traverseAndAnalyze_kept_proc : ∀ (t : ProcTree) (st : SymbolTable) (scope : String),
    (t.traverseAndAnalyze st scope).Holds (ArraysKept st)
  | .proceduresNode procedures, st, scope => by
    simp only [ProcTree.traverseAndAnalyze]
    exact procedures.traverseAndAnalyze_kept_procs st scope
  | .procedureNode procedures proc_head declarations commands, st, scope => by
    simp only [ProcTree.traverseAndAnalyze]
    exact Sem.Holds.kept_andThen (st.addProcedure_kept _ _ _)
      (fun _ st1 _ => Sem.Holds.kept_andThen (procedures.traverseAndAnalyze_kept_opt st1 scope)
        (fun _ st2 _ => Sem.Holds.kept_andThen (argsdeclsAnalyze_kept _ st2 _)
          (fun _ st3 _ => Sem.Holds.kept_andThen (declarationsAnalyze_kept declarations st3 _)
            (fun _ st4 _ => commands.traverseAndAnalyze_kept_cmds st4 _))))
theorem ProcList.traverseAndAnalyze_kept_procs : ∀ (l : ProcList) (st : SymbolTable) (scope : String),
    (l.traverseAndAnalyze st scope).Holds (ArraysKept st)
  | .nil, st, _ => by
    simp only [ProcList.traverseAndAnalyze]
    exact ArraysKept.kept_refl st
  | .cons procedure rest, st, scope => by
    simp only [ProcList.traverseAndAnalyze]
    exact Sem.Holds.kept_andThen (procedure.traverseAndAnalyze_kept_proc st scope)
      (fun _ st1 _ => rest.traverseAndAnalyze_kept_procs st1 scope)
theorem OptProcTree.traverseAndAnalyze_kept_opt : ∀ (o : OptProcTree) (st : SymbolTable)
    (scope : String), (o.traverseAndAnalyze st scope).Holds (ArraysKept st)
  | .null, st, _ => by
    simp only [OptProcTree.traverseAndAnalyze]
    exact ArraysKept.kept_refl st
  | .node procedures, st, scope => by
    simp only [OptProcTree.traverseAndAnalyze]
    exact procedures.traverseAndAnalyze_kept_proc st scope
end

theorem MainNode.traverseAndAnalyze_kept_main (m : MainNode) (st : SymbolTable) (scope : String) :
    (m.traverseAndAnalyze st scope).Holds (ArraysKept st) :=
  Sem.Holds.kept_andThen (declarationsAnalyze_kept m.declarations st scope)
    (fun _ st1 _ => m.commands.traverseAndAnalyze_kept_cmds st1 scope)

theorem ProgramNode.traverseAndAnalyze_kept_prog (p : ProgramNode) (st : SymbolTable) :
    (p.traverseAndAnalyze st).Holds (ArraysKept st) :=
  Sem.Holds.kept_andThen (p.procedures.traverseAndAnalyze_kept_opt st "GLOBAL")
    (fun _ st1 _ => p.main.traverseAndAnalyze_kept_main st1 "MAIN")

theorem Sem.Holds.exact_of_kept {α : Type} {st : SymbolTable} {r : Sem α}
    (h : r.Holds (ArraysKept st)) (hx : ArraysExact st) : r.Holds ArraysExact := by
  cases r with
  | ok a s => exact ArraysKept.kept_exact h hx
  | thrown msg s => exact ArraysKept.kept_exact h hx
  | undefined => trivial

theorem marshalArg_bounds_only {pidentifier scope : String} {paramsString : List String}
    {arg : String} {i : Nat} {cg : CodeGenerator} {st : SymbolTable} {cg1 : CodeGenerator}
    {st1 : SymbolTable}
    (h : marshalArg pidentifier scope paramsString arg i cg st = .ok (cg1, st1)) :
    ∀ key a1, mapFind key st1.arrays = some a1 →
      ∃ a, mapFind key st.arrays = some a ∧
        a1 = { a with startIndex := a1.startIndex, endIndex := a1.endIndex } := by
  have put : ∀ (p : String) (b c : Array), st.getArray p pidentifier = some b →
      ∀ key a1, mapFind key (st.putArray p pidentifier
        { b with startIndex := c.startIndex, endIndex := c.endIndex }).arrays = some a1 →
      ∃ a, mapFind key st.arrays = some a ∧
        a1 = { a with startIndex := a1.startIndex, endIndex := a1.endIndex } := by
    intro p b c hb key a1 h1
    unfold SymbolTable.getArray at hb
    unfold SymbolTable.putArray at h1
    simp only at h1
    by_cases hk : key = mkKey p pidentifier
    · subst hk
      rw [mapFind_mapSet_same] at h1
      cases h1
      exact ⟨b, hb, rfl⟩
    · rw [mapFind_mapSet_ne _ _ _ _ hk] at h1
      exact ⟨a1, h1, rfl⟩
  unfold marshalArg at h
  simp only at h
  intro key a1 h1
  repeat' split at h
  all_goals first
    | (cases h; exact ⟨a1, h1, rfl⟩)
    | (cases h; exact put _ _ _ (by assumption) key a1 h1)
    | cases h

theorem ProgramNode.generateCode_entities {p : ProgramNode} {cg : CodeGenerator}
    {st : SymbolTable} {cg3 : CodeGenerator} {st3 : SymbolTable}
    (h : p.generateCode cg st = .ok (cg3, st3)) : SameEntities st st3 := by
  unfold ProgramNode.generateCode MainNode.generateCode at h
  cases hp : p.procedures with
  | null =>
    simp only [hp] at h
    cases hm : p.main.commands.generateCode cg st "MAIN" with
    | error e => simp [hm] at h
    | ok r =>
      obtain ⟨cg2, st2⟩ := r
      simp only [hm, Except.ok.injEq, Prod.mk.injEq] at h
      rw [← h.2]
      exact (Commands.generateCode_framed_cmds _ _ _ _ _ _ hm).1.entities
  | node procedures =>
    simp only [hp] at h
    cases hg : procedures.generateCode (cg.emit "JUMP" 0) st "GLOBAL" with
    | error e => simp [hg] at h
    | ok r =>
      obtain ⟨cg1, st1⟩ := r
      simp only [hg] at h
      cases hm : p.main.commands.generateCode cg1 st1 "MAIN" with
      | error e => simp [hm] at h
      | ok r2 =>
        obtain ⟨cg2, st2⟩ := r2
        simp only [hm, Except.ok.injEq, Prod.mk.injEq] at h
        rw [← h.2]
        exact (ProcTree.generateCode_framed_proc _ _ _ _ _ _ hg).1.entities_trans
          (Commands.generateCode_framed_cmds _ _ _ _ _ _ hm).1.entities

theorem entries_of_map_eq {st st1 : SymbolTable} {key : String} {a1 : Array}
    (he : (mapFind key st1.arrays).map Array.isInitialized =
      (mapFind key st.arrays).map Array.isInitialized)
    (h1 : mapFind key st1.arrays = some a1) :
    ∃ a, mapFind key st.arrays = some a ∧ a1.isInitialized = a.isInitialized := by
  rw [h1] at he
  cases h : mapFind key st.arrays with
  | none =>
    rw [h] at he
    cases he
  | some a =>
    rw [h] at he
    simp only [Option.map_some', Option.some.injEq] at he
    exact ⟨a, rfl, he⟩

set_option maxRecDepth 100000 in
/-- C35, counterexample: the program with the procedure `p(T t)` and the main
block that declares `a[5:7]` and calls `p(a)` passes the semantic pass, which
leaves the formal `t` with the bounds `[0, 0]` and one entry, for the index 0;
the emission pass succeeds and leaves `t` with the bounds `[5, 7]` copied from
`a` and still the one entry for the index 0: no entry for 5, 6 or 7, and an
entry for 0 outside the bounds. -/
theorem formal_bounds_without_entries :
    (boundsProgram.traverseAndAnalyze SymbolTable.new).returns = true ∧
    (boundsTable.getArray "t" "p").map
      (fun a => (a.startIndex, a.endIndex, a.isInitialized, a.isArgument)) =
      some (0, 0, [(0, true)], true) ∧
    (compile boundsProgram).isSome = true ∧
    (boundsEmitted.getArray "t" "p").map
      (fun a => (a.startIndex, a.endIndex, a.isInitialized, a.isArgument)) =
      some (5, 7, [(0, true)], true) ∧
    (boundsEmitted.getArray "t" "p").map (fun a => mapFind 5 a.isInitialized) = some none ∧
    (boundsEmitted.getArray "t" "p").map (fun a => mapFind 0 a.isInitialized) =
      some (some true) := by
  refine ⟨?_, ?_, ?_, ?_, ?_, ?_⟩ <;> decide!

/-- C35, amended: at every point of the semantic pass every array of the
symbol table, argument or not, has a per-index initialisation entry for exactly
the indices within its bounds: this holds of the table the pass of a program
leaves, returned or thrown, and every run of commands, of procedures and of
declarations keeps it. The emission pass neither adds nor removes an entry: the
emission of commands and of a program leaves every array the entries it had,
the marshalling of one argument at a call site changes at most the bounds of an
array, and so after both passes the entries of an array are exactly those for
the indices within the bounds it had when the semantic pass ended. -/
theorem entries_exact_in_analysis_kept_in_emission (p : ProgramNode) :
    (p.traverseAndAnalyze SymbolTable.new).Holds ArraysExact ∧
    (∀ (c : Commands) (st : SymbolTable) (scope : String), ArraysExact st →
      (c.traverseAndAnalyze st scope).Holds ArraysExact) ∧
    (∀ (t : ProcTree) (st : SymbolTable) (scope : String), ArraysExact st →
      (t.traverseAndAnalyze st scope).Holds ArraysExact) ∧
    (∀ (ds : List DeclarationNode) (st : SymbolTable) (scope : String), ArraysExact st →
      (declarationsAnalyze ds st scope).Holds ArraysExact) ∧
    (∀ (c : Commands) (cg : CodeGenerator) (st : SymbolTable) (scope : String)
      (cg1 : CodeGenerator) (st1 : SymbolTable), c.generateCode cg st scope = .ok (cg1, st1) →
      ∀ key, (mapFind key st1.arrays).map Array.isInitialized =
        (mapFind key st.arrays).map Array.isInitialized) ∧
    (∀ (pidentifier scope : String) (paramsString : List String) (arg : String) (i : Nat)
      (cg : CodeGenerator) (st : SymbolTable) (cg1 : CodeGenerator) (st1 : SymbolTable),
      marshalArg pidentifier scope paramsString arg i cg st = .ok (cg1, st1) →
      ∀ key a1, mapFind key st1.arrays = some a1 →
        ∃ a, mapFind key st.arrays = some a ∧
          a1 = { a with startIndex := a1.startIndex, endIndex := a1.endIndex }) ∧
    (∀ (cg : CodeGenerator) (st : SymbolTable) (cg1 : CodeGenerator) (st1 : SymbolTable),
      p.generateCode cg st = .ok (cg1, st1) →
      ∀ key, (mapFind key st1.arrays).map Array.isInitialized =
        (mapFind key st.arrays).map Array.isInitialized) ∧
    (∀ (st1 : SymbolTable) (cg cg2 : CodeGenerator) (st2 : SymbolTable),
      p.traverseAndAnalyze SymbolTable.new = .ok () st1 →
      p.generateCode cg st1 = .ok (cg2, st2) →
      ∀ key a2, mapFind key st2.arrays = some a2 →
        ∃ a1, mapFind key st1.arrays = some a1 ∧ a2.isInitialized = a1.isInitialized ∧
          ∀ i : Int, (mapFind i a2.isInitialized).isSome = true ↔
            (a1.startIndex ≤ i ∧ i ≤ a1.endIndex)) := by
  have hprog : (p.traverseAndAnalyze SymbolTable.new).Holds ArraysExact :=
    (p.traverseAndAnalyze_kept_prog SymbolTable.new).exact_of_kept ArraysExact.exact_new
  refine ⟨hprog, ?_, ?_, ?_, ?_, ?_, ?_, ?_⟩
  · intro c st scope hx
    exact (c.traverseAndAnalyze_kept_cmds st scope).exact_of_kept hx
  · intro t st scope hx
    exact (t.traverseAndAnalyze_kept_proc st scope).exact_of_kept hx
  · intro ds st scope hx
    exact (declarationsAnalyze_kept ds st scope).exact_of_kept hx
  · intro c cg st scope cg1 st1 h
    exact (Commands.generateCode_framed_cmds _ _ _ _ _ _ h).1.entries
  · intro pidentifier scope paramsString arg i cg st cg1 st1 h key a1 h1
    exact marshalArg_bounds_only h key a1 h1
  · intro cg st cg1 st1 h
    exact (ProgramNode.generateCode_entities h).entries
  · intro st1 cg cg2 st2 ha hg key a2 h2
    obtain ⟨a1, e1, e2⟩ := entries_of_map_eq ((ProgramNode.generateCode_entities hg).entries key) h2
    rw [ha] at hprog
    refine ⟨a1, e1, e2, fun i => ?_⟩
    rw [e2]
    exact hprog key a1 e1 i

set_option maxRecDepth 100000 in
/-- C35, amended, on the program that passes `a[5:7]` to `p(T t)`: the table
the semantic pass leaves has exact entries, and after the emission pass the
formal `t` holds the entry of its declared bounds `[0, 0]`. -/
theorem entries_exact_in_analysis_kept_in_emission_witness :
    (boundsProgram.traverseAndAnalyze SymbolTable.new).Holds ArraysExact ∧
    (boundsEmitted.getArray "t" "p").map Array.isInitialized =
      (boundsTable.getArray "t" "p").map Array.isInitialized :=
  ⟨(entries_exact_in_analysis_kept_in_emission boundsProgram).1,
    (entries_exact_in_analysis_kept_in_emission boundsProgram).2.2.2.2.2.2.1
      CodeGenerator.new boundsTable boundsCode boundsEmitted (by decide!) (mkKey "t" "p")⟩

/-! ## Accepted programs on which emission stops or reads an unset label -/

set_option maxRecDepth 100000 in
/-- C17. The program `x  x := -9223372036854775808 / -1; WRITE x` is accepted by
the semantic pass, and the emission pass does not run to completion on it: the
literal-literal branch computes the quotient of the least 64-bit integer by
`-1`, the division traps and no code is produced. No lookup fails on the way.
The branch for an identifier dividend emits a negation for the divisor `-1`
and does not divide, and with the divisor `-2` the program is compiled. -/
theorem accepted_program_stops_emission :
    ((foldProgram minInt64 "/" (-1)).traverseAndAnalyze SymbolTable.new).returns = true ∧
    (foldProgram minInt64 "/" (-1)).traverseAndAnalyze SymbolTable.new = .ok () foldTable ∧
    arithLitLit "/" minInt64 (-1) = .error .arithmeticTrap ∧
    (foldProgram minInt64 "/" (-1)).generateCode CodeGenerator.new foldTable =
      .error .arithmeticTrap ∧
    compile (foldProgram minInt64 "/" (-1)) = none ∧
    arithIdLit "/" 11 (-1) false =
      .ok ([⟨"LOAD", 11⟩, ⟨"SUB", 0⟩, ⟨"SUB", 11⟩], false) ∧
    compile (foldProgram minInt64 "/" (-2)) =
      some [⟨"SET", 4611686018427387904⟩, ⟨"STORE", 11⟩, ⟨"PUT", 11⟩, ⟨"HALT", 0⟩] := by
  refine ⟨by decide!, by decide!, by decide, by decide!, by decide!, by decide!, by decide!⟩

set_option maxRecDepth 100000 in
/-- C18. The program whose procedure `p`, declared first, calls the procedure
`q`, declared second, is accepted by the semantic pass: the node of `q` is
registered before the node of `p` inside it is analysed. In the emission pass
the body of `p` is emitted first, so the call `q()` reads the jump label of `q`
before `ProcedureNode::generateCode` has assigned it: the entry of `q` still
holds what `addProcedure` left, which is nothing, and the argument of the
`JUMP` of the call is not determined by the program. With the call turned
around (`p`, declared second, calls `q`) the label is set when it is read: the
code is compiled, and the `JUMP -5` of the call at address 6 lands on address
1, the first instruction of `q`. -/
theorem forward_call_reads_unset_label :
    (forwardCallProgram.traverseAndAnalyze SymbolTable.new).returns = true ∧
    forwardCallProgram.traverseAndAnalyze SymbolTable.new = .ok () forwardCallTable ∧
    (forwardCallTable.getProcedure "q" "GLOBAL").map Procedure.jumpLabel = some none ∧
    procCallGenerate "q" [] (CodeGenerator.new.emit "JUMP" 0)
      (forwardCallTable.putProcedure "p" "GLOBAL"
        ⟨"p", [], "GLOBAL", some 1, none, ⟨"return", "GLOBAL", true, 12, false⟩⟩) "p" =
      .error .indeterminate ∧
    forwardCallProgram.generateCode CodeGenerator.new forwardCallTable =
      .error .indeterminate ∧
    compile forwardCallProgram = none ∧
    compile backwardCallProgram =
      some [⟨"JUMP", 8⟩, ⟨"SET", 1⟩, ⟨"PUT", 0⟩, ⟨"RTRN", 12⟩, ⟨"SET", 7⟩, ⟨"STORE", 12⟩,
        ⟨"JUMP", -5⟩, ⟨"RTRN", 11⟩, ⟨"SET", 11⟩, ⟨"STORE", 11⟩, ⟨"JUMP", -6⟩, ⟨"HALT", 0⟩] ∧
    runProgram backwardCallProgram [] 40 = some [1] := by
  refine ⟨by decide!, by decide!, by decide!, by decide!, by decide!, by decide!, by decide!,
    by decide!⟩

end Compiler
